import Mathlib

/-! # Text sources of the Yomichan front end (`ext/fg/js/source.js`)

A shallow embedding of `TextSourceRange` and `TextSourceElement` together with the
part of the DOM they are written against, followed by theorems about the
character-seeking walk and the span operations built on it. The sorting of modifier
names in the settings (`sortModifiers` of `ext/bg/js/settings/profile-conditions-ui.js`)
is embedded as well.

Conventions of the embedding:

* a JavaScript string is the list of its UTF-16 code units;
* a DOM node is referred to by its path in the document tree, innermost child
  index first, so the parent of `i :: p` is `p` and the root is `[]`;
* numbers (`length`, `remainder`) are integers, offsets and indices are naturals;
* a `while` / `for` loop is a function recursing on an explicit iteration budget.
-/

namespace Yomichan

/-! ## JavaScript strings -/

/-- One UTF-16 code unit. -/
abbrev CodeUnit := Nat

/-- A JavaScript string: the sequence of its UTF-16 code units. -/
abbrev JSString := List CodeUnit

/-- The code units of a string literal whose characters all lie in the basic plane. -/
def js (s : String) : JSString := s.data.map Char.toNat

/-- The code unit U+200C (zero-width non-joiner). -/
def ZWNJ : CodeUnit := 0x200C

/-- Model of `IGNORE_TEXT_PATTERN.test(s)` for the pattern that matches the single character U+200C:
the unanchored pattern matches exactly when U+200C occurs in `s`. -/
def IGNORE_TEXT_PATTERN_test (s : JSString) : Bool := decide (ZWNJ ∈ s)

/-- Conversion to string of the value `nodeValue[i]`: a one-unit string when the index is in
range, and the text `undefined` when it is not. -/
def indexToString : Option CodeUnit → JSString
  | some c => [c]
  | none => js "undefined"

/-- The upper case of one code unit, for the code units whose upper case has an ASCII
character: the letters `a` to `z` and seventeen others, among them U+017F (long s, upper case
`S`), U+0131 (dotless i, upper case `I`), U+00DF (`SS`) and the ligatures U+FB00 to U+FB06
(`FF`, `FI`, `FL`, `FFI`, `FFL`, `ST`, `ST`), as the Unicode case mappings give them. A code
unit that is not among them is kept: its upper case has no ASCII character. -/
def upperCaseUnit (c : CodeUnit) : JSString :=
  if 0x61 ≤ c ∧ c ≤ 0x7A then [c - 0x20]
  else if c = 0xDF then [0x53, 0x53]
  else if c = 0x131 then [0x49]
  else if c = 0x149 then [0x2BC, 0x4E]
  else if c = 0x17F then [0x53]
  else if c = 0x1F0 then [0x4A, 0x30C]
  else if c = 0x1E96 then [0x48, 0x331]
  else if c = 0x1E97 then [0x54, 0x308]
  else if c = 0x1E98 then [0x57, 0x30A]
  else if c = 0x1E99 then [0x59, 0x30A]
  else if c = 0x1E9A then [0x41, 0x2BE]
  else if c = 0xFB00 then [0x46, 0x46]
  else if c = 0xFB01 then [0x46, 0x49]
  else if c = 0xFB02 then [0x46, 0x4C]
  else if c = 0xFB03 then [0x46, 0x46, 0x49]
  else if c = 0xFB04 then [0x46, 0x46, 0x4C]
  else if c = 0xFB05 then [0x53, 0x54]
  else if c = 0xFB06 then [0x53, 0x54]
  else [c]

/-- Embeds `String.prototype.toUpperCase` as far as a comparison of the result with a string
of ASCII characters can tell, which is all the code does with it: every code unit whose upper
case has an ASCII character is replaced by its upper case, and the other code units, whose
upper case is made of characters outside ASCII, are kept. So the result is a given string of
ASCII characters exactly when the upper case of the string is. -/
def toUpperCase (s : JSString) : JSString :=
  (s.map upperCaseUnit).flatten

/-! ## The content tree -/

/-- The part of `window.getComputedStyle(element)` that the text sources read.
`fontSize` is the number `parseFloat(style.fontSize)` (`none` for `NaN`);
`writingMode` is `none` when the property is not a string. -/
structure ComputedStyle where
  visibility : JSString
  display : JSString
  fontSize : Option Int
  writingMode : Option JSString
  deriving DecidableEq

/-- The node types other than Text and Element (CDATA sections, which only XML documents
have, are left out). -/
inductive NodeKind where
  | processingInstruction
  | comment
  | document
  | documentType
  | documentFragment
  deriving DecidableEq

/-- The `nodeType` constant of each kind. -/
def NodeKind.nodeType : NodeKind → Nat
  | processingInstruction => 7
  | comment => 8
  | document => 9
  | documentType => 10
  | documentFragment => 11

/-- A value as the property `value` of an element and the field `content` of a
`TextSourceElement` can hold it: `undefined` (an element without the property; `null` is
taken with it, the code treats the two alike), a string (the value of a form control), or a
Number (the `value` of an `li`, a `progress` or a `meter`, which is finite). -/
inductive ElementValue where
  | undefined
  | string (s : JSString)
  | number (q : ℚ)
  deriving DecidableEq

/-- A DOM node. `text` is a Text node, `element` an Element with its computed style, its
`alt` attribute (`none` for a missing attribute) and its `value` property; `other` is a node
of any other type, with its `data` (the text of a comment or of a processing instruction,
which has no children; empty for the other kinds). -/
inductive Node where
  | text (nodeValue : JSString)
  | element (nodeName : JSString) (style : ComputedStyle) (alt : Option JSString)
      (value : ElementValue) (childNodes : List Node)
  | other (kind : NodeKind) (nodeName : JSString) (data : JSString) (childNodes : List Node)

/-- Embeds `Node.TEXT_NODE`. -/
def TEXT_NODE : Nat := 3

/-- Embeds `Node.ELEMENT_NODE`. -/
def ELEMENT_NODE : Nat := 1

namespace Node

/-- Embeds `node.childNodes` as a list. -/
def childNodes : Node → List Node
  | text _ => []
  | element _ _ _ _ cs => cs
  | other _ _ _ cs => cs

/-- Embeds `node.nodeType`. -/
def nodeType : Node → Nat
  | text _ => TEXT_NODE
  | element _ _ _ _ _ => ELEMENT_NODE
  | other k _ _ _ => k.nodeType

/-- Embeds `node.nodeName`. -/
def nodeName : Node → JSString
  | text _ => js "#text"
  | element n _ _ _ _ => n
  | other _ n _ _ => n

/-- Embeds `node.nodeValue` where the code reads it, at a Text node: the data of a Text node,
and `none` for a node of another type. -/
def nodeValue : Node → Option JSString
  | text v => some v
  | _ => none

mutual
/-- Number of nodes of a subtree. -/
def count : Node → Nat
  | text _ => 1
  | element _ _ _ _ cs => 1 + countList cs
  | other _ _ _ cs => 1 + countList cs
/-- Number of nodes of a list of subtrees. -/
def countList : List Node → Nat
  | [] => 0
  | n :: ns => count n + countList ns
end

end Node

/-- A reference to a node: the child indices from the node up to the root. -/
abbrev NodeRef := List Nat

/-- The node a reference denotes inside the tree `root`, if any. -/
def Node.get? (root : Node) : NodeRef → Option Node
  | [] => some root
  | i :: p => (Node.get? root p).bind (fun n => n.childNodes[i]?)

/-- A content tree together with the nodes that `removeChild` has taken out of it. A removed
node keeps its place in `root` (so that references stay stable) but has no parent and is not
a child of anything; the subtree below it is a tree of its own. -/
structure Document where
  root : Node
  detached : List NodeRef

/-- The document made of one fully attached tree. -/
def Document.ofTree (root : Node) : Document := ⟨root, []⟩

namespace Document

/-- The node behind a reference. -/
def get? (d : Document) (p : NodeRef) : Option Node := d.root.get? p

/-- Embeds `node.parentNode`. -/
def parentNode (d : Document) (p : NodeRef) : Option NodeRef :=
  if p ∈ d.detached then none else
  match p with
  | [] => none
  | _ :: q => some q

/-- References to the children of a node, in order: `node.childNodes`. -/
def childRefs (d : Document) (p : NodeRef) : List NodeRef :=
  match d.get? p with
  | none => []
  | some n => ((List.range n.childNodes.length).map (fun i => i :: p)).filter
      (fun c => decide (c ∉ d.detached))

/-- Embeds `node.firstChild`. -/
def firstChild (d : Document) (p : NodeRef) : Option NodeRef := (d.childRefs p).head?

/-- Embeds `node.lastChild`. -/
def lastChild (d : Document) (p : NodeRef) : Option NodeRef := (d.childRefs p).getLast?

/-- Embeds `node.nextSibling`: the first child of the parent placed after the node. -/
def nextSibling (d : Document) (p : NodeRef) : Option NodeRef :=
  match p, d.parentNode p with
  | i :: _, some q => (d.childRefs q).find? (fun c => decide (i < c.headD 0))
  | _, _ => none

/-- Embeds `node.previousSibling`: the last child of the parent placed before the node. -/
def previousSibling (d : Document) (p : NodeRef) : Option NodeRef :=
  match p, d.parentNode p with
  | i :: _, some q => ((d.childRefs q).filter (fun c => decide (c.headD 0 < i))).getLast?
  | _, _ => none

/-- Embeds `parent.removeChild(child)`: the child loses its parent. -/
def removeChild (d : Document) (child : NodeRef) : Document :=
  { d with detached := child :: d.detached }

/-- The child index of a node among the children its parent has now (`0` for a root). -/
def index (d : Document) : NodeRef → Nat
  | [] => 0
  | i :: q => ((d.childRefs q).filter (fun c => decide (c.headD 0 < i))).length

/-- The root of the tree a node is in: the nearest removed ancestor-or-self, or the root. -/
def rootOf (d : Document) : NodeRef → NodeRef
  | [] => []
  | i :: q => if (i :: q) ∈ d.detached then i :: q else rootOf d q

/-- Whether `anc` is the node itself or one of its ancestors in its present tree. -/
def isInclusiveAncestor (d : Document) (anc : NodeRef) : NodeRef → Bool
  | [] => decide (anc = [])
  | i :: q => decide (i :: q = anc) ||
      (decide ((i :: q) ∉ d.detached) && isInclusiveAncestor d anc q)

/-- The child indices leading from the root of a node's tree down to the node. -/
def position (d : Document) : NodeRef → List Nat
  | [] => []
  | i :: q => if (i :: q) ∈ d.detached then [] else position d q ++ [d.index (i :: q)]

/-- The DOM length of a node: the number of code units of the data of a Text, Comment or
ProcessingInstruction node, zero for a doctype, the number of children of any other node. -/
def length (d : Document) (p : NodeRef) : Nat :=
  match d.get? p with
  | some (Node.text v) => v.length
  | some (Node.other NodeKind.comment _ data _) => data.length
  | some (Node.other NodeKind.processingInstruction _ data _) => data.length
  | some (Node.other NodeKind.documentType _ _ _) => 0
  | _ => (d.childRefs p).length

/-- Embeds `node.nodeType` through a reference (`0` for a reference that denotes nothing). -/
def nodeType (d : Document) (p : NodeRef) : Nat := ((d.get? p).map Node.nodeType).getD 0

/-- Embeds `node.nodeName` through a reference. -/
def nodeName (d : Document) (p : NodeRef) : JSString := ((d.get? p).map Node.nodeName).getD []

end Document

/-! ## The seek of `TextSourceRange` -/

/-- The object `state` of `TextSourceRange.seek`. -/
structure SeekState where
  node : NodeRef
  offset : Nat
  content : JSString
  remainder : Int
  deriving DecidableEq, Repr

namespace TextSourceRange

/-- The `for` loop of `_seekForwardTextNode`; the first argument is the number of iterations
left, `nodeValueLength - offset`. The result is `(offset, content, remainder, result)`. -/
def _seekForwardTextNode.loop (nodeValue : JSString) :
    Nat → Nat → JSString → Int → Nat × JSString × Int × Bool
  | 0, offset, content, remainder => (offset, content, remainder, false)
  | left + 1, offset, content, remainder =>
    let c := indexToString nodeValue[offset]?
    if !IGNORE_TEXT_PATTERN_test c then
      let content := content ++ c
      let remainder := remainder - 1
      if remainder ≤ 0 then (offset + 1, content, remainder, true)
      else _seekForwardTextNode.loop nodeValue left (offset + 1) content remainder
    else _seekForwardTextNode.loop nodeValue left (offset + 1) content remainder

/-- Embeds `TextSourceRange._seekForwardTextNode(state, resetOffset)`, with `nodeValue` the value of
`state.node.nodeValue`. Returns the updated state and the boolean result. -/
def _seekForwardTextNode (nodeValue : JSString) (state : SeekState) (resetOffset : Bool) :
    SeekState × Bool :=
  let nodeValueLength := nodeValue.length
  let offset := if resetOffset then 0 else state.offset
  let r := _seekForwardTextNode.loop nodeValue (nodeValueLength - offset) offset
    state.content state.remainder
  ({ state with offset := r.1, content := r.2.1, remainder := r.2.2.1 }, r.2.2.2)

/-- The `for` loop of `_seekBackwardTextNode`, recursing on `offset`. The result is
`(offset, content, remainder, result)`. -/
def _seekBackwardTextNode.loop (nodeValue : JSString) :
    Nat → JSString → Int → Nat × JSString × Int × Bool
  | 0, content, remainder => (0, content, remainder, false)
  | offset + 1, content, remainder =>
    let c := indexToString nodeValue[offset]?
    if !IGNORE_TEXT_PATTERN_test c then
      let content := c ++ content
      let remainder := remainder - 1
      if remainder ≤ 0 then (offset, content, remainder, true)
      else _seekBackwardTextNode.loop nodeValue offset content remainder
    else _seekBackwardTextNode.loop nodeValue offset content remainder

/-- Embeds `TextSourceRange._seekBackwardTextNode(state, resetOffset)`, with `nodeValue` the value of
`state.node.nodeValue`. -/
def _seekBackwardTextNode (nodeValue : JSString) (state : SeekState) (resetOffset : Bool) :
    SeekState × Bool :=
  let offset := if resetOffset then nodeValue.length else state.offset
  let r := _seekBackwardTextNode.loop nodeValue offset state.content state.remainder
  ({ state with offset := r.1, content := r.2.1, remainder := r.2.2.1 }, r.2.2.2)

/-- The `while (true)` loop of `_getNextNode`; the first argument bounds the number of
ancestors still to climb. -/
def _getNextNode.loop (d : Document) : Nat → NodeRef → Option NodeRef
  | 0, _ => none
  | fuel + 1, node =>
    match d.nextSibling node with
    | some next => some next
    | none =>
      match d.parentNode node with
      | none => none
      | some next => _getNextNode.loop d fuel next

/-- Embeds `TextSourceRange._getNextNode(node, visitChildren)`. -/
def _getNextNode (d : Document) (node : NodeRef) (visitChildren : Bool) : Option NodeRef :=
  match (if visitChildren then d.firstChild node else none) with
  | some next => some next
  | none => _getNextNode.loop d (node.length + 1) node

/-- The `while (true)` loop of `_getPreviousNode`. -/
def _getPreviousNode.loop (d : Document) : Nat → NodeRef → Option NodeRef
  | 0, _ => none
  | fuel + 1, node =>
    match d.previousSibling node with
    | some next => some next
    | none =>
      match d.parentNode node with
      | none => none
      | some next => _getPreviousNode.loop d fuel next

/-- Embeds `TextSourceRange._getPreviousNode(node, visitChildren)`. -/
def _getPreviousNode (d : Document) (node : NodeRef) (visitChildren : Bool) : Option NodeRef :=
  match (if visitChildren then d.lastChild node else none) with
  | some next => some next
  | none => _getPreviousNode.loop d (node.length + 1) node

/-- Embeds `TextSourceRange._shouldEnter(node)` for an element with the given name and computed
style. -/
def _shouldEnter (nodeName : JSString) (style : ComputedStyle) : Bool :=
  let name := toUpperCase nodeName
  if name = js "RT" ∨ name = js "SCRIPT" ∨ name = js "STYLE" then false
  else !(style.visibility = js "hidden" || style.display = js "none" || style.fontSize = some 0)

/-- The loop of `_getParentElement`; the first argument bounds the number of tests. -/
def _getParentElement.loop (d : Document) : Nat → Option NodeRef → Option NodeRef
  | 0, _ => none
  | _ + 1, none => none
  | fuel + 1, some node =>
    if d.nodeType node ≠ ELEMENT_NODE then _getParentElement.loop d fuel (d.parentNode node)
    else some node

/-- Embeds `TextSourceRange._getParentElement(node)`. -/
def _getParentElement (d : Document) (node : Option NodeRef) : Option NodeRef :=
  _getParentElement.loop d ((node.map List.length).getD 0 + 2) node

/-- Embeds `TextSourceRange._getRubyElement(node)`. -/
def _getRubyElement (d : Document) (node : NodeRef) : Option NodeRef :=
  match _getParentElement d (some node) with
  | some node =>
    if toUpperCase (d.nodeName node) = js "RT" then
      match d.parentNode node with
      | some node => if toUpperCase (d.nodeName node) = js "RUBY" then some node else none
      | none => none
    else none
  | none => none

/-- The `while (node !== null)` loop of `seek`. The first argument bounds the number of nodes
still to visit; `none` is returned when the bound is exhausted before the loop ends. -/
def seek.loop (d : Document) (forward : Bool) :
    Nat → Option NodeRef → SeekState → Bool → Option SeekState
  | _, none, state, _ => some state
  | 0, some _, _, _ => none
  | fuel + 1, some node, state, resetOffset =>
    let getNextNode := if forward then _getNextNode d else _getPreviousNode d
    match d.get? node with
    | some (Node.text nodeValue) =>
      let r := (if forward then _seekForwardTextNode else _seekBackwardTextNode)
        nodeValue { state with node := node } resetOffset
      if r.2 then some r.1
      else seek.loop d forward fuel (getNextNode node true) r.1 true
    | some (Node.element nodeName style _ _ _) =>
      let visitChildren := _shouldEnter nodeName style
      seek.loop d forward fuel (getNextNode node visitChildren) state resetOffset
    | _ => seek.loop d forward fuel (getNextNode node true) state resetOffset

/-- Embeds `TextSourceRange.seek(node, offset, length)`. The walk visits every node of the tree at
most once, which bounds the loop by the number of nodes. -/
def seek (d : Document) (node : NodeRef) (offset : Nat) (length : Int) : Option SeekState :=
  let forward := decide (length ≥ 0)
  let state : SeekState :=
    { node := node, offset := offset, content := [],
      remainder := if forward then length else -length }
  if length = 0 then some state
  else
    match _getRubyElement d node with
    | some ruby => seek.loop d forward d.root.count (some ruby) state true
    | none => seek.loop d forward d.root.count (some node) state false

end TextSourceRange

/-! ## Ranges -/

/-- Lexicographic comparison of two lists of indices; a proper prefix comes first. -/
def lexCompare : List Nat → List Nat → Ordering
  | [], [] => Ordering.eq
  | [], _ :: _ => Ordering.lt
  | _ :: _, [] => Ordering.gt
  | a :: as, b :: bs => if a < b then Ordering.lt else if b < a then Ordering.gt
      else lexCompare as bs

/-- A boundary point: a node and an offset into it. -/
abbrev BoundaryPoint := NodeRef × Nat

/-- The position of boundary point `a` relative to `b` (both in the same tree): `lt` for
before, `eq` for equal, `gt` for after. -/
def Document.comparePoints (d : Document) (a b : BoundaryPoint) : Ordering :=
  lexCompare (d.position a.1 ++ [a.2]) (d.position b.1 ++ [b.2])

/-- The mutable state of a DOM `Range` object. -/
structure DomRange where
  startContainer : NodeRef
  startOffset : Nat
  endContainer : NodeRef
  endOffset : Nat
  deriving DecidableEq, Repr

/-- What a call can throw. `loopBound` stands for a loop that did not end within its
iteration bound. -/
inductive JSError where
  | indexSizeError
  | invalidNodeTypeError
  | wrongDocumentError
  | typeError
  | loopBound
  deriving DecidableEq, Repr

namespace DomRange

/-- The checks `setStart` and `setEnd` make on their arguments. -/
def checkPoint (d : Document) (node : NodeRef) (offset : Nat) : Except JSError Unit :=
  match d.get? node with
  | some (Node.other NodeKind.documentType _ _ _) => Except.error JSError.invalidNodeTypeError
  | _ => if offset > d.length node then Except.error JSError.indexSizeError else Except.ok ()

/-- Embeds `range.setEnd(node, offset)`: when the new end is in another tree than the start or lies
before it, the start moves to the new end as well. -/
def setEnd (d : Document) (r : DomRange) (node : NodeRef) (offset : Nat) :
    Except JSError DomRange :=
  match checkPoint d node offset with
  | Except.error e => Except.error e
  | Except.ok _ =>
    if d.rootOf r.startContainer ≠ d.rootOf node ∨
        d.comparePoints (node, offset) (r.startContainer, r.startOffset) = Ordering.lt then
      Except.ok { startContainer := node, startOffset := offset,
                  endContainer := node, endOffset := offset }
    else Except.ok { r with endContainer := node, endOffset := offset }

/-- Embeds `range.setStart(node, offset)`: when the new start is in another tree than the end or
lies after it, the end moves to the new start as well. -/
def setStart (d : Document) (r : DomRange) (node : NodeRef) (offset : Nat) :
    Except JSError DomRange :=
  match checkPoint d node offset with
  | Except.error e => Except.error e
  | Except.ok _ =>
    if d.rootOf r.startContainer ≠ d.rootOf node ∨
        d.comparePoints (node, offset) (r.endContainer, r.endOffset) = Ordering.gt then
      Except.ok { startContainer := node, startOffset := offset,
                  endContainer := node, endOffset := offset }
    else Except.ok { r with startContainer := node, startOffset := offset }

/-- The adjustment of one boundary point of a live range when `child`, the child of `parent`
with index `index`, is removed. -/
def adjustPoint (d : Document) (parent child : NodeRef) (index : Nat) (b : BoundaryPoint) :
    BoundaryPoint :=
  if d.isInclusiveAncestor child b.1 then (parent, index)
  else if b.1 = parent ∧ b.2 > index then (parent, b.2 - 1)
  else b

/-- The adjustment of a live range on the removal of a node. -/
def adjust (d : Document) (parent child : NodeRef) (index : Nat) (r : DomRange) : DomRange :=
  let s := adjustPoint d parent child index (r.startContainer, r.startOffset)
  let e := adjustPoint d parent child index (r.endContainer, r.endOffset)
  { startContainer := s.1, startOffset := s.2, endContainer := e.1, endOffset := e.2 }

end DomRange

/-! ## Text content and code points -/

mutual
/-- The data of the Text nodes of a subtree in tree order, removed nodes left out; the
second argument is the reference of the subtree. -/
def Node.descendantText (detached : List NodeRef) : NodeRef → Node → JSString
  | _, Node.text v => v
  | p, Node.element _ _ _ _ cs => Node.descendantTextList detached p 0 cs
  | p, Node.other _ _ _ cs => Node.descendantTextList detached p 0 cs
/-- The same for the children of the node `p`, from child index `i` on. -/
def Node.descendantTextList (detached : List NodeRef) : NodeRef → Nat → List Node → JSString
  | _, _, [] => []
  | p, i, n :: ns =>
    (if (i :: p) ∈ detached then [] else Node.descendantText detached (i :: p) n) ++
      Node.descendantTextList detached p (i + 1) ns
end

/-- Embeds `element.textContent`. -/
def Document.textContent (d : Document) (p : NodeRef) : JSString :=
  match d.get? p with
  | some n => n.descendantText d.detached p
  | none => []

/-- The strings a `for (const c of s)` loop yields: the code points of `s`, a surrogate pair
being one string of two code units. -/
def codePoints : JSString → List JSString
  | [] => []
  | [c] => [[c]]
  | c :: c2 :: rest =>
    if 0xD800 ≤ c ∧ c ≤ 0xDBFF ∧ 0xDC00 ≤ c2 ∧ c2 ≤ 0xDFFF then [c, c2] :: codePoints rest
    else [c] :: codePoints (c2 :: rest)

/-! ## The two text sources as objects -/

/-- The fields of a `TextSourceRange` object; `range` refers to a `Range` object. -/
structure TextSourceRange where
  range : Nat
  rangeStartOffset : Nat
  content : JSString
  imposterContainer : Option NodeRef
  imposterSourceElement : Option NodeRef
  deriving DecidableEq, Repr

/-- The fields of a `TextSourceElement` object. The content is a string, except after a
`setEndOffset` that has thrown, which leaves the Number it has read in it. -/
structure TextSourceElement where
  element : NodeRef
  content : ElementValue
  deriving DecidableEq

/-- The state the text sources live in: the document, the `Range` objects, and the text
source objects of both classes, each object being referred to by its index. -/
structure World where
  document : Document
  ranges : List DomRange
  rangeSources : List TextSourceRange
  elementSources : List TextSourceElement

namespace World

/-- Dereference a `Range` object. -/
def getRange (w : World) (r : Nat) : Except JSError DomRange :=
  match w.ranges[r]? with
  | some x => Except.ok x
  | none => Except.error JSError.typeError

/-- Dereference a `TextSourceRange` object. -/
def getRangeSource (w : World) (s : Nat) : Except JSError TextSourceRange :=
  match w.rangeSources[s]? with
  | some x => Except.ok x
  | none => Except.error JSError.typeError

/-- Dereference a `TextSourceElement` object. -/
def getElementSource (w : World) (s : Nat) : Except JSError TextSourceElement :=
  match w.elementSources[s]? with
  | some x => Except.ok x
  | none => Except.error JSError.typeError

/-- Store the state of a `Range` object. -/
def setRange (w : World) (r : Nat) (x : DomRange) : World :=
  { w with ranges := w.ranges.set r x }

/-- Store the fields of a `TextSourceRange` object. -/
def setRangeSource (w : World) (s : Nat) (x : TextSourceRange) : World :=
  { w with rangeSources := w.rangeSources.set s x }

/-- Store the fields of a `TextSourceElement` object. -/
def setElementSource (w : World) (s : Nat) (x : TextSourceElement) : World :=
  { w with elementSources := w.elementSources.set s x }

/-- Embeds `parent.removeChild(child)` on the live document: the child leaves its parent and every
range is adjusted. -/
def removeChild (w : World) (parent child : NodeRef) : World :=
  { w with
    document := w.document.removeChild child
    ranges := w.ranges.map (DomRange.adjust w.document parent child (w.document.index child)) }

end World

namespace TextSourceRange

/-- Embeds `new TextSourceRange(range, content, imposterContainer, imposterSourceElement)`. -/
def create (w : World) (range : Nat) (content : JSString) (imposterContainer : Option NodeRef)
    (imposterSourceElement : Option NodeRef) : Except JSError (World × Nat) := do
  let r ← w.getRange range
  let self : TextSourceRange :=
    { range := range, rangeStartOffset := r.startOffset, content := content,
      imposterContainer := imposterContainer, imposterSourceElement := imposterSourceElement }
  pure ({ w with rangeSources := w.rangeSources ++ [self] }, w.rangeSources.length)

/-- Embeds `range.cloneRange()`: a new `Range` object with the same boundary points. -/
def cloneRange (w : World) (range : Nat) : Except JSError (World × Nat) := do
  let r ← w.getRange range
  pure ({ w with ranges := w.ranges ++ [r] }, w.ranges.length)

/-- Embeds `TextSourceRange.prototype.clone()`. -/
def clone (w : World) (this : Nat) : Except JSError (World × Nat) := do
  let self ← w.getRangeSource this
  let (w, range) ← cloneRange w self.range
  create w range self.content self.imposterContainer self.imposterSourceElement

/-- Embeds `TextSourceRange.prototype.cleanup()`. -/
def cleanup (w : World) (this : Nat) : Except JSError World := do
  let self ← w.getRangeSource this
  match self.imposterContainer with
  | some imposterContainer =>
    match w.document.parentNode imposterContainer with
    | some parentNode => pure (w.removeChild parentNode imposterContainer)
    | none => pure w
  | none => pure w

/-- Embeds `TextSourceRange.prototype.text()`. -/
def text (w : World) (this : Nat) : Except JSError JSString := do
  let self ← w.getRangeSource this
  pure self.content

/-- The call of `TextSourceRange.seek` as a method body sees it. -/
def seekResult (d : Document) (node : NodeRef) (offset : Nat) (length : Int) :
    Except JSError SeekState :=
  match seek d node offset length with
  | some state => Except.ok state
  | none => Except.error JSError.loopBound

/-- Embeds `TextSourceRange.prototype.setEndOffset(length)`. -/
def setEndOffset (w : World) (this : Nat) (length : Int) : Except JSError (World × Int) := do
  let self ← w.getRangeSource this
  let range ← w.getRange self.range
  let state ← seekResult w.document range.startContainer range.startOffset length
  let range ← DomRange.setEnd w.document range state.node state.offset
  let w := w.setRange self.range range
  let w := w.setRangeSource this { self with content := state.content }
  pure (w, length - state.remainder)

/-- Embeds `TextSourceRange.prototype.setStartOffset(length)`. -/
def setStartOffset (w : World) (this : Nat) (length : Int) : Except JSError (World × Int) := do
  let self ← w.getRangeSource this
  let range ← w.getRange self.range
  let state ← seekResult w.document range.startContainer range.startOffset (-length)
  let range ← DomRange.setStart w.document range state.node state.offset
  let w := w.setRange self.range range
  let w := w.setRangeSource this
    { self with rangeStartOffset := range.startOffset, content := state.content ++ self.content }
  pure (w, length - state.remainder)

end TextSourceRange

namespace TextSourceElement

/-- Embeds `new TextSourceElement(element, content)`. -/
def create (w : World) (element : NodeRef) (content : ElementValue) : World × Nat :=
  ({ w with elementSources := w.elementSources ++ [{ element := element, content := content }] },
    w.elementSources.length)

/-- Embeds `TextSourceElement.prototype.clone()`. -/
def clone (w : World) (this : Nat) : Except JSError (World × Nat) := do
  let self ← w.getElementSource this
  pure (create w self.element self.content)

/-- Embeds `TextSourceElement.prototype.cleanup()`. -/
def cleanup (w : World) (_this : Nat) : Except JSError World := pure w

/-- Embeds `TextSourceElement.prototype.text()`. -/
def text (w : World) (this : Nat) : Except JSError ElementValue := do
  let self ← w.getElementSource this
  pure self.content

/-- The value the `switch` of `setEndOffset` puts into `this.content`: the `textContent` of
a `BUTTON`, the attribute `alt` of an `IMG` (`null` when there is none), the property
`value` of any other element. -/
def sourceValue (d : Document) (element : NodeRef) : ElementValue :=
  let name := toUpperCase (d.nodeName element)
  if name = js "BUTTON" then ElementValue.string (d.textContent element)
  else match d.get? element with
    | some (Node.element _ _ alt value _) =>
      if name = js "IMG" then
        match alt with
        | some s => ElementValue.string s
        | none => ElementValue.undefined
      else value
    | _ => ElementValue.undefined

/-- The text the `switch` of `setEndOffset` reads from the element, when it is one (`none`
for `null`, `undefined` and a Number). -/
def sourceText (d : Document) (element : NodeRef) : Option JSString :=
  match sourceValue d element with
  | ElementValue.string s => some s
  | _ => none

/-- What `for (... of this.content || '')` iterates over: the string, the empty string for a
value that is `null`, `undefined` or the Number zero, and nothing (`none`) for any other
Number, which is not iterable. -/
def iterated : ElementValue → Option JSString
  | ElementValue.undefined => some []
  | ElementValue.string s => some s
  | ElementValue.number q => if q = 0 then some [] else none

/-- The copy loop of `setEndOffset` over the code points still to read; returns `content`. -/
def setEndOffset.loop (length : Int) : List JSString → Int → JSString → JSString
  | [], _, content => content
  | currentChar :: rest, consumed, content =>
    if consumed ≥ length then content
    else if !IGNORE_TEXT_PATTERN_test currentChar then
      setEndOffset.loop length rest (consumed + 1) (content ++ currentChar)
    else setEndOffset.loop length rest consumed content

/-- Embeds `TextSourceElement.prototype.setEndOffset(length)`. The `for ... of` over a Number
other than zero throws a `TypeError`; the state the object is in then is `thrown`. -/
def setEndOffset (w : World) (this : Nat) (length : Int) : Except JSError (World × Int) := do
  let self ← w.getElementSource this
  match iterated (sourceValue w.document self.element) with
  | none => throw JSError.typeError
  | some source =>
    let content := setEndOffset.loop length (codePoints source) 0 []
    let w := w.setElementSource this { self with content := ElementValue.string content }
    pure (w, content.length)

/-- The world that a `setEndOffset` which throws the `TypeError` leaves: the `switch` has put
the Number into `this.content`. -/
def setEndOffset.thrown (w : World) (this : Nat) : World :=
  match w.elementSources[this]? with
  | some self =>
    w.setElementSource this { self with content := sourceValue w.document self.element }
  | none => w

/-- Embeds `TextSourceElement.prototype.setStartOffset()`. -/
def setStartOffset (w : World) (_this : Nat) : Except JSError (World × Int) := pure (w, 0)

end TextSourceElement

/-! ## The walk as a sequence of nodes -/

/-- The value `visitChildren` has in the loop of `seek` when it leaves the node `p`. -/
def visitChildren (d : Document) (p : NodeRef) : Bool :=
  match d.get? p with
  | some (Node.element nodeName style _ _ _) => TextSourceRange._shouldEnter nodeName style
  | _ => true

/-- The node the loop of `seek` goes to after the node `p`. -/
def walkStep (d : Document) (forward : Bool) (p : NodeRef) : Option NodeRef :=
  if forward then TextSourceRange._getNextNode d p (visitChildren d p)
  else TextSourceRange._getPreviousNode d p (visitChildren d p)

/-- What one iteration of the loop of `seek` does at the node `p`: the new state, the new
`resetOffset`, and whether the loop breaks. -/
def visitNode (d : Document) (forward : Bool) (p : NodeRef) (state : SeekState)
    (resetOffset : Bool) : SeekState × Bool × Bool :=
  match d.get? p with
  | some (Node.text nodeValue) =>
    let r := (if forward then TextSourceRange._seekForwardTextNode
      else TextSourceRange._seekBackwardTextNode) nodeValue { state with node := p } resetOffset
    (r.1, true, r.2)
  | _ => (state, resetOffset, false)

/-- The iterations of the loop of `seek` over a list of nodes, up to the first break. -/
def visitNodes (d : Document) (forward : Bool) :
    List NodeRef → SeekState → Bool → SeekState × Bool × Bool
  | [], state, resetOffset => (state, resetOffset, false)
  | p :: l, state, resetOffset =>
    let r := visitNode d forward p state resetOffset
    if r.2.2 then r else visitNodes d forward l r.1 r.2.1

/-- Relation `Segment d forward a l b`: leaving from `a`, the walk visits exactly the nodes `l` in this
order and then arrives at `b`. -/
inductive Segment (d : Document) (forward : Bool) :
    Option NodeRef → List NodeRef → Option NodeRef → Prop where
  | done (a : Option NodeRef) : Segment d forward a [] a
  | visit (p : NodeRef) (l : List NodeRef) (b : Option NodeRef) :
      Segment d forward (walkStep d forward p) l b → Segment d forward (some p) (p :: l) b

mutual
/-- The nodes of the subtree `t` with reference `p` in the order a walk visits them: the node,
then its children if they are visited, in document order for a forward walk and from the last
to the first for a backward walk. Removed children are left out. -/
def walkOrder (d : Document) (forward : Bool) : NodeRef → Node → List NodeRef
  | p, Node.text _ => [p]
  | p, Node.element nodeName style _ _ cs =>
    p :: (if TextSourceRange._shouldEnter nodeName style then walkOrderList d forward p 0 cs
      else [])
  | p, Node.other _ _ _ cs => p :: walkOrderList d forward p 0 cs
/-- The same for the subtrees `cs`, which are the children of `p` from index `i` on. -/
def walkOrderList (d : Document) (forward : Bool) : NodeRef → Nat → List Node → List NodeRef
  | _, _, [] => []
  | p, i, c :: cs =>
    if forward then
      (if (i :: p) ∈ d.detached then [] else walkOrder d forward (i :: p) c) ++
        walkOrderList d forward p (i + 1) cs
    else
      walkOrderList d forward p (i + 1) cs ++
        (if (i :: p) ∈ d.detached then [] else walkOrder d forward (i :: p) c)
end

/-- The children of a node (none for a reference that denotes nothing). -/
def Document.children (d : Document) (p : NodeRef) : List Node :=
  match d.get? p with
  | some t => t.childNodes
  | none => []

/-- The nodes a walk visits once it has left the subtree of `p` without a break: the subtrees
of the siblings beyond `p`, then those beyond its parent, and so on up to the root of the
tree `p` is in. -/
def walkAfter (d : Document) (forward : Bool) : NodeRef → List NodeRef
  | [] => []
  | i :: q =>
    if (i :: q) ∈ d.detached then []
    else
      (if forward then walkOrderList d true q (i + 1) ((d.children q).drop (i + 1))
       else walkOrderList d false q 0 ((d.children q).take i)) ++ walkAfter d forward q

/-- The nodes before the subtree of `p`, in document order, that a backward walk from `p`
visits: the subtrees of the siblings before each ancestor-or-self of `p`. -/
def walkBefore (d : Document) : NodeRef → List NodeRef
  | [] => []
  | i :: q =>
    if (i :: q) ∈ d.detached then []
    else walkBefore d q ++ walkOrderList d true q 0 ((d.children q).take i)

/-- The nearest element among a node and its ancestors in its present tree. -/
def Document.nearestElement (d : Document) : NodeRef → Option NodeRef
  | [] => if d.nodeType [] = ELEMENT_NODE then some [] else none
  | i :: q =>
    if d.nodeType (i :: q) = ELEMENT_NODE then some (i :: q)
    else if (i :: q) ∈ d.detached then none
    else Document.nearestElement d q

/-- The children of `p` with an index in `[i, i + m)` that have not been removed. -/
def kidsFrom (d : Document) (p : NodeRef) (i m : Nat) : List NodeRef :=
  ((List.range' i m).map (fun j => j :: p)).filter (fun c => decide (c ∉ d.detached))

/-- The children of `p` in the order a walk meets them. -/
def kids (d : Document) (forward : Bool) (p : NodeRef) : List NodeRef :=
  if forward then d.childRefs p else (d.childRefs p).reverse

/-- Either `_getNextNode` or `_getPreviousNode`, by direction. -/
def getNode (d : Document) (forward : Bool) (p : NodeRef) (visit : Bool) : Option NodeRef :=
  if forward then TextSourceRange._getNextNode d p visit
  else TextSourceRange._getPreviousNode d p visit

/-- The walk order of the subtree below a reference. -/
def subOrder (d : Document) (forward : Bool) (p : NodeRef) : List NodeRef :=
  match d.get? p with
  | some t => walkOrder d forward p t
  | none => []

/-- The text of a Text node. -/
def Document.textAt (d : Document) (p : NodeRef) : Option JSString :=
  (d.get? p).bind Node.nodeValue

/-- The concatenated text of the Text nodes of a list of nodes. -/
def Document.textOf (d : Document) (l : List NodeRef) : JSString :=
  (l.filterMap d.textAt).flatten

/-- A string without its U+200C code units. -/
def visible (s : JSString) : JSString := s.filter (fun c => decide (c ≠ ZWNJ))

/-- The number of code units of `s` a scan passes to collect `k` code units other than
U+200C, stopping right after the last one collected (all of `s` when it has fewer). -/
def takeVis : JSString → Nat → Nat
  | [], _ => 0
  | _ :: _, 0 => 0
  | c :: s, k + 1 => if c = ZWNJ then 1 + takeVis s (k + 1) else 1 + takeVis s k

/-- The text a backward walk scans over a list of nodes given in the order of its visits:
the reversed texts of the Text nodes, one after the other. -/
def Document.revTextOf (d : Document) (l : List NodeRef) : JSString :=
  ((l.filterMap d.textAt).map List.reverse).flatten

/-- The non-ignorable characters from offset `o` of the text node `p` to the end of its tree,
in document order, text that a forward walk from `p` does not enter left out. -/
def availableAfter (d : Document) (p : NodeRef) (o : Nat) : JSString :=
  visible (((d.textAt p).getD []).drop o ++ d.textOf (walkAfter d true p))

/-- The non-ignorable characters from the start of the tree to offset `o` of the text node
`p`, in document order, text that a backward walk from `p` does not enter left out. -/
def availableBefore (d : Document) (p : NodeRef) (o : Nat) : JSString :=
  visible (d.textOf (walkBefore d p) ++ ((d.textAt p).getD []).take o)

/-! ## The visible text of the document and positions in it -/

/-- Whether a forward walk from the root of the document reaches the node: neither the node
nor an ancestor has been removed, and the walk visits the children of every ancestor. -/
def Document.reachable (d : Document) : NodeRef → Bool
  | [] => true
  | i :: q => decide ((i :: q) ∉ d.detached) && visitChildren d q && Document.reachable d q

/-- The text of the Text nodes a forward walk from the root visits, in document order: the
text of the document without the text inside elements that are not entered. -/
def Document.visibleText (d : Document) : JSString := d.textOf (walkOrder d true [] d.root)

/-- The number of code units of the visible text that precede a boundary point in a Text
node. -/
def Document.linear (d : Document) (b : BoundaryPoint) : Nat :=
  (d.textOf (walkBefore d b.1)).length + b.2

/-- The visible text between the boundary points of a range, without U+200C. -/
def visibleRangeText (d : Document) (r : DomRange) : JSString :=
  visible ((d.visibleText.drop (d.linear (r.startContainer, r.startOffset))).take
    (d.linear (r.endContainer, r.endOffset) - d.linear (r.startContainer, r.startOffset)))

/-- The walk orders of the subtrees of a list of nodes, one after the other. -/
def subsOrder (d : Document) (forward : Bool) (K : List NodeRef) : List NodeRef :=
  (K.map (subOrder d forward)).flatten

mutual
/-- The Text nodes of a subtree in tree order, removed nodes left out. -/
def Node.textRefs (detached : List NodeRef) : NodeRef → Node → List NodeRef
  | p, Node.text _ => [p]
  | p, Node.element _ _ _ _ cs => Node.textRefsList detached p 0 cs
  | p, Node.other _ _ _ cs => Node.textRefsList detached p 0 cs
/-- The same for the children of the node `p`, from child index `i` on. -/
def Node.textRefsList (detached : List NodeRef) : NodeRef → Nat → List Node → List NodeRef
  | _, _, [] => []
  | p, i, n :: ns =>
    (if (i :: p) ∈ detached then [] else Node.textRefs detached (i :: p) n) ++
      Node.textRefsList detached p (i + 1) ns
end

/-- Whether a node is contained in a range: it starts after the start of the range and ends
before its end. -/
def DomRange.contains (d : Document) (r : DomRange) (p : NodeRef) : Bool :=
  decide (d.rootOf p = d.rootOf r.startContainer) &&
  decide (d.comparePoints (p, 0) (r.startContainer, r.startOffset) = Ordering.gt) &&
  decide (d.comparePoints (p, d.length p) (r.endContainer, r.endOffset) = Ordering.lt)

/-- Embeds `range.toString()`: the text delimited by the boundary points of a range, i.e. the data
of the Text nodes inside the range, the nodes of the boundary points counting from the start
offset and up to the end offset. -/
def DomRange.toString (d : Document) (r : DomRange) : JSString :=
  match d.textAt r.startContainer, d.textAt r.endContainer with
  | some v, some v' =>
    if r.startContainer = r.endContainer then
      (v.drop r.startOffset).take (r.endOffset - r.startOffset)
    else
      v.drop r.startOffset ++
        d.textOf ((d.root.textRefs d.detached []).filter (r.contains d)) ++
        v'.take r.endOffset
  | some v, none =>
    v.drop r.startOffset ++ d.textOf ((d.root.textRefs d.detached []).filter (r.contains d))
  | none, some v' =>
    d.textOf ((d.root.textRefs d.detached []).filter (r.contains d)) ++ v'.take r.endOffset
  | none, none => d.textOf ((d.root.textRefs d.detached []).filter (r.contains d))

/-! ## Sequences of calls -/

/-- A call of one of the two growing methods of a text source. -/
inductive SpanCall where
  | setEndOffset (length : Int)
  | setStartOffset (length : Int)

/-- The length argument of a call. -/
def SpanCall.length : SpanCall → Int
  | SpanCall.setEndOffset length => length
  | SpanCall.setStartOffset length => length

/-- One call on a `TextSourceRange`. -/
def TextSourceRange.call (w : World) (this : Nat) : SpanCall → Except JSError (World × Int)
  | SpanCall.setEndOffset length => TextSourceRange.setEndOffset w this length
  | SpanCall.setStartOffset length => TextSourceRange.setStartOffset w this length

/-- A sequence of calls on a `TextSourceRange`; a call that throws leaves the world as it
was, and the sequence goes on with the next call. -/
def TextSourceRange.run (w : World) (this : Nat) : List SpanCall → World
  | [] => w
  | c :: cs =>
    match TextSourceRange.call w this c with
    | Except.ok r => TextSourceRange.run r.1 this cs
    | Except.error _ => TextSourceRange.run w this cs

/-- One call on a `TextSourceElement`. -/
def TextSourceElement.call (w : World) (this : Nat) : SpanCall → Except JSError (World × Int)
  | SpanCall.setEndOffset length => TextSourceElement.setEndOffset w this length
  | SpanCall.setStartOffset _ => TextSourceElement.setStartOffset w this

/-- The world a call on a `TextSourceElement` that has thrown leaves. -/
def TextSourceElement.callThrown (w : World) (this : Nat) : SpanCall → World
  | SpanCall.setEndOffset _ => TextSourceElement.setEndOffset.thrown w this
  | SpanCall.setStartOffset _ => w

/-- A sequence of calls on a `TextSourceElement`; after a call that throws the sequence goes
on with the next call, in the world that call has left. -/
def TextSourceElement.run (w : World) (this : Nat) : List SpanCall → World
  | [] => w
  | c :: cs =>
    match TextSourceElement.call w this c with
    | Except.ok r => TextSourceElement.run r.1 this cs
    | Except.error _ => TextSourceElement.run (TextSourceElement.callThrown w this c) this cs

/-- The part of the world a call on the range source `this`, whose range is `rg`, leaves
alone: the other range sources, the other ranges, the document and the element sources; the
range source itself keeps its range. -/
def RangeFrame (this rg : Nat) (w w' : World) : Prop :=
  (∃ self', w'.rangeSources[this]? = some self' ∧ self'.range = rg) ∧
  (∀ s, s ≠ this → w'.rangeSources[s]? = w.rangeSources[s]?) ∧
  (∀ j, j ≠ rg → w'.ranges[j]? = w.ranges[j]?) ∧
  w'.document = w.document ∧ w'.elementSources = w.elementSources

/-- The state of a range source in which its content is the visible text between the bounds
of its range: the range starts at an offset of a text node that the walk from the root
reaches, its end is not before its start, and the content is the visible range text. -/
def RangeInvariant (w : World) (this : Nat) : Prop :=
  ∃ self r v, w.rangeSources[this]? = some self ∧ w.ranges[self.range]? = some r ∧
    w.document.textAt r.startContainer = some v ∧ r.startOffset ≤ v.length ∧
    w.document.reachable r.startContainer = true ∧
    w.document.linear (r.startContainer, r.startOffset) ≤
      w.document.linear (r.endContainer, r.endOffset) ∧
    w.document.comparePoints (r.startContainer, r.startOffset) (r.endContainer, r.endOffset) ≠
      Ordering.gt ∧
    self.content = visibleRangeText w.document r

/-! ## Values and the equality of text sources -/

/-- A JavaScript value as a method can receive it for an argument: the primitive values, an
object that is an instance of neither text source class, and the instances of the two classes,
each referred to by its index in the world. -/
inductive JSValue where
  | undefined
  | null
  | boolean (b : Bool)
  | number (n : Int)
  | string (s : JSString)
  | object
  | textSourceRange (ref : Nat)
  | textSourceElement (ref : Nat)
  deriving DecidableEq, Repr

/-- Whether `other instanceof TextSourceRange` holds. -/
def JSValue.isTextSourceRange : JSValue → Bool
  | JSValue.textSourceRange _ => true
  | _ => false

/-- Whether `other instanceof TextSourceElement` holds. -/
def JSValue.isTextSourceElement : JSValue → Bool
  | JSValue.textSourceElement _ => true
  | _ => false

/-- The constants `Range.START_TO_START`, ... that `compareBoundaryPoints` accepts for its
first argument. -/
inductive CompareHow where
  | START_TO_START
  | START_TO_END
  | END_TO_END
  | END_TO_START
  deriving DecidableEq, Repr

/-- Embeds `range.compareBoundaryPoints(how, sourceRange)`: `-1`, `0` or `1` as the chosen boundary
point of the range is before, equal to or after the chosen one of `sourceRange`; the two
ranges have to be in the same tree. -/
def DomRange.compareBoundaryPoints (d : Document) (this : DomRange) (how : CompareHow)
    (sourceRange : DomRange) : Except JSError Int :=
  if d.rootOf this.startContainer ≠ d.rootOf sourceRange.startContainer then
    Except.error JSError.wrongDocumentError
  else
    let thisPoint : BoundaryPoint :=
      match how with
      | CompareHow.START_TO_START => (this.startContainer, this.startOffset)
      | CompareHow.START_TO_END => (this.endContainer, this.endOffset)
      | CompareHow.END_TO_END => (this.endContainer, this.endOffset)
      | CompareHow.END_TO_START => (this.startContainer, this.startOffset)
    let otherPoint : BoundaryPoint :=
      match how with
      | CompareHow.START_TO_START => (sourceRange.startContainer, sourceRange.startOffset)
      | CompareHow.START_TO_END => (sourceRange.startContainer, sourceRange.startOffset)
      | CompareHow.END_TO_END => (sourceRange.endContainer, sourceRange.endOffset)
      | CompareHow.END_TO_START => (sourceRange.endContainer, sourceRange.endOffset)
    match d.comparePoints thisPoint otherPoint with
    | Ordering.lt => Except.ok (-1)
    | Ordering.eq => Except.ok 0
    | Ordering.gt => Except.ok 1

/-- Embeds `TextSourceRange.prototype.equals(other)`. -/
def TextSourceRange.equals (w : World) (this : Nat) (other : JSValue) : Except JSError Bool :=
  match other with
  | JSValue.textSourceRange other => do
    let self ← w.getRangeSource this
    let other ← w.getRangeSource other
    if self.imposterSourceElement ≠ none then
      pure (decide (self.imposterSourceElement = other.imposterSourceElement) &&
        decide (self.rangeStartOffset = other.rangeStartOffset))
    else do
      let range ← w.getRange self.range
      let otherRange ← w.getRange other.range
      let c ← range.compareBoundaryPoints w.document CompareHow.START_TO_START otherRange
      pure (decide (c = 0))
  | _ => pure false

/-- Embeds `TextSourceElement.prototype.equals(other)`. -/
def TextSourceElement.equals (w : World) (this : Nat) (other : JSValue) : Except JSError Bool :=
  match other with
  | JSValue.textSourceElement other => do
    let self ← w.getElementSource this
    let other ← w.getElementSource other
    pure (decide (other.element = self.element) && decide (other.content = self.content))
  | _ => pure false

/-! ## Writing modes -/

namespace TextSourceRange

/-- Embeds `TextSourceRange._normalizeWritingMode(writingMode)`. -/
def _normalizeWritingMode (writingMode : JSString) : JSString :=
  if writingMode = js "lr" ∨ writingMode = js "lr-tb" ∨ writingMode = js "rl" then
    js "horizontal-tb"
  else if writingMode = js "tb" then js "vertical-lr"
  else if writingMode = js "tb-rl" then js "vertical-rl"
  else writingMode

/-- Embeds `TextSourceRange._getElementWritingMode(element)`; `window.getComputedStyle` throws a
`TypeError` for an argument that is not an element. -/
def _getElementWritingMode (d : Document) (element : Option NodeRef) : Except JSError JSString :=
  match element with
  | some element =>
    match d.get? element with
    | some (Node.element _ style _ _ _) =>
      match style.writingMode with
      | some writingMode => Except.ok (_normalizeWritingMode writingMode)
      | none => Except.ok (js "horizontal-tb")
    | _ => Except.error JSError.typeError
  | none => Except.ok (js "horizontal-tb")

/-- Embeds `TextSourceRange.prototype.getWritingMode()`. -/
def getWritingMode (w : World) (this : Nat) : Except JSError JSString := do
  let self ← w.getRangeSource this
  let range ← w.getRange self.range
  _getElementWritingMode w.document (_getParentElement w.document (some range.startContainer))

end TextSourceRange

/-! ## The characters an element source copies -/

/-- The first `n` characters of a text that are not U+200C, a character being a code point
as a `for ... of` loop over the text yields it. -/
def firstCharacters (n : Nat) (s : JSString) : JSString :=
  (((codePoints s).filter (fun c => decide (c ≠ [ZWNJ]))).take n).flatten

/-! ## Bounded runs of the climbing loops, and skipped elements -/

namespace TextSourceRange

/-- The `while (true)` loop of `_getNextNode` run for at most a number of iterations:
`some next` when the loop has ended within them and `next` is the value it has left in
`next`, `none` when it has not ended yet. -/
def _getNextNode.loopWithin (d : Document) : Nat → NodeRef → Option (Option NodeRef)
  | 0, _ => none
  | fuel + 1, node =>
    match d.nextSibling node with
    | some next => some (some next)
    | none =>
      match d.parentNode node with
      | none => some none
      | some next => _getNextNode.loopWithin d fuel next

/-- The `while (true)` loop of `_getPreviousNode` run for at most a number of iterations. -/
def _getPreviousNode.loopWithin (d : Document) : Nat → NodeRef → Option (Option NodeRef)
  | 0, _ => none
  | fuel + 1, node =>
    match d.previousSibling node with
    | some next => some (some next)
    | none =>
      match d.parentNode node with
      | none => some none
      | some next => _getPreviousNode.loopWithin d fuel next

end TextSourceRange

/-- Whether a node lies inside an element that the walk does not enter: one of its proper
ancestors in its present tree is an element that `_shouldEnter` rejects. -/
def Document.insideSkipped (d : Document) : NodeRef → Bool
  | [] => false
  | i :: q =>
    if (i :: q) ∈ d.detached then false
    else !visitChildren d q || Document.insideSkipped d q

/-- The state `seek` starts from. -/
def seekStart (node : NodeRef) (offset : Nat) (length : Int) : SeekState :=
  { node := node, offset := offset, content := [],
    remainder := if length ≥ 0 then length else -length }

/-! ## Iterating over the whole tree -/

/-- Relation `Chain next a l b`: iterating `next` from `a` yields exactly the nodes `l`, in
this order, and then arrives at `b` (`none` for `null`). -/
inductive Chain (next : NodeRef → Option NodeRef) :
    Option NodeRef → List NodeRef → Option NodeRef → Prop where
  | done (a : Option NodeRef) : Chain next a [] a
  | step (p : NodeRef) (l : List NodeRef) (b : Option NodeRef) :
      Chain next (next p) l b → Chain next (some p) (p :: l) b

/-- The nodes of the subtree of `p`, down to a depth, in the order in which a traversal that
always visits the children meets them: the node, then the subtrees of its children, from the
first to the last for a forward traversal and from the last to the first for a backward
one. -/
def treeOrder (d : Document) (forward : Bool) : Nat → NodeRef → List NodeRef
  | 0, _ => []
  | depth + 1, p => p :: ((kids d forward p).map (treeOrder d forward depth)).flatten

/-- The node that follows the subtree of a node: its next sibling, otherwise the next
sibling of the nearest ancestor that has one, otherwise none. -/
def Document.following (d : Document) : NodeRef → Option NodeRef
  | [] => none
  | i :: q =>
    match d.nextSibling (i :: q) with
    | some next => some next
    | none => if (i :: q) ∈ d.detached then none else Document.following d q

/-- Whether the node `a` comes before the node `b` of the same tree in document order: `a`
is an ancestor of `b`, or their paths part at a node where the path of `a` takes the earlier
child. -/
def Document.precedes (d : Document) (a b : NodeRef) : Prop :=
  lexCompare (d.position a) (d.position b) = Ordering.lt

/-! ## Seeks in either direction -/

/-- The length argument of a seek of `n` characters: `n` for a forward seek, `-n` for a
backward one. -/
def seekLength (forward : Bool) (n : Nat) : Int := if forward then (n : Int) else -(n : Int)

/-- The content of a seek that goes on from a content `c` and then reads `x`: `x` comes
after `c` for a forward seek and before it for a backward one. -/
def joinContent (forward : Bool) (c x : JSString) : JSString :=
  if forward then c ++ x else x ++ c

/-! ## Sorting modifier names (`ext/bg/js/settings/profile-conditions-ui.js`) -/

/-- A Number that is a non-negative integer, or `+Infinity`. These are the values that
`Number.parseInt` gives for a string of decimal digits. -/
inductive JSNumber where
  | finite (n : Nat)
  | infinity
  deriving DecidableEq, Repr

/-- The sign of the difference of two Numbers, or `NaN`. The comparison function of
`sortModifiers` is only looked at through this. -/
inductive Difference where
  | negative
  | zero
  | positive
  | nan
  deriving DecidableEq, Repr

/-- The order of the Numbers, `+Infinity` on top. -/
def JSNumber.le : JSNumber → JSNumber → Prop
  | .finite a, .finite b => a ≤ b
  | _, .infinity => True
  | .infinity, .finite _ => False

instance (a b : JSNumber) : Decidable (a.le b) := by
  cases a <;> cases b <;> simp only [JSNumber.le] <;> infer_instance

/-- The subtraction `a - b` of two such Numbers, up to the sign of the result;
`Infinity - Infinity` is `NaN`. -/
def JSNumber.sub : JSNumber → JSNumber → Difference
  | .finite a, .finite b =>
    if a < b then Difference.negative else if b < a then Difference.positive else Difference.zero
  | .finite _, .infinity => Difference.negative
  | .infinity, .finite _ => Difference.positive
  | .infinity, .infinity => Difference.nan

/-- The class `\d` of the pattern. -/
def isDigit (c : CodeUnit) : Bool := decide (0x30 ≤ c) && decide (c ≤ 0x39)

/-- The call `this._mouseInputNamePattern.exec(value)` for the pattern `/^mouse(\d+)$/`:
the first group of the match, or `none` for `null`. -/
def _mouseInputNamePattern.exec (value : JSString) : Option JSString :=
  if value.take 5 = js "mouse" ∧ value.drop 5 ≠ [] ∧ (value.drop 5).all isDigit = true then
    some (value.drop 5)
  else
    none

/-- The mathematical integer that a string of decimal digits stands for. -/
def decimalValue (digits : JSString) : Nat :=
  digits.foldl (fun n c => 10 * n + (c - 0x30)) 0

/-- The number of times `n` is halved before it is below `2 ^ 53`. -/
def halvings : Nat → Nat → Nat
  | 0, _ => 0
  | fuel + 1, n => if n < 2 ^ 53 then 0 else halvings fuel (n / 2) + 1

/-- The Number value of a natural number: the nearest number with a 53 bit significand,
ties to the even significand; the largest exponent of a finite Number is 971, what rounds
to `2 ^ 53 * 2 ^ 971` or more is `+Infinity`. -/
def toNumber (n : Nat) : JSNumber :=
  let e := halvings n n
  let q := n / 2 ^ e
  let r := n % 2 ^ e
  let q1 := if 2 ^ e < 2 * r ∨ (2 * r = 2 ^ e ∧ q % 2 = 1) then q + 1 else q
  if e < 971 ∨ (e = 971 ∧ q1 < 2 ^ 53) then JSNumber.finite (q1 * 2 ^ e) else JSNumber.infinity

/-- The call `Number.parseInt(digits, 10)` on a string of decimal digits. (The language
lets an implementation replace the digits after the twentieth by zeros; this is the
exact value.) -/
def Number.parseInt (digits : JSString) : JSNumber := toNumber (decimalValue digits)

/-- The array `[value, isMouse, number, index]` made for a modifier. -/
structure ModifierInfo where
  value : JSString
  isMouse : Nat
  number : JSNumber
  index : Nat
  deriving DecidableEq, Repr

/-- The function mapped over the modifiers. -/
def sortModifiers.info (index : Nat) (value : JSString) : ModifierInfo :=
  match _mouseInputNamePattern.exec value with
  | some digits => ⟨value, 1, Number.parseInt digits, index⟩
  | none => ⟨value, 0, JSNumber.finite 0, index⟩

/-- The comparison function given to `sort`. -/
def sortModifiers.compare (a b : ModifierInfo) : Difference :=
  let i := (JSNumber.finite a.isMouse).sub (JSNumber.finite b.isMouse)
  if i ≠ Difference.zero then i else
  let i := a.number.sub b.number
  if i ≠ Difference.zero then i else
  (JSNumber.finite a.index).sub (JSNumber.finite b.index)

/-- The order that `Array.prototype.sort` sorts by: `a` may stay before `b` when the comparison
function does not give a positive number (`NaN` counts as zero). -/
def sortOrder {α : Type} (compare : α → α → Difference) (a b : α) : Prop :=
  compare a b ≠ Difference.positive

instance {α : Type} (compare : α → α → Difference) : DecidableRel (sortOrder compare) :=
  fun a b => inferInstanceAs (Decidable (compare a b ≠ Difference.positive))

/-- The method `Array.prototype.sort(compare)`. The language asks for a stable sort; for a
consistent comparison function every stable sort gives the same array, here by insertion. -/
def Array.sort {α : Type} (compare : α → α → Difference) (l : List α) : List α :=
  l.insertionSort (sortOrder compare)

/-- The array `modifierInfo` before it is sorted. -/
def sortModifiers.modifierInfo (modifiers : List JSString) : List ModifierInfo :=
  modifiers.enum.map (fun e => sortModifiers.info e.1 e.2)

/-- The method `sortModifiers(modifiers)`. -/
def sortModifiers (modifiers : List JSString) : List JSString :=
  (Array.sort sortModifiers.compare (sortModifiers.modifierInfo modifiers)).map (fun e => e.value)

/-! ## Concrete trees and worlds -/

/-- A visible element with the given tag name and children. -/
def elem (name : String) (childNodes : List Node) : Node :=
  Node.element (js name)
    { visibility := js "visible", display := js "block", fontSize := some 16,
      writingMode := some (js "horizontal-tb") } none ElementValue.undefined childNodes

/-- The tree `<div>ab<br><br></div>`. -/
def lineBreakTree : Node := elem "DIV" [Node.text (js "ab"), elem "BR" [], elem "BR" []]

/-- The text `a`, U+200C, `b`, `c`, U+200C, `d`. -/
def joinerText : JSString := [97, 0x200C, 98, 99, 0x200C, 100]

/-- The world of one text node `abcd`, a range collapsed at offset 1 of it, and a range
source over that range with empty content. -/
def plainWorld : World :=
  { document := Document.ofTree (Node.text (js "abcd"))
    ranges := [{ startContainer := [], startOffset := 1, endContainer := [], endOffset := 1 }]
    rangeSources := [{ range := 0, rangeStartOffset := 1, content := [],
                       imposterContainer := none, imposterSourceElement := none }]
    elementSources := [] }

/-- The tree `<ruby>語<rt>ご</rt></ruby>`. -/
def rubyTree : Node := elem "RUBY" [Node.text [0x8A9E], elem "RT" [Node.text [0x3054]]]

/-- The world of the text `abcd` with a range over `ab` and a range source over it whose
content is `ab`. -/
def grownWorld : World :=
  { document := Document.ofTree (Node.text (js "abcd"))
    ranges := [{ startContainer := [], startOffset := 0, endContainer := [], endOffset := 2 }]
    rangeSources := [{ range := 0, rangeStartOffset := 0, content := js "ab",
                       imposterContainer := none, imposterSourceElement := none }]
    elementSources := [] }

/-- The tree `<ruby>漢<rt>かん</rt>字<rt>じ</rt></ruby>`. -/
def doubleRubyTree : Node :=
  elem "RUBY" [Node.text [0x6F22], elem "RT" [Node.text [0x304B, 0x3093]],
    Node.text [0x5B57], elem "RT" [Node.text [0x3058]]]

/-- The world of `doubleRubyTree` with a range over the text of the first `rt` and a range
source over it with empty content. -/
def doubleRubyWorld : World :=
  { document := Document.ofTree doubleRubyTree
    ranges := [{ startContainer := [0, 1], startOffset := 0,
                 endContainer := [0, 1], endOffset := 2 }]
    rangeSources := [{ range := 0, rangeStartOffset := 0, content := [],
                       imposterContainer := none, imposterSourceElement := none }]
    elementSources := [] }

/-- The world of `<body><div>abc</div><textarea></textarea></body>` in which the `div` is
an imposter container standing in for the `textarea`, with a range collapsed at the start of
the text of the `div` and a range source over it that owns the imposter. -/
def imposterWorld : World :=
  { document := Document.ofTree
      (elem "BODY" [elem "DIV" [Node.text (js "abc")], elem "TEXTAREA" []])
    ranges := [{ startContainer := [0, 0], startOffset := 0,
                 endContainer := [0, 0], endOffset := 0 }]
    rangeSources := [{ range := 0, rangeStartOffset := 0, content := [],
                       imposterContainer := some [0], imposterSourceElement := some [1] }]
    elementSources := [] }

/-- The world of `<div>語<rt>ご</rt>だ</div>` with a range collapsed at the start of `語`
and a range source over it with empty content. -/
def annotatedWorld : World :=
  { document := Document.ofTree
      (elem "DIV" [Node.text [0x8A9E], elem "RT" [Node.text [0x3054]], Node.text [0x3060]])
    ranges := [{ startContainer := [0], startOffset := 0, endContainer := [0], endOffset := 0 }]
    rangeSources := [{ range := 0, rangeStartOffset := 0, content := [],
                       imposterContainer := none, imposterSourceElement := none }]
    elementSources := [] }

/-- The world of `imposterWorld` with a second range source over a range of its own in the
`textarea` side of the tree, standing for the same source element at the same start offset,
and a third one standing for the `body`. -/
def imposterPairWorld : World :=
  { document := imposterWorld.document
    ranges := imposterWorld.ranges ++
      [{ startContainer := [], startOffset := 0, endContainer := [], endOffset := 2 }]
    rangeSources := imposterWorld.rangeSources ++
      [{ range := 1, rangeStartOffset := 0, content := js "abc",
         imposterContainer := none, imposterSourceElement := some [1] },
       { range := 1, rangeStartOffset := 0, content := js "abc",
         imposterContainer := none, imposterSourceElement := some [] }]
    elementSources := [{ element := [1], content := ElementValue.string [] }] }

/-- An element like `elem` with the given computed writing mode. -/
def elemWithWritingMode (name : String) (writingMode : Option JSString)
    (childNodes : List Node) : Node :=
  Node.element (js name)
    { visibility := js "visible", display := js "block", fontSize := some 16,
      writingMode := writingMode } none ElementValue.undefined childNodes

/-- The world of `<div>縦書き</div>` whose `div` has the computed writing mode `tb-rl`, with a
range collapsed at the start of the text and a range source over it. -/
def verticalWorld : World :=
  { document := Document.ofTree
      (elemWithWritingMode "DIV" (some (js "tb-rl")) [Node.text [0x7E26, 0x66F8, 0x304D]])
    ranges := [{ startContainer := [0], startOffset := 0, endContainer := [0], endOffset := 0 }]
    rangeSources := [{ range := 0, rangeStartOffset := 0, content := [],
                       imposterContainer := none, imposterSourceElement := none }]
    elementSources := [] }

/-- The tree of one `div` whose computed writing mode is `sideways-rl`. -/
def sidewaysTree : Node := elemWithWritingMode "DIV" (some (js "sideways-rl")) []

/-- The world of `<input value="𠮷野">` (the first character is U+20BB7, two code units) with
an element source over the `input`. -/
def surrogateWorld : World :=
  { document := Document.ofTree
      (Node.element (js "INPUT")
        { visibility := js "visible", display := js "inline-block", fontSize := some 16,
          writingMode := some (js "horizontal-tb") } none
        (ElementValue.string [0xD842, 0xDFB7, 0x91CE]) [])
    ranges := []
    rangeSources := []
    elementSources := [{ element := [], content := ElementValue.string [] }] }

/-- The world of an `img` whose `alt` attribute is `a`, U+200C, `b`, `c`, the tag name being
in lower case, with an element source over the image. -/
def imageWorld : World :=
  { document := Document.ofTree
      (Node.element (js "img")
        { visibility := js "visible", display := js "inline", fontSize := some 16,
          writingMode := some (js "horizontal-tb") } (some [97, 0x200C, 98, 99])
        ElementValue.undefined [])
    ranges := []
    rangeSources := []
    elementSources := [{ element := [], content := ElementValue.string (js "zz") }] }

/-- The tree `<div>a<ſtyle>bc</ſtyle>d</div>`: the tag name of the inner element begins with
U+017F (long s), whose upper case is `S`; the element is visible. -/
def longSTree : Node :=
  elem "DIV" [Node.text (js "a"),
    Node.element [0x17F, 0x74, 0x79, 0x6C, 0x65]
      { visibility := js "visible", display := js "block", fontSize := some 16,
        writingMode := some (js "horizontal-tb") } none ElementValue.undefined
      [Node.text (js "bc")],
    Node.text (js "d")]

/-- The world of `<div><!--abcd--></div>` with a range collapsed at offset 3 of the comment
and a range source over it with empty content. -/
def commentWorld : World :=
  { document := Document.ofTree
      (elem "DIV" [Node.other NodeKind.comment (js "#comment") (js "abcd") []])
    ranges := [{ startContainer := [0], startOffset := 3, endContainer := [0], endOffset := 3 }]
    rangeSources := [{ range := 0, rangeStartOffset := 3, content := [],
                       imposterContainer := none, imposterSourceElement := none }]
    elementSources := [] }

/-- The world of `<li value="3">three</li>`, whose property `value` is the Number 3, with an
element source over the `li`. -/
def listItemWorld : World :=
  { document := Document.ofTree
      (Node.element (js "LI")
        { visibility := js "visible", display := js "list-item", fontSize := some 16,
          writingMode := some (js "horizontal-tb") } none (ElementValue.number 3)
        [Node.text (js "three")])
    ranges := []
    rangeSources := []
    elementSources := [{ element := [], content := ElementValue.string [] }] }

/-- The tree `<div>a<span style="display: none">bc</span>d</div>`. -/
def hiddenTree : Node :=
  elem "DIV" [Node.text (js "a"),
    Node.element (js "SPAN")
      { visibility := js "visible", display := js "none", fontSize := some 16,
        writingMode := some (js "horizontal-tb") } none ElementValue.undefined
      [Node.text (js "bc")],
    Node.text (js "d")]

/-- The world of `imposterWorld` with a second range at the same place as the first and a
second range source over it that has no imposter. -/
def mixedWorld : World :=
  { document := imposterWorld.document
    ranges := imposterWorld.ranges ++
      [{ startContainer := [0, 0], startOffset := 0, endContainer := [0, 0], endOffset := 0 }]
    rangeSources := imposterWorld.rangeSources ++
      [{ range := 1, rangeStartOffset := 0, content := [],
         imposterContainer := none, imposterSourceElement := none }]
    elementSources := [] }

/-- The world of `doubleRubyTree` with a range collapsed at the end of the text of the first
`rt` and a range source over it that stands for an element. -/
def rubyImposterWorld : World :=
  { document := Document.ofTree doubleRubyTree
    ranges := [{ startContainer := [0, 1], startOffset := 2,
                 endContainer := [0, 1], endOffset := 2 }]
    rangeSources := [{ range := 0, rangeStartOffset := 2, content := [],
                       imposterContainer := none, imposterSourceElement := some [] }]
    elementSources := [] }

/-- The world of `<div>ab<br><br></div>` with a range collapsed at the end of the `div`, the
boundary point `(div, 3)`, and a range source over it with empty content. -/
def elementStartWorld : World :=
  { document := Document.ofTree lineBreakTree
    ranges := [{ startContainer := [], startOffset := 3, endContainer := [], endOffset := 3 }]
    rangeSources := [{ range := 0, rangeStartOffset := 3, content := [],
                       imposterContainer := none, imposterSourceElement := none }]
    elementSources := [] }

/-- The tree `<ruby>語<rt><b>ab</b>cd</rt></ruby>`. -/
def nestedRubyTree : Node :=
  elem "RUBY" [Node.text [0x8A9E], elem "RT" [elem "B" [Node.text (js "ab")],
    Node.text (js "cd")]]

/-- Modifier keys and mouse buttons in no order. -/
def mixedModifiers : List JSString := [js "mouse10", js "shift", js "mouse2", js "ctrl", js "mouse02"]

/-! # Theorems -/

/-! ## Basic facts -/

section Basic
open TextSourceRange

/-- The upper case of tag names written with U+017F, U+0131 and the ligature U+FB06. -/
theorem toUpperCase_special :
    toUpperCase [0x17F, 0x74, 0x79, 0x6C, 0x65] = js "STYLE" ∧
      toUpperCase [0x131, 0x6D, 0x67] = js "IMG" ∧
      toUpperCase [0xFB06, 0x79, 0x6C, 0x65] = js "STYLE" ∧
      toUpperCase (js "Script") = js "SCRIPT" := by
  decide

/-- The length of a comment is the length of its data: a range can end at offset 3 of the
comment `abcd`, and not at offset 5. -/
theorem setEnd_in_comment :
    commentWorld.document.length [0] = 4 ∧
      DomRange.setEnd commentWorld.document
          { startContainer := [0], startOffset := 3, endContainer := [0], endOffset := 3 }
          [0] 3 =
        Except.ok { startContainer := [0], startOffset := 3, endContainer := [0],
                    endOffset := 3 } ∧
      DomRange.setEnd commentWorld.document
          { startContainer := [0], startOffset := 3, endContainer := [0], endOffset := 3 }
          [0] 5 = Except.error JSError.indexSizeError :=
  ⟨rfl, rfl, rfl⟩

/-- From a range collapsed inside a comment, with no text after it, `setEndOffset(1)` and
`setStartOffset(1)` find nothing to read, leave the range where it is and return 0. -/
theorem setEndOffset_in_comment :
    (∃ w', TextSourceRange.setEndOffset commentWorld 0 1 = Except.ok (w', 0) ∧
      w'.ranges[0]? = some { startContainer := [0], startOffset := 3, endContainer := [0],
                             endOffset := 3 }) ∧
    ∃ w', TextSourceRange.setStartOffset commentWorld 0 1 = Except.ok (w', 0) ∧
      w'.ranges[0]? = some { startContainer := [0], startOffset := 3, endContainer := [0],
                             endOffset := 3 } :=
  ⟨⟨_, rfl, rfl⟩, ⟨_, rfl, rfl⟩⟩

theorem test_singleton (c : CodeUnit) : IGNORE_TEXT_PATTERN_test [c] = decide (c = ZWNJ) := by
  simp [IGNORE_TEXT_PATTERN_test, eq_comm]

theorem lexCompare_append_singleton (l : List Nat) (a b : Nat) :
    lexCompare (l ++ [a]) (l ++ [b]) =
      if a < b then Ordering.lt else if b < a then Ordering.gt else Ordering.eq := by
  induction l with
  | nil => simp [lexCompare]
  | cons x xs ih => simp [lexCompare, ih]

/-- Inside a text without U+200C that still has `k ≥ 1` characters after `offset`, the
forward loop takes exactly these `k` characters. -/
theorem forward_loop_plain (v : JSString) (hv : ZWNJ ∉ v) :
    ∀ (k left offset : Nat) (content : JSString), offset + (k + 1) ≤ v.length → k + 1 ≤ left →
      _seekForwardTextNode.loop v left offset content ((k : Int) + 1) =
        (offset + (k + 1), content ++ (v.drop offset).take (k + 1), 0, true) := by
  intro k
  induction k with
  | zero =>
    intro left offset content h1 h2
    obtain ⟨l, rfl⟩ : ∃ l, left = l + 1 := ⟨left - 1, by omega⟩
    have hlt : offset < v.length := by omega
    have hc : v[offset] ≠ ZWNJ := fun h => hv (h ▸ List.getElem_mem _)
    simp [_seekForwardTextNode.loop, List.getElem?_eq_getElem hlt, indexToString,
      test_singleton, hc, List.take_one_drop_eq_of_lt_length hlt]
  | succ k ih =>
    intro left offset content h1 h2
    obtain ⟨l, rfl⟩ : ∃ l, left = l + 1 := ⟨left - 1, by omega⟩
    have hlt : offset < v.length := by omega
    have hc : v[offset] ≠ ZWNJ := fun h => hv (h ▸ List.getElem_mem _)
    have hpos : ¬ ((k : Int) + 1 + 1 - 1 ≤ 0) := by omega
    have hd : List.drop offset v = v[offset] :: List.drop (offset + 1) v :=
      List.drop_eq_getElem_cons hlt
    simp only [_seekForwardTextNode.loop, List.getElem?_eq_getElem hlt, indexToString,
      test_singleton, hc, decide_False, Bool.not_false, if_true]
    have e : ((k : Int) + 1 + 1 - 1) = (k : Int) + 1 := by omega
    rw [if_neg (by push_cast; omega)]
    push_cast
    rw [e, ih l (offset + 1) (content ++ [v[offset]]) (by omega) (by omega)]
    rw [hd, List.take_succ_cons, List.append_assoc, List.singleton_append, Nat.add_assoc,
      Nat.add_comm 1 (k + 1)]

theorem Node.count_pos (n : Node) : 0 < n.count := by
  cases n <;> simp [Node.count]

/-- A forward seek that fits inside a text node without U+200C. -/
theorem seek_forward_plain (d : Document) (node : NodeRef) (v : JSString) (o n : Nat)
    (hget : d.get? node = some (Node.text v)) (hv : ZWNJ ∉ v)
    (hruby : _getRubyElement d node = none) (h : o + n ≤ v.length) :
    seek d node o n = some ⟨node, o + n, (v.drop o).take n, 0⟩ := by
  cases n with
  | zero => simp [seek]
  | succ k =>
    obtain ⟨f, hf⟩ : ∃ f, d.root.count = f + 1 := ⟨d.root.count - 1, by
      have := Node.count_pos d.root; omega⟩
    have hne : ¬ ((k : Int) + 1 = 0) := by omega
    have hge : (0 : Int) ≤ (k : Int) + 1 := by omega
    simp only [seek, hruby, hf, Nat.cast_succ, hne, if_false, ge_iff_le, hge, decide_True,
      if_true, seek.loop, hget, _seekForwardTextNode, Bool.false_eq_true]
    rw [forward_loop_plain v hv k (v.length - o) o [] (by omega) (by omega)]
    simp

/-- The outcome of `setEndOffset` once the outcomes of its steps are known. -/
theorem setEndOffset_eq (w : World) (this : Nat) (length : Int) (self : TextSourceRange)
    (r r' : DomRange) (state : SeekState)
    (hself : w.rangeSources[this]? = some self) (hr : w.ranges[self.range]? = some r)
    (hseek : seek w.document r.startContainer r.startOffset length = some state)
    (hset : DomRange.setEnd w.document r state.node state.offset = Except.ok r') :
    setEndOffset w this length =
      Except.ok ((w.setRange self.range r').setRangeSource this
        { self with content := state.content }, length - state.remainder) := by
  simp [setEndOffset, World.getRangeSource, World.getRange, hself, hr, seekResult, hseek, hset,
    bind, Except.bind, pure, Except.pure]

/-- The outcome of `setStartOffset` once the outcomes of its steps are known. -/
theorem setStartOffset_eq (w : World) (this : Nat) (length : Int) (self : TextSourceRange)
    (r r' : DomRange) (state : SeekState)
    (hself : w.rangeSources[this]? = some self) (hr : w.ranges[self.range]? = some r)
    (hseek : seek w.document r.startContainer r.startOffset (-length) = some state)
    (hset : DomRange.setStart w.document r state.node state.offset = Except.ok r') :
    setStartOffset w this length =
      Except.ok ((w.setRange self.range r').setRangeSource this
        { self with rangeStartOffset := r'.startOffset,
                    content := state.content ++ self.content }, length - state.remainder) := by
  simp [setStartOffset, World.getRangeSource, World.getRange, hself, hr, seekResult, hseek,
    hset, bind, Except.bind, pure, Except.pure]

/-- Reading back an object that was just stored. -/
theorem text_setRangeSource (w : World) (this : Nat) (x self : TextSourceRange)
    (hself : w.rangeSources[this]? = some self) :
    text (w.setRangeSource this x) this = Except.ok x.content := by
  have hlt : this < w.rangeSources.length := (List.getElem?_eq_some_iff.mp hself).1
  simp [text, World.getRangeSource, World.setRangeSource, List.getElem?_set_self hlt, bind,
    Except.bind, pure, Except.pure]

theorem ranges_setRange (w : World) (i : Nat) (x r : DomRange) (s : Nat) (y : TextSourceRange)
    (hr : w.ranges[i]? = some r) :
    ((w.setRange i x).setRangeSource s y).ranges[i]? = some x := by
  have hlt : i < w.ranges.length := (List.getElem?_eq_some_iff.mp hr).1
  simp [World.setRangeSource, World.setRange, List.getElem?_set_self hlt]

/-- Moving the end of a range to a later offset of the text node it starts in. -/
theorem setEnd_same_text (d : Document) (r : DomRange) (v : JSString) (off : Nat)
    (hget : d.get? r.startContainer = some (Node.text v)) (h1 : r.startOffset ≤ off)
    (h2 : off ≤ v.length) :
    DomRange.setEnd d r r.startContainer off =
      Except.ok { r with endContainer := r.startContainer, endOffset := off } := by
  have hlt : ¬ (off < r.startOffset) := by omega
  have hle : ¬ (v.length < off) := by omega
  simp [DomRange.setEnd, DomRange.checkPoint, hget, Document.length, Document.comparePoints,
    lexCompare_append_singleton, hlt, hle]

end Basic

/-! ## The loop of `seek` along a segment of the walk -/

section Walk
open TextSourceRange

theorem seek_loop_succ (d : Document) (forward : Bool) (fuel : Nat) (p : NodeRef)
    (st : SeekState) (reset : Bool) :
    seek.loop d forward (fuel + 1) (some p) st reset =
      if (visitNode d forward p st reset).2.2 then some (visitNode d forward p st reset).1
      else seek.loop d forward fuel (walkStep d forward p) (visitNode d forward p st reset).1
        (visitNode d forward p st reset).2.1 := by
  rw [seek.loop]
  unfold visitNode walkStep visitChildren
  cases hg : d.get? p with
  | none => cases forward <;> simp
  | some t => cases t <;> cases forward <;> simp

theorem seek_loop_none (d : Document) (forward : Bool) (fuel : Nat) (st : SeekState)
    (reset : Bool) : seek.loop d forward fuel none st reset = some st := by
  cases fuel <;> simp [seek.loop]

theorem Segment.append {d : Document} {forward : Bool} {a b c : Option NodeRef}
    {l₁ l₂ : List NodeRef} (h₁ : Segment d forward a l₁ b) (h₂ : Segment d forward b l₂ c) :
    Segment d forward a (l₁ ++ l₂) c := by
  induction h₁ with
  | done a => simpa using h₂
  | visit p l b _ ih => exact Segment.visit p _ _ (ih h₂)

/-- Along a segment the loop of `seek` performs the visits of its nodes one after the other
and, without a break, goes on from the node the segment arrives at. -/
theorem seek_loop_segment {d : Document} {forward : Bool} {a b : Option NodeRef}
    {l : List NodeRef} (h : Segment d forward a l b) :
    ∀ (fuel : Nat) (st : SeekState) (reset : Bool),
      seek.loop d forward (l.length + fuel) a st reset =
        if (visitNodes d forward l st reset).2.2 then some (visitNodes d forward l st reset).1
        else seek.loop d forward fuel b (visitNodes d forward l st reset).1
          (visitNodes d forward l st reset).2.1 := by
  induction h with
  | done a => intro fuel st reset; simp [visitNodes]
  | visit p l b _ ih =>
    intro fuel st reset
    have e : (p :: l).length + fuel = (l.length + fuel) + 1 := by simp; omega
    rw [e, seek_loop_succ]
    by_cases hb : (visitNode d forward p st reset).2.2 = true
    · simp [visitNodes, hb]
    · simp only [visitNodes, hb, if_false, Bool.false_eq_true]
      exact ih fuel _ _

/-! ### One text node -/

theorem takeVis_zero (s : JSString) : takeVis s 0 = 0 := by
  cases s <;> simp [takeVis]

theorem takeVis_le (s : JSString) : ∀ k, takeVis s k ≤ s.length := by
  induction s with
  | nil => intro k; simp [takeVis]
  | cons c s ih =>
    intro k
    cases k with
    | zero => simp [takeVis]
    | succ k =>
      have h1 := ih (k + 1)
      have h2 := ih k
      by_cases hc : c = ZWNJ <;> simp [takeVis, hc] <;> omega

theorem visible_cons (c : CodeUnit) (s : JSString) :
    visible (c :: s) = if c = ZWNJ then visible s else c :: visible s := by
  by_cases hc : c = ZWNJ <;> simp [visible, hc]

theorem visible_append (s t : JSString) : visible (s ++ t) = visible s ++ visible t := by
  simp [visible]

/-- The forward loop over a text node, from any offset. -/
theorem forward_loop_eq (v : JSString) :
    ∀ (left o : Nat) (content : JSString) (k : Nat), left = v.length - o →
      _seekForwardTextNode.loop v left o content ((k : Int) + 1) =
        (o + takeVis (v.drop o) (k + 1), content ++ (visible (v.drop o)).take (k + 1),
          (k : Int) + 1 - (((visible (v.drop o)).take (k + 1)).length : Int),
          decide (k + 1 ≤ (visible (v.drop o)).length)) := by
  intro left
  induction left with
  | zero =>
    intro o content k h
    have hd : v.drop o = [] := List.drop_eq_nil_of_le (by omega)
    simp [_seekForwardTextNode.loop, hd, takeVis, visible]
  | succ left ih =>
    intro o content k h
    have hlt : o < v.length := by omega
    have hd : v.drop o = v[o] :: v.drop (o + 1) := List.drop_eq_getElem_cons hlt
    rw [_seekForwardTextNode.loop]
    simp only [List.getElem?_eq_getElem hlt, indexToString, test_singleton, hd, visible_cons,
      takeVis]
    by_cases hc : v[o] = ZWNJ
    · simp only [hc, decide_True, Bool.not_true, Bool.false_eq_true, if_false, if_true]
      rw [ih (o + 1) content k (by omega)]
      simp [Nat.add_assoc]
    · simp only [hc, decide_False, Bool.not_false, if_true, if_false]
      cases k with
      | zero =>
        simp [takeVis_zero]
      | succ k =>
        have hpos : ¬ (((k + 1 : Nat) : Int) + 1 - 1 ≤ 0) := by omega
        rw [if_neg hpos]
        have e : (((k + 1 : Nat) : Int) + 1 - 1) = (k : Int) + 1 := by omega
        rw [e, ih (o + 1) (content ++ [v[o]]) k (by omega)]
        simp [Nat.add_assoc, List.take_succ_cons]

/-- The backward loop over a text node, from an offset inside it. -/
theorem backward_loop_eq (v : JSString) :
    ∀ (o : Nat) (content : JSString) (k : Nat), o ≤ v.length →
      _seekBackwardTextNode.loop v o content ((k : Int) + 1) =
        (o - takeVis (v.take o).reverse (k + 1),
          ((visible (v.take o).reverse).take (k + 1)).reverse ++ content,
          (k : Int) + 1 - (((visible (v.take o).reverse).take (k + 1)).length : Int),
          decide (k + 1 ≤ (visible (v.take o).reverse).length)) := by
  intro o
  induction o with
  | zero =>
    intro content k _
    simp [_seekBackwardTextNode.loop, takeVis, visible]
  | succ o ih =>
    intro content k h
    have hlt : o < v.length := by omega
    have hd : (v.take (o + 1)).reverse = v[o] :: (v.take o).reverse := by
      rw [List.take_succ, List.getElem?_eq_getElem hlt]
      simp
    rw [_seekBackwardTextNode.loop]
    simp only [List.getElem?_eq_getElem hlt, indexToString, test_singleton, hd, visible_cons,
      takeVis]
    have hle := takeVis_le (v.take o).reverse
    have hlen : (v.take o).reverse.length = o := by simp; omega
    by_cases hc : v[o] = ZWNJ
    · simp only [hc, decide_True, Bool.not_true, Bool.false_eq_true, if_false, if_true]
      rw [ih content k (by omega)]
      have := hle (k + 1)
      simp
      omega
    · simp only [hc, decide_False, Bool.not_false, if_true, if_false]
      cases k with
      | zero =>
        simp [takeVis_zero]
      | succ k =>
        have hpos : ¬ (((k + 1 : Nat) : Int) + 1 - 1 ≤ 0) := by omega
        rw [if_neg hpos]
        have e : (((k + 1 : Nat) : Int) + 1 - 1) = (k : Int) + 1 := by omega
        rw [e, ih ([v[o]] ++ content) k (by omega)]
        have := hle (k + 1)
        simp [List.take_succ_cons]
        omega

theorem takeVis_append_of_le (t : JSString) :
    ∀ (s : JSString) (k : Nat), k ≤ (visible s).length → takeVis (s ++ t) k = takeVis s k := by
  intro s
  induction s with
  | nil => intro k h; simp [visible] at h; subst h; simp [takeVis_zero]
  | cons c s ih =>
    intro k h
    cases k with
    | zero => simp [takeVis]
    | succ k =>
      rw [visible_cons] at h
      by_cases hc : c = ZWNJ
      · simp only [hc, if_true] at h
        simp [takeVis, hc, ih (k + 1) h]
      · simp only [hc, if_false, List.length_cons] at h
        simp [takeVis, hc, ih k (by omega)]

theorem takeVis_append_of_gt (t : JSString) :
    ∀ (s : JSString) (k : Nat), (visible s).length < k →
      takeVis (s ++ t) k = s.length + takeVis t (k - (visible s).length) := by
  intro s
  induction s with
  | nil => intro k _; simp [visible]
  | cons c s ih =>
    intro k h
    cases k with
    | zero => omega
    | succ k =>
      rw [visible_cons] at h ⊢
      by_cases hc : c = ZWNJ
      · simp only [hc, if_true] at h ⊢
        simp [takeVis, ih (k + 1) h]
        omega
      · simp only [hc, if_false, List.length_cons] at h ⊢
        simp [takeVis, hc, ih k (by omega)]
        omega

theorem textOf_nil (d : Document) : d.textOf [] = [] := by simp [Document.textOf]

theorem textOf_cons (d : Document) (q : NodeRef) (l : List NodeRef) :
    d.textOf (q :: l) = (d.textAt q).getD [] ++ d.textOf l := by
  cases h : d.textAt q <;> simp [Document.textOf, List.filterMap_cons, h]

theorem textOf_append (d : Document) (l₁ l₂ : List NodeRef) :
    d.textOf (l₁ ++ l₂) = d.textOf l₁ ++ d.textOf l₂ := by
  simp [Document.textOf, List.filterMap_append]

theorem textAt_eq_some {d : Document} {q : NodeRef} {v : JSString} :
    d.textAt q = some v ↔ d.get? q = some (Node.text v) := by
  unfold Document.textAt
  cases hg : d.get? q with
  | none => simp
  | some t => cases t <;> simp [Node.nodeValue]

theorem visitNode_of_not_text {d : Document} {q : NodeRef} (h : d.textAt q = none)
    (forward : Bool) (st : SeekState) (reset : Bool) :
    visitNode d forward q st reset = (st, reset, false) := by
  unfold visitNode
  cases hg : d.get? q with
  | none => rfl
  | some t =>
    cases t with
    | text v => simp [Document.textAt, hg, Node.nodeValue] at h
    | element _ _ _ _ _ => rfl
    | other _ _ _ _ => rfl

theorem visitNode_forward_text {d : Document} {q : NodeRef} {v : JSString}
    (h : d.textAt q = some v) (st : SeekState) (reset : Bool) (k : Nat)
    (hk : st.remainder = (k : Int) + 1) :
    visitNode d true q st reset =
      ({ node := q,
         offset := (if reset then 0 else st.offset) +
           takeVis (v.drop (if reset then 0 else st.offset)) (k + 1),
         content := st.content ++
           (visible (v.drop (if reset then 0 else st.offset))).take (k + 1),
         remainder := (k : Int) + 1 -
           (((visible (v.drop (if reset then 0 else st.offset))).take (k + 1)).length : Int) },
       true, decide (k + 1 ≤ (visible (v.drop (if reset then 0 else st.offset))).length)) := by
  unfold visitNode
  rw [textAt_eq_some.mp h]
  simp only [if_true, _seekForwardTextNode, hk]
  rw [forward_loop_eq v _ _ _ k rfl]

/-- The visits of a forward walk over a list of nodes, each text entered at its start: the
content grows by the first `k + 1` non-ignorable characters of the text of the list, and the
final position lies in the list at the raw distance the scan has covered. -/
theorem visitNodes_forward (d : Document) :
    ∀ (l : List NodeRef) (st : SeekState) (k : Nat), st.remainder = (k : Int) + 1 →
      (visitNodes d true l st true).1.content =
          st.content ++ (visible (d.textOf l)).take (k + 1) ∧
        (visitNodes d true l st true).1.remainder =
          (k : Int) + 1 - (((visible (d.textOf l)).take (k + 1)).length : Int) ∧
        (visitNodes d true l st true).2.2 = decide (k + 1 ≤ (visible (d.textOf l)).length) ∧
        ((l.filterMap d.textAt = [] ∧ (visitNodes d true l st true).1 = st) ∨
          ∃ l₁ l₂ v, l = l₁ ++ (visitNodes d true l st true).1.node :: l₂ ∧
            d.textAt (visitNodes d true l st true).1.node = some v ∧
            (visitNodes d true l st true).1.offset ≤ v.length ∧
            (d.textOf l₁).length + (visitNodes d true l st true).1.offset =
              takeVis (d.textOf l) (k + 1)) := by
  intro l
  induction l with
  | nil =>
    intro st k hk
    simp [visitNodes, textOf_nil, visible, hk]
  | cons q l ih =>
    intro st k hk
    cases hq : d.textAt q with
    | none =>
      obtain ⟨h1, h2, h3, h4⟩ := ih st k hk
      have hv : visitNodes d true (q :: l) st true = visitNodes d true l st true := by
        simp [visitNodes, visitNode_of_not_text hq]
      have ht : d.textOf (q :: l) = d.textOf l := by simp [textOf_cons, hq]
      rw [hv, ht]
      refine ⟨h1, h2, h3, ?_⟩
      rcases h4 with ⟨h5, h6⟩ | ⟨l₁, l₂, v, h5, h6, h7, h8⟩
      · left
        exact ⟨by simp [List.filterMap_cons, hq, h5], h6⟩
      · right
        refine ⟨q :: l₁, l₂, v, by rw [List.cons_append, ← h5], h6, h7, ?_⟩
        rw [textOf_cons, hq]
        simpa using h8
    | some v =>
      have hvis := visitNode_forward_text hq st true k hk
      simp only [if_true, List.drop_zero, Nat.zero_add] at hvis
      have ht : d.textOf (q :: l) = v ++ d.textOf l := by simp [textOf_cons, hq]
      rw [ht, visible_append]
      by_cases hfound : k + 1 ≤ (visible v).length
      · have hv : visitNodes d true (q :: l) st true = visitNode d true q st true := by
          simp [visitNodes, hvis, hfound]
        rw [hv, hvis]
        refine ⟨?_, ?_, ?_, Or.inr ⟨[], l, v, rfl, hq, takeVis_le v _, ?_⟩⟩
        · simp [List.take_append_of_le_length hfound]
        · simp [List.take_append_of_le_length hfound]
        · simp [hfound]; omega
        · simp [textOf_nil, takeVis_append_of_le _ _ _ hfound]
      · have hlt : (visible v).length < k + 1 := by omega
        obtain ⟨k', hk'⟩ : ∃ k', k + 1 = (visible v).length + (k' + 1) :=
          ⟨k - (visible v).length, by omega⟩
        have htake : (visible v).take (k + 1) = visible v := List.take_of_length_le (by omega)
        have hv : visitNodes d true (q :: l) st true =
            visitNodes d true l (visitNode d true q st true).1 true := by
          simp [visitNodes, hvis, hfound]
        have hrem : (visitNode d true q st true).1.remainder = (k' : Int) + 1 := by
          rw [hvis, htake]; simp only; omega
        obtain ⟨h1, h2, h3, h4⟩ := ih (visitNode d true q st true).1 k' hrem
        have htake2 : (visible v ++ visible (d.textOf l)).take (k + 1) =
            visible v ++ (visible (d.textOf l)).take (k' + 1) := by
          rw [List.take_append_eq_append_take, htake]
          congr 2
          omega
        have hvis_full : takeVis v (k + 1) = v.length := by
          have := takeVis_append_of_gt [] v (k + 1) hlt
          simpa [takeVis] using this
        rw [hv, htake2]
        refine ⟨?_, ?_, ?_, ?_⟩
        · rw [h1, hvis, htake]; simp
        · rw [h2]; simp; omega
        · rw [h3]; simp; omega
        · right
          rw [takeVis_append_of_gt _ _ _ hlt]
          have hk'' : k + 1 - (visible v).length = k' + 1 := by omega
          rw [hk'']
          rcases h4 with ⟨h5, h6⟩ | ⟨l₁, l₂, v', h5, h6, h7, h8⟩
          · have hT : d.textOf l = [] := by simp [Document.textOf, h5]
            rw [h6, hvis]
            refine ⟨[], l, v, rfl, hq, ?_, ?_⟩
            · simp only; rw [hvis_full]
            · simp [textOf_nil, hvis_full, hT, takeVis]
          · refine ⟨q :: l₁, l₂, v', by rw [List.cons_append, ← h5], h6, h7, ?_⟩
            rw [textOf_cons, hq]
            simp only [Option.getD_some, List.length_append]
            omega

theorem revTextOf_nil (d : Document) : d.revTextOf [] = [] := by simp [Document.revTextOf]

theorem revTextOf_cons (d : Document) (q : NodeRef) (l : List NodeRef) :
    d.revTextOf (q :: l) = ((d.textAt q).getD []).reverse ++ d.revTextOf l := by
  cases h : d.textAt q <;> simp [Document.revTextOf, List.filterMap_cons, h]

theorem revTextOf_eq (d : Document) (l : List NodeRef) :
    d.revTextOf l = (d.textOf l.reverse).reverse := by
  induction l with
  | nil => simp [Document.revTextOf, Document.textOf]
  | cons q l ih =>
    rw [revTextOf_cons, List.reverse_cons, textOf_append, textOf_cons, textOf_nil, ih]
    simp

theorem visitNode_backward_text {d : Document} {q : NodeRef} {v : JSString}
    (h : d.textAt q = some v) (st : SeekState) (reset : Bool) (k : Nat)
    (hk : st.remainder = (k : Int) + 1)
    (ho : (if reset then v.length else st.offset) ≤ v.length) :
    visitNode d false q st reset =
      ({ node := q,
         offset := (if reset then v.length else st.offset) -
           takeVis (v.take (if reset then v.length else st.offset)).reverse (k + 1),
         content :=
           ((visible (v.take (if reset then v.length else st.offset)).reverse).take
             (k + 1)).reverse ++ st.content,
         remainder := (k : Int) + 1 -
           (((visible (v.take (if reset then v.length else st.offset)).reverse).take
             (k + 1)).length : Int) },
       true,
       decide (k + 1 ≤
         (visible (v.take (if reset then v.length else st.offset)).reverse).length)) := by
  unfold visitNode
  rw [textAt_eq_some.mp h]
  simp only [Bool.false_eq_true, if_false, _seekBackwardTextNode, hk]
  rw [backward_loop_eq v _ _ k ho]

/-- The visits of a backward walk over a list of nodes, each text entered at its end. -/
theorem visitNodes_backward (d : Document) :
    ∀ (l : List NodeRef) (st : SeekState) (k : Nat), st.remainder = (k : Int) + 1 →
      (visitNodes d false l st true).1.content =
          ((visible (d.revTextOf l)).take (k + 1)).reverse ++ st.content ∧
        (visitNodes d false l st true).1.remainder =
          (k : Int) + 1 - (((visible (d.revTextOf l)).take (k + 1)).length : Int) ∧
        (visitNodes d false l st true).2.2 =
          decide (k + 1 ≤ (visible (d.revTextOf l)).length) ∧
        ((l.filterMap d.textAt = [] ∧ (visitNodes d false l st true).1 = st) ∨
          ∃ l₁ l₂ v, l = l₁ ++ (visitNodes d false l st true).1.node :: l₂ ∧
            d.textAt (visitNodes d false l st true).1.node = some v ∧
            (visitNodes d false l st true).1.offset ≤ v.length ∧
            (d.revTextOf l₁).length + (v.length - (visitNodes d false l st true).1.offset) =
              takeVis (d.revTextOf l) (k + 1)) := by
  intro l
  induction l with
  | nil =>
    intro st k hk
    simp [visitNodes, revTextOf_nil, visible, hk]
  | cons q l ih =>
    intro st k hk
    cases hq : d.textAt q with
    | none =>
      obtain ⟨h1, h2, h3, h4⟩ := ih st k hk
      have hv : visitNodes d false (q :: l) st true = visitNodes d false l st true := by
        simp [visitNodes, visitNode_of_not_text hq]
      have ht : d.revTextOf (q :: l) = d.revTextOf l := by simp [revTextOf_cons, hq]
      rw [hv, ht]
      refine ⟨h1, h2, h3, ?_⟩
      rcases h4 with ⟨h5, h6⟩ | ⟨l₁, l₂, v, h5, h6, h7, h8⟩
      · left
        exact ⟨by simp [List.filterMap_cons, hq, h5], h6⟩
      · right
        refine ⟨q :: l₁, l₂, v, by rw [List.cons_append, ← h5], h6, h7, ?_⟩
        rw [revTextOf_cons, hq]
        simpa using h8
    | some v =>
      have hvis := visitNode_backward_text hq st true k hk (by simp)
      simp only [if_true, List.take_length] at hvis
      have ht : d.revTextOf (q :: l) = v.reverse ++ d.revTextOf l := by
        simp [revTextOf_cons, hq]
      have hle := takeVis_le v.reverse (k + 1)
      rw [List.length_reverse] at hle
      rw [ht, visible_append]
      by_cases hfound : k + 1 ≤ (visible v.reverse).length
      · have hv : visitNodes d false (q :: l) st true = visitNode d false q st true := by
          simp [visitNodes, hvis, hfound]
        rw [hv, hvis]
        refine ⟨?_, ?_, ?_, Or.inr ⟨[], l, v, rfl, hq, by simp, ?_⟩⟩
        · simp [List.take_append_of_le_length hfound]
        · simp [List.take_append_of_le_length hfound]
        · simp [hfound]; omega
        · simp only [revTextOf_nil, List.length_nil, Nat.zero_add,
            takeVis_append_of_le _ _ _ hfound]
          omega
      · have hlt : (visible v.reverse).length < k + 1 := by omega
        obtain ⟨k', hk'⟩ : ∃ k', k + 1 = (visible v.reverse).length + (k' + 1) :=
          ⟨k - (visible v.reverse).length, by omega⟩
        have htake : (visible v.reverse).take (k + 1) = visible v.reverse :=
          List.take_of_length_le (by omega)
        have hv : visitNodes d false (q :: l) st true =
            visitNodes d false l (visitNode d false q st true).1 true := by
          simp [visitNodes, hvis, hfound]
        have hrem : (visitNode d false q st true).1.remainder = (k' : Int) + 1 := by
          rw [hvis, htake]; simp only; omega
        obtain ⟨h1, h2, h3, h4⟩ := ih (visitNode d false q st true).1 k' hrem
        have htake2 : (visible v.reverse ++ visible (d.revTextOf l)).take (k + 1) =
            visible v.reverse ++ (visible (d.revTextOf l)).take (k' + 1) := by
          rw [List.take_append_eq_append_take, htake]
          congr 2
          omega
        have hvis_full : takeVis v.reverse (k + 1) = v.length := by
          have := takeVis_append_of_gt [] v.reverse (k + 1) hlt
          simpa [takeVis] using this
        rw [hv, htake2]
        refine ⟨?_, ?_, ?_, ?_⟩
        · rw [h1, hvis, htake]; simp
        · rw [h2]; simp; omega
        · rw [h3]; simp; omega
        · right
          rw [takeVis_append_of_gt _ _ _ hlt]
          have hk'' : k + 1 - (visible v.reverse).length = k' + 1 := by omega
          rw [hk'']
          rcases h4 with ⟨h5, h6⟩ | ⟨l₁, l₂, v', h5, h6, h7, h8⟩
          · have hT : d.revTextOf l = [] := by simp [Document.revTextOf, h5]
            rw [h6, hvis]
            refine ⟨[], l, v, rfl, hq, ?_, ?_⟩
            · simp only; omega
            · simp [revTextOf_nil, hvis_full, hT, takeVis]
          · refine ⟨q :: l₁, l₂, v', by rw [List.cons_append, ← h5], h6, h7, ?_⟩
            rw [revTextOf_cons, hq]
            simp only [Option.getD_some, List.length_append, List.length_reverse]
            omega

/-! ### Children and siblings -/

theorem kidsFrom_zero (d : Document) (p : NodeRef) (i : Nat) : kidsFrom d p i 0 = [] := by
  simp [kidsFrom]

theorem kidsFrom_succ (d : Document) (p : NodeRef) (i m : Nat) :
    kidsFrom d p i (m + 1) =
      (if (i :: p) ∈ d.detached then [] else [i :: p]) ++ kidsFrom d p (i + 1) m := by
  simp only [kidsFrom, List.range'_succ, List.map_cons, List.filter_cons]
  by_cases h : (i :: p) ∈ d.detached <;> simp [h]

theorem kidsFrom_add (d : Document) (p : NodeRef) (i m₁ m₂ : Nat) :
    kidsFrom d p i (m₁ + m₂) = kidsFrom d p i m₁ ++ kidsFrom d p (i + m₁) m₂ := by
  simp only [kidsFrom, ← List.filter_append, ← List.map_append]
  rw [List.range'_append_1, Nat.add_comm]

theorem mem_kidsFrom {d : Document} {p : NodeRef} {i m : Nat} {c : NodeRef} :
    c ∈ kidsFrom d p i m ↔ ∃ j, c = j :: p ∧ i ≤ j ∧ j < i + m ∧ (j :: p) ∉ d.detached := by
  simp only [kidsFrom, List.mem_filter, List.mem_map, List.mem_range'_1, decide_eq_true_eq]
  constructor
  · rintro ⟨⟨j, ⟨h1, h2⟩, rfl⟩, h3⟩
    exact ⟨j, rfl, h1, h2, h3⟩
  · rintro ⟨j, rfl, h1, h2, h3⟩
    exact ⟨⟨j, ⟨h1, h2⟩, rfl⟩, h3⟩

theorem childRefs_eq {d : Document} {p : NodeRef} {t : Node} (h : d.get? p = some t) :
    d.childRefs p = kidsFrom d p 0 t.childNodes.length := by
  simp [Document.childRefs, h, kidsFrom, List.range_eq_range']

theorem childRefs_pairwise (d : Document) (p : NodeRef) :
    (d.childRefs p).Pairwise (fun a b => a.headD 0 < b.headD 0) := by
  unfold Document.childRefs
  cases d.get? p with
  | none => simp
  | some t =>
    refine List.Pairwise.filter _ ?_
    rw [List.pairwise_map]
    exact (List.pairwise_lt_range _).imp (fun h => by simpa using h)

theorem mem_childRefs {d : Document} {p c : NodeRef} (h : c ∈ d.childRefs p) :
    ∃ i t, c = i :: p ∧ d.get? p = some t ∧ i < t.childNodes.length ∧ c ∉ d.detached := by
  unfold Document.childRefs at h
  cases hg : d.get? p with
  | none => simp [hg] at h
  | some t =>
    simp only [hg, List.mem_filter, List.mem_map, List.mem_range, decide_eq_true_eq] at h
    obtain ⟨⟨i, hi, rfl⟩, hd⟩ := h
    exact ⟨i, t, rfl, rfl, hi, hd⟩

theorem parentNode_of_mem_childRefs {d : Document} {p c : NodeRef} (h : c ∈ d.childRefs p) :
    d.parentNode c = some p := by
  obtain ⟨i, t, rfl, _, _, hd⟩ := mem_childRefs h
  simp [Document.parentNode, hd]

theorem nextSibling_of_split {d : Document} {q c : NodeRef} {A B : List NodeRef}
    (h : d.childRefs q = A ++ c :: B) : d.nextSibling c = B.head? := by
  have hc : c ∈ d.childRefs q := by simp [h]
  have hp := parentNode_of_mem_childRefs hc
  obtain ⟨i, t, rfl, _, _, _⟩ := mem_childRefs hc
  have hs := childRefs_pairwise d q
  rw [h, List.pairwise_append] at hs
  obtain ⟨_, hB, hAB⟩ := hs
  rw [List.pairwise_cons] at hB
  simp only [Document.nextSibling, hp, h, List.find?_append]
  have hA : List.find? (fun c => decide (i < c.headD 0)) A = none := by
    rw [List.find?_eq_none]
    intro a ha
    have := hAB a ha (i :: q) (by simp)
    simp at this ⊢
    omega
  rw [hA]
  cases B with
  | nil => simp [List.find?]
  | cons b B' =>
    have := hB.1 b (by simp)
    simp at this
    simp [List.find?, this]

theorem previousSibling_of_split {d : Document} {q c : NodeRef} {A B : List NodeRef}
    (h : d.childRefs q = A ++ c :: B) : d.previousSibling c = A.getLast? := by
  have hc : c ∈ d.childRefs q := by simp [h]
  have hp := parentNode_of_mem_childRefs hc
  obtain ⟨i, t, rfl, _, _, _⟩ := mem_childRefs hc
  have hs := childRefs_pairwise d q
  rw [h, List.pairwise_append] at hs
  obtain ⟨_, hB, hAB⟩ := hs
  rw [List.pairwise_cons] at hB
  simp only [Document.previousSibling, hp, h, List.filter_append]
  have hA : List.filter (fun c => decide (c.headD 0 < i)) A = A := by
    rw [List.filter_eq_self]
    intro a ha
    have := hAB a ha (i :: q) (by simp)
    simpa using this
  have hB' : List.filter (fun c => decide (c.headD 0 < i)) ((i :: q) :: B) = [] := by
    rw [List.filter_eq_nil_iff]
    intro b hb
    rcases List.mem_cons.mp hb with rfl | hb
    · simp
    · have := hB.1 b hb
      simp at this ⊢
      omega
  rw [hA, hB']
  simp

theorem getNode_true (d : Document) (forward : Bool) (p : NodeRef) :
    getNode d forward p true =
      match (kids d forward p).head? with
      | some c => some c
      | none => getNode d forward p false := by
  cases forward
  · simp [getNode, kids, _getPreviousNode, Document.lastChild, List.head?_reverse]
  · simp [getNode, kids, _getNextNode, Document.firstChild]

theorem getNode_child {d : Document} {forward : Bool} {q c : NodeRef} {A B : List NodeRef}
    (h : kids d forward q = A ++ c :: B) :
    getNode d forward c false =
      match B.head? with
      | some s => some s
      | none => getNode d forward q false := by
  cases forward
  · have h' : d.childRefs q = B.reverse ++ c :: A.reverse := by
      have := congrArg List.reverse h
      simpa [kids] using this
    have hc : c ∈ d.childRefs q := by simp [h']
    have hp := parentNode_of_mem_childRefs hc
    obtain ⟨i, t, rfl, _, _, _⟩ := mem_childRefs hc
    have hs := previousSibling_of_split h'
    simp only [getNode, _getPreviousNode, Bool.false_eq_true, if_false, List.length_cons,
      _getPreviousNode.loop, hs, hp, List.getLast?_reverse]
  · have h' : d.childRefs q = A ++ c :: B := by simpa [kids] using h
    have hc : c ∈ d.childRefs q := by simp [h']
    have hp := parentNode_of_mem_childRefs hc
    obtain ⟨i, t, rfl, _, _, _⟩ := mem_childRefs hc
    have hs := nextSibling_of_split h'
    simp only [getNode, _getNextNode, Bool.false_eq_true, if_false, List.length_cons,
      _getNextNode.loop, hs, hp, if_true]

theorem walkStep_eq (d : Document) (forward : Bool) (p : NodeRef) :
    walkStep d forward p = getNode d forward p (visitChildren d p) := by
  cases forward <;> simp [walkStep, getNode]

/-- The walk through the rest of a list of siblings, given the walk through each of their
subtrees. -/
theorem segment_siblings (d : Document) (forward : Bool) (q : NodeRef) :
    ∀ (rest pre : List NodeRef), kids d forward q = pre ++ rest →
      (∀ c ∈ rest, Segment d forward (some c) (subOrder d forward c) (getNode d forward c false)) →
      Segment d forward
        (match rest.head? with
          | some c => some c
          | none => getNode d forward q false)
        ((rest.map (subOrder d forward)).flatten) (getNode d forward q false) := by
  intro rest
  induction rest with
  | nil => intro pre _ _; exact Segment.done _
  | cons c rest ih =>
    intro pre hk hsub
    have h1 := hsub c (by simp)
    have h2 := ih (pre ++ [c]) (by simpa using hk) (fun x hx => hsub x (by simp [hx]))
    rw [← getNode_child hk] at h2
    simpa using h1.append h2

theorem get?_child {d : Document} {p : NodeRef} {t : Node} (h : d.get? p = some t) (i : Nat) :
    d.get? (i :: p) = t.childNodes[i]? := by
  simp only [Document.get?, Node.get?] at h ⊢
  rw [h]
  rfl

theorem get?_parent {d : Document} {p : NodeRef} {i : Nat} {c : Node}
    (h : d.get? (i :: p) = some c) : ∃ t, d.get? p = some t ∧ t.childNodes[i]? = some c := by
  simp only [Document.get?, Node.get?] at h ⊢
  cases hg : d.root.get? p with
  | none => simp [hg] at h
  | some t => exact ⟨t, rfl, by simpa [hg] using h⟩

theorem count_le_countList {c : Node} : ∀ {cs : List Node}, c ∈ cs → c.count ≤ Node.countList cs
  | [], h => by simp at h
  | x :: xs, h => by
    rcases List.mem_cons.mp h with rfl | h
    · simp [Node.countList]
    · have := count_le_countList h
      simp [Node.countList]
      omega

theorem count_child_lt {t c : Node} (h : c ∈ t.childNodes) : c.count < t.count := by
  cases t with
  | text v => simp [Node.childNodes] at h
  | element n st a v cs =>
    have := @count_le_countList _ cs (by simpa [Node.childNodes] using h)
    simp [Node.count]; omega
  | other k n dt cs =>
    have := @count_le_countList _ cs (by simpa [Node.childNodes] using h)
    simp [Node.count]; omega

/-- The walk order of a list of children, in terms of the children that are still there. -/
theorem walkOrderList_eq (d : Document) (forward : Bool) (p : NodeRef) :
    ∀ (cs : List Node) (i : Nat),
      (∀ j c, cs[j]? = some c → d.get? ((i + j) :: p) = some c) →
      walkOrderList d forward p i cs =
        ((if forward then kidsFrom d p i cs.length
          else (kidsFrom d p i cs.length).reverse).map (subOrder d forward)).flatten := by
  intro cs
  induction cs with
  | nil => intro i _; cases forward <;> simp [walkOrderList, kidsFrom_zero]
  | cons c cs ih =>
    intro i h
    have h0 : d.get? (i :: p) = some c := by simpa using h 0 c (by simp)
    have ih' := ih (i + 1) (fun j x hx => by
      have := h (j + 1) x (by simpa using hx)
      rwa [show i + (j + 1) = i + 1 + j by omega] at this)
    rw [walkOrderList, ih', List.length_cons, kidsFrom_succ]
    by_cases hd : (i :: p) ∈ d.detached <;> cases forward <;> simp [hd, subOrder, h0]

theorem kids_eq {d : Document} {p : NodeRef} {t : Node} (h : d.get? p = some t)
    (forward : Bool) :
    kids d forward p = if forward then kidsFrom d p 0 t.childNodes.length
      else (kidsFrom d p 0 t.childNodes.length).reverse := by
  simp [kids, childRefs_eq h]

theorem walkOrderList_children {d : Document} {p : NodeRef} {t : Node} (h : d.get? p = some t)
    (forward : Bool) :
    walkOrderList d forward p 0 t.childNodes =
      ((kids d forward p).map (subOrder d forward)).flatten := by
  rw [kids_eq h, walkOrderList_eq]
  intro j c hc
  rw [Nat.zero_add, get?_child h, hc]

/-- The walk through the subtree of a node: it visits the walk order of the subtree and
arrives where `getNode` without a visit of the children leads from the node. -/
theorem segment_subtree (d : Document) (forward : Bool) :
    ∀ (n : Nat) (p : NodeRef) (t : Node), t.count ≤ n → d.get? p = some t →
      Segment d forward (some p) (walkOrder d forward p t) (getNode d forward p false) := by
  intro n
  induction n with
  | zero => intro p t h; have := Node.count_pos t; omega
  | succ n ih =>
    intro p t hn hg
    have hkids : ∀ c ∈ kids d forward p,
        Segment d forward (some c) (subOrder d forward c) (getNode d forward c false) := by
      intro c hc
      have hc' : c ∈ d.childRefs p := by
        cases forward <;> simpa [kids] using hc
      obtain ⟨i, t', rfl, hg', hi, _⟩ := mem_childRefs hc'
      rw [hg] at hg'
      cases hg'
      have hgc : d.get? (i :: p) = some t.childNodes[i] := by
        rw [get?_child hg, List.getElem?_eq_getElem hi]
      have hlt := count_child_lt (List.getElem_mem hi)
      simpa [subOrder, hgc] using ih (i :: p) _ (by omega) hgc
    have hall := segment_siblings d forward p (kids d forward p) [] (by simp) hkids
    rw [← getNode_true, ← walkOrderList_children hg] at hall
    have hstep := walkStep_eq d forward p
    cases t with
    | text v =>
      have hk : kids d forward p = [] := by
        rw [kids_eq hg]; cases forward <;> simp [Node.childNodes, kidsFrom_zero]
      refine Segment.visit p [] _ ?_
      rw [hstep]
      simp only [visitChildren, hg]
      rw [getNode_true, hk]
      exact Segment.done _
    | element name st a v cs =>
      simp only [visitChildren, hg] at hstep
      by_cases he : _shouldEnter name st = true
      · simp only [walkOrder, he, if_true]
        refine Segment.visit p _ _ ?_
        rw [hstep, he]
        simpa [Node.childNodes] using hall
      · simp only [walkOrder, he, if_false, Bool.false_eq_true]
        refine Segment.visit p [] _ ?_
        rw [hstep]
        simp only [Bool.not_eq_true] at he
        rw [he]
        exact Segment.done _
    | other k name dt cs =>
      simp only [visitChildren, hg] at hstep
      simp only [walkOrder]
      refine Segment.visit p _ _ ?_
      rw [hstep]
      simpa [Node.childNodes] using hall

theorem segment_subOrder (d : Document) (forward : Bool) (q : NodeRef) {c : NodeRef}
    (hc : c ∈ d.childRefs q) :
    Segment d forward (some c) (subOrder d forward c) (getNode d forward c false) := by
  obtain ⟨i, t, rfl, hg, hi, _⟩ := mem_childRefs hc
  have hgc : d.get? (i :: q) = some t.childNodes[i] := by
    rw [get?_child hg, List.getElem?_eq_getElem hi]
  simpa [subOrder, hgc] using segment_subtree d forward _ (i :: q) _ (le_refl _) hgc

theorem getNode_root (d : Document) (forward : Bool) : getNode d forward [] false = none := by
  cases forward <;>
    simp [getNode, _getNextNode, _getPreviousNode, _getNextNode.loop, _getPreviousNode.loop,
      Document.nextSibling, Document.previousSibling, Document.parentNode]

theorem getNode_detached {d : Document} (forward : Bool) {p : NodeRef} (h : p ∈ d.detached) :
    getNode d forward p false = none := by
  cases forward <;>
    simp [getNode, _getNextNode, _getPreviousNode, _getNextNode.loop, _getPreviousNode.loop,
      Document.nextSibling, Document.previousSibling, Document.parentNode, h]

/-- The children of a node split at one of them. -/
theorem childRefs_split {d : Document} {q : NodeRef} {i : Nat} {t : Node}
    (hg : d.get? q = some t) (hi : i < t.childNodes.length) (hd : (i :: q) ∉ d.detached) :
    d.childRefs q =
      kidsFrom d q 0 i ++ (i :: q) :: kidsFrom d q (i + 1) (t.childNodes.length - (i + 1)) := by
  rw [childRefs_eq hg]
  have e : t.childNodes.length = i + (1 + (t.childNodes.length - (i + 1))) := by omega
  conv_lhs => rw [e]
  rw [kidsFrom_add, Nat.zero_add, Nat.add_comm 1, kidsFrom_succ]
  simp [hd]

/-- The walk after the subtree of a node: it visits `walkAfter` and then ends. -/
theorem segment_after (d : Document) (forward : Bool) :
    ∀ (p : NodeRef), (d.get? p).isSome →
      Segment d forward (getNode d forward p false) (walkAfter d forward p) none := by
  intro p
  induction p with
  | nil => intro _; rw [getNode_root]; exact Segment.done _
  | cons i q ih =>
    intro hv
    by_cases hd : (i :: q) ∈ d.detached
    · rw [getNode_detached forward hd]
      simp only [walkAfter, hd, if_true]
      exact Segment.done _
    · obtain ⟨c, hc⟩ := Option.isSome_iff_exists.mp hv
      obtain ⟨t, hg, hci⟩ := get?_parent hc
      have hi : i < t.childNodes.length := (List.getElem?_eq_some_iff.mp hci).1
      have hsplit := childRefs_split hg hi hd
      have ihq := ih (by simp [hg])
      simp only [walkAfter, hd, if_false, Document.children, hg]
      cases forward
      · have hk : kids d false q =
            (kidsFrom d q (i + 1) (t.childNodes.length - (i + 1))).reverse ++
              (i :: q) :: (kidsFrom d q 0 i).reverse := by
          simp [kids, hsplit]
        have hseg := segment_siblings d false q (kidsFrom d q 0 i).reverse
          ((kidsFrom d q (i + 1) (t.childNodes.length - (i + 1))).reverse ++ [i :: q])
          (by simpa using hk)
          (fun x hx => segment_subOrder d false q (by
            rw [hsplit]; simp at hx; simp [hx]))
        rw [← getNode_child hk] at hseg
        have hlist := walkOrderList_eq d false q (t.childNodes.take i) 0 (fun j x hx => by
          rw [Nat.zero_add, get?_child hg]
          rw [List.getElem?_take] at hx
          split at hx
          · exact hx
          · cases hx)
        have hlen : (t.childNodes.take i).length = i := by
          rw [List.length_take]; omega
        simp only [Bool.false_eq_true, if_false, hlen] at hlist ⊢
        rw [hlist]
        exact hseg.append ihq
      · have hk : kids d true q =
            kidsFrom d q 0 i ++
              (i :: q) :: kidsFrom d q (i + 1) (t.childNodes.length - (i + 1)) := by
          simp [kids, hsplit]
        have hseg := segment_siblings d true q
          (kidsFrom d q (i + 1) (t.childNodes.length - (i + 1)))
          (kidsFrom d q 0 i ++ [i :: q])
          (by simpa using hk)
          (fun x hx => segment_subOrder d true q (by rw [hsplit]; simp [hx]))
        rw [← getNode_child hk] at hseg
        have hlist := walkOrderList_eq d true q (t.childNodes.drop (i + 1)) (i + 1)
          (fun j x hx => by
            rw [get?_child hg]
            rwa [List.getElem?_drop] at hx)
        have hlen : (t.childNodes.drop (i + 1)).length = t.childNodes.length - (i + 1) := by
          rw [List.length_drop]
        simp only [if_true, hlen] at hlist ⊢
        rw [hlist]
        exact hseg.append ihq

/-! ### The walk ends within the number of nodes of the tree -/

theorem countList_append (xs ys : List Node) :
    Node.countList (xs ++ ys) = Node.countList xs + Node.countList ys := by
  induction xs with
  | nil => simp [Node.countList]
  | cons x xs ih => simp [Node.countList, ih]; omega

theorem count_eq (t : Node) : t.count = 1 + Node.countList t.childNodes := by
  cases t <;> simp [Node.count, Node.childNodes, Node.countList]

theorem walkOrderList_length_le (d : Document) (forward : Bool) :
    ∀ (cs : List Node) (p : NodeRef) (i : Nat),
      (∀ c ∈ cs, ∀ p', (walkOrder d forward p' c).length ≤ c.count) →
      (walkOrderList d forward p i cs).length ≤ Node.countList cs := by
  intro cs
  induction cs with
  | nil => intro p i _; simp [walkOrderList, Node.countList]
  | cons c cs ih =>
    intro p i h
    have h1 := h c (by simp) (i :: p)
    have h2 := ih p (i + 1) (fun x hx => h x (by simp [hx]))
    rw [walkOrderList]
    by_cases hd : (i :: p) ∈ d.detached <;> cases forward <;>
      simp only [hd, Node.countList, if_true, if_false, List.length_append, List.length_nil,
        Bool.false_eq_true] <;> omega

theorem walkOrder_length_le (d : Document) (forward : Bool) :
    ∀ (n : Nat) (t : Node) (p : NodeRef), t.count ≤ n →
      (walkOrder d forward p t).length ≤ t.count := by
  intro n
  induction n with
  | zero => intro t p h; have := Node.count_pos t; omega
  | succ n ih =>
    intro t p hn
    have hcs : ∀ cs : List Node, cs = t.childNodes → ∀ q i,
        (walkOrderList d forward q i cs).length ≤ Node.countList cs := by
      intro cs hcs q i
      refine walkOrderList_length_le d forward cs q i (fun c hc p' => ?_)
      have := @count_child_lt t _ (hcs ▸ hc)
      exact ih c p' (by omega)
    cases t with
    | text v => simp [walkOrder, Node.count]
    | element name st a v cs =>
      have := hcs cs rfl p 0
      by_cases he : _shouldEnter name st = true
      · simp [walkOrder, he, Node.count]; omega
      · simp [walkOrder, he, Node.count]
    | other k name dt cs =>
      have := hcs cs rfl p 0
      simp [walkOrder, Node.count]; omega

theorem walkAfter_length_le (d : Document) (forward : Bool) :
    ∀ (p : NodeRef) (t : Node), d.get? p = some t →
      (walkAfter d forward p).length + t.count ≤ d.root.count := by
  intro p
  induction p with
  | nil =>
    intro t h
    simp only [Document.get?, Node.get?, Option.some.injEq] at h
    simp [walkAfter, h]
  | cons i q ih =>
    intro c hc
    obtain ⟨t, hg, hci⟩ := get?_parent hc
    have hi : i < t.childNodes.length := (List.getElem?_eq_some_iff.mp hci).1
    have hci' : t.childNodes[i] = c := (List.getElem?_eq_some_iff.mp hci).2
    have iht := ih t hg
    have hsplit : t.childNodes = t.childNodes.take i ++ c :: t.childNodes.drop (i + 1) := by
      rw [← hci', ← List.drop_eq_getElem_cons hi, List.take_append_drop]
    have hcount : t.count = 1 + (Node.countList (t.childNodes.take i) + (c.count +
        Node.countList (t.childNodes.drop (i + 1)))) := by
      rw [count_eq t]
      conv_lhs => rw [hsplit]
      rw [countList_append]
      simp [Node.countList]
    have hall : ∀ (cs : List Node) (j : Nat),
        (walkOrderList d forward q j cs).length ≤ Node.countList cs := fun cs j =>
      walkOrderList_length_le d forward cs q j
        (fun x _ p' => walkOrder_length_le d forward _ x p' (le_refl _))
    by_cases hd : (i :: q) ∈ d.detached
    · simp only [walkAfter, hd, if_true, List.length_nil]
      omega
    · simp only [walkAfter, hd, if_false, Document.children, hg, List.length_append]
      cases forward
      · have := hall (t.childNodes.take i) 0
        simp only [Bool.false_eq_true, if_false]
        omega
      · have := hall (t.childNodes.drop (i + 1)) (i + 1)
        simp only [if_true]
        omega

/-- From a node of the tree the loop of `seek` ends within its bound: it performs the visits
of the subtree of the node and of the nodes after it. -/
theorem seek_loop_total (d : Document) (forward : Bool) (p : NodeRef) (t : Node)
    (hg : d.get? p = some t) (st : SeekState) (reset : Bool) :
    seek.loop d forward d.root.count (some p) st reset =
      some (visitNodes d forward (walkOrder d forward p t ++ walkAfter d forward p)
        st reset).1 := by
  have hseg := (segment_subtree d forward _ p t (le_refl _) hg).append
    (segment_after d forward p (by simp [hg]))
  have h1 := walkOrder_length_le d forward _ t p (le_refl _)
  have h2 := walkAfter_length_le d forward p t hg
  obtain ⟨k, hk⟩ : ∃ k, d.root.count =
      (walkOrder d forward p t ++ walkAfter d forward p).length + k :=
    ⟨d.root.count - (walkOrder d forward p t ++ walkAfter d forward p).length, by
      simp only [List.length_append]; omega⟩
  rw [hk, seek_loop_segment hseg, seek_loop_none]
  simp

/-! ### A backward walk meets the text nodes in reverse document order -/

theorem walkOrderList_mirror (d : Document) (p : NodeRef) :
    ∀ (cs : List Node) (i : Nat),
      (∀ j c, cs[j]? = some c → d.get? ((i + j) :: p) = some c) →
      (∀ c ∈ cs, ∀ p', d.get? p' = some c →
        (walkOrder d false p' c).reverse.filterMap d.textAt =
          (walkOrder d true p' c).filterMap d.textAt) →
      (walkOrderList d false p i cs).reverse.filterMap d.textAt =
        (walkOrderList d true p i cs).filterMap d.textAt := by
  intro cs
  induction cs with
  | nil => intro i _ _; simp [walkOrderList]
  | cons c cs ih =>
    intro i h hm
    have h0 : d.get? (i :: p) = some c := by simpa using h 0 c (by simp)
    have ih' := ih (i + 1) (fun j x hx => by
      have := h (j + 1) x (by simpa using hx)
      rwa [show i + (j + 1) = i + 1 + j by omega] at this)
      (fun x hx => hm x (by simp [hx]))
    have hc := hm c (by simp) (i :: p) h0
    rw [walkOrderList, walkOrderList]
    by_cases hd : (i :: p) ∈ d.detached
    · simpa [hd] using ih'
    · simp only [hd, if_false, Bool.false_eq_true, if_true, List.reverse_append,
        List.filterMap_append, hc, ih']

theorem walkOrder_mirror (d : Document) :
    ∀ (n : Nat) (t : Node) (p : NodeRef), t.count ≤ n → d.get? p = some t →
      (walkOrder d false p t).reverse.filterMap d.textAt =
        (walkOrder d true p t).filterMap d.textAt := by
  intro n
  induction n with
  | zero => intro t p h; have := Node.count_pos t; omega
  | succ n ih =>
    intro t p hn hg
    have hlist : (walkOrderList d false p 0 t.childNodes).reverse.filterMap d.textAt =
        (walkOrderList d true p 0 t.childNodes).filterMap d.textAt := by
      refine walkOrderList_mirror d p _ 0 (fun j c hc => ?_) (fun c hc p' hp' => ?_)
      · rw [Nat.zero_add, get?_child hg, hc]
      · have := count_child_lt hc
        exact ih c p' (by omega) hp'
    cases t with
    | text v => simp [walkOrder]
    | element name st a v cs =>
      have hp : d.textAt p = none := by
        cases ht : d.textAt p with
        | none => rfl
        | some w => rw [textAt_eq_some.mp ht] at hg; cases hg
      by_cases he : _shouldEnter name st = true
      · simp only [walkOrder, he, if_true, List.reverse_cons, List.filterMap_append,
          List.filterMap_cons, hp, List.filterMap_nil, List.append_nil]
        simpa [Node.childNodes] using hlist
      · simp [walkOrder, he]
    | other k name dt cs =>
      have hp : d.textAt p = none := by
        cases ht : d.textAt p with
        | none => rfl
        | some w => rw [textAt_eq_some.mp ht] at hg; cases hg
      simp only [walkOrder, List.reverse_cons, List.filterMap_append,
        List.filterMap_cons, hp, List.filterMap_nil, List.append_nil]
      simpa [Node.childNodes] using hlist

/-- The text nodes a backward walk visits after leaving a node are, read in document order,
those of `walkBefore`. -/
theorem walkAfter_backward_texts (d : Document) :
    ∀ (p : NodeRef), (d.get? p).isSome →
      (walkAfter d false p).reverse.filterMap d.textAt = (walkBefore d p).filterMap d.textAt := by
  intro p
  induction p with
  | nil => intro _; simp [walkAfter, walkBefore]
  | cons i q ih =>
    intro hv
    by_cases hd : (i :: q) ∈ d.detached
    · simp [walkAfter, walkBefore, hd]
    · obtain ⟨c, hc⟩ := Option.isSome_iff_exists.mp hv
      obtain ⟨t, hg, hci⟩ := get?_parent hc
      have ihq := ih (by simp [hg])
      have hlist := walkOrderList_mirror d q (t.childNodes.take i) 0 (fun j x hx => by
          rw [Nat.zero_add, get?_child hg]
          rw [List.getElem?_take] at hx
          split at hx
          · exact hx
          · cases hx)
        (fun x _ p' hp' => walkOrder_mirror d _ x p' (le_refl _) hp')
      simp only [walkAfter, walkBefore, hd, if_false, Bool.false_eq_true, Document.children, hg,
        List.reverse_append, List.filterMap_append, ihq, hlist]

theorem revTextOf_walkAfter (d : Document) (p : NodeRef) (hv : (d.get? p).isSome) :
    d.revTextOf (walkAfter d false p) = (d.textOf (walkBefore d p)).reverse := by
  rw [revTextOf_eq]
  simp only [Document.textOf]
  rw [walkAfter_backward_texts d p hv]

/-! ### Seeks that start in a text node -/

theorem seek_forward_unfold (d : Document) (p : NodeRef) (v : JSString) (o k : Nat)
    (hp : d.textAt p = some v) (hruby : _getRubyElement d p = none) :
    seek d p o ((k : Int) + 1) =
      some (visitNodes d true (p :: walkAfter d true p)
        { node := p, offset := o, content := [], remainder := (k : Int) + 1 } false).1 := by
  have hne : ¬ ((k : Int) + 1 = 0) := by omega
  have hge : (0 : Int) ≤ (k : Int) + 1 := by omega
  simp only [seek, hruby, hne, if_false, ge_iff_le, hge, decide_True, if_true]
  rw [seek_loop_total d true p _ (textAt_eq_some.mp hp)]
  simp [walkOrder]

theorem seek_backward_unfold (d : Document) (p : NodeRef) (v : JSString) (o k : Nat)
    (hp : d.textAt p = some v) (hruby : _getRubyElement d p = none) :
    seek d p o (-((k : Int) + 1)) =
      some (visitNodes d false (p :: walkAfter d false p)
        { node := p, offset := o, content := [], remainder := (k : Int) + 1 } false).1 := by
  have hne : ¬ (-((k : Int) + 1) = 0) := by omega
  have hge : ¬ ((0 : Int) ≤ -((k : Int) + 1)) := by omega
  simp only [seek, hruby, hne, if_false, ge_iff_le, hge, decide_False, Bool.false_eq_true,
    neg_neg]
  rw [seek_loop_total d false p _ (textAt_eq_some.mp hp)]
  simp [walkOrder]

/-- A forward seek of `k + 1` characters from offset `o` of a text node, without ruby
redirection: the content is the first `k + 1` available characters, the remainder counts
the missing ones, and the final position is an offset of a text node. -/
theorem seek_forward_of_text (d : Document) (p : NodeRef) (v : JSString) (o k : Nat)
    (hp : d.textAt p = some v) (hruby : _getRubyElement d p = none) (ho : o ≤ v.length) :
    ∃ st, seek d p o ((k : Int) + 1) = some st ∧
      st.content = (availableAfter d p o).take (k + 1) ∧
      st.remainder = (k : Int) + 1 - (st.content.length : Int) ∧
      ∃ v', d.textAt st.node = some v' ∧ st.offset ≤ v'.length := by
  refine ⟨_, seek_forward_unfold d p v o k hp hruby, ?_⟩
  have hvis := visitNode_forward_text hp
    { node := p, offset := o, content := [], remainder := (k : Int) + 1 } false k rfl
  simp only [Bool.false_eq_true, if_false, List.nil_append] at hvis
  have hav : availableAfter d p o =
      visible (v.drop o) ++ visible (d.textOf (walkAfter d true p)) := by
    simp [availableAfter, hp, visible_append]
  have hle := takeVis_le (v.drop o) (k + 1)
  rw [List.length_drop] at hle
  rw [hav]
  by_cases hfound : k + 1 ≤ (visible (v.drop o)).length
  · have hv : visitNodes d true (p :: walkAfter d true p)
        { node := p, offset := o, content := [], remainder := (k : Int) + 1 } false =
        visitNode d true p
          { node := p, offset := o, content := [], remainder := (k : Int) + 1 } false := by
      simp [visitNodes, hvis, hfound]
    rw [hv, hvis]
    refine ⟨by simp [List.take_append_of_le_length hfound], by simp, v, hp, ?_⟩
    simp only; omega
  · have hlt : (visible (v.drop o)).length < k + 1 := by omega
    obtain ⟨k', hk'⟩ : ∃ k', k + 1 = (visible (v.drop o)).length + (k' + 1) :=
      ⟨k - (visible (v.drop o)).length, by omega⟩
    have htake : (visible (v.drop o)).take (k + 1) = visible (v.drop o) :=
      List.take_of_length_le (by omega)
    have hv : visitNodes d true (p :: walkAfter d true p)
        { node := p, offset := o, content := [], remainder := (k : Int) + 1 } false =
        visitNodes d true (walkAfter d true p) (visitNode d true p
          { node := p, offset := o, content := [], remainder := (k : Int) + 1 } false).1
          true := by
      simp [visitNodes, hvis, hfound]
    have hrem : (visitNode d true p
        { node := p, offset := o, content := [], remainder := (k : Int) + 1 }
        false).1.remainder = (k' : Int) + 1 := by
      rw [hvis, htake]; simp only; omega
    obtain ⟨h1, h2, _, h4⟩ := visitNodes_forward d (walkAfter d true p) _ k' hrem
    have htake2 : (visible (v.drop o) ++ visible (d.textOf (walkAfter d true p))).take
        (k + 1) = visible (v.drop o) ++ (visible (d.textOf (walkAfter d true p))).take
          (k' + 1) := by
      rw [List.take_append_eq_append_take, htake]
      congr 2
      omega
    rw [hv, htake2]
    refine ⟨?_, ?_, ?_⟩
    · rw [h1, hvis, htake]
    · rw [h2, h1, hvis, htake]; simp; omega
    · rcases h4 with ⟨_, h6⟩ | ⟨_, _, v', _, h6, h7, _⟩
      · rw [h6, hvis]
        exact ⟨v, hp, by simp only; omega⟩
      · exact ⟨v', h6, h7⟩

theorem visible_reverse (s : JSString) : visible s.reverse = (visible s).reverse := by
  simp [visible]

/-- A backward seek of `k + 1` characters from offset `o` of a text node, without ruby
redirection: the content is the last `k + 1` available characters, the remainder counts
the missing ones, and the final position is an offset of a text node. -/
theorem seek_backward_of_text (d : Document) (p : NodeRef) (v : JSString) (o k : Nat)
    (hp : d.textAt p = some v) (hruby : _getRubyElement d p = none) (ho : o ≤ v.length) :
    ∃ st, seek d p o (-((k : Int) + 1)) = some st ∧
      st.content =
        (availableBefore d p o).drop ((availableBefore d p o).length - (k + 1)) ∧
      st.remainder = (k : Int) + 1 - (st.content.length : Int) ∧
      ∃ v', d.textAt st.node = some v' ∧ st.offset ≤ v'.length := by
  refine ⟨_, seek_backward_unfold d p v o k hp hruby, ?_⟩
  have hvis := visitNode_backward_text hp
    { node := p, offset := o, content := [], remainder := (k : Int) + 1 } false k rfl
    (by simpa using ho)
  simp only [Bool.false_eq_true, if_false, List.append_nil] at hvis
  have hvalid : (d.get? p).isSome := by simp [textAt_eq_some.mp hp]
  have hav : (availableBefore d p o).reverse =
      visible (v.take o).reverse ++ visible (d.revTextOf (walkAfter d false p)) := by
    simp [availableBefore, hp, visible_append, revTextOf_walkAfter d p hvalid, visible_reverse]
  have hcontent : (availableBefore d p o).drop ((availableBefore d p o).length - (k + 1)) =
      ((visible (v.take o).reverse ++ visible (d.revTextOf (walkAfter d false p))).take
        (k + 1)).reverse := by
    rw [← hav, List.take_reverse, List.reverse_reverse]
  rw [hcontent]
  by_cases hfound : k + 1 ≤ (visible (v.take o).reverse).length
  · have hv : visitNodes d false (p :: walkAfter d false p)
        { node := p, offset := o, content := [], remainder := (k : Int) + 1 } false =
        visitNode d false p
          { node := p, offset := o, content := [], remainder := (k : Int) + 1 } false := by
      simp [visitNodes, hvis, hfound]
    rw [hv, hvis]
    refine ⟨by simp [List.take_append_of_le_length hfound], by simp, v, hp, ?_⟩
    simp only; omega
  · have hlt : (visible (v.take o).reverse).length < k + 1 := by omega
    obtain ⟨k', hk'⟩ : ∃ k', k + 1 = (visible (v.take o).reverse).length + (k' + 1) :=
      ⟨k - (visible (v.take o).reverse).length, by omega⟩
    have htake : (visible (v.take o).reverse).take (k + 1) = visible (v.take o).reverse :=
      List.take_of_length_le (by omega)
    have hv : visitNodes d false (p :: walkAfter d false p)
        { node := p, offset := o, content := [], remainder := (k : Int) + 1 } false =
        visitNodes d false (walkAfter d false p) (visitNode d false p
          { node := p, offset := o, content := [], remainder := (k : Int) + 1 } false).1
          true := by
      simp [visitNodes, hvis, hfound]
    have hrem : (visitNode d false p
        { node := p, offset := o, content := [], remainder := (k : Int) + 1 }
        false).1.remainder = (k' : Int) + 1 := by
      rw [hvis, htake]; simp only; omega
    obtain ⟨h1, h2, _, h4⟩ := visitNodes_backward d (walkAfter d false p) _ k' hrem
    have htake2 : (visible (v.take o).reverse ++
        visible (d.revTextOf (walkAfter d false p))).take (k + 1) =
          visible (v.take o).reverse ++
            (visible (d.revTextOf (walkAfter d false p))).take (k' + 1) := by
      rw [List.take_append_eq_append_take, htake]
      congr 2
      omega
    rw [hv, htake2]
    refine ⟨?_, ?_, ?_⟩
    · rw [h1, hvis, htake]; simp
    · rw [h2, h1, hvis, htake]; simp; omega
    · rcases h4 with ⟨_, h6⟩ | ⟨_, _, v', _, h6, h7, _⟩
      · rw [h6, hvis]
        exact ⟨v, hp, by simp only; omega⟩
      · exact ⟨v', h6, h7⟩

theorem getRubyElement_valid {d : Document} {node ruby : NodeRef}
    (h : _getRubyElement d node = some ruby) : (d.get? ruby).isSome := by
  unfold _getRubyElement at h
  split at h
  · split at h
    · split at h
      · split at h
        · rename_i hname
          cases h
          cases hg : d.get? ruby with
          | none =>
            exfalso
            revert hname
            simp only [Document.nodeName, hg, Option.map_none', Option.getD_none]
            decide
          | some t => rfl
        · cases h
      · cases h
    · cases h
  · cases h

/-- From a node of the tree, `seek` always returns a state. -/
theorem seek_total (d : Document) (node : NodeRef) (offset : Nat) (length : Int)
    (hv : (d.get? node).isSome) : ∃ st, seek d node offset length = some st := by
  unfold seek
  by_cases h0 : length = 0
  · simp [h0]
  · simp only [h0, if_false]
    cases hruby : _getRubyElement d node with
    | none =>
      obtain ⟨t, ht⟩ := Option.isSome_iff_exists.mp hv
      exact ⟨_, seek_loop_total d _ node t ht _ _⟩
    | some ruby =>
      obtain ⟨t, ht⟩ := Option.isSome_iff_exists.mp (getRubyElement_valid hruby)
      exact ⟨_, seek_loop_total d _ ruby t ht _ _⟩

theorem setEnd_end (d : Document) (r r' : DomRange) (node : NodeRef) (offset : Nat)
    (h : DomRange.setEnd d r node offset = Except.ok r') :
    r'.endContainer = node ∧ r'.endOffset = offset := by
  unfold DomRange.setEnd at h
  split at h
  · cases h
  · split at h <;> cases h <;> exact ⟨rfl, rfl⟩

theorem setStart_start (d : Document) (r r' : DomRange) (node : NodeRef) (offset : Nat)
    (h : DomRange.setStart d r node offset = Except.ok r') :
    r'.startContainer = node ∧ r'.startOffset = offset := by
  unfold DomRange.setStart at h
  split at h
  · cases h
  · split at h <;> cases h <;> exact ⟨rfl, rfl⟩

theorem setStart_end (d : Document) (r r' : DomRange) (node : NodeRef) (offset : Nat)
    (h : DomRange.setStart d r node offset = Except.ok r')
    (hroot : d.rootOf r.startContainer = d.rootOf node)
    (hcmp : d.comparePoints (node, offset) (r.endContainer, r.endOffset) ≠ Ordering.gt) :
    r'.endContainer = r.endContainer ∧ r'.endOffset = r.endOffset := by
  unfold DomRange.setStart at h
  split at h
  · cases h
  · rw [if_neg (by simp [hroot, hcmp])] at h
    cases h
    exact ⟨rfl, rfl⟩

theorem setEndOffset_error (w : World) (this : Nat) (length : Int) (self : TextSourceRange)
    (r : DomRange) (state : SeekState) (e : JSError)
    (hself : w.rangeSources[this]? = some self) (hr : w.ranges[self.range]? = some r)
    (hseek : seek w.document r.startContainer r.startOffset length = some state)
    (hset : DomRange.setEnd w.document r state.node state.offset = Except.error e) :
    setEndOffset w this length = Except.error e := by
  simp [setEndOffset, World.getRangeSource, World.getRange, hself, hr, seekResult, hseek, hset,
    bind, Except.bind]

theorem setStartOffset_error (w : World) (this : Nat) (length : Int) (self : TextSourceRange)
    (r : DomRange) (state : SeekState) (e : JSError)
    (hself : w.rangeSources[this]? = some self) (hr : w.ranges[self.range]? = some r)
    (hseek : seek w.document r.startContainer r.startOffset (-length) = some state)
    (hset : DomRange.setStart w.document r state.node state.offset = Except.error e) :
    setStartOffset w this length = Except.error e := by
  simp [setStartOffset, World.getRangeSource, World.getRange, hself, hr, seekResult, hseek,
    hset, bind, Except.bind]

theorem rangeSources_setRangeSource (w : World) (this : Nat) (x self : TextSourceRange)
    (hself : w.rangeSources[this]? = some self) :
    (w.setRangeSource this x).rangeSources[this]? = some x := by
  have hlt : this < w.rangeSources.length := (List.getElem?_eq_some_iff.mp hself).1
  simp [World.setRangeSource, List.getElem?_set_self hlt]

theorem getParentElement_loop_eq (d : Document) :
    ∀ (p : NodeRef) (fuel : Nat), p.length + 2 ≤ fuel →
      _getParentElement.loop d fuel (some p) = d.nearestElement p := by
  intro p
  induction p with
  | nil =>
    intro fuel h
    obtain ⟨f, rfl⟩ : ∃ f, fuel = f + 2 := ⟨fuel - 2, by simp at h; omega⟩
    by_cases he : d.nodeType [] = ELEMENT_NODE <;>
      simp [_getParentElement.loop, Document.nearestElement, he, Document.parentNode]
  | cons i q ih =>
    intro fuel h
    obtain ⟨f, rfl⟩ : ∃ f, fuel = f + 2 := ⟨fuel - 2, by simp at h; omega⟩
    by_cases he : d.nodeType (i :: q) = ELEMENT_NODE
    · simp [_getParentElement.loop, Document.nearestElement, he]
    · by_cases hd : (i :: q) ∈ d.detached
      · simp [_getParentElement.loop, Document.nearestElement, he, Document.parentNode, hd]
      · have := ih (f + 1) (by simp at h; omega)
        simp [_getParentElement.loop, Document.nearestElement, he, Document.parentNode, hd,
          this]

/-- The loop of `_getParentElement` ends within its bound, at the nearest element. -/
theorem getParentElement_eq (d : Document) (p : NodeRef) :
    _getParentElement d (some p) = d.nearestElement p := by
  unfold _getParentElement
  exact getParentElement_loop_eq d p _ (by simp)

theorem getRubyElement_of_nearest (d : Document) (node rt ruby : NodeRef)
    (h1 : d.nearestElement node = some rt) (h2 : toUpperCase (d.nodeName rt) = js "RT")
    (h3 : d.parentNode rt = some ruby) (h4 : toUpperCase (d.nodeName ruby) = js "RUBY") :
    _getRubyElement d node = some ruby := by
  simp [_getRubyElement, getParentElement_eq, h1, h2, h3, h4]

/-- With `resetOffset` set, the visits of a list of nodes do not depend on the offset of the
state as far as content, remainder and the break are concerned. -/
theorem visitNodes_reset_offset (d : Document) (forward : Bool) (l : List NodeRef)
    (st : SeekState) (k : Nat) (hk : st.remainder = (k : Int) + 1) (o : Nat) :
    (visitNodes d forward l { st with offset := o } true).1.content =
        (visitNodes d forward l st true).1.content ∧
      (visitNodes d forward l { st with offset := o } true).1.remainder =
        (visitNodes d forward l st true).1.remainder := by
  cases forward
  · obtain ⟨h1, h2, _, _⟩ := visitNodes_backward d l st k hk
    obtain ⟨h3, h4, _, _⟩ := visitNodes_backward d l { st with offset := o } k hk
    exact ⟨by rw [h1, h3], by rw [h2, h4]⟩
  · obtain ⟨h1, h2, _, _⟩ := visitNodes_forward d l st k hk
    obtain ⟨h3, h4, _, _⟩ := visitNodes_forward d l { st with offset := o } k hk
    exact ⟨by rw [h1, h3], by rw [h2, h4]⟩

theorem setEnd_ok_of_text (d : Document) (r : DomRange) (node : NodeRef) (offset : Nat)
    (v : JSString) (hv : d.textAt node = some v) (ho : offset ≤ v.length) :
    ∃ r', DomRange.setEnd d r node offset = Except.ok r' ∧ r'.endContainer = node ∧
      r'.endOffset = offset := by
  have hle : ¬ (v.length < offset) := by omega
  unfold DomRange.setEnd
  simp only [DomRange.checkPoint, textAt_eq_some.mp hv, Document.length, gt_iff_lt, hle,
    if_false]
  split <;> exact ⟨_, rfl, rfl, rfl⟩

theorem setStart_ok_of_text (d : Document) (r : DomRange) (node : NodeRef) (offset : Nat)
    (v : JSString) (hv : d.textAt node = some v) (ho : offset ≤ v.length) :
    ∃ r', DomRange.setStart d r node offset = Except.ok r' ∧ r'.startContainer = node ∧
      r'.startOffset = offset := by
  have hle : ¬ (v.length < offset) := by omega
  unfold DomRange.setStart
  simp only [DomRange.checkPoint, textAt_eq_some.mp hv, Document.length, gt_iff_lt, hle,
    if_false]
  split <;> exact ⟨_, rfl, rfl, rfl⟩

end Walk

/-! ## Positions in the visible text -/

section Linear
open TextSourceRange

theorem visible_take_takeVis (s : JSString) :
    ∀ k, visible (s.take (takeVis s k)) = (visible s).take k := by
  induction s with
  | nil => intro k; simp [takeVis, visible]
  | cons c s ih =>
    intro k
    cases k with
    | zero => simp [takeVis, visible]
    | succ k =>
      by_cases hc : c = ZWNJ
      · simp only [takeVis, hc, if_true, Nat.add_comm 1, List.take_succ_cons, visible_cons]
        exact ih (k + 1)
      · simp only [takeVis, hc, if_false, Nat.add_comm 1, List.take_succ_cons, visible_cons]
        rw [ih k]

theorem lexCompare_self (l : List Nat) : lexCompare l l = Ordering.eq := by
  induction l with
  | nil => rfl
  | cons a l ih => simp [lexCompare, ih]

theorem lexCompare_diverge (c t₁ t₂ : List Nat) (a b : Nat) (h : a < b) :
    lexCompare (c ++ a :: t₁) (c ++ b :: t₂) = Ordering.lt ∧
      lexCompare (c ++ b :: t₂) (c ++ a :: t₁) = Ordering.gt := by
  induction c with
  | nil =>
    have h' : ¬ b < a := by omega
    simp [lexCompare, h, h']
  | cons x c ih => simpa [lexCompare] using ih

theorem lexCompare_trans_le : ∀ (x y z : List Nat),
    lexCompare x y ≠ Ordering.gt → lexCompare y z ≠ Ordering.gt →
      lexCompare x z ≠ Ordering.gt
  | [], _, [], _, _ => by simp [lexCompare]
  | [], _, _ :: _, _, _ => by simp [lexCompare]
  | _ :: _, [], _, h, _ => by simp [lexCompare] at h
  | _ :: _, _ :: _, [], _, h => by simp [lexCompare] at h
  | a :: x, b :: y, c :: z, h₁, h₂ => by
    simp only [lexCompare] at h₁ h₂ ⊢
    by_cases hab : a < b
    · by_cases hbc : b < c
      · have : a < c := by omega
        simp [this]
      · by_cases hcb : c < b
        · simp [hbc, hcb] at h₂
        · have : a < c := by omega
          simp [this]
    · by_cases hba : b < a
      · simp [hab, hba] at h₁
      · have hab' : a = b := by omega
        subst hab'
        by_cases hac : a < c
        · simp [hac]
        · by_cases hca : c < a
          · simp [hac, hca] at h₂
          · simp only [hab, hba, hac, hca, if_false] at h₁ h₂ ⊢
            exact lexCompare_trans_le x y z h₁ h₂

theorem lexCompare_swap : ∀ (x y : List Nat),
    lexCompare x y = Ordering.lt → lexCompare y x = Ordering.gt
  | [], [], h => by simp [lexCompare] at h
  | [], _ :: _, _ => by simp [lexCompare]
  | _ :: _, [], h => by simp [lexCompare] at h
  | a :: x, b :: y, h => by
    simp only [lexCompare] at h ⊢
    by_cases hab : a < b
    · have : ¬ b < a := by omega
      simp [hab, this]
    · by_cases hba : b < a
      · simp [hab, hba] at h
      · simp only [hab, hba, if_false] at h ⊢
        exact lexCompare_swap x y h

/-! ### The walk orders in terms of the children that are still there -/

theorem subOrder_text {d : Document} {p : NodeRef} {v : JSString} (h : d.textAt p = some v)
    (forward : Bool) : subOrder d forward p = [p] := by
  simp [subOrder, textAt_eq_some.mp h, walkOrder]

theorem mem_subsOrder {d : Document} {forward : Bool} {K : List NodeRef} {y : NodeRef} :
    y ∈ subsOrder d forward K ↔ ∃ c ∈ K, y ∈ subOrder d forward c := by
  simp [subsOrder, List.mem_flatten]

theorem subsOrder_append (d : Document) (forward : Bool) (K₁ K₂ : List NodeRef) :
    subsOrder d forward (K₁ ++ K₂) = subsOrder d forward K₁ ++ subsOrder d forward K₂ := by
  simp [subsOrder]

/-- The walk order of a subtree: the node alone, or the node followed by the walk orders of
its children when the walk visits them. -/
theorem subOrder_eq {d : Document} {p : NodeRef} {t : Node} (hg : d.get? p = some t)
    (forward : Bool) :
    subOrder d forward p =
      p :: (if visitChildren d p then subsOrder d forward (kids d forward p) else []) := by
  have hl := walkOrderList_children hg forward
  have hk0 : t.childNodes = [] → kids d forward p = [] := by
    intro h0
    rw [kids_eq hg, h0]
    cases forward <;> simp [kidsFrom_zero]
  cases t with
  | text v =>
    have := hk0 rfl
    simp [subOrder, hg, walkOrder, visitChildren, subsOrder, this]
  | element name st a v cs =>
    simp only [subOrder, hg, walkOrder, visitChildren, subsOrder]
    by_cases he : _shouldEnter name st = true
    · simp only [he, if_true]
      rw [← hl]
      rfl
    · simp [he]
  | other k name dt cs =>
    simp only [subOrder, hg, walkOrder, visitChildren, subsOrder, if_true]
    rw [← hl]
    rfl

theorem walkBefore_cons {d : Document} {i : Nat} {q : NodeRef} {t : Node}
    (hd : (i :: q) ∉ d.detached) (hg : d.get? q = some t) (hi : i < t.childNodes.length) :
    walkBefore d (i :: q) = walkBefore d q ++ subsOrder d true (kidsFrom d q 0 i) := by
  have hlist := walkOrderList_eq d true q (t.childNodes.take i) 0 (fun j x hx => by
    rw [Nat.zero_add, get?_child hg]
    rw [List.getElem?_take] at hx
    split at hx
    · exact hx
    · cases hx)
  have hlen : (t.childNodes.take i).length = i := by rw [List.length_take]; omega
  simp only [if_true, hlen] at hlist
  simp only [walkBefore, hd, if_false, Document.children, hg, hlist, subsOrder]

theorem walkAfter_cons {d : Document} {i : Nat} {q : NodeRef} {t : Node}
    (hd : (i :: q) ∉ d.detached) (hg : d.get? q = some t) (hi : i < t.childNodes.length)
    (forward : Bool) :
    walkAfter d forward (i :: q) =
      subsOrder d forward
        (if forward then kidsFrom d q (i + 1) (t.childNodes.length - (i + 1))
          else (kidsFrom d q 0 i).reverse) ++ walkAfter d forward q := by
  cases forward
  · have hlist := walkOrderList_eq d false q (t.childNodes.take i) 0 (fun j x hx => by
      rw [Nat.zero_add, get?_child hg]
      rw [List.getElem?_take] at hx
      split at hx
      · exact hx
      · cases hx)
    have hlen : (t.childNodes.take i).length = i := by rw [List.length_take]; omega
    simp only [Bool.false_eq_true, if_false, hlen] at hlist
    simp only [walkAfter, hd, if_false, Bool.false_eq_true, Document.children, hg, hlist,
      subsOrder]
  · have hlist := walkOrderList_eq d true q (t.childNodes.drop (i + 1)) (i + 1)
      (fun j x hx => by
        rw [get?_child hg]
        rwa [List.getElem?_drop] at hx)
    have hlen : (t.childNodes.drop (i + 1)).length = t.childNodes.length - (i + 1) := by
      rw [List.length_drop]
    simp only [if_true, hlen] at hlist
    simp only [walkAfter, hd, if_false, if_true, Document.children, hg, hlist, subsOrder]

/-! ### Document order and the order of boundary points -/

theorem index_eq {d : Document} {i : Nat} {q : NodeRef} {t : Node} (hg : d.get? q = some t)
    (hi : i ≤ t.childNodes.length) : d.index (i :: q) = (kidsFrom d q 0 i).length := by
  have e : t.childNodes.length = i + (t.childNodes.length - i) := by omega
  have hsplit : d.childRefs q = kidsFrom d q 0 i ++ kidsFrom d q i (t.childNodes.length - i) := by
    rw [childRefs_eq hg]
    conv_lhs => rw [e]
    rw [kidsFrom_add, Nat.zero_add]
  have h1 : (kidsFrom d q 0 i).filter (fun c => decide (c.headD 0 < i)) = kidsFrom d q 0 i := by
    rw [List.filter_eq_self]
    intro c hc
    obtain ⟨j, rfl, _, hj, _⟩ := mem_kidsFrom.mp hc
    simp; omega
  have h2 : (kidsFrom d q i (t.childNodes.length - i)).filter
      (fun c => decide (c.headD 0 < i)) = [] := by
    rw [List.filter_eq_nil_iff]
    intro c hc
    obtain ⟨j, rfl, hj, _, _⟩ := mem_kidsFrom.mp hc
    simp; omega
  simp only [Document.index, hsplit, List.filter_append, h1, h2, List.append_nil]

theorem index_lt {d : Document} {i j : Nat} {q : NodeRef} {t : Node} (hg : d.get? q = some t)
    (hij : i < j) (hj : j ≤ t.childNodes.length) (hd : (i :: q) ∉ d.detached) :
    d.index (i :: q) < d.index (j :: q) := by
  rw [index_eq hg (by omega), index_eq hg hj]
  have e : j = i + (1 + (j - (i + 1))) := by omega
  conv_rhs => rw [e]
  rw [kidsFrom_add, Nat.zero_add, Nat.add_comm 1, kidsFrom_succ]
  simp [hd]

theorem position_cons {d : Document} {i : Nat} {q : NodeRef} (hd : (i :: q) ∉ d.detached) :
    d.position (i :: q) = d.position q ++ [d.index (i :: q)] ∧
      d.rootOf (i :: q) = d.rootOf q := by
  simp [Document.position, Document.rootOf, hd]

/-- A node of the walk order of a subtree lies below the root of the subtree, in its tree,
and a forward walk from the root of the document reaches it when it reaches the subtree. -/
theorem mem_walkOrder_below (d : Document) (forward : Bool) :
    ∀ (n : Nat) (c : NodeRef) (t : Node), t.count ≤ n → d.get? c = some t →
      ∀ y ∈ subOrder d forward c,
        (∃ t₂, d.position y = d.position c ++ t₂) ∧ d.rootOf y = d.rootOf c ∧
          (d.reachable c = true → d.reachable y = true) := by
  intro n
  induction n with
  | zero => intro c t h; have := Node.count_pos t; omega
  | succ n ih =>
    intro c t hn hg y hy
    rw [subOrder_eq hg] at hy
    rcases List.mem_cons.mp hy with rfl | hy
    · exact ⟨⟨[], by simp⟩, rfl, id⟩
    · by_cases hv : visitChildren d c = true
      · simp only [hv, if_true] at hy
        obtain ⟨c', hc', hy'⟩ := mem_subsOrder.mp hy
        have hc'' : c' ∈ d.childRefs c := by
          cases forward <;> simpa [kids] using hc'
        obtain ⟨i, t', rfl, hg', hi, hd⟩ := mem_childRefs hc''
        rw [hg] at hg'
        cases hg'
        have hgc : d.get? (i :: c) = some t.childNodes[i] := by
          rw [get?_child hg, List.getElem?_eq_getElem hi]
        have hlt := count_child_lt (List.getElem_mem hi)
        obtain ⟨⟨t₂, h1⟩, h2, h3⟩ := ih (i :: c) _ (by omega) hgc y hy'
        obtain ⟨p1, p2⟩ := position_cons hd
        refine ⟨⟨d.index (i :: c) :: t₂, by rw [h1, p1]; simp⟩, by rw [h2, p2], fun hr => ?_⟩
        apply h3
        simp [Document.reachable, hd, hv, hr]
      · simp [hv] at hy

/-- The nodes a walk visits after it has left a node come after the node in document order
for a forward walk and before it for a backward walk: the paths part at a common ancestor. -/
theorem walkAfter_order (d : Document) (forward : Bool) :
    ∀ (x : NodeRef), (d.get? x).isSome → ∀ y ∈ walkAfter d forward x,
      (∃ c a b t₁ t₂, (if forward then a < b else b < a) ∧
        d.position x = c ++ a :: t₁ ∧ d.position y = c ++ b :: t₂) ∧
      d.rootOf y = d.rootOf x ∧ (d.reachable x = true → d.reachable y = true) := by
  intro x
  induction x with
  | nil => intro _ y hy; simp [walkAfter] at hy
  | cons i q ih =>
    intro hv y hy
    by_cases hd : (i :: q) ∈ d.detached
    · simp [walkAfter, hd] at hy
    · obtain ⟨cx, hcx⟩ := Option.isSome_iff_exists.mp hv
      obtain ⟨t, hg, hci⟩ := get?_parent hcx
      have hi : i < t.childNodes.length := (List.getElem?_eq_some_iff.mp hci).1
      obtain ⟨p1, p2⟩ := position_cons hd
      rw [walkAfter_cons hd hg hi, List.mem_append] at hy
      rcases hy with hy | hy
      · obtain ⟨c', hc', hy'⟩ := mem_subsOrder.mp hy
        have hmem : ∃ j, c' = j :: q ∧ (if forward then i < j else j < i) ∧
            j < t.childNodes.length ∧ (j :: q) ∉ d.detached := by
          cases forward
          · simp only [Bool.false_eq_true, if_false, List.mem_reverse] at hc'
            obtain ⟨j, rfl, _, hj, hdj⟩ := mem_kidsFrom.mp hc'
            exact ⟨j, rfl, by simpa using hj, by omega, hdj⟩
          · simp only [if_true] at hc'
            obtain ⟨j, rfl, hj1, hj2, hdj⟩ := mem_kidsFrom.mp hc'
            exact ⟨j, rfl, by simp only [if_true]; omega, by omega, hdj⟩
        obtain ⟨j, rfl, hij, hj, hdj⟩ := hmem
        have hgj : d.get? (j :: q) = some t.childNodes[j] := by
          rw [get?_child hg, List.getElem?_eq_getElem hj]
        obtain ⟨⟨t₂, h1⟩, h2, h3⟩ := mem_walkOrder_below d forward _ (j :: q) _ (le_refl _)
          hgj y hy'
        obtain ⟨pj1, pj2⟩ := position_cons hdj
        refine ⟨⟨d.position q, d.index (i :: q), d.index (j :: q), [], t₂, ?_, p1, ?_⟩,
          by rw [h2, pj2, p2], fun hr => ?_⟩
        · cases forward
          · simp only [Bool.false_eq_true, if_false] at hij ⊢
            exact index_lt hg hij (by omega) hdj
          · simp only [if_true] at hij ⊢
            exact index_lt hg hij (by omega) hd
        · rw [h1, pj1]; simp
        · apply h3
          simp only [Document.reachable, Bool.and_eq_true, decide_eq_true_eq] at hr ⊢
          exact ⟨⟨hdj, hr.1.2⟩, hr.2⟩
      · obtain ⟨⟨c, a, b, t₁, t₂, hab, hx, hy'⟩, h2, h3⟩ := ih (by simp [hg]) y hy
        refine ⟨⟨c, a, b, t₁ ++ [d.index (i :: q)], t₂, hab, by rw [p1, hx]; simp, hy'⟩,
          by rw [h2, p2], fun hr => ?_⟩
        apply h3
        simp only [Document.reachable, Bool.and_eq_true, decide_eq_true_eq] at hr
        exact hr.2

/-! ### The text before a node of a walk order -/

theorem textAt_none_of_childRefs {d : Document} {c c' : NodeRef} (h : c' ∈ d.childRefs c) :
    d.textAt c = none := by
  obtain ⟨i, t, rfl, hg, hi, _⟩ := mem_childRefs h
  cases ht : d.textAt c with
  | none => rfl
  | some v =>
    rw [textAt_eq_some.mp ht] at hg
    cases hg
    simp [Node.childNodes] at hi

theorem textAt_none_of_subsOrder {d : Document} {forward : Bool} {c y : NodeRef}
    (h : y ∈ subsOrder d forward (kids d forward c)) : d.textAt c = none := by
  obtain ⟨c', hc', _⟩ := mem_subsOrder.mp h
  have : c' ∈ d.childRefs c := by cases forward <;> simpa [kids] using hc'
  exact textAt_none_of_childRefs this

theorem textOf_cons_of_none {d : Document} {c : NodeRef} (h : d.textAt c = none)
    (l : List NodeRef) : d.textOf (c :: l) = d.textOf l := by
  simp [textOf_cons, h]

theorem kidsFrom_succ_right (d : Document) (p : NodeRef) (j : Nat) :
    kidsFrom d p 0 (j + 1) =
      kidsFrom d p 0 j ++ (if (j :: p) ∈ d.detached then [] else [j :: p]) := by
  rw [kidsFrom_add, Nat.zero_add, kidsFrom_succ, kidsFrom_zero, List.append_nil]

/-- The text before a text node that a forward walk meets among the children of `c` from
the index `j` on, given the same fact for the subtrees of the children. -/
theorem textBefore_of_kids (d : Document) (c : NodeRef) (t : Node) (hg : d.get? c = some t)
    (hsub : ∀ (i : Nat), i < t.childNodes.length → (i :: c) ∉ d.detached →
      ∀ l₁ q l₂ v, subOrder d true (i :: c) = l₁ ++ q :: l₂ → d.textAt q = some v →
        d.textOf (walkBefore d q) = d.textOf (walkBefore d (i :: c)) ++ d.textOf l₁) :
    ∀ (m j : Nat), j + m ≤ t.childNodes.length → ∀ l₁ q l₂ v,
      subsOrder d true (kidsFrom d c j m) = l₁ ++ q :: l₂ → d.textAt q = some v →
      d.textOf (walkBefore d q) =
        d.textOf (walkBefore d c) ++ d.textOf (subsOrder d true (kidsFrom d c 0 j)) ++
          d.textOf l₁ := by
  intro m
  induction m with
  | zero =>
    intro j _ l₁ q l₂ v h _
    simp [kidsFrom_zero, subsOrder] at h
  | succ m ih =>
    intro j hj l₁ q l₂ v h hq
    rw [kidsFrom_succ] at h
    have hnext := ih (j + 1) (by omega)
    rw [kidsFrom_succ_right] at hnext
    by_cases hd : (j :: c) ∈ d.detached
    · simp only [hd, if_true, List.nil_append] at h
      simp only [hd, if_true, List.append_nil] at hnext
      exact hnext l₁ q l₂ v h hq
    · simp only [hd, if_false, List.singleton_append] at h
      simp only [hd, if_false, subsOrder_append] at hnext
      have hone : subsOrder d true [j :: c] = subOrder d true (j :: c) := by simp [subsOrder]
      rw [hone] at hnext
      have h' : subOrder d true (j :: c) ++ subsOrder d true (kidsFrom d c (j + 1) m) =
          l₁ ++ q :: l₂ := by simpa [subsOrder] using h
      rcases List.append_eq_append_iff.mp h' with ⟨a', ha1, ha2⟩ | ⟨c', hc1, hc2⟩
      · have := hnext a' q l₂ v ha2 hq
        rw [this, ha1]
        simp [textOf_append]
      · cases c' with
        | nil =>
          have := hnext [] q l₂ v (by simpa using hc2.symm) hq
          rw [this]
          simp only [List.append_nil] at hc1
          rw [← hc1]
          simp [textOf_append, textOf_nil]
        | cons x c'' =>
          simp only [List.cons_append, List.cons.injEq] at hc2
          obtain ⟨rfl, _⟩ := hc2
          have := hsub j (by omega) hd l₁ q c'' v hc1 hq
          rw [this, walkBefore_cons hd hg (by omega), textOf_append]

/-- The text before a text node of the forward walk order of a subtree. -/
theorem textBefore_of_subOrder (d : Document) :
    ∀ (n : Nat) (c : NodeRef) (t : Node), t.count ≤ n → d.get? c = some t →
      ∀ l₁ q l₂ v, subOrder d true c = l₁ ++ q :: l₂ → d.textAt q = some v →
        d.textOf (walkBefore d q) = d.textOf (walkBefore d c) ++ d.textOf l₁ := by
  intro n
  induction n with
  | zero => intro c t h; have := Node.count_pos t; omega
  | succ n ih =>
    intro c t hn hg l₁ q l₂ v h hq
    have hsub : ∀ (i : Nat), i < t.childNodes.length → (i :: c) ∉ d.detached →
        ∀ l₁ q l₂ v, subOrder d true (i :: c) = l₁ ++ q :: l₂ → d.textAt q = some v →
          d.textOf (walkBefore d q) = d.textOf (walkBefore d (i :: c)) ++ d.textOf l₁ := by
      intro i hi _
      have hgc : d.get? (i :: c) = some t.childNodes[i] := by
        rw [get?_child hg, List.getElem?_eq_getElem hi]
      have hlt := count_child_lt (List.getElem_mem hi)
      exact ih (i :: c) _ (by omega) hgc
    rw [subOrder_eq hg] at h
    cases l₁ with
    | nil =>
      simp only [List.nil_append, List.cons.injEq] at h
      rw [← h.1]
      simp [textOf_nil]
    | cons x l₁' =>
      simp only [List.cons_append, List.cons.injEq] at h
      obtain ⟨hx, h⟩ := h
      subst hx
      by_cases hv : visitChildren d c = true
      · simp only [hv, if_true] at h
        have hnone : d.textAt c = none :=
          textAt_none_of_subsOrder (y := q) (by rw [h]; simp)
        rw [kids_eq hg] at h
        simp only [if_true] at h
        have := textBefore_of_kids d c t hg hsub t.childNodes.length 0 (by omega) l₁' q l₂ v
          h hq
        rw [this, textOf_cons_of_none hnone]
        simp [kidsFrom_zero, subsOrder, textOf_nil]
      · simp [hv] at h

theorem mem_childRefs_of {d : Document} {i : Nat} {q : NodeRef} {t : Node}
    (hg : d.get? q = some t) (hi : i < t.childNodes.length) (hd : (i :: q) ∉ d.detached) :
    (i :: q) ∈ d.childRefs q := by
  rw [childRefs_split hg hi hd]
  simp

/-- The text of an entered subtree, split at one of the children of its root. -/
theorem textOf_subOrder_split {d : Document} {i : Nat} {q : NodeRef} {t : Node}
    (hg : d.get? q = some t) (hi : i < t.childNodes.length) (hd : (i :: q) ∉ d.detached)
    (hv : visitChildren d q = true) :
    d.textOf (subOrder d true q) =
      d.textOf (subsOrder d true (kidsFrom d q 0 i)) ++ d.textOf (subOrder d true (i :: q)) ++
        d.textOf (subsOrder d true (kidsFrom d q (i + 1) (t.childNodes.length - (i + 1)))) := by
  have hnone := textAt_none_of_childRefs (mem_childRefs_of hg hi hd)
  rw [subOrder_eq hg, hv, if_pos rfl, textOf_cons_of_none hnone]
  simp only [kids, if_true]
  rw [childRefs_split hg hi hd, subsOrder_append]
  simp [subsOrder, textOf_append]

/-- The text before a text node that a forward walk visits after it has left a node the
walk from the root reaches. -/
theorem textBefore_of_walkAfter (d : Document) :
    ∀ (p : NodeRef), (d.get? p).isSome → d.reachable p = true →
      ∀ l₁ q l₂ v, walkAfter d true p = l₁ ++ q :: l₂ → d.textAt q = some v →
        d.textOf (walkBefore d q) =
          d.textOf (walkBefore d p) ++ d.textOf (subOrder d true p) ++ d.textOf l₁ := by
  intro p
  induction p with
  | nil => intro _ _ l₁ q l₂ v h _; simp [walkAfter] at h
  | cons i q₀ ih =>
    intro hvalid hreach l₁ q l₂ v h hq
    simp only [Document.reachable, Bool.and_eq_true, decide_eq_true_eq] at hreach
    obtain ⟨⟨hd, hv⟩, hr⟩ := hreach
    obtain ⟨cx, hcx⟩ := Option.isSome_iff_exists.mp hvalid
    obtain ⟨t, hg, hci⟩ := get?_parent hcx
    have hi : i < t.childNodes.length := (List.getElem?_eq_some_iff.mp hci).1
    rw [walkAfter_cons hd hg hi] at h
    simp only [if_true] at h
    have hsplit := textOf_subOrder_split hg hi hd hv
    have hkids := textBefore_of_kids d q₀ t hg
      (fun j hj _ => textBefore_of_subOrder d _ (j :: q₀) _ (le_refl _)
        (by rw [get?_child hg, List.getElem?_eq_getElem hj]))
      (t.childNodes.length - (i + 1)) (i + 1) (by omega)
    rw [kidsFrom_succ_right] at hkids
    simp only [hd, if_false, subsOrder_append] at hkids
    have hone : subsOrder d true [i :: q₀] = subOrder d true (i :: q₀) := by simp [subsOrder]
    rw [hone] at hkids
    have hup : ∀ a', walkAfter d true q₀ = a' ++ q :: l₂ →
        d.textOf (walkBefore d q) =
          d.textOf (walkBefore d (i :: q₀)) ++ d.textOf (subOrder d true (i :: q₀)) ++
            d.textOf (subsOrder d true
              (kidsFrom d q₀ (i + 1) (t.childNodes.length - (i + 1))) ++ a') := by
      intro a' ha
      rw [ih (by simp [hg]) hr a' q l₂ v ha hq, hsplit, walkBefore_cons hd hg hi]
      simp [textOf_append]
    rcases List.append_eq_append_iff.mp h with ⟨a', ha1, ha2⟩ | ⟨c', hc1, hc2⟩
    · rw [ha1]
      exact hup a' ha2
    · cases c' with
      | nil =>
        simp only [List.append_nil] at hc1
        have := hup [] (by simpa using hc2.symm)
        rw [this, List.append_nil, hc1]
      | cons x c'' =>
        simp only [List.cons_append, List.cons.injEq] at hc2
        obtain ⟨hx, _⟩ := hc2
        subst hx
        rw [hkids l₁ q c'' v hc1 hq, walkBefore_cons hd hg hi]
        simp [textOf_append]

/-- The visible text of the document, split at a node the walk from the root reaches. -/
theorem visibleText_split (d : Document) :
    ∀ (p : NodeRef), (d.get? p).isSome → d.reachable p = true →
      d.visibleText =
        d.textOf (walkBefore d p) ++ d.textOf (subOrder d true p) ++
          d.textOf (walkAfter d true p) := by
  intro p
  induction p with
  | nil =>
    intro _ _
    simp [Document.visibleText, walkBefore, walkAfter, subOrder, Document.get?, Node.get?,
      textOf_nil]
  | cons i q₀ ih =>
    intro hvalid hreach
    simp only [Document.reachable, Bool.and_eq_true, decide_eq_true_eq] at hreach
    obtain ⟨⟨hd, hv⟩, hr⟩ := hreach
    obtain ⟨cx, hcx⟩ := Option.isSome_iff_exists.mp hvalid
    obtain ⟨t, hg, hci⟩ := get?_parent hcx
    have hi : i < t.childNodes.length := (List.getElem?_eq_some_iff.mp hci).1
    rw [ih (by simp [hg]) hr, textOf_subOrder_split hg hi hd hv, walkBefore_cons hd hg hi,
      walkAfter_cons hd hg hi]
    simp [textOf_append]

/-! ### The same for a backward walk -/

theorem textOf_reverse_subOrder (d : Document) (c : NodeRef) :
    d.textOf (subOrder d false c).reverse = d.textOf (subOrder d true c) := by
  unfold subOrder
  cases hg : d.get? c with
  | none => rfl
  | some t =>
    simp only [Document.textOf]
    rw [walkOrder_mirror d _ t c (le_refl _) hg]

theorem textOf_reverse_subsOrder (d : Document) (K : List NodeRef) :
    d.textOf (subsOrder d false K.reverse).reverse = d.textOf (subsOrder d true K) := by
  induction K with
  | nil => simp [subsOrder]
  | cons c K ih =>
    have h1 : subsOrder d false (c :: K).reverse =
        subsOrder d false K.reverse ++ subOrder d false c := by
      simp [subsOrder]
    have h2 : subsOrder d true (c :: K) = subOrder d true c ++ subsOrder d true K := by
      simp [subsOrder]
    rw [h1, h2, List.reverse_append, textOf_append, textOf_append, ih,
      textOf_reverse_subOrder]

/-- The text up to a text node that a backward walk meets among the children of `c` before
the index `j`, given the same fact for the subtrees of the children. -/
theorem textBefore_of_kids_backward (d : Document) (c : NodeRef) (t : Node)
    (hg : d.get? c = some t)
    (hsub : ∀ (i : Nat), i < t.childNodes.length → (i :: c) ∉ d.detached →
      ∀ l₁ q l₂ v, subOrder d false (i :: c) = l₁ ++ q :: l₂ → d.textAt q = some v →
        d.textOf (walkBefore d q) ++ v ++ d.textOf l₁.reverse =
          d.textOf (walkBefore d (i :: c)) ++ d.textOf (subOrder d true (i :: c))) :
    ∀ (j : Nat), j ≤ t.childNodes.length → ∀ l₁ q l₂ v,
      subsOrder d false (kidsFrom d c 0 j).reverse = l₁ ++ q :: l₂ → d.textAt q = some v →
      d.textOf (walkBefore d q) ++ v ++ d.textOf l₁.reverse =
        d.textOf (walkBefore d c) ++ d.textOf (subsOrder d true (kidsFrom d c 0 j)) := by
  intro j
  induction j with
  | zero =>
    intro _ l₁ q l₂ v h _
    simp [kidsFrom_zero, subsOrder] at h
  | succ j ih =>
    intro hj l₁ q l₂ v h hq
    rw [kidsFrom_succ_right] at h ⊢
    have hprev := ih (by omega)
    by_cases hd : (j :: c) ∈ d.detached
    · simp only [hd, if_true, List.append_nil] at h ⊢
      exact hprev l₁ q l₂ v h hq
    · simp only [hd, if_false, List.reverse_append, List.reverse_cons, List.reverse_nil,
        List.nil_append, List.singleton_append] at h
      simp only [hd, if_false, subsOrder_append]
      have hone : subsOrder d true [j :: c] = subOrder d true (j :: c) := by simp [subsOrder]
      rw [hone]
      have h' : subOrder d false (j :: c) ++ subsOrder d false (kidsFrom d c 0 j).reverse =
          l₁ ++ q :: l₂ := by simpa [subsOrder] using h
      rcases List.append_eq_append_iff.mp h' with ⟨a', ha1, ha2⟩ | ⟨c', hc1, hc2⟩
      · have := hprev a' q l₂ v ha2 hq
        rw [ha1, List.reverse_append, textOf_append, textOf_reverse_subOrder, textOf_append,
          ← List.append_assoc, ← List.append_assoc, this]
      · cases c' with
        | nil =>
          have := hprev [] q l₂ v (by simpa using hc2.symm) hq
          simp only [List.append_nil] at hc1
          simp only [List.reverse_nil, textOf_nil, List.append_nil] at this
          rw [← hc1, textOf_reverse_subOrder, textOf_append, ← List.append_assoc, this]
        | cons x c'' =>
          simp only [List.cons_append, List.cons.injEq] at hc2
          obtain ⟨hx, _⟩ := hc2
          subst hx
          have := hsub j (by omega) hd l₁ q c'' v hc1 hq
          rw [this, walkBefore_cons hd hg (by omega), textOf_append, textOf_append]
          simp

/-- The text up to a text node of the backward walk order of a subtree. -/
theorem textBefore_of_subOrder_backward (d : Document) :
    ∀ (n : Nat) (c : NodeRef) (t : Node), t.count ≤ n → d.get? c = some t →
      ∀ l₁ q l₂ v, subOrder d false c = l₁ ++ q :: l₂ → d.textAt q = some v →
        d.textOf (walkBefore d q) ++ v ++ d.textOf l₁.reverse =
          d.textOf (walkBefore d c) ++ d.textOf (subOrder d true c) := by
  intro n
  induction n with
  | zero => intro c t h; have := Node.count_pos t; omega
  | succ n ih =>
    intro c t hn hg l₁ q l₂ v h hq
    have hsub : ∀ (i : Nat), i < t.childNodes.length → (i :: c) ∉ d.detached →
        ∀ l₁ q l₂ v, subOrder d false (i :: c) = l₁ ++ q :: l₂ → d.textAt q = some v →
          d.textOf (walkBefore d q) ++ v ++ d.textOf l₁.reverse =
            d.textOf (walkBefore d (i :: c)) ++ d.textOf (subOrder d true (i :: c)) := by
      intro i hi _
      have hgc : d.get? (i :: c) = some t.childNodes[i] := by
        rw [get?_child hg, List.getElem?_eq_getElem hi]
      have hlt := count_child_lt (List.getElem_mem hi)
      exact ih (i :: c) _ (by omega) hgc
    rw [subOrder_eq hg] at h
    cases l₁ with
    | nil =>
      simp only [List.nil_append, List.cons.injEq] at h
      rw [← h.1, subOrder_text (h.1 ▸ hq)]
      simp [textOf_nil, textOf_cons, h.1 ▸ hq]
    | cons x l₁' =>
      simp only [List.cons_append, List.cons.injEq] at h
      obtain ⟨hx, h⟩ := h
      subst hx
      by_cases hv : visitChildren d c = true
      · simp only [hv, if_true] at h
        have hnone : d.textAt c = none :=
          textAt_none_of_subsOrder (y := q) (by rw [h]; simp)
        have hsplit : d.textOf (subOrder d true c) =
            d.textOf (subsOrder d true (kidsFrom d c 0 t.childNodes.length)) := by
          rw [subOrder_eq hg, hv, if_pos rfl, textOf_cons_of_none hnone, kids_eq hg]
          simp
        rw [kids_eq hg] at h
        simp only [Bool.false_eq_true, if_false] at h
        have := textBefore_of_kids_backward d c t hg hsub t.childNodes.length (le_refl _)
          l₁' q l₂ v h hq
        rw [hsplit, ← this, List.reverse_cons, textOf_append, textOf_cons_of_none hnone,
          textOf_nil, List.append_nil]
      · simp [hv] at h

/-- The text up to a text node that a backward walk visits after it has left a node. -/
theorem textBefore_of_walkAfter_backward (d : Document) :
    ∀ (p : NodeRef), (d.get? p).isSome →
      ∀ l₁ q l₂ v, walkAfter d false p = l₁ ++ q :: l₂ → d.textAt q = some v →
        d.textOf (walkBefore d q) ++ v ++ d.textOf l₁.reverse = d.textOf (walkBefore d p) := by
  intro p
  induction p with
  | nil => intro _ l₁ q l₂ v h _; simp [walkAfter] at h
  | cons i q₀ ih =>
    intro hvalid l₁ q l₂ v h hq
    by_cases hd : (i :: q₀) ∈ d.detached
    · simp [walkAfter, hd] at h
    · obtain ⟨cx, hcx⟩ := Option.isSome_iff_exists.mp hvalid
      obtain ⟨t, hg, hci⟩ := get?_parent hcx
      have hi : i < t.childNodes.length := (List.getElem?_eq_some_iff.mp hci).1
      rw [walkAfter_cons hd hg hi] at h
      simp only [Bool.false_eq_true, if_false] at h
      have hkids := textBefore_of_kids_backward d q₀ t hg
        (fun j hj _ => textBefore_of_subOrder_backward d _ (j :: q₀) _ (le_refl _)
          (by rw [get?_child hg, List.getElem?_eq_getElem hj]))
        i (by omega)
      rw [walkBefore_cons hd hg hi, textOf_append]
      have hup : ∀ a', walkAfter d false q₀ = a' ++ q :: l₂ →
          d.textOf (walkBefore d q) ++ v ++
            d.textOf (subsOrder d false (kidsFrom d q₀ 0 i).reverse ++ a').reverse =
          d.textOf (walkBefore d q₀) ++ d.textOf (subsOrder d true (kidsFrom d q₀ 0 i)) := by
        intro a' ha
        rw [List.reverse_append, textOf_append, textOf_reverse_subsOrder,
          ← List.append_assoc, ih (by simp [hg]) a' q l₂ v ha hq]
      rcases List.append_eq_append_iff.mp h with ⟨a', ha1, ha2⟩ | ⟨c', hc1, hc2⟩
      · rw [ha1]
        exact hup a' ha2
      · cases c' with
        | nil =>
          simp only [List.append_nil] at hc1
          have := hup [] (by simpa using hc2.symm)
          rw [List.append_nil, hc1] at this
          exact this
        | cons x c'' =>
          simp only [List.cons_append, List.cons.injEq] at hc2
          obtain ⟨hx, _⟩ := hc2
          subst hx
          exact hkids l₁ q c'' v hc1 hq

/-! ### Where a seek from a text node ends -/

/-- A forward seek from a text node: its content, and the place of its final position, either
in the start node or in a node of the walk after it, at the raw distance the scan covered. -/
theorem seek_forward_core (d : Document) (p : NodeRef) (v : JSString) (o k : Nat)
    (hp : d.textAt p = some v) (hruby : _getRubyElement d p = none) (ho : o ≤ v.length) :
    ∃ st, seek d p o ((k : Int) + 1) = some st ∧
      st.content = (visible (v.drop o ++ d.textOf (walkAfter d true p))).take (k + 1) ∧
      ((st.node = p ∧ o ≤ st.offset ∧ st.offset ≤ v.length ∧
          st.offset - o = takeVis (v.drop o ++ d.textOf (walkAfter d true p)) (k + 1)) ∨
        ∃ l₁ l₂ v', walkAfter d true p = l₁ ++ st.node :: l₂ ∧ d.textAt st.node = some v' ∧
          st.offset ≤ v'.length ∧
          (v.length - o) + (d.textOf l₁).length + st.offset =
            takeVis (v.drop o ++ d.textOf (walkAfter d true p)) (k + 1)) := by
  refine ⟨_, seek_forward_unfold d p v o k hp hruby, ?_⟩
  have hvis := visitNode_forward_text hp
    { node := p, offset := o, content := [], remainder := (k : Int) + 1 } false k rfl
  simp only [Bool.false_eq_true, if_false, List.nil_append] at hvis
  have hle := takeVis_le (v.drop o) (k + 1)
  rw [List.length_drop] at hle
  rw [visible_append]
  by_cases hfound : k + 1 ≤ (visible (v.drop o)).length
  · have hv : visitNodes d true (p :: walkAfter d true p)
        { node := p, offset := o, content := [], remainder := (k : Int) + 1 } false =
        visitNode d true p
          { node := p, offset := o, content := [], remainder := (k : Int) + 1 } false := by
      simp [visitNodes, hvis, hfound]
    rw [hv, hvis]
    refine ⟨by simp [List.take_append_of_le_length hfound], Or.inl ⟨rfl, ?_, ?_, ?_⟩⟩
    · simp only; omega
    · simp only; omega
    · simp only [takeVis_append_of_le _ _ _ hfound]; omega
  · have hlt : (visible (v.drop o)).length < k + 1 := by omega
    obtain ⟨k', hk'⟩ : ∃ k', k + 1 = (visible (v.drop o)).length + (k' + 1) :=
      ⟨k - (visible (v.drop o)).length, by omega⟩
    have htake : (visible (v.drop o)).take (k + 1) = visible (v.drop o) :=
      List.take_of_length_le (by omega)
    have hv : visitNodes d true (p :: walkAfter d true p)
        { node := p, offset := o, content := [], remainder := (k : Int) + 1 } false =
        visitNodes d true (walkAfter d true p) (visitNode d true p
          { node := p, offset := o, content := [], remainder := (k : Int) + 1 } false).1
          true := by
      simp [visitNodes, hvis, hfound]
    have hrem : (visitNode d true p
        { node := p, offset := o, content := [], remainder := (k : Int) + 1 }
        false).1.remainder = (k' : Int) + 1 := by
      rw [hvis, htake]; simp only; omega
    obtain ⟨h1, _, _, h4⟩ := visitNodes_forward d (walkAfter d true p) _ k' hrem
    have htake2 : (visible (v.drop o) ++ visible (d.textOf (walkAfter d true p))).take
        (k + 1) = visible (v.drop o) ++ (visible (d.textOf (walkAfter d true p))).take
          (k' + 1) := by
      rw [List.take_append_eq_append_take, htake]
      congr 2
      omega
    have hfull : takeVis (v.drop o) (k + 1) = v.length - o := by
      have := takeVis_append_of_gt [] (v.drop o) (k + 1) hlt
      simpa [takeVis] using this
    have hk'' : k + 1 - (visible (v.drop o)).length = k' + 1 := by omega
    rw [hv, htake2, takeVis_append_of_gt _ _ _ hlt, hk'', List.length_drop]
    refine ⟨by rw [h1, hvis, htake], ?_⟩
    rcases h4 with ⟨h5, h6⟩ | ⟨l₁, l₂, v', h5, h6, h7, h8⟩
    · have hT : d.textOf (walkAfter d true p) = [] := by simp [Document.textOf, h5]
      rw [h6, hvis, hT]
      left
      refine ⟨rfl, ?_, ?_, ?_⟩
      · simp only; omega
      · simp only; omega
      · simp only [takeVis]; omega
    · right
      exact ⟨l₁, l₂, v', h5, h6, h7, by omega⟩

/-- A backward seek from a text node: its content, and the place of its final position. -/
theorem seek_backward_core (d : Document) (p : NodeRef) (v : JSString) (o k : Nat)
    (hp : d.textAt p = some v) (hruby : _getRubyElement d p = none) (ho : o ≤ v.length) :
    ∃ st, seek d p o (-((k : Int) + 1)) = some st ∧
      st.content =
        ((visible ((v.take o).reverse ++ d.revTextOf (walkAfter d false p))).take
          (k + 1)).reverse ∧
      ((st.node = p ∧ st.offset ≤ o ∧
          o - st.offset =
            takeVis ((v.take o).reverse ++ d.revTextOf (walkAfter d false p)) (k + 1)) ∨
        ∃ l₁ l₂ v', walkAfter d false p = l₁ ++ st.node :: l₂ ∧ d.textAt st.node = some v' ∧
          st.offset ≤ v'.length ∧
          o + (d.revTextOf l₁).length + (v'.length - st.offset) =
            takeVis ((v.take o).reverse ++ d.revTextOf (walkAfter d false p)) (k + 1)) := by
  refine ⟨_, seek_backward_unfold d p v o k hp hruby, ?_⟩
  have hvis := visitNode_backward_text hp
    { node := p, offset := o, content := [], remainder := (k : Int) + 1 } false k rfl
    (by simpa using ho)
  simp only [Bool.false_eq_true, if_false, List.append_nil] at hvis
  have hle := takeVis_le (v.take o).reverse (k + 1)
  have hlen : (v.take o).reverse.length = o := by simp; omega
  rw [hlen] at hle
  rw [visible_append]
  by_cases hfound : k + 1 ≤ (visible (v.take o).reverse).length
  · have hv : visitNodes d false (p :: walkAfter d false p)
        { node := p, offset := o, content := [], remainder := (k : Int) + 1 } false =
        visitNode d false p
          { node := p, offset := o, content := [], remainder := (k : Int) + 1 } false := by
      simp [visitNodes, hvis, hfound]
    rw [hv, hvis]
    refine ⟨by simp [List.take_append_of_le_length hfound], Or.inl ⟨rfl, ?_, ?_⟩⟩
    · simp only; omega
    · simp only [takeVis_append_of_le _ _ _ hfound]; omega
  · have hlt : (visible (v.take o).reverse).length < k + 1 := by omega
    obtain ⟨k', hk'⟩ : ∃ k', k + 1 = (visible (v.take o).reverse).length + (k' + 1) :=
      ⟨k - (visible (v.take o).reverse).length, by omega⟩
    have htake : (visible (v.take o).reverse).take (k + 1) = visible (v.take o).reverse :=
      List.take_of_length_le (by omega)
    have hv : visitNodes d false (p :: walkAfter d false p)
        { node := p, offset := o, content := [], remainder := (k : Int) + 1 } false =
        visitNodes d false (walkAfter d false p) (visitNode d false p
          { node := p, offset := o, content := [], remainder := (k : Int) + 1 } false).1
          true := by
      simp [visitNodes, hvis, hfound]
    have hrem : (visitNode d false p
        { node := p, offset := o, content := [], remainder := (k : Int) + 1 }
        false).1.remainder = (k' : Int) + 1 := by
      rw [hvis, htake]; simp only; omega
    obtain ⟨h1, _, _, h4⟩ := visitNodes_backward d (walkAfter d false p) _ k' hrem
    have htake2 : (visible (v.take o).reverse ++
        visible (d.revTextOf (walkAfter d false p))).take (k + 1) =
          visible (v.take o).reverse ++
            (visible (d.revTextOf (walkAfter d false p))).take (k' + 1) := by
      rw [List.take_append_eq_append_take, htake]
      congr 2
      omega
    have hfull : takeVis (v.take o).reverse (k + 1) = o := by
      have := takeVis_append_of_gt [] (v.take o).reverse (k + 1) hlt
      simpa [takeVis, hlen] using this
    have hk'' : k + 1 - (visible (v.take o).reverse).length = k' + 1 := by omega
    rw [hv, htake2, takeVis_append_of_gt _ _ _ hlt, hk'', hlen]
    refine ⟨by rw [h1, hvis, htake]; simp, ?_⟩
    rcases h4 with ⟨h5, h6⟩ | ⟨l₁, l₂, v', h5, h6, h7, h8⟩
    · have hT : d.revTextOf (walkAfter d false p) = [] := by simp [Document.revTextOf, h5]
      rw [h6, hvis, hT]
      left
      refine ⟨rfl, ?_, ?_⟩
      · simp only; omega
      · simp only [takeVis]; omega
    · right
      exact ⟨l₁, l₂, v', h5, h6, h7, by omega⟩

/-! ### No redirection from a reachable text node -/

theorem nearestElement_spec (d : Document) :
    ∀ (p e : NodeRef), d.nearestElement p = some e →
      d.nodeType e = ELEMENT_NODE ∧
        (d.reachable p = true → e = p ∨ visitChildren d e = true) := by
  intro p
  induction p with
  | nil =>
    intro e h
    by_cases he : d.nodeType [] = ELEMENT_NODE
    · simp only [Document.nearestElement, he, if_true, Option.some.injEq] at h
      subst h
      exact ⟨he, fun _ => Or.inl rfl⟩
    · simp [Document.nearestElement, he] at h
  | cons i q ih =>
    intro e h
    by_cases he : d.nodeType (i :: q) = ELEMENT_NODE
    · simp only [Document.nearestElement, he, if_true, Option.some.injEq] at h
      subst h
      exact ⟨he, fun _ => Or.inl rfl⟩
    · by_cases hd : (i :: q) ∈ d.detached
      · simp [Document.nearestElement, he, hd] at h
      · simp only [Document.nearestElement, he, hd, if_false] at h
        obtain ⟨h1, h2⟩ := ih e h
        refine ⟨h1, fun hr => Or.inr ?_⟩
        simp only [Document.reachable, Bool.and_eq_true, decide_eq_true_eq] at hr
        rcases h2 hr.2 with rfl | h3
        · exact hr.1.2
        · exact h3

theorem getRubyElement_none_of_reachable (d : Document) (p : NodeRef) (v : JSString)
    (hp : d.textAt p = some v) (hr : d.reachable p = true) : _getRubyElement d p = none := by
  unfold _getRubyElement
  rw [getParentElement_eq]
  cases hn : d.nearestElement p with
  | none => rfl
  | some e =>
    obtain ⟨h1, h2⟩ := nearestElement_spec d p e hn
    have hne : e ≠ p := by
      intro heq
      subst heq
      simp [Document.nodeType, textAt_eq_some.mp hp, Node.nodeType, TEXT_NODE, ELEMENT_NODE]
        at h1
    have hv : visitChildren d e = true := by
      rcases h2 hr with h | h
      · exact absurd h hne
      · exact h
    have hname : toUpperCase (d.nodeName e) ≠ js "RT" := by
      intro hrt
      unfold visitChildren at hv
      cases hg : d.get? e with
      | none => simp [Document.nodeType, hg, ELEMENT_NODE] at h1
      | some t =>
        cases t with
        | text w => simp [Document.nodeType, hg, Node.nodeType, TEXT_NODE, ELEMENT_NODE] at h1
        | element name st a b cs =>
          simp only [hg] at hv
          simp only [Document.nodeName, hg, Option.map_some', Option.getD_some,
            Node.nodeName] at hrt
          simp [_shouldEnter, hrt] at hv
        | other k name dt cs =>
          cases k <;>
            simp [Document.nodeType, hg, Node.nodeType, NodeKind.nodeType, ELEMENT_NODE] at h1
    simp [hname]

/-! ### Seeks in terms of the visible text -/

/-- The visible text around a position in a reachable text node. -/
theorem visibleText_at (d : Document) (p : NodeRef) (v : JSString) (o : Nat)
    (hp : d.textAt p = some v) (hr : d.reachable p = true) (ho : o ≤ v.length) :
    d.visibleText.drop (d.linear (p, o)) = v.drop o ++ d.textOf (walkAfter d true p) ∧
      d.visibleText.take (d.linear (p, o)) = d.textOf (walkBefore d p) ++ v.take o ∧
      d.linear (p, o) ≤ d.visibleText.length := by
  have hvalid : (d.get? p).isSome := by simp [textAt_eq_some.mp hp]
  have hsplit := visibleText_split d p hvalid hr
  rw [subOrder_text hp, textOf_cons, hp, textOf_nil, List.append_assoc] at hsplit
  simp only [Option.getD_some, List.append_nil] at hsplit
  rw [hsplit]
  simp only [Document.linear]
  refine ⟨?_, ?_, ?_⟩
  · rw [List.drop_append, List.drop_append_of_le_length ho]
  · rw [List.take_append, List.take_append_of_le_length ho]
  · simp only [List.length_append]; omega

theorem comparePoints_of_diverge (d : Document) (x y : NodeRef) (ox oy : Nat)
    (c t₁ t₂ : List Nat) (a b : Nat) (hab : a < b) (hx : d.position x = c ++ a :: t₁)
    (hy : d.position y = c ++ b :: t₂) :
    d.comparePoints (x, ox) (y, oy) = Ordering.lt ∧
      d.comparePoints (y, oy) (x, ox) = Ordering.gt := by
  simp only [Document.comparePoints, hx, hy, List.append_assoc, List.cons_append]
  exact lexCompare_diverge c _ _ a b hab

/-- A forward seek from a reachable text node, in terms of the visible text: the seek passes
`L` code units of the visible text from the start position, where `L` is what a scan needs
to collect `k + 1` characters, and its content is what it passed, without U+200C. -/
theorem seek_forward_linear (d : Document) (p : NodeRef) (v : JSString) (o k : Nat)
    (hp : d.textAt p = some v) (hr : d.reachable p = true) (ho : o ≤ v.length) :
    ∃ st v', seek d p o ((k : Int) + 1) = some st ∧
      d.textAt st.node = some v' ∧ st.offset ≤ v'.length ∧ d.reachable st.node = true ∧
      d.linear (st.node, st.offset) =
        d.linear (p, o) + takeVis (d.visibleText.drop (d.linear (p, o))) (k + 1) ∧
      st.content = visible ((d.visibleText.drop (d.linear (p, o))).take
        (takeVis (d.visibleText.drop (d.linear (p, o))) (k + 1))) ∧
      d.comparePoints (st.node, st.offset) (p, o) ≠ Ordering.lt ∧
      d.rootOf st.node = d.rootOf p := by
  have hvalid : (d.get? p).isSome := by simp [textAt_eq_some.mp hp]
  obtain ⟨hdrop, _, _⟩ := visibleText_at d p v o hp hr ho
  obtain ⟨st, hseek, hc, hpos⟩ := seek_forward_core d p v o k hp
    (getRubyElement_none_of_reachable d p v hp hr) ho
  rw [hdrop, visible_take_takeVis]
  rcases hpos with ⟨h1, h2, h3, h4⟩ | ⟨l₁, l₂, v', h1, h2, h3, h4⟩
  · refine ⟨st, v, hseek, by rw [h1]; exact hp, h3, by rw [h1]; exact hr, ?_, hc, ?_,
      by rw [h1]⟩
    · rw [← h4, h1]; simp only [Document.linear]; omega
    · rw [h1]
      have : ¬ st.offset < o := by omega
      simp [Document.comparePoints, lexCompare_append_singleton, this]
  · have hmem : st.node ∈ walkAfter d true p := by rw [h1]; simp
    obtain ⟨⟨c, a, b, t₁, t₂, hab, hx, hy⟩, hroot, hreach⟩ :=
      walkAfter_order d true p hvalid st.node hmem
    simp only [if_true] at hab
    have hbefore := textBefore_of_walkAfter d p hvalid hr l₁ st.node l₂ v' h1 h2
    rw [subOrder_text hp, textOf_cons, hp, textOf_nil] at hbefore
    simp only [Option.getD_some, List.append_nil] at hbefore
    refine ⟨st, v', hseek, h2, h3, hreach hr, ?_, hc, ?_, hroot⟩
    · rw [← h4]
      simp only [Document.linear, hbefore, List.length_append]
      omega
    · rw [(comparePoints_of_diverge d p st.node o st.offset c t₁ t₂ a b hab hx hy).2]
      decide

/-- A backward seek from a reachable text node, in terms of the visible text. -/
theorem seek_backward_linear (d : Document) (p : NodeRef) (v : JSString) (o k : Nat)
    (hp : d.textAt p = some v) (hr : d.reachable p = true) (ho : o ≤ v.length) :
    ∃ st v', seek d p o (-((k : Int) + 1)) = some st ∧
      d.textAt st.node = some v' ∧ st.offset ≤ v'.length ∧ d.reachable st.node = true ∧
      d.linear (st.node, st.offset) +
          takeVis (d.visibleText.take (d.linear (p, o))).reverse (k + 1) =
        d.linear (p, o) ∧
      st.content = visible ((d.visibleText.take (d.linear (p, o))).drop
        (d.linear (p, o) -
          takeVis (d.visibleText.take (d.linear (p, o))).reverse (k + 1))) ∧
      d.comparePoints (st.node, st.offset) (p, o) ≠ Ordering.gt ∧
      d.rootOf st.node = d.rootOf p := by
  have hvalid : (d.get? p).isSome := by simp [textAt_eq_some.mp hp]
  obtain ⟨_, htake, hle⟩ := visibleText_at d p v o hp hr ho
  obtain ⟨st, hseek, hc, hpos⟩ := seek_backward_core d p v o k hp
    (getRubyElement_none_of_reachable d p v hp hr) ho
  have hrev : (d.visibleText.take (d.linear (p, o))).reverse =
      (v.take o).reverse ++ d.revTextOf (walkAfter d false p) := by
    rw [htake, List.reverse_append, revTextOf_walkAfter d p hvalid]
  have hlen : (d.visibleText.take (d.linear (p, o))).length = d.linear (p, o) := by
    rw [List.length_take]; omega
  have hcontent : st.content = visible ((d.visibleText.take (d.linear (p, o))).drop
      (d.linear (p, o) -
        takeVis (d.visibleText.take (d.linear (p, o))).reverse (k + 1))) := by
    have h1 : (d.visibleText.take (d.linear (p, o))).drop
        (d.linear (p, o) -
          takeVis (d.visibleText.take (d.linear (p, o))).reverse (k + 1)) =
        ((d.visibleText.take (d.linear (p, o))).reverse.take
          (takeVis (d.visibleText.take (d.linear (p, o))).reverse (k + 1))).reverse := by
      rw [List.take_reverse, List.reverse_reverse, hlen]
    rw [h1, visible_reverse, visible_take_takeVis, hc, hrev]
  rw [hrev] at hcontent ⊢
  rcases hpos with ⟨h1, h2, h4⟩ | ⟨l₁, l₂, v', h1, h2, h3, h4⟩
  · refine ⟨st, v, hseek, by rw [h1]; exact hp, by omega, by rw [h1]; exact hr, ?_,
      hcontent, ?_, by rw [h1]⟩
    · rw [← h4, h1]; simp only [Document.linear]; omega
    · rw [h1]
      have : ¬ o < st.offset := by omega
      simp [Document.comparePoints, lexCompare_append_singleton, this]
  · have hmem : st.node ∈ walkAfter d false p := by rw [h1]; simp
    obtain ⟨⟨c, a, b, t₁, t₂, hab, hx, hy⟩, hroot, hreach⟩ :=
      walkAfter_order d false p hvalid st.node hmem
    simp only [Bool.false_eq_true, if_false] at hab
    have hbefore := textBefore_of_walkAfter_backward d p hvalid l₁ st.node l₂ v' h1 h2
    have hbl := congrArg List.length hbefore
    have hrl : (d.revTextOf l₁).length = (d.textOf l₁.reverse).length := by
      rw [revTextOf_eq, List.length_reverse]
    simp only [List.length_append] at hbl
    refine ⟨st, v', hseek, h2, h3, hreach hr, ?_, hcontent, ?_, hroot⟩
    · rw [← h4]
      simp only [Document.linear]
      omega
    · rw [(comparePoints_of_diverge d st.node p st.offset o c t₂ t₁ b a hab hy hx).1]
      decide

/-! ### The invariant of a range source -/

theorem lexCompare_swap_gt : ∀ (x y : List Nat),
    lexCompare x y = Ordering.gt → lexCompare y x = Ordering.lt
  | [], [], h => by simp [lexCompare] at h
  | [], _ :: _, h => by simp [lexCompare] at h
  | _ :: _, [], _ => by simp [lexCompare]
  | a :: x, b :: y, h => by
    simp only [lexCompare] at h ⊢
    by_cases hab : a < b
    · simp [hab] at h
    · by_cases hba : b < a
      · simp [hba]
      · simp only [hab, hba, if_false] at h ⊢
        exact lexCompare_swap_gt x y h

theorem setEnd_of_ordered (d : Document) (r : DomRange) (node : NodeRef) (offset : Nat)
    (v : JSString) (hv : d.textAt node = some v) (ho : offset ≤ v.length)
    (hroot : d.rootOf r.startContainer = d.rootOf node)
    (hcmp : d.comparePoints (node, offset) (r.startContainer, r.startOffset) ≠ Ordering.lt) :
    DomRange.setEnd d r node offset =
      Except.ok { r with endContainer := node, endOffset := offset } := by
  have hle : ¬ (v.length < offset) := by omega
  simp [DomRange.setEnd, DomRange.checkPoint, textAt_eq_some.mp hv, Document.length, hle,
    hroot, hcmp]

theorem setStart_of_ordered (d : Document) (r : DomRange) (node : NodeRef) (offset : Nat)
    (v : JSString) (hv : d.textAt node = some v) (ho : offset ≤ v.length)
    (hroot : d.rootOf r.startContainer = d.rootOf node)
    (hcmp : d.comparePoints (node, offset) (r.endContainer, r.endOffset) ≠ Ordering.gt) :
    DomRange.setStart d r node offset =
      Except.ok { r with startContainer := node, startOffset := offset } := by
  have hle : ¬ (v.length < offset) := by omega
  simp [DomRange.setStart, DomRange.checkPoint, textAt_eq_some.mp hv, Document.length, hle,
    hroot, hcmp]

theorem slice_append (G : JSString) (a L m : Nat) :
    (G.take (a + L)).drop a ++ (G.drop (a + L)).take m = (G.drop a).take (L + m) := by
  have h1 : (G.drop a).take (L + m) = (G.drop a).take L ++ ((G.drop a).drop L).take m :=
    List.take_add _ _ _
  have h2 : (G.drop a).take L = (G.take (a + L)).drop a := List.take_drop a L G
  rw [h1, List.drop_drop, h2]

/-- Calling `setEndOffset` with a non-negative length keeps the invariant, and does not throw. -/
theorem invariant_setEndOffset (w : World) (this : Nat) (n : Int) (hn : 0 ≤ n)
    (hinv : RangeInvariant w this) :
    ∃ w' k, setEndOffset w this n = Except.ok (w', k) ∧ RangeInvariant w' this := by
  obtain ⟨self, r, v, hself, hr, hp, ho, hreach, hlin, hcmp, hcontent⟩ := hinv
  have hself' : ∀ (x : DomRange), (w.setRange self.range x).rangeSources[this]? = some self :=
    fun x => by simpa [World.setRange] using hself
  by_cases h0 : n = 0
  · subst h0
    have hseek : seek w.document r.startContainer r.startOffset 0 =
        some { node := r.startContainer, offset := r.startOffset, content := [],
               remainder := 0 } := by simp [seek]
    have hset := setEnd_same_text w.document r v r.startOffset (textAt_eq_some.mp hp)
      (le_refl _) ho
    refine ⟨_, _, setEndOffset_eq w this 0 self r _ _ hself hr hseek hset, ?_⟩
    refine ⟨_, _, v, rangeSources_setRangeSource _ this _ self (hself' _),
      ranges_setRange w self.range _ r this _ hr, hp, ho, hreach, le_refl _, ?_, ?_⟩
    · simp [Document.comparePoints, lexCompare_self]
    · simp [visibleRangeText, visible]
  · obtain ⟨k, rfl⟩ : ∃ k : Nat, n = (k : Int) + 1 := ⟨(n - 1).toNat, by omega⟩
    obtain ⟨st, v', hseek, ht, hoff, _, hlin', hc, hcmp', hroot⟩ :=
      seek_forward_linear w.document r.startContainer v r.startOffset k hp hreach ho
    have hset := setEnd_of_ordered w.document r st.node st.offset v' ht hoff hroot.symm hcmp'
    refine ⟨_, _, setEndOffset_eq w this _ self r _ _ hself hr hseek hset, ?_⟩
    refine ⟨_, _, v, rangeSources_setRangeSource _ this _ self (hself' _),
      ranges_setRange w self.range _ r this _ hr, hp, ho, hreach, ?_, ?_, ?_⟩
    · show w.document.linear (r.startContainer, r.startOffset) ≤
        w.document.linear (st.node, st.offset)
      omega
    · show w.document.comparePoints (r.startContainer, r.startOffset) (st.node, st.offset) ≠
        Ordering.gt
      intro hgt
      exact hcmp' (lexCompare_swap_gt _ _ hgt)
    · show st.content = visibleRangeText w.document
        { r with endContainer := st.node, endOffset := st.offset }
      simp only [visibleRangeText]
      rw [hc, hlin']
      congr 2
      omega

/-- Calling `setStartOffset` with a non-negative length keeps the invariant, and does not throw. -/
theorem invariant_setStartOffset (w : World) (this : Nat) (n : Int) (hn : 0 ≤ n)
    (hinv : RangeInvariant w this) :
    ∃ w' k, setStartOffset w this n = Except.ok (w', k) ∧ RangeInvariant w' this := by
  obtain ⟨self, r, v, hself, hr, hp, ho, hreach, hlin, hcmp, hcontent⟩ := hinv
  have hself' : ∀ (x : DomRange), (w.setRange self.range x).rangeSources[this]? = some self :=
    fun x => by simpa [World.setRange] using hself
  by_cases h0 : n = 0
  · subst h0
    have hseek : seek w.document r.startContainer r.startOffset (-0) =
        some { node := r.startContainer, offset := r.startOffset, content := [],
               remainder := 0 } := by simp [seek]
    have hset := setStart_of_ordered w.document r r.startContainer r.startOffset v hp ho rfl
      hcmp
    refine ⟨_, _, setStartOffset_eq w this 0 self r _ _ hself hr hseek hset, ?_⟩
    exact ⟨_, _, v, rangeSources_setRangeSource _ this _ self (hself' _),
      ranges_setRange w self.range _ r this _ hr, hp, ho, hreach, hlin, hcmp,
      by simpa using hcontent⟩
  · obtain ⟨k, rfl⟩ : ∃ k : Nat, n = (k : Int) + 1 := ⟨(n - 1).toNat, by omega⟩
    obtain ⟨st, v', hseek, ht, hoff, hreach', hlin', hc, hcmp', hroot⟩ :=
      seek_backward_linear w.document r.startContainer v r.startOffset k hp hreach ho
    have hcmp'' : w.document.comparePoints (st.node, st.offset)
        (r.endContainer, r.endOffset) ≠ Ordering.gt :=
      lexCompare_trans_le _ _ _ hcmp' hcmp
    have hset := setStart_of_ordered w.document r st.node st.offset v' ht hoff hroot.symm
      hcmp''
    refine ⟨_, _, setStartOffset_eq w this _ self r _ _ hself hr hseek hset, ?_⟩
    refine ⟨_, _, v', rangeSources_setRangeSource _ this _ self (hself' _),
      ranges_setRange w self.range _ r this _ hr, ht, hoff, hreach', ?_, hcmp'', ?_⟩
    · show w.document.linear (st.node, st.offset) ≤
        w.document.linear (r.endContainer, r.endOffset)
      omega
    · show st.content ++ self.content = visibleRangeText w.document
        { r with startContainer := st.node, startOffset := st.offset }
      obtain ⟨_, _, hle⟩ := visibleText_at w.document r.startContainer v r.startOffset hp
        hreach ho
      rw [hc, hcontent]
      simp only [visibleRangeText]
      generalize w.document.visibleText = G at *
      generalize w.document.linear (r.startContainer, r.startOffset) = ls at *
      generalize w.document.linear (r.endContainer, r.endOffset) = le at *
      generalize w.document.linear (st.node, st.offset) = ls' at *
      generalize takeVis (G.take ls).reverse (k + 1) = L at *
      subst hlin'
      have e1 : ls' + L - L = ls' := by omega
      have e2 : le - ls' = L + (le - (ls' + L)) := by omega
      rw [e1, e2, ← slice_append, visible_append]

/-- Every call with a non-negative length keeps the invariant, and does not throw. -/
theorem invariant_call (w : World) (this : Nat) (c : SpanCall) (hc : 0 ≤ c.length)
    (hinv : RangeInvariant w this) :
    ∃ w' k, TextSourceRange.call w this c = Except.ok (w', k) ∧ RangeInvariant w' this := by
  cases c with
  | setEndOffset n => exact invariant_setEndOffset w this n hc hinv
  | setStartOffset n => exact invariant_setStartOffset w this n hc hinv

/-- Every sequence of calls with non-negative lengths keeps the invariant. -/
theorem invariant_run (this : Nat) :
    ∀ (calls : List SpanCall) (w : World), (∀ c ∈ calls, 0 ≤ c.length) →
      RangeInvariant w this → RangeInvariant (TextSourceRange.run w this calls) this := by
  intro calls
  induction calls with
  | nil => intro w _ h; exact h
  | cons c cs ih =>
    intro w hcs hinv
    obtain ⟨w', k, hcall, hinv'⟩ := invariant_call w this c (hcs c (by simp)) hinv
    rw [TextSourceRange.run, hcall]
    exact ih w' (fun x hx => hcs x (by simp [hx])) hinv'

end Linear

/-! ## What a call can change -/

section Frame
open TextSourceRange

theorem RangeFrame.trans {this rg : Nat} {w₁ w₂ w₃ : World} (h₁ : RangeFrame this rg w₁ w₂)
    (h₂ : RangeFrame this rg w₂ w₃) : RangeFrame this rg w₁ w₃ := by
  obtain ⟨_, a2, a3, a4, a5⟩ := h₁
  obtain ⟨b1, b2, b3, b4, b5⟩ := h₂
  exact ⟨b1, fun s hs => (b2 s hs).trans (a2 s hs), fun j hj => (b3 j hj).trans (a3 j hj),
    b4.trans a4, b5.trans a5⟩

theorem rangeFrame_store (w : World) (this : Nat) (self x : TextSourceRange) (r' : DomRange)
    (hself : w.rangeSources[this]? = some self) (hx : x.range = self.range) :
    RangeFrame this self.range w ((w.setRange self.range r').setRangeSource this x) := by
  have hlt : this < w.rangeSources.length := (List.getElem?_eq_some_iff.mp hself).1
  refine ⟨⟨x, ?_, hx⟩, ?_, ?_, rfl, rfl⟩
  · simp [World.setRangeSource, World.setRange, List.getElem?_set_self hlt]
  · intro s hs
    simp [World.setRangeSource, World.setRange, List.getElem?_set_ne (Ne.symm hs)]
  · intro j hj
    simp [World.setRangeSource, World.setRange, List.getElem?_set_ne (Ne.symm hj)]

theorem call_frame (w w' : World) (this : Nat) (c : SpanCall) (k : Int)
    (self : TextSourceRange) (hself : w.rangeSources[this]? = some self)
    (h : TextSourceRange.call w this c = Except.ok (w', k)) :
    RangeFrame this self.range w w' := by
  cases c with
  | setEndOffset length =>
    simp only [TextSourceRange.call, setEndOffset, World.getRangeSource, hself, bind,
      Except.bind, World.getRange, seekResult] at h
    cases hr : w.ranges[self.range]? with
    | none => simp [hr] at h
    | some r =>
      simp only [hr] at h
      cases hseek : seek w.document r.startContainer r.startOffset length with
      | none => simp [hseek] at h
      | some st =>
        simp only [hseek] at h
        cases hset : DomRange.setEnd w.document r st.node st.offset with
        | error e => simp [hset] at h
        | ok r' =>
          simp only [hset, pure, Except.pure, Except.ok.injEq, Prod.mk.injEq] at h
          rw [← h.1]
          exact rangeFrame_store w this self _ r' hself rfl
  | setStartOffset length =>
    simp only [TextSourceRange.call, setStartOffset, World.getRangeSource, hself, bind,
      Except.bind, World.getRange, seekResult] at h
    cases hr : w.ranges[self.range]? with
    | none => simp [hr] at h
    | some r =>
      simp only [hr] at h
      cases hseek : seek w.document r.startContainer r.startOffset (-length) with
      | none => simp [hseek] at h
      | some st =>
        simp only [hseek] at h
        cases hset : DomRange.setStart w.document r st.node st.offset with
        | error e => simp [hset] at h
        | ok r' =>
          simp only [hset, pure, Except.pure, Except.ok.injEq, Prod.mk.injEq] at h
          rw [← h.1]
          exact rangeFrame_store w this self _ r' hself rfl

/-- A sequence of calls on a range source changes nothing but that range source and its
range. -/
theorem run_frame (this : Nat) :
    ∀ (calls : List SpanCall) (w : World) (self : TextSourceRange),
      w.rangeSources[this]? = some self →
      RangeFrame this self.range w (TextSourceRange.run w this calls) := by
  intro calls
  induction calls with
  | nil =>
    intro w self hself
    exact ⟨⟨self, hself, rfl⟩, fun _ _ => rfl, fun _ _ => rfl, rfl, rfl⟩
  | cons c cs ih =>
    intro w self hself
    rw [TextSourceRange.run]
    cases hc : TextSourceRange.call w this c with
    | error e => exact ih w self hself
    | ok r =>
      have hf := call_frame w r.1 this c r.2 self hself hc
      obtain ⟨self', hself', hrg⟩ := hf.1
      have := ih r.1 self' hself'
      rw [hrg] at this
      exact hf.trans this

theorem text_congr (w w' : World) (s : Nat) (h : w'.rangeSources[s]? = w.rangeSources[s]?) :
    text w' s = text w s := by
  simp [text, World.getRangeSource, h]

/-- What `clone` of a range source builds: a new `Range` object with the boundary points of
the original, and a new range source over it. -/
theorem clone_eq (w w₁ : World) (s c : Nat) (h : TextSourceRange.clone w s = Except.ok (w₁, c)) :
    ∃ self r, w.rangeSources[s]? = some self ∧ w.ranges[self.range]? = some r ∧
      c = w.rangeSources.length ∧
      w₁ = { w with
        ranges := w.ranges ++ [r]
        rangeSources := w.rangeSources ++
          [{ range := w.ranges.length, rangeStartOffset := r.startOffset,
             content := self.content, imposterContainer := self.imposterContainer,
             imposterSourceElement := self.imposterSourceElement }] } := by
  cases hs : w.rangeSources[s]? with
  | none => simp [TextSourceRange.clone, World.getRangeSource, hs, bind, Except.bind] at h
  | some self =>
    cases hr : w.ranges[self.range]? with
    | none =>
      simp [TextSourceRange.clone, World.getRangeSource, hs, bind, Except.bind, cloneRange,
        World.getRange, hr] at h
    | some r =>
      simp only [TextSourceRange.clone, World.getRangeSource, hs, bind, Except.bind, cloneRange,
        World.getRange, hr, pure, Except.pure, create, List.getElem?_concat_length,
        Except.ok.injEq, Prod.mk.injEq] at h
      exact ⟨self, r, rfl, hr, h.2.symm, h.1.symm⟩

end Frame

section ElementFrame
open TextSourceElement

theorem element_call_frame (w w' : World) (this : Nat) (c : SpanCall) (k : Int)
    (h : TextSourceElement.call w this c = Except.ok (w', k)) :
    (∀ s, s ≠ this → w'.elementSources[s]? = w.elementSources[s]?) ∧
      w'.ranges = w.ranges ∧ w'.rangeSources = w.rangeSources ∧ w'.document = w.document := by
  cases c with
  | setEndOffset length =>
    cases hs : w.elementSources[this]? with
    | none =>
      simp [TextSourceElement.call, TextSourceElement.setEndOffset, World.getElementSource, hs,
        bind, Except.bind] at h
    | some self =>
      cases hi : iterated (sourceValue w.document self.element) with
      | none =>
        simp [TextSourceElement.call, TextSourceElement.setEndOffset, World.getElementSource,
          hs, hi, bind, Except.bind, throw, throwThe, MonadExceptOf.throw] at h
      | some source =>
        simp only [TextSourceElement.call, TextSourceElement.setEndOffset,
          World.getElementSource, hs, hi, bind, Except.bind, pure, Except.pure,
          Except.ok.injEq, Prod.mk.injEq] at h
        rw [← h.1]
        refine ⟨fun s hs' => ?_, rfl, rfl, rfl⟩
        simp [World.setElementSource, List.getElem?_set_ne (Ne.symm hs')]
  | setStartOffset length =>
    simp only [TextSourceElement.call, TextSourceElement.setStartOffset, pure, Except.pure,
      Except.ok.injEq, Prod.mk.injEq] at h
    rw [← h.1]
    exact ⟨fun _ _ => rfl, rfl, rfl, rfl⟩

/-- A call on an element source that throws changes nothing but that element source. -/
theorem element_thrown_frame (w : World) (this : Nat) (c : SpanCall) :
    (∀ s, s ≠ this →
      (TextSourceElement.callThrown w this c).elementSources[s]? = w.elementSources[s]?) ∧
    (TextSourceElement.callThrown w this c).ranges = w.ranges ∧
    (TextSourceElement.callThrown w this c).rangeSources = w.rangeSources ∧
    (TextSourceElement.callThrown w this c).document = w.document := by
  cases c with
  | setEndOffset length =>
    simp only [TextSourceElement.callThrown, TextSourceElement.setEndOffset.thrown]
    cases hs : w.elementSources[this]? with
    | none => exact ⟨fun _ _ => rfl, rfl, rfl, rfl⟩
    | some self =>
      refine ⟨fun s hs' => ?_, rfl, rfl, rfl⟩
      simp [World.setElementSource, List.getElem?_set_ne (Ne.symm hs')]
  | setStartOffset length => exact ⟨fun _ _ => rfl, rfl, rfl, rfl⟩

/-- A sequence of calls on an element source changes nothing but that element source. -/
theorem element_run_frame (this : Nat) :
    ∀ (calls : List SpanCall) (w : World),
      (∀ s, s ≠ this →
        (TextSourceElement.run w this calls).elementSources[s]? = w.elementSources[s]?) ∧
      (TextSourceElement.run w this calls).ranges = w.ranges ∧
      (TextSourceElement.run w this calls).rangeSources = w.rangeSources ∧
      (TextSourceElement.run w this calls).document = w.document := by
  intro calls
  induction calls with
  | nil => intro w; exact ⟨fun _ _ => rfl, rfl, rfl, rfl⟩
  | cons c cs ih =>
    intro w
    rw [TextSourceElement.run]
    cases hc : TextSourceElement.call w this c with
    | error e =>
      obtain ⟨a1, a2, a3, a4⟩ := element_thrown_frame w this c
      obtain ⟨b1, b2, b3, b4⟩ := ih (TextSourceElement.callThrown w this c)
      exact ⟨fun s hs => (b1 s hs).trans (a1 s hs), b2.trans a2, b3.trans a3, b4.trans a4⟩
    | ok r =>
      obtain ⟨a1, a2, a3, a4⟩ := element_call_frame w r.1 this c r.2 hc
      obtain ⟨b1, b2, b3, b4⟩ := ih r.1
      exact ⟨fun s hs => (b1 s hs).trans (a1 s hs), b2.trans a2, b3.trans a3, b4.trans a4⟩

theorem element_text_congr (w w' : World) (s : Nat)
    (h : w'.elementSources[s]? = w.elementSources[s]?) :
    TextSourceElement.text w' s = TextSourceElement.text w s := by
  simp [TextSourceElement.text, World.getElementSource, h]

end ElementFrame

/-! ## The copy loop of the element source -/

section ElementSource
open TextSourceElement

theorem codePoints_test (s : JSString) :
    ∀ c ∈ codePoints s, IGNORE_TEXT_PATTERN_test c = decide (c = [ZWNJ]) ∧
      1 ≤ c.length ∧ c.length ≤ 2 := by
  induction s using codePoints.induct with
  | case1 => simp [codePoints]
  | case2 c => simp [codePoints, test_singleton]
  | case3 c c2 rest h ih =>
    intro x hx
    rw [codePoints, if_pos h] at hx
    rcases List.mem_cons.mp hx with rfl | hx
    · refine ⟨?_, by simp, by simp⟩
      have h1 : ZWNJ ≠ c := by
        intro he
        have := h.1
        rw [← he] at this
        simp [ZWNJ] at this
      have h2 : ZWNJ ≠ c2 := by
        intro he
        have := h.2.2.1
        rw [← he] at this
        simp [ZWNJ] at this
      simp [IGNORE_TEXT_PATTERN_test, h1, h2]
    · exact ih x hx
  | case4 c c2 rest h ih =>
    intro x hx
    rw [codePoints, if_neg h] at hx
    rcases List.mem_cons.mp hx with rfl | hx
    · simp [test_singleton]
    · exact ih x hx

/-- The copy loop of `setEndOffset` takes the code points that are not U+200C until it has
`length` of them. -/
theorem element_loop_eq (length : Int) :
    ∀ (cps : List JSString) (consumed : Int) (content : JSString),
      (∀ c ∈ cps, IGNORE_TEXT_PATTERN_test c = decide (c = [ZWNJ])) →
      setEndOffset.loop length cps consumed content =
        content ++ ((cps.filter (fun c => decide (c ≠ [ZWNJ]))).take
          (length - consumed).toNat).flatten := by
  intro cps
  induction cps with
  | nil => intro consumed content _; simp [setEndOffset.loop]
  | cons c cps ih =>
    intro consumed content h
    have hc := h c (by simp)
    have ih' := fun k x => ih k x (fun y hy => h y (by simp [hy]))
    rw [setEndOffset.loop]
    by_cases hge : consumed ≥ length
    · have : (length - consumed).toNat = 0 := by omega
      simp [hge, this]
    · rw [if_neg hge]
      by_cases hz : c = [ZWNJ]
      · subst hz
        have ht : IGNORE_TEXT_PATTERN_test [ZWNJ] = true := by simp [test_singleton]
        simp only [ht, Bool.not_true, Bool.false_eq_true, if_false]
        rw [ih']
        simp
      · have ht : IGNORE_TEXT_PATTERN_test c = false := by rw [hc]; simp [hz]
        simp only [ht, Bool.not_false, if_true]
        rw [ih']
        obtain ⟨m, hm⟩ : ∃ m, (length - consumed).toNat = m + 1 :=
          ⟨(length - consumed).toNat - 1, by omega⟩
        have hm' : (length - (consumed + 1)).toNat = m := by omega
        simp [hz, hm, hm']

/-- What the loop of `setEndOffset` iterates over when the source value is not a Number
other than zero: the source text, or the empty string. -/
theorem iterated_sourceValue (d : Document) (element : NodeRef)
    (hnum : ∀ q, sourceValue d element = ElementValue.number q → q = 0) :
    iterated (sourceValue d element) = some ((sourceText d element).getD []) := by
  unfold sourceText
  cases hv : sourceValue d element with
  | undefined => rfl
  | string s => rfl
  | number q => simp [iterated, hnum q hv]

/-- A source value that is a Number other than zero is not iterated over. -/
theorem iterated_number (q : ℚ) (hq : q ≠ 0) : iterated (ElementValue.number q) = none := by
  simp [iterated, hq]

theorem element_setEndOffset_eq (w : World) (this : Nat) (self : TextSourceElement) (n : Int)
    (hself : w.elementSources[this]? = some self)
    (hnum : ∀ q, sourceValue w.document self.element = ElementValue.number q → q = 0) :
    TextSourceElement.setEndOffset w this n =
      Except.ok (w.setElementSource this
        ⟨self.element, ElementValue.string
          (firstCharacters n.toNat ((sourceText w.document self.element).getD []))⟩,
        ((firstCharacters n.toNat
          ((sourceText w.document self.element).getD [])).length : Int)) := by
  have h := element_loop_eq n (codePoints ((sourceText w.document self.element).getD [])) 0 []
    (fun c hc => (codePoints_test _ c hc).1)
  simp only [Int.sub_zero, List.nil_append] at h
  simp [TextSourceElement.setEndOffset, World.getElementSource, hself, bind, Except.bind, pure,
    Except.pure, h, firstCharacters, iterated_sourceValue _ _ hnum]

/-- The `setEndOffset` of an element source whose source value is a Number other than zero
throws a `TypeError`, and leaves the Number in the content. -/
theorem element_setEndOffset_throws (w : World) (this : Nat) (self : TextSourceElement)
    (n : Int) (q : ℚ) (hself : w.elementSources[this]? = some self)
    (hv : sourceValue w.document self.element = ElementValue.number q) (hq : q ≠ 0) :
    TextSourceElement.setEndOffset w this n = Except.error JSError.typeError ∧
      TextSourceElement.text (TextSourceElement.setEndOffset.thrown w this) this =
        Except.ok (ElementValue.number q) := by
  have hlt : this < w.elementSources.length := (List.getElem?_eq_some_iff.mp hself).1
  constructor
  · simp [TextSourceElement.setEndOffset, World.getElementSource, hself, bind, Except.bind, hv,
      iterated_number q hq, throw, throwThe, MonadExceptOf.throw]
  · simp [TextSourceElement.setEndOffset.thrown, hself, hv, TextSourceElement.text,
      World.getElementSource, World.setElementSource, List.getElem?_set_self hlt, bind,
      Except.bind, pure, Except.pure]

theorem length_flatten_le (L : List JSString) (h : ∀ c ∈ L, 1 ≤ c.length ∧ c.length ≤ 2) :
    L.length ≤ L.flatten.length ∧ L.flatten.length ≤ 2 * L.length := by
  induction L with
  | nil => simp
  | cons c L ih =>
    have h1 := h c (by simp)
    have h2 := ih (fun x hx => h x (by simp [hx]))
    simp only [List.flatten_cons, List.length_append, List.length_cons]
    omega

theorem length_flatten_eq (L : List JSString) (h : ∀ c ∈ L, c.length = 1) :
    L.flatten.length = L.length := by
  induction L with
  | nil => simp
  | cons c L ih =>
    have h1 := h c (by simp)
    have h2 := ih (fun x hx => h x (by simp [hx]))
    simp only [List.flatten_cons, List.length_append, List.length_cons]
    omega

theorem element_text_setElementSource (w : World) (this : Nat) (x self : TextSourceElement)
    (hself : w.elementSources[this]? = some self) :
    TextSourceElement.text (w.setElementSource this x) this = Except.ok x.content := by
  have hlt : this < w.elementSources.length := (List.getElem?_eq_some_iff.mp hself).1
  simp [TextSourceElement.text, World.getElementSource, World.setElementSource,
    List.getElem?_set_self hlt, bind, Except.bind, pure, Except.pure]

end ElementSource

/-! ## The loops end -/

section Termination
open TextSourceRange

theorem getNextNode_loopWithin (d : Document) :
    ∀ (p : NodeRef) (fuel : Nat), p.length + 1 ≤ fuel →
      _getNextNode.loopWithin d fuel p = some (_getNextNode.loop d fuel p) := by
  intro p
  induction p with
  | nil =>
    intro fuel h
    obtain ⟨f, rfl⟩ : ∃ f, fuel = f + 1 := ⟨fuel - 1, by omega⟩
    simp [_getNextNode.loopWithin, _getNextNode.loop, Document.nextSibling,
      Document.parentNode]
  | cons i q ih =>
    intro fuel h
    obtain ⟨f, rfl⟩ : ∃ f, fuel = f + 1 := ⟨fuel - 1, by omega⟩
    rw [_getNextNode.loopWithin, _getNextNode.loop]
    cases d.nextSibling (i :: q) with
    | some s => rfl
    | none =>
      by_cases hd : (i :: q) ∈ d.detached
      · simp [Document.parentNode, hd]
      · simp only [Document.parentNode, hd, if_false]
        exact ih f (by simp at h; omega)

theorem getPreviousNode_loopWithin (d : Document) :
    ∀ (p : NodeRef) (fuel : Nat), p.length + 1 ≤ fuel →
      _getPreviousNode.loopWithin d fuel p = some (_getPreviousNode.loop d fuel p) := by
  intro p
  induction p with
  | nil =>
    intro fuel h
    obtain ⟨f, rfl⟩ : ∃ f, fuel = f + 1 := ⟨fuel - 1, by omega⟩
    simp [_getPreviousNode.loopWithin, _getPreviousNode.loop, Document.previousSibling,
      Document.parentNode]
  | cons i q ih =>
    intro fuel h
    obtain ⟨f, rfl⟩ : ∃ f, fuel = f + 1 := ⟨fuel - 1, by omega⟩
    rw [_getPreviousNode.loopWithin, _getPreviousNode.loop]
    cases d.previousSibling (i :: q) with
    | some s => rfl
    | none =>
      by_cases hd : (i :: q) ∈ d.detached
      · simp [Document.parentNode, hd]
      · simp only [Document.parentNode, hd, if_false]
        exact ih f (by simp at h; omega)

/-- The forward loop over a text breaks exactly when the remainder has come down to zero. -/
theorem forward_loop_remainder (v : JSString) :
    ∀ (left o : Nat) (content : JSString) (r : Int), 1 ≤ r →
      ((_seekForwardTextNode.loop v left o content r).2.2.2 = true →
          (_seekForwardTextNode.loop v left o content r).2.2.1 = 0) ∧
        ((_seekForwardTextNode.loop v left o content r).2.2.2 = false →
          1 ≤ (_seekForwardTextNode.loop v left o content r).2.2.1) := by
  intro left
  induction left with
  | zero => intro o content r hr; simp [_seekForwardTextNode.loop, hr]
  | succ left ih =>
    intro o content r hr
    rw [_seekForwardTextNode.loop]
    by_cases ht : IGNORE_TEXT_PATTERN_test (indexToString v[o]?) = true
    · simp only [ht, Bool.not_true, Bool.false_eq_true, if_false]
      exact ih _ _ r hr
    · simp only [ht, Bool.not_false, if_true]
      by_cases h0 : r - 1 ≤ 0
      · simp only [h0, if_true]
        exact ⟨fun _ => by omega, fun h => by cases h⟩
      · simp only [h0, if_false]
        exact ih _ _ (r - 1) (by omega)

/-- The backward loop over a text breaks exactly when the remainder has come down to zero. -/
theorem backward_loop_remainder (v : JSString) :
    ∀ (o : Nat) (content : JSString) (r : Int), 1 ≤ r →
      ((_seekBackwardTextNode.loop v o content r).2.2.2 = true →
          (_seekBackwardTextNode.loop v o content r).2.2.1 = 0) ∧
        ((_seekBackwardTextNode.loop v o content r).2.2.2 = false →
          1 ≤ (_seekBackwardTextNode.loop v o content r).2.2.1) := by
  intro o
  induction o with
  | zero => intro content r hr; simp [_seekBackwardTextNode.loop, hr]
  | succ o ih =>
    intro content r hr
    rw [_seekBackwardTextNode.loop]
    by_cases ht : IGNORE_TEXT_PATTERN_test (indexToString v[o]?) = true
    · simp only [ht, Bool.not_true, Bool.false_eq_true, if_false]
      exact ih _ r hr
    · simp only [ht, Bool.not_false, if_true]
      by_cases h0 : r - 1 ≤ 0
      · simp only [h0, if_true]
        exact ⟨fun _ => by omega, fun h => by cases h⟩
      · simp only [h0, if_false]
        exact ih _ (r - 1) (by omega)

theorem visitNode_remainder (d : Document) (forward : Bool) (p : NodeRef) (st : SeekState)
    (reset : Bool) (hr : 1 ≤ st.remainder) :
    ((visitNode d forward p st reset).2.2 = true →
        (visitNode d forward p st reset).1.remainder = 0) ∧
      ((visitNode d forward p st reset).2.2 = false →
        1 ≤ (visitNode d forward p st reset).1.remainder) := by
  unfold visitNode
  cases hg : d.get? p with
  | none => simp [hr]
  | some t =>
    cases t with
    | text v =>
      cases forward
      · simpa [_seekBackwardTextNode] using backward_loop_remainder v _ st.content _ hr
      · simpa [_seekForwardTextNode] using forward_loop_remainder v _ _ st.content _ hr
    | element _ _ _ _ _ => simp [hr]
    | other _ _ _ _ => simp [hr]

/-- The visits of a list of nodes break exactly when the remainder has come down to zero. -/
theorem visitNodes_remainder (d : Document) (forward : Bool) :
    ∀ (l : List NodeRef) (st : SeekState) (reset : Bool), 1 ≤ st.remainder →
      ((visitNodes d forward l st reset).2.2 = true →
          (visitNodes d forward l st reset).1.remainder = 0) ∧
        ((visitNodes d forward l st reset).2.2 = false →
          1 ≤ (visitNodes d forward l st reset).1.remainder) := by
  intro l
  induction l with
  | nil => intro st reset hr; simp [visitNodes, hr]
  | cons p l ih =>
    intro st reset hr
    have h := visitNode_remainder d forward p st reset hr
    rw [visitNodes]
    by_cases hb : (visitNode d forward p st reset).2.2 = true
    · rw [if_pos hb]
      exact h
    · rw [if_neg hb]
      exact ih _ _ (h.2 (by simpa using hb))

/-- The walk of `seek` from a node of the tree: the nodes it would visit without a break, up
to the end of the tree, and the state it returns for a length other than zero. -/
theorem seek_walk (d : Document) (node : NodeRef) (offset : Nat) (length : Int)
    (hv : (d.get? node).isSome) :
    ∃ start t reset, d.get? start = some t ∧
      (start = node ∨ _getRubyElement d node = some start) ∧
      Segment d (decide (length ≥ 0)) (some start)
        (walkOrder d (decide (length ≥ 0)) start t ++ walkAfter d (decide (length ≥ 0)) start)
        none ∧
      (length ≠ 0 → seek d node offset length = some (visitNodes d (decide (length ≥ 0))
        (walkOrder d (decide (length ≥ 0)) start t ++ walkAfter d (decide (length ≥ 0)) start)
        (seekStart node offset length) reset).1) := by
  have hst : ∀ b : Bool, b = decide (length ≥ 0) →
      ({ node := node, offset := offset, content := [],
         remainder := if b = true then length else -length } : SeekState) =
        seekStart node offset length := by
    intro b hb
    subst hb
    simp [seekStart]
  cases hruby : _getRubyElement d node with
  | none =>
    obtain ⟨t, ht⟩ := Option.isSome_iff_exists.mp hv
    refine ⟨node, t, false, ht, Or.inl rfl,
      (segment_subtree d _ _ node t (le_refl _) ht).append
        (segment_after d _ node (by simp [ht])), fun h0 => ?_⟩
    simp only [seek, h0, if_false, hruby]
    rw [seek_loop_total d _ node t ht, hst _ rfl]
  | some ruby =>
    obtain ⟨t, ht⟩ := Option.isSome_iff_exists.mp (getRubyElement_valid hruby)
    refine ⟨ruby, t, true, ht, Or.inr rfl,
      (segment_subtree d _ _ ruby t (le_refl _) ht).append
        (segment_after d _ ruby (by simp [ht])), fun h0 => ?_⟩
    simp only [seek, h0, if_false, hruby]
    rw [seek_loop_total d _ ruby t ht, hst _ rfl]

theorem seekStart_remainder (node : NodeRef) (offset : Nat) (length : Int) (h0 : length ≠ 0) :
    1 ≤ (seekStart node offset length).remainder := by
  simp only [seekStart]
  split <;> omega

end Termination

/-! ## Elements the walk does not enter -/

section Skipped
open TextSourceRange

theorem insideSkipped_parent {d : Document} {i : Nat} {q : NodeRef}
    (hd : (i :: q) ∉ d.detached) (h : d.insideSkipped (i :: q) = false) :
    visitChildren d q = true ∧ d.insideSkipped q = false := by
  simpa [Document.insideSkipped, hd] using h

theorem insideSkipped_child {d : Document} {i : Nat} {q : NodeRef}
    (hv : visitChildren d q = true) (h : d.insideSkipped q = false) :
    d.insideSkipped (i :: q) = false := by
  by_cases hd : (i :: q) ∈ d.detached <;> simp [Document.insideSkipped, hd, hv, h]

/-- The walk order of a subtree that is not inside a skipped element has no node inside a
skipped element. -/
theorem subOrder_not_skipped (d : Document) (forward : Bool) :
    ∀ (n : Nat) (c : NodeRef) (t : Node), t.count ≤ n → d.get? c = some t →
      d.insideSkipped c = false → ∀ y ∈ subOrder d forward c, d.insideSkipped y = false := by
  intro n
  induction n with
  | zero => intro c t h; have := Node.count_pos t; omega
  | succ n ih =>
    intro c t hn hg hc y hy
    rw [subOrder_eq hg] at hy
    rcases List.mem_cons.mp hy with rfl | hy
    · exact hc
    · by_cases hv : visitChildren d c = true
      · simp only [hv, if_true] at hy
        obtain ⟨c', hc', hy'⟩ := mem_subsOrder.mp hy
        have hc'' : c' ∈ d.childRefs c := by
          cases forward <;> simpa [kids] using hc'
        obtain ⟨i, t', rfl, hg', hi, hd⟩ := mem_childRefs hc''
        rw [hg] at hg'
        cases hg'
        have hgc : d.get? (i :: c) = some t.childNodes[i] := by
          rw [get?_child hg, List.getElem?_eq_getElem hi]
        have hlt := count_child_lt (List.getElem_mem hi)
        exact ih (i :: c) _ (by omega) hgc (insideSkipped_child hv hc) y hy'
      · simp [hv] at hy

/-- The nodes a walk visits after a node that is not inside a skipped element are not
inside a skipped element either. -/
theorem walkAfter_not_skipped (d : Document) (forward : Bool) :
    ∀ (x : NodeRef), (d.get? x).isSome → d.insideSkipped x = false →
      ∀ y ∈ walkAfter d forward x, d.insideSkipped y = false := by
  intro x
  induction x with
  | nil => intro _ _ y hy; simp [walkAfter] at hy
  | cons i q ih =>
    intro hv hx y hy
    by_cases hd : (i :: q) ∈ d.detached
    · simp [walkAfter, hd] at hy
    · obtain ⟨cx, hcx⟩ := Option.isSome_iff_exists.mp hv
      obtain ⟨t, hg, hci⟩ := get?_parent hcx
      have hi : i < t.childNodes.length := (List.getElem?_eq_some_iff.mp hci).1
      obtain ⟨hvq, hq⟩ := insideSkipped_parent hd hx
      rw [walkAfter_cons hd hg hi, List.mem_append] at hy
      rcases hy with hy | hy
      · obtain ⟨c', hc', hy'⟩ := mem_subsOrder.mp hy
        have hmem : ∃ j, c' = j :: q ∧ j < t.childNodes.length := by
          cases forward
          · simp only [Bool.false_eq_true, if_false, List.mem_reverse] at hc'
            obtain ⟨j, rfl, _, hj, _⟩ := mem_kidsFrom.mp hc'
            exact ⟨j, rfl, by omega⟩
          · simp only [if_true] at hc'
            obtain ⟨j, rfl, _, hj2, _⟩ := mem_kidsFrom.mp hc'
            exact ⟨j, rfl, by omega⟩
        obtain ⟨j, rfl, hj⟩ := hmem
        have hgj : d.get? (j :: q) = some t.childNodes[j] := by
          rw [get?_child hg, List.getElem?_eq_getElem hj]
        exact subOrder_not_skipped d forward _ (j :: q) _ (le_refl _) hgj
          (insideSkipped_child hvq hq) y hy'
      · exact ih (by simp [hg]) hq y hy

theorem nearestElement_not_skipped (d : Document) :
    ∀ (p e : NodeRef), d.nearestElement p = some e → d.insideSkipped p = false →
      d.insideSkipped e = false := by
  intro p
  induction p with
  | nil =>
    intro e h _
    by_cases he : d.nodeType [] = ELEMENT_NODE
    · simp only [Document.nearestElement, he, if_true, Option.some.injEq] at h
      subst h
      rfl
    · simp [Document.nearestElement, he] at h
  | cons i q ih =>
    intro e h hp
    by_cases he : d.nodeType (i :: q) = ELEMENT_NODE
    · simp only [Document.nearestElement, he, if_true, Option.some.injEq] at h
      subst h
      exact hp
    · by_cases hd : (i :: q) ∈ d.detached
      · simp [Document.nearestElement, he, hd] at h
      · simp only [Document.nearestElement, he, hd, if_false] at h
        exact ih e h (insideSkipped_parent hd hp).2

theorem getRubyElement_not_skipped (d : Document) (node ruby : NodeRef)
    (h : _getRubyElement d node = some ruby) (hp : d.insideSkipped node = false) :
    d.insideSkipped ruby = false := by
  unfold _getRubyElement at h
  rw [getParentElement_eq] at h
  cases hn : d.nearestElement node with
  | none => simp [hn] at h
  | some rt =>
    have hrt := nearestElement_not_skipped d node rt hn hp
    simp only [hn] at h
    split at h
    · cases hpar : d.parentNode rt with
      | none => simp [hpar] at h
      | some q =>
        simp only [hpar] at h
        split at h
        · cases h
          cases rt with
          | nil => simp [Document.parentNode] at hpar
          | cons i q' =>
            by_cases hd : (i :: q') ∈ d.detached
            · simp [Document.parentNode, hd] at hpar
            · simp only [Document.parentNode, hd, if_false, Option.some.injEq] at hpar
              subst hpar
              exact (insideSkipped_parent hd hrt).2
        · cases h
    · cases h

/-- The walk of a seek from a node that is not inside a skipped element: the nodes it would
visit without a break up to the end of the tree, none of them inside a skipped element, and
the state the seek returns, which for a length other than zero is the one that the visits of
these nodes give. -/
theorem seek_not_skipped (d : Document) (node : NodeRef) (offset : Nat) (length : Int)
    (hv : (d.get? node).isSome) (hout : d.insideSkipped node = false) :
    ∃ start l reset, (start = node ∨ _getRubyElement d node = some start) ∧
      Segment d (decide (length ≥ 0)) (some start) l none ∧
      (∀ q ∈ l, d.insideSkipped q = false) ∧
      seek d node offset length =
        some (if length = 0 then seekStart node offset length
          else (visitNodes d (decide (length ≥ 0)) l (seekStart node offset length) reset).1) := by
  obtain ⟨start, t, reset, ht, hstart, hseg, hseek⟩ := seek_walk d node offset length hv
  have hs : d.insideSkipped start = false := by
    rcases hstart with rfl | hr
    · exact hout
    · exact getRubyElement_not_skipped d node start hr hout
  refine ⟨start, _, reset, hstart, hseg, fun q hq => ?_, ?_⟩
  · rcases List.mem_append.mp hq with hq | hq
    · have := subOrder_not_skipped d (decide (length ≥ 0)) _ start t (le_refl _) ht hs q
      exact this (by simpa [subOrder, ht] using hq)
    · exact walkAfter_not_skipped d _ start (by simp [ht]) hs q hq
  · by_cases h0 : length = 0
    · subst h0
      simp [seek, seekStart]
    · rw [if_neg h0]
      exact hseek h0

end Skipped

/-! ## The traversal of the whole tree -/

section TreeOrder
open TextSourceRange

theorem chain_append {next : NodeRef → Option NodeRef} {a b c : Option NodeRef}
    {l₁ l₂ : List NodeRef} (h₁ : Chain next a l₁ b) (h₂ : Chain next b l₂ c) :
    Chain next a (l₁ ++ l₂) c := by
  induction h₁ with
  | done a => simpa using h₂
  | step p l b _ ih => exact Chain.step p _ _ (ih h₂)

theorem chain_head {next : NodeRef → Option NodeRef} {a : Option NodeRef} {l : List NodeRef}
    (h : Chain next a l none) : a = l.head? := by
  cases h <;> rfl

theorem getNextNode_loop_eq (d : Document) :
    ∀ (p : NodeRef) (fuel : Nat), p.length + 1 ≤ fuel →
      _getNextNode.loop d fuel p = d.following p := by
  intro p
  induction p with
  | nil =>
    intro fuel h
    obtain ⟨f, rfl⟩ : ∃ f, fuel = f + 1 := ⟨fuel - 1, by omega⟩
    simp [_getNextNode.loop, Document.following, Document.nextSibling, Document.parentNode]
  | cons i q ih =>
    intro fuel h
    obtain ⟨f, rfl⟩ : ∃ f, fuel = f + 1 := ⟨fuel - 1, by omega⟩
    rw [_getNextNode.loop, Document.following]
    cases d.nextSibling (i :: q) with
    | some s => rfl
    | none =>
      by_cases hd : (i :: q) ∈ d.detached
      · simp [Document.parentNode, hd]
      · simp only [Document.parentNode, hd, if_false]
        exact ih f (by simp at h; omega)

theorem getNextNode_false (d : Document) (p : NodeRef) :
    _getNextNode d p false = d.following p := by
  simp only [_getNextNode, Bool.false_eq_true, if_false]
  exact getNextNode_loop_eq d p _ (le_refl _)

theorem getNode_true_or (d : Document) (forward : Bool) (p : NodeRef) :
    getNode d forward p true = (kids d forward p).head?.or (getNode d forward p false) := by
  rw [getNode_true]
  cases (kids d forward p).head? <;> rfl

theorem getNode_child_or {d : Document} {forward : Bool} {q c : NodeRef} {A B : List NodeRef}
    (h : kids d forward q = A ++ c :: B) :
    getNode d forward c false = B.head?.or (getNode d forward q false) := by
  rw [getNode_child h]
  cases B <;> rfl

/-- The traversal through the rest of a list of siblings, given the traversal through each
of their subtrees. -/
theorem chain_siblings (d : Document) (forward : Bool) (q : NodeRef)
    (sub : NodeRef → List NodeRef) :
    ∀ (rest pre : List NodeRef), kids d forward q = pre ++ rest →
      (∀ c ∈ rest, Chain (fun x => getNode d forward x true) (some c) (sub c)
        (getNode d forward c false)) →
      Chain (fun x => getNode d forward x true) (rest.head?.or (getNode d forward q false))
        ((rest.map sub).flatten) (getNode d forward q false) := by
  intro rest
  induction rest with
  | nil => intro pre _ _; exact Chain.done _
  | cons c rest ih =>
    intro pre hk hsub
    have h1 := hsub c (by simp)
    have h2 := ih (pre ++ [c]) (by simpa using hk) (fun x hx => hsub x (by simp [hx]))
    rw [← getNode_child_or hk] at h2
    simpa using chain_append h1 h2

theorem mem_kids {d : Document} {forward : Bool} {p c : NodeRef} :
    c ∈ kids d forward p ↔ c ∈ d.childRefs p := by
  cases forward <;> simp [kids]

/-- The traversal through the subtree of a node: it yields the tree order of the subtree and
arrives where `getNode` without a visit of the children leads from the node. -/
theorem chain_subtree (d : Document) (forward : Bool) :
    ∀ (n : Nat) (p : NodeRef) (t : Node), t.count ≤ n → d.get? p = some t →
      Chain (fun x => getNode d forward x true) (some p) (treeOrder d forward n p)
        (getNode d forward p false) := by
  intro n
  induction n with
  | zero => intro p t h; have := Node.count_pos t; omega
  | succ n ih =>
    intro p t hn hg
    have hkids : ∀ c ∈ kids d forward p,
        Chain (fun x => getNode d forward x true) (some c) (treeOrder d forward n c)
          (getNode d forward c false) := by
      intro c hc
      obtain ⟨i, t', rfl, hg', hi, _⟩ := mem_childRefs (mem_kids.mp hc)
      rw [hg] at hg'
      cases hg'
      have hgc : d.get? (i :: p) = some t.childNodes[i] := by
        rw [get?_child hg, List.getElem?_eq_getElem hi]
      have hlt := count_child_lt (List.getElem_mem hi)
      exact ih (i :: p) _ (by omega) hgc
    have hall := chain_siblings d forward p (treeOrder d forward n) (kids d forward p) []
      (by simp) hkids
    rw [← getNode_true_or] at hall
    exact Chain.step p _ _ hall

theorem treeOrder_fuel (d : Document) (forward : Bool) :
    ∀ (n m : Nat) (p : NodeRef) (t : Node), t.count ≤ n → t.count ≤ m → d.get? p = some t →
      treeOrder d forward n p = treeOrder d forward m p := by
  intro n
  induction n with
  | zero => intro m p t h; have := Node.count_pos t; omega
  | succ n ih =>
    intro m p t hn hm hg
    obtain ⟨j, rfl⟩ : ∃ j, m = j + 1 := ⟨m - 1, by have := Node.count_pos t; omega⟩
    simp only [treeOrder]
    congr 2
    refine List.map_congr_left (fun c hc => ?_)
    obtain ⟨i, t', rfl, hg', hi, _⟩ := mem_childRefs (mem_kids.mp hc)
    rw [hg] at hg'
    cases hg'
    have hgc : d.get? (i :: p) = some t.childNodes[i] := by
      rw [get?_child hg, List.getElem?_eq_getElem hi]
    have hlt := count_child_lt (List.getElem_mem hi)
    exact ih j (i :: p) _ (by omega) (by omega) hgc

/-- A node of the tree order of a subtree is a node of the tree that lies below the root of
the subtree. -/
theorem mem_treeOrder_below (d : Document) (forward : Bool) :
    ∀ (n : Nat) (c : NodeRef), ∀ y ∈ treeOrder d forward n c,
      (∃ s, y = s ++ c) ∧ (∃ t₂, d.position y = d.position c ++ t₂) ∧
        d.rootOf y = d.rootOf c ∧ ((d.get? c).isSome → (d.get? y).isSome) := by
  intro n
  induction n with
  | zero => intro c y hy; simp [treeOrder] at hy
  | succ n ih =>
    intro c y hy
    rcases List.mem_cons.mp hy with rfl | hy
    · exact ⟨⟨[], rfl⟩, ⟨[], by simp⟩, rfl, id⟩
    · obtain ⟨l, hl, hyl⟩ := List.mem_flatten.mp hy
      obtain ⟨c', hc', rfl⟩ := List.mem_map.mp hl
      obtain ⟨i, t, rfl, hg, hi, hd⟩ := mem_childRefs (mem_kids.mp hc')
      have hgc : (d.get? (i :: c)).isSome := by
        rw [get?_child hg, List.getElem?_eq_getElem hi]; rfl
      obtain ⟨⟨s, h0⟩, ⟨t₂, h1⟩, h2, h3⟩ := ih (i :: c) y hyl
      obtain ⟨p1, p2⟩ := position_cons hd
      exact ⟨⟨s ++ [i], by rw [h0]; simp⟩, ⟨d.index (i :: c) :: t₂, by rw [h1, p1]; simp⟩,
        by rw [h2, p2], fun _ => h3 hgc⟩

theorem lexCompare_extension (l t : List Nat) (a : Nat) :
    lexCompare l (l ++ a :: t) = Ordering.lt := by
  induction l with
  | nil => rfl
  | cons x l ih => simpa [lexCompare] using ih

/-- A forward traversal yields the nodes of a subtree in document order. -/
theorem treeOrder_sorted (d : Document) :
    ∀ (n : Nat) (c : NodeRef), (treeOrder d true n c).Pairwise (d.precedes) := by
  intro n
  induction n with
  | zero => intro c; simp [treeOrder]
  | succ n ih =>
    intro c
    rw [treeOrder, List.pairwise_cons]
    constructor
    · intro y hy
      obtain ⟨l, hl, hyl⟩ := List.mem_flatten.mp hy
      obtain ⟨c', hc', rfl⟩ := List.mem_map.mp hl
      obtain ⟨i, t, rfl, hg, hi, hd⟩ := mem_childRefs (mem_kids.mp hc')
      obtain ⟨_, ⟨t₂, h1⟩, _, _⟩ := mem_treeOrder_below d true n (i :: c) y hyl
      unfold Document.precedes
      rw [h1, (position_cons hd).1, List.append_assoc]
      exact lexCompare_extension _ _ _
    · rw [List.pairwise_flatten]
      constructor
      · intro l hl
        obtain ⟨c', _, rfl⟩ := List.mem_map.mp hl
        exact ih c'
      · rw [List.pairwise_map]
        have hk : kids d true c = d.childRefs c := by simp [kids]
        rw [hk]
        refine (childRefs_pairwise d c).imp_of_mem ?_
        intro a b ha hb hab x hx y hy
        obtain ⟨i, t, rfl, hg, hi, hdi⟩ := mem_childRefs ha
        obtain ⟨j, t', rfl, hg', hj, hdj⟩ := mem_childRefs hb
        rw [hg] at hg'
        cases hg'
        obtain ⟨_, ⟨tx, hpx⟩, _, _⟩ := mem_treeOrder_below d true n (i :: c) x hx
        obtain ⟨_, ⟨ty, hpy⟩, _, _⟩ := mem_treeOrder_below d true n (j :: c) y hy
        have hij : i < j := by simpa using hab
        have hlt := index_lt hg hij (by omega) hdi
        unfold Document.precedes
        rw [hpx, hpy, (position_cons hdi).1, (position_cons hdj).1, List.append_assoc,
          List.append_assoc]
        exact (lexCompare_diverge _ _ _ _ _ hlt).1

/-- The tree order of a subtree has, with a node, the children of the node. -/
theorem treeOrder_children (d : Document) (forward : Bool) :
    ∀ (n : Nat) (c : NodeRef) (t : Node), t.count ≤ n → d.get? c = some t →
      ∀ y ∈ treeOrder d forward n c, ∀ c' ∈ d.childRefs y, c' ∈ treeOrder d forward n c := by
  intro n
  induction n with
  | zero => intro c t h; have := Node.count_pos t; omega
  | succ n ih =>
    intro c t hn hg y hy c' hc'
    have hkid : ∀ k ∈ kids d forward c, ∃ tk, d.get? k = some tk ∧ tk.count ≤ n := by
      intro k hk
      obtain ⟨i, t', rfl, hg', hi, _⟩ := mem_childRefs (mem_kids.mp hk)
      rw [hg] at hg'
      cases hg'
      have hlt := count_child_lt (List.getElem_mem hi)
      exact ⟨_, by rw [get?_child hg, List.getElem?_eq_getElem hi], by omega⟩
    rw [treeOrder]
    refine List.mem_cons_of_mem _ (List.mem_flatten.mpr ?_)
    rcases List.mem_cons.mp hy with rfl | hy
    · obtain ⟨tk, hgk, hk⟩ := hkid c' (mem_kids.mpr hc')
      obtain ⟨m, rfl⟩ : ∃ m, n = m + 1 := ⟨n - 1, by have := Node.count_pos tk; omega⟩
      exact ⟨_, List.mem_map.mpr ⟨c', mem_kids.mpr hc', rfl⟩, by simp [treeOrder]⟩
    · obtain ⟨l, hl, hyl⟩ := List.mem_flatten.mp hy
      obtain ⟨k, hk, rfl⟩ := List.mem_map.mp hl
      obtain ⟨tk, hgk, hkc⟩ := hkid k hk
      exact ⟨_, List.mem_map.mpr ⟨k, hk, rfl⟩, ih k tk hkc hgk y hyl c' hc'⟩

/-- The tree order from the root has every node of the tree. -/
theorem treeOrder_complete (d : Document) (forward : Bool) :
    ∀ (q : NodeRef), (d.get? q).isSome → d.rootOf q = [] →
      q ∈ treeOrder d forward d.root.count [] := by
  intro q
  induction q with
  | nil =>
    intro _ _
    obtain ⟨m, hm⟩ : ∃ m, d.root.count = m + 1 :=
      ⟨d.root.count - 1, by have := Node.count_pos d.root; omega⟩
    simp [hm, treeOrder]
  | cons i q ih =>
    intro hv hroot
    have hd : (i :: q) ∉ d.detached := by
      intro hd
      simp [Document.rootOf, hd] at hroot
    obtain ⟨cx, hcx⟩ := Option.isSome_iff_exists.mp hv
    obtain ⟨t, hg, hci⟩ := get?_parent hcx
    have hi : i < t.childNodes.length := (List.getElem?_eq_some_iff.mp hci).1
    have hq := ih (by simp [hg]) (by rw [← (position_cons hd).2]; exact hroot)
    exact treeOrder_children d forward _ [] d.root (le_refl _) rfl q hq _
      (mem_childRefs_of hg hi hd)

theorem kids_nodup (d : Document) (forward : Bool) (p : NodeRef) :
    (kids d forward p).Nodup := by
  have h : (d.childRefs p).Nodup :=
    (childRefs_pairwise d p).imp (fun {a b} hab heq => by subst heq; omega)
  cases forward
  · simpa [kids] using h
  · simpa [kids] using h

theorem not_suffix_of_sibling {i j : Nat} (q s : NodeRef) (h : i ≠ j) :
    ¬ (i :: q) <:+ (s ++ j :: q) := by
  rintro ⟨s', hs⟩
  have h1 : (s' ++ [i]) ++ q = (s ++ [j]) ++ q := by simpa using hs
  have h2 := List.append_cancel_right h1
  have h3 := (List.append_inj' h2 rfl).2
  simp at h3
  exact h h3

/-- The tree order from the root, split at the subtree of a node: what comes before it, the
subtree, and what the traversal yields once it has left the subtree. -/
theorem treeOrder_split (d : Document) (forward : Bool) :
    ∀ (p : NodeRef) (t : Node), d.get? p = some t → d.rootOf p = [] →
      ∃ A B, treeOrder d forward d.root.count [] = A ++ treeOrder d forward t.count p ++ B ∧
        Chain (fun x => getNode d forward x true) (getNode d forward p false) B none ∧
        (∀ y ∈ A, ¬ p <:+ y) ∧ (∀ y ∈ B, ¬ p <:+ y) := by
  intro p
  induction p with
  | nil =>
    intro t hg _
    have ht : t = d.root := by
      simp only [Document.get?, Node.get?, Option.some.injEq] at hg
      exact hg.symm
    subst ht
    refine ⟨[], [], by simp, ?_, by simp, by simp⟩
    rw [getNode_root]
    exact Chain.done _
  | cons i q ih =>
    intro c hc hroot
    have hd : (i :: q) ∉ d.detached := by
      intro hd
      simp [Document.rootOf, hd] at hroot
    obtain ⟨t, hg, hci⟩ := get?_parent hc
    have hi : i < t.childNodes.length := (List.getElem?_eq_some_iff.mp hci).1
    have hci' : t.childNodes[i] = c := (List.getElem?_eq_some_iff.mp hci).2
    obtain ⟨A, B, hL, hB, hA1, hB1⟩ := ih t hg (by rw [← (position_cons hd).2]; exact hroot)
    have hmem : (i :: q) ∈ kids d forward q := mem_kids.mpr (mem_childRefs_of hg hi hd)
    obtain ⟨pre, post, hk⟩ := List.append_of_mem hmem
    have hnd := kids_nodup d forward q
    rw [hk, List.nodup_append] at hnd
    obtain ⟨_, hnd2, hdis⟩ := hnd
    rw [List.nodup_cons] at hnd2
    obtain ⟨m, hm⟩ : ∃ m, t.count = m + 1 :=
      ⟨t.count - 1, by have := Node.count_pos t; omega⟩
    have hkid : ∀ k ∈ kids d forward q, ∃ j tk, k = j :: q ∧ d.get? k = some tk ∧
        tk.count ≤ m := by
      intro k hkm
      obtain ⟨j, t', rfl, hg', hj, _⟩ := mem_childRefs (mem_kids.mp hkm)
      rw [hg] at hg'
      cases hg'
      have hlt := count_child_lt (List.getElem_mem hj)
      exact ⟨j, _, rfl, by rw [get?_child hg, List.getElem?_eq_getElem hj], by omega⟩
    have hcm : c.count ≤ m := by
      have hlt := count_child_lt (List.getElem_mem hi)
      rw [hci'] at hlt
      omega
    have hother : ∀ k, k ∈ pre ∨ k ∈ post → ∀ y ∈ treeOrder d forward m k,
        ¬ (i :: q) <:+ y := by
      intro k hkm y hy
      have hkk : k ∈ kids d forward q := by
        rw [hk]
        rcases hkm with h | h
        · simp [h]
        · simp [h]
      have hne : k ≠ i :: q := by
        rcases hkm with h | h
        · intro he
          subst he
          exact hdis h (by simp)
        · intro he
          subst he
          exact hnd2.1 h
      obtain ⟨j, _, rfl, _, _⟩ := hkid k hkk
      obtain ⟨⟨s, rfl⟩, _⟩ := mem_treeOrder_below d forward m (j :: q) y hy
      exact not_suffix_of_sibling q s (fun h => hne (by rw [h]))
    refine ⟨A ++ q :: ((pre.map (treeOrder d forward m)).flatten),
      ((post.map (treeOrder d forward m)).flatten) ++ B, ?_, ?_, ?_, ?_⟩
    · rw [hL, hm, treeOrder, hk,
        ← treeOrder_fuel d forward m c.count (i :: q) c hcm (le_refl _) hc]
      simp
    · have hseg := chain_siblings d forward q (treeOrder d forward m) post (pre ++ [i :: q])
        (by simpa using hk)
        (fun k hkm => by
          obtain ⟨j, tk, rfl, hgk, hkc⟩ := hkid k (by rw [hk]; simp [hkm])
          exact chain_subtree d forward m _ tk hkc hgk)
      rw [← getNode_child_or hk] at hseg
      exact chain_append hseg hB
    · intro y hy
      rcases List.mem_append.mp hy with hy | hy
      · exact fun h => hA1 y hy ((List.suffix_cons i q).trans h)
      · rcases List.mem_cons.mp hy with rfl | hy
        · intro h
          have := h.length_le
          simp at this
        · obtain ⟨l, hl, hyl⟩ := List.mem_flatten.mp hy
          obtain ⟨k, hkm, rfl⟩ := List.mem_map.mp hl
          exact hother k (Or.inl hkm) y hyl
    · intro y hy
      rcases List.mem_append.mp hy with hy | hy
      · obtain ⟨l, hl, hyl⟩ := List.mem_flatten.mp hy
        obtain ⟨k, hkm, rfl⟩ := List.mem_map.mp hl
        exact hother k (Or.inr hkm) y hyl
      · exact fun h => hB1 y hy ((List.suffix_cons i q).trans h)

theorem isInclusiveAncestor_iff (d : Document) (p : NodeRef) :
    ∀ (q : NodeRef), d.rootOf q = [] → (d.isInclusiveAncestor p q = true ↔ p <:+ q) := by
  intro q
  induction q with
  | nil =>
    intro _
    simp [Document.isInclusiveAncestor]
  | cons i q ih =>
    intro hroot
    have hd : (i :: q) ∉ d.detached := by
      intro hd
      simp [Document.rootOf, hd] at hroot
    have hq := ih (by rw [← (position_cons hd).2]; exact hroot)
    simp only [Document.isInclusiveAncestor, hd, not_false_eq_true, decide_True, Bool.true_and,
      Bool.or_eq_true, decide_eq_true_eq, hq, List.suffix_cons_iff]
    exact or_congr eq_comm Iff.rfl

end TreeOrder

/-! ## The order of boundary points is symmetric -/

section Equality
open TextSourceRange

theorem lexCompare_eq_iff : ∀ (x y : List Nat), lexCompare x y = Ordering.eq ↔ x = y
  | [], [] => by simp [lexCompare]
  | [], _ :: _ => by simp [lexCompare]
  | _ :: _, [] => by simp [lexCompare]
  | a :: x, b :: y => by
    simp only [lexCompare]
    by_cases hab : a < b
    · have : a ≠ b := by omega
      simp [hab, this]
    · by_cases hba : b < a
      · have : a ≠ b := by omega
        simp [hab, hba, this]
      · have : a = b := by omega
        simp [hab, hba, this, lexCompare_eq_iff x y]

/-- Whether the start points of two ranges compare as equal does not depend on which of the
two ranges is asked. -/
theorem compareStart_symm (d : Document) (r r' : DomRange) :
    (r.compareBoundaryPoints d CompareHow.START_TO_START r').map (fun c => decide (c = 0)) =
      (r'.compareBoundaryPoints d CompareHow.START_TO_START r).map
        (fun c => decide (c = 0)) := by
  unfold DomRange.compareBoundaryPoints
  by_cases hroot : d.rootOf r.startContainer = d.rootOf r'.startContainer
  · have hroot' : d.rootOf r'.startContainer = d.rootOf r.startContainer := hroot.symm
    rw [if_neg (not_not.mpr hroot), if_neg (not_not.mpr hroot')]
    have hiff := lexCompare_eq_iff (d.position r.startContainer ++ [r.startOffset])
      (d.position r'.startContainer ++ [r'.startOffset])
    have hiff' := lexCompare_eq_iff (d.position r'.startContainer ++ [r'.startOffset])
      (d.position r.startContainer ++ [r.startOffset])
    simp only [Document.comparePoints]
    cases h1 : lexCompare (d.position r.startContainer ++ [r.startOffset])
        (d.position r'.startContainer ++ [r'.startOffset]) <;>
      cases h2 : lexCompare (d.position r'.startContainer ++ [r'.startOffset])
        (d.position r.startContainer ++ [r.startOffset]) <;>
      simp_all [Except.map]
  · have hroot' : ¬ d.rootOf r'.startContainer = d.rootOf r.startContainer :=
      fun h => hroot h.symm
    rw [if_pos hroot, if_pos hroot']

theorem compareStart_self (d : Document) (r r' : DomRange)
    (h1 : r'.startContainer = r.startContainer) (h2 : r'.startOffset = r.startOffset) :
    r.compareBoundaryPoints d CompareHow.START_TO_START r' = Except.ok 0 := by
  simp [DomRange.compareBoundaryPoints, h1, h2, Document.comparePoints, lexCompare_self]

end Equality

/-! ## What a clone is -/

section CloneFacts
open TextSourceRange

theorem clone_ok (w : World) (s : Nat) (self : TextSourceRange) (r : DomRange)
    (hself : w.rangeSources[s]? = some self) (hr : w.ranges[self.range]? = some r) :
    TextSourceRange.clone w s = Except.ok
      ({ w with
          ranges := w.ranges ++ [r]
          rangeSources := w.rangeSources ++
            [{ range := w.ranges.length, rangeStartOffset := r.startOffset,
               content := self.content, imposterContainer := self.imposterContainer,
               imposterSourceElement := self.imposterSourceElement }] },
        w.rangeSources.length) := by
  simp [TextSourceRange.clone, World.getRangeSource, hself, bind, Except.bind, cloneRange,
    World.getRange, hr, pure, Except.pure, create]

theorem elementSources_setElementSource (w : World) (this : Nat) (x self : TextSourceElement)
    (hself : w.elementSources[this]? = some self) :
    (w.setElementSource this x).elementSources[this]? = some x := by
  have hlt : this < w.elementSources.length := (List.getElem?_eq_some_iff.mp hself).1
  simp [World.setElementSource, List.getElem?_set_self hlt]

end CloneFacts

/-! ## The backward traversal of the whole tree -/

section BackwardOrder
open TextSourceRange

/-- A backward traversal yields a node before the nodes below it, and otherwise yields the
nodes of a subtree against document order. -/
theorem treeOrder_sorted_backward (d : Document) :
    ∀ (n : Nat) (c : NodeRef), (treeOrder d false n c).Pairwise
      (fun x y => (∃ s, s ≠ [] ∧ y = s ++ x) ∨ d.precedes y x) := by
  intro n
  induction n with
  | zero => intro c; simp [treeOrder]
  | succ n ih =>
    intro c
    rw [treeOrder, List.pairwise_cons]
    constructor
    · intro y hy
      obtain ⟨l, hl, hyl⟩ := List.mem_flatten.mp hy
      obtain ⟨c', hc', rfl⟩ := List.mem_map.mp hl
      obtain ⟨i, t, rfl, hg, hi, hd⟩ := mem_childRefs (mem_kids.mp hc')
      obtain ⟨⟨s, hs⟩, _⟩ := mem_treeOrder_below d false n (i :: c) y hyl
      exact Or.inl ⟨s ++ [i], by simp, by rw [hs]; simp⟩
    · rw [List.pairwise_flatten]
      constructor
      · intro l hl
        obtain ⟨c', _, rfl⟩ := List.mem_map.mp hl
        exact ih c'
      · rw [List.pairwise_map]
        have hk : kids d false c = (d.childRefs c).reverse := by simp [kids]
        rw [hk, List.pairwise_reverse]
        refine (childRefs_pairwise d c).imp_of_mem ?_
        intro a b ha hb hab y hy x hx
        obtain ⟨i, t, rfl, hg, hi, hdi⟩ := mem_childRefs ha
        obtain ⟨j, t', rfl, hg', hj, hdj⟩ := mem_childRefs hb
        rw [hg] at hg'
        cases hg'
        obtain ⟨_, ⟨tx, hpx⟩, _, _⟩ := mem_treeOrder_below d false n (i :: c) x hx
        obtain ⟨_, ⟨ty, hpy⟩, _, _⟩ := mem_treeOrder_below d false n (j :: c) y hy
        have hij : i < j := by simpa using hab
        have hlt := index_lt hg hij (by omega) hdi
        right
        unfold Document.precedes
        rw [hpx, hpy, (position_cons hdi).1, (position_cons hdj).1, List.append_assoc,
          List.append_assoc]
        exact (lexCompare_diverge _ _ _ _ _ hlt).1

end BackwardOrder

/-! ## A seek in two parts -/

section Compose
open TextSourceRange

theorem forward_loop_split (v : JSString) :
    ∀ (left o : Nat) (c : JSString) (r m : Int), left = v.length - o → 1 ≤ r → 1 ≤ m →
      ((_seekForwardTextNode.loop v left o c r).2.2.2 = true →
        _seekForwardTextNode.loop v left o c (r + m) =
          _seekForwardTextNode.loop v (v.length - (_seekForwardTextNode.loop v left o c r).1)
            (_seekForwardTextNode.loop v left o c r).1
            (_seekForwardTextNode.loop v left o c r).2.1 m) ∧
      ((_seekForwardTextNode.loop v left o c r).2.2.2 = false →
        _seekForwardTextNode.loop v left o c (r + m) =
          ((_seekForwardTextNode.loop v left o c r).1,
            (_seekForwardTextNode.loop v left o c r).2.1,
            (_seekForwardTextNode.loop v left o c r).2.2.1 + m, false)) := by
  intro left
  induction left with
  | zero => intro o c r m _ _ _; simp [_seekForwardTextNode.loop]
  | succ left ih =>
    intro o c r m hl hr hm
    rw [_seekForwardTextNode.loop, _seekForwardTextNode.loop]
    by_cases ht : IGNORE_TEXT_PATTERN_test (indexToString v[o]?) = true
    · simp only [ht, Bool.not_true, Bool.false_eq_true, if_false]
      exact ih (o + 1) c r m (by omega) hr hm
    · simp only [ht, Bool.not_false, if_true]
      by_cases h0 : r - 1 ≤ 0
      · have hr1 : r = 1 := by omega
        subst hr1
        have hm' : ¬ (1 + m - 1 ≤ 0) := by omega
        have hm'' : (1 : Int) + m - 1 = m := by omega
        have hl' : v.length - (o + 1) = left := by omega
        have hm0 : ¬ m ≤ 0 := by omega
        simp [hm', hm'', hl', hm0]
      · have hrm : ¬ (r + m - 1 ≤ 0) := by omega
        have he : r + m - 1 = (r - 1) + m := by omega
        simp only [h0, hrm, if_false]
        rw [he]
        exact ih (o + 1) _ (r - 1) m (by omega) (by omega) hm

theorem backward_loop_split (v : JSString) :
    ∀ (o : Nat) (c : JSString) (r m : Int), 1 ≤ r → 1 ≤ m →
      ((_seekBackwardTextNode.loop v o c r).2.2.2 = true →
        _seekBackwardTextNode.loop v o c (r + m) =
          _seekBackwardTextNode.loop v (_seekBackwardTextNode.loop v o c r).1
            (_seekBackwardTextNode.loop v o c r).2.1 m) ∧
      ((_seekBackwardTextNode.loop v o c r).2.2.2 = false →
        _seekBackwardTextNode.loop v o c (r + m) =
          ((_seekBackwardTextNode.loop v o c r).1, (_seekBackwardTextNode.loop v o c r).2.1,
            (_seekBackwardTextNode.loop v o c r).2.2.1 + m, false)) := by
  intro o
  induction o with
  | zero => intro c r m _ _; simp [_seekBackwardTextNode.loop]
  | succ o ih =>
    intro c r m hr hm
    rw [_seekBackwardTextNode.loop, _seekBackwardTextNode.loop]
    by_cases ht : IGNORE_TEXT_PATTERN_test (indexToString v[o]?) = true
    · simp only [ht, Bool.not_true, Bool.false_eq_true, if_false]
      exact ih c r m hr hm
    · simp only [ht, Bool.not_false, if_true]
      by_cases h0 : r - 1 ≤ 0
      · have hr1 : r = 1 := by omega
        subst hr1
        have hm' : ¬ (1 + m - 1 ≤ 0) := by omega
        have hm'' : (1 : Int) + m - 1 = m := by omega
        have hm0 : ¬ m ≤ 0 := by omega
        simp [hm', hm'', hm0]
      · have hrm : ¬ (r + m - 1 ≤ 0) := by omega
        have he : r + m - 1 = (r - 1) + m := by omega
        simp only [h0, hrm, if_false]
        rw [he]
        exact ih _ (r - 1) m (by omega) hm

/-- One visit with a remainder that is larger by `m`: where the visit with the smaller
remainder breaks, the other goes on from there with `m` left; where it does not break, the
other ends in the same state with `m` more left. -/
theorem visitNode_split (d : Document) (forward : Bool) (p : NodeRef) (st : SeekState)
    (reset : Bool) (r m : Int) (hr : 1 ≤ r) (hm : 1 ≤ m) :
    ((visitNode d forward p { st with remainder := r } reset).2.2 = true →
      visitNode d forward p { st with remainder := r + m } reset =
        visitNode d forward p
          { (visitNode d forward p { st with remainder := r } reset).1 with remainder := m }
          false) ∧
    ((visitNode d forward p { st with remainder := r } reset).2.2 = false →
      visitNode d forward p { st with remainder := r + m } reset =
        ({ (visitNode d forward p { st with remainder := r } reset).1 with
            remainder := (visitNode d forward p { st with remainder := r } reset).1.remainder
              + m },
          (visitNode d forward p { st with remainder := r } reset).2.1, false)) := by
  unfold visitNode
  cases hg : d.get? p with
  | none => simp
  | some t =>
    cases t with
    | text v =>
      cases forward
      · have h := backward_loop_split v (if reset = true then v.length else st.offset)
          st.content r m hr hm
        simp only [Bool.false_eq_true, if_false, _seekBackwardTextNode] at h ⊢
        constructor
        · intro hb
          rw [h.1 hb]
        · intro hb
          rw [h.2 hb]
      · have h := forward_loop_split v _ (if reset = true then 0 else st.offset)
          st.content r m rfl hr hm
        simp only [if_true, Bool.false_eq_true, if_false, _seekForwardTextNode] at h ⊢
        constructor
        · intro hb
          rw [h.1 hb]
        · intro hb
          rw [h.2 hb]
    | element _ _ _ _ _ => simp
    | other _ _ _ _ => simp

theorem visitNode_break (d : Document) (forward : Bool) (p : NodeRef) (st : SeekState)
    (reset : Bool) (h : (visitNode d forward p st reset).2.2 = true) :
    (visitNode d forward p st reset).1.node = p ∧ ∃ v, d.textAt p = some v := by
  unfold visitNode at h ⊢
  cases hg : d.get? p with
  | none => simp [hg] at h
  | some t =>
    cases t with
    | text v =>
      refine ⟨?_, v, textAt_eq_some.mpr hg⟩
      cases forward <;> simp [_seekForwardTextNode, _seekBackwardTextNode]
    | element _ _ _ _ _ => simp [hg] at h
    | other _ _ _ _ => simp [hg] at h

/-- The visits of a list of nodes with a remainder that is larger by `m`. -/
theorem visitNodes_split (d : Document) (forward : Bool) :
    ∀ (l : List NodeRef) (st : SeekState) (reset : Bool) (r m : Int), 1 ≤ r → 1 ≤ m →
      ((visitNodes d forward l { st with remainder := r } reset).2.2 = false →
        visitNodes d forward l { st with remainder := r + m } reset =
          ({ (visitNodes d forward l { st with remainder := r } reset).1 with
              remainder :=
                (visitNodes d forward l { st with remainder := r } reset).1.remainder + m },
            (visitNodes d forward l { st with remainder := r } reset).2.1, false)) ∧
      ((visitNodes d forward l { st with remainder := r } reset).2.2 = true →
        ∃ l₁ l₂,
          l = l₁ ++ (visitNodes d forward l { st with remainder := r } reset).1.node :: l₂ ∧
          visitNodes d forward l { st with remainder := r + m } reset =
            visitNodes d forward
              ((visitNodes d forward l { st with remainder := r } reset).1.node :: l₂)
              { (visitNodes d forward l { st with remainder := r } reset).1 with
                  remainder := m } false) := by
  intro l
  induction l with
  | nil => intro st reset r m _ _; simp [visitNodes]
  | cons p l ih =>
    intro st reset r m hr hm
    have hsplit := visitNode_split d forward p st reset r m hr hm
    have hrem := visitNode_remainder d forward p { st with remainder := r } reset hr
    by_cases hb : (visitNode d forward p { st with remainder := r } reset).2.2 = true
    · have hR : visitNodes d forward (p :: l) { st with remainder := r } reset =
          visitNode d forward p { st with remainder := r } reset := by
        rw [visitNodes, if_pos hb]
      rw [hR]
      refine ⟨fun h => (by rw [hb] at h; cases h), fun _ => ⟨[], l, ?_, ?_⟩⟩
      · rw [(visitNode_break d forward p _ reset hb).1]
        rfl
      · rw [(visitNode_break d forward p _ reset hb).1]
        rw [visitNodes, hsplit.1 hb]
        conv_rhs => rw [visitNodes]
    · have hb' : (visitNode d forward p { st with remainder := r } reset).2.2 = false := by
        simpa using hb
      have hR : visitNodes d forward (p :: l) { st with remainder := r } reset =
          visitNodes d forward l (visitNode d forward p { st with remainder := r } reset).1
            (visitNode d forward p { st with remainder := r } reset).2.1 := by
        rw [visitNodes, if_neg hb]
      have hR' : visitNodes d forward (p :: l) { st with remainder := r + m } reset =
          visitNodes d forward l
            { (visitNode d forward p { st with remainder := r } reset).1 with
              remainder :=
                (visitNode d forward p { st with remainder := r } reset).1.remainder + m }
            (visitNode d forward p { st with remainder := r } reset).2.1 := by
        rw [visitNodes, hsplit.2 hb']
        simp
      have ih' := ih (visitNode d forward p { st with remainder := r } reset).1
        (visitNode d forward p { st with remainder := r } reset).2.1
        (visitNode d forward p { st with remainder := r } reset).1.remainder m
        (hrem.2 hb') hm
      rw [hR, hR']
      refine ⟨ih'.1, fun h => ?_⟩
      obtain ⟨l₁, l₂, h1, h2⟩ := ih'.2 h
      exact ⟨p :: l₁, l₂, by rw [List.cons_append, ← h1], h2⟩

theorem forward_loop_content (v : JSString) :
    ∀ (left o : Nat) (c c' : JSString) (r : Int),
      _seekForwardTextNode.loop v left o (c ++ c') r =
        ((_seekForwardTextNode.loop v left o c' r).1,
          c ++ (_seekForwardTextNode.loop v left o c' r).2.1,
          (_seekForwardTextNode.loop v left o c' r).2.2.1,
          (_seekForwardTextNode.loop v left o c' r).2.2.2) := by
  intro left
  induction left with
  | zero => intro o c c' r; simp [_seekForwardTextNode.loop]
  | succ left ih =>
    intro o c c' r
    rw [_seekForwardTextNode.loop, _seekForwardTextNode.loop]
    by_cases ht : IGNORE_TEXT_PATTERN_test (indexToString v[o]?) = true
    · simp only [ht, Bool.not_true, Bool.false_eq_true, if_false]
      exact ih _ _ _ _
    · simp only [ht, Bool.not_false, if_true]
      by_cases h0 : r - 1 ≤ 0
      · simp [h0]
      · simp only [h0, if_false, List.append_assoc]
        exact ih _ _ _ _

theorem backward_loop_content (v : JSString) :
    ∀ (o : Nat) (c c' : JSString) (r : Int),
      _seekBackwardTextNode.loop v o (c' ++ c) r =
        ((_seekBackwardTextNode.loop v o c' r).1,
          (_seekBackwardTextNode.loop v o c' r).2.1 ++ c,
          (_seekBackwardTextNode.loop v o c' r).2.2.1,
          (_seekBackwardTextNode.loop v o c' r).2.2.2) := by
  intro o
  induction o with
  | zero => intro c c' r; simp [_seekBackwardTextNode.loop]
  | succ o ih =>
    intro c c' r
    rw [_seekBackwardTextNode.loop, _seekBackwardTextNode.loop]
    by_cases ht : IGNORE_TEXT_PATTERN_test (indexToString v[o]?) = true
    · simp only [ht, Bool.not_true, Bool.false_eq_true, if_false]
      exact ih _ _ _
    · simp only [ht, Bool.not_false, if_true]
      by_cases h0 : r - 1 ≤ 0
      · simp [h0]
      · simp only [h0, if_false, ← List.append_assoc]
        exact ih _ _ _

/-- A visit that starts with more content ends with that much more content. -/
theorem visitNode_content (d : Document) (forward : Bool) (p : NodeRef) (st : SeekState)
    (reset : Bool) (c : JSString) :
    visitNode d forward p { st with content := joinContent forward c st.content } reset =
      ({ (visitNode d forward p st reset).1 with
          content := joinContent forward c (visitNode d forward p st reset).1.content },
        (visitNode d forward p st reset).2.1, (visitNode d forward p st reset).2.2) := by
  unfold visitNode
  cases hg : d.get? p with
  | none => simp
  | some t =>
    cases t with
    | text v =>
      cases forward
      · simp only [Bool.false_eq_true, if_false, _seekBackwardTextNode, joinContent]
        rw [backward_loop_content]
      · simp only [if_true, _seekForwardTextNode, joinContent]
        rw [forward_loop_content]
    | element _ _ _ _ _ => simp
    | other _ _ _ _ => simp

theorem visitNodes_content (d : Document) (forward : Bool) (c : JSString) :
    ∀ (l : List NodeRef) (st : SeekState) (reset : Bool),
      visitNodes d forward l { st with content := joinContent forward c st.content } reset =
        ({ (visitNodes d forward l st reset).1 with
            content := joinContent forward c (visitNodes d forward l st reset).1.content },
          (visitNodes d forward l st reset).2.1, (visitNodes d forward l st reset).2.2) := by
  intro l
  induction l with
  | nil => intro st reset; simp [visitNodes]
  | cons p l ih =>
    intro st reset
    rw [visitNodes, visitNode_content]
    conv_rhs => rw [visitNodes]
    by_cases hb : (visitNode d forward p st reset).2.2 = true
    · simp [hb]
    · simp only [hb, if_false, Bool.false_eq_true]
      exact ih _ _

theorem segment_suffix {d : Document} {forward : Bool} {a b : Option NodeRef}
    {l : List NodeRef} (h : Segment d forward a l b) :
    ∀ (l₁ : List NodeRef) (q : NodeRef) (l₂ : List NodeRef), l = l₁ ++ q :: l₂ →
      Segment d forward (some q) (q :: l₂) b := by
  induction h with
  | done a => intro l₁ q l₂ h; simp at h
  | visit p l b hseg ih =>
    intro l₁ q l₂ h
    cases l₁ with
    | nil =>
      simp only [List.nil_append, List.cons.injEq] at h
      obtain ⟨rfl, rfl⟩ := h
      exact Segment.visit p _ _ hseg
    | cons x l₁ =>
      simp only [List.cons_append, List.cons.injEq] at h
      exact ih l₁ q l₂ h.2

theorem segment_unique {d : Document} {forward : Bool} :
    ∀ (l l' : List NodeRef) (a : Option NodeRef), Segment d forward a l none →
      Segment d forward a l' none → l = l' := by
  intro l
  induction l with
  | nil =>
    intro l' a h h'
    cases h
    cases h'
    rfl
  | cons p l ih =>
    intro l' a h h'
    cases h with
    | visit _ _ _ hseg =>
      cases h' with
      | visit _ l'' _ hseg' => rw [ih l'' _ hseg hseg']

theorem visitNodes_break (d : Document) (forward : Bool) :
    ∀ (l : List NodeRef) (st : SeekState) (reset : Bool),
      (visitNodes d forward l st reset).2.2 = true →
        ∃ v, d.textAt (visitNodes d forward l st reset).1.node = some v := by
  intro l
  induction l with
  | nil => intro st reset h; simp [visitNodes] at h
  | cons p l ih =>
    intro st reset h
    rw [visitNodes] at h ⊢
    by_cases hb : (visitNode d forward p st reset).2.2 = true
    · rw [if_pos hb]
      obtain ⟨h1, h2⟩ := visitNode_break d forward p st reset hb
      rw [h1]
      exact h2
    · rw [if_neg hb] at h ⊢
      exact ih _ _ h

/-- The seek for a length other than zero as the visits of the walk from its start node: the
node itself, or the `ruby` element the seek is redirected to. -/
theorem seek_eq_visits (d : Document) (node : NodeRef) (offset : Nat) (length : Int)
    (hv : (d.get? node).isSome) (h0 : length ≠ 0) :
    ∃ t, d.get? ((_getRubyElement d node).getD node) = some t ∧
      Segment d (decide (length ≥ 0)) (some ((_getRubyElement d node).getD node))
        (walkOrder d (decide (length ≥ 0)) ((_getRubyElement d node).getD node) t ++
          walkAfter d (decide (length ≥ 0)) ((_getRubyElement d node).getD node)) none ∧
      seek d node offset length = some (visitNodes d (decide (length ≥ 0))
        (walkOrder d (decide (length ≥ 0)) ((_getRubyElement d node).getD node) t ++
          walkAfter d (decide (length ≥ 0)) ((_getRubyElement d node).getD node))
        (seekStart node offset length) (_getRubyElement d node).isSome).1 := by
  have hst : ∀ b : Bool, b = decide (length ≥ 0) →
      ({ node := node, offset := offset, content := [],
         remainder := if b = true then length else -length } : SeekState) =
        seekStart node offset length := by
    intro b hb
    subst hb
    simp [seekStart]
  cases hruby : _getRubyElement d node with
  | none =>
    obtain ⟨t, ht⟩ := Option.isSome_iff_exists.mp hv
    refine ⟨t, ht, (segment_subtree d _ _ node t (le_refl _) ht).append
        (segment_after d _ node (by simp [ht])), ?_⟩
    simp only [seek, h0, if_false, hruby, Option.getD_none, Option.isSome_none]
    rw [seek_loop_total d _ node t ht, hst _ rfl]
  | some ruby =>
    obtain ⟨t, ht⟩ := Option.isSome_iff_exists.mp (getRubyElement_valid hruby)
    refine ⟨t, ht, (segment_subtree d _ _ ruby t (le_refl _) ht).append
        (segment_after d _ ruby (by simp [ht])), ?_⟩
    simp only [seek, h0, if_false, hruby, Option.getD_some, Option.isSome_some]
    rw [seek_loop_total d _ ruby t ht, hst _ rfl]

theorem seekStart_seekLength (forward : Bool) (node : NodeRef) (offset n : Nat)
    (hn : 1 ≤ n) :
    seekStart node offset (seekLength forward n) =
        { node := node, offset := offset, content := [], remainder := (n : Int) } ∧
      decide (seekLength forward n ≥ 0) = forward ∧ seekLength forward n ≠ 0 := by
  cases forward
  · have h1 : ¬ (-(n : Int) ≥ 0) := by omega
    refine ⟨by simp [seekStart, seekLength, h1], by simp [seekLength, h1], ?_⟩
    simp only [seekLength, Bool.false_eq_true, if_false]
    omega
  · refine ⟨by simp [seekStart, seekLength], by simp [seekLength], ?_⟩
    simp only [seekLength, if_true]
    omega

/-- Seeks compose, when the second seek is not redirected. -/
theorem seek_compose (d : Document) (forward : Bool) (p : NodeRef) (o n m : Nat)
    (st₁ : SeekState) (hv : (d.get? p).isSome)
    (h1 : seek d p o (seekLength forward n) = some st₁) (hrem : st₁.remainder = 0)
    (hruby : n = 0 ∨ _getRubyElement d st₁.node = none) :
    ∃ st₂ st₃, seek d st₁.node st₁.offset (seekLength forward m) = some st₂ ∧
      seek d p o (seekLength forward (n + m)) = some st₃ ∧
      st₃.node = st₂.node ∧ st₃.offset = st₂.offset ∧ st₃.remainder = st₂.remainder ∧
      st₃.content = joinContent forward st₁.content st₂.content := by
  have hzero : seekLength forward 0 = 0 := by cases forward <;> simp [seekLength]
  by_cases hn : n = 0
  · subst hn
    rw [hzero] at h1
    simp only [seek, if_true, Option.some.injEq] at h1
    subst h1
    obtain ⟨st₂, h2⟩ := seek_total d p o (seekLength forward m) hv
    refine ⟨st₂, st₂, h2, by rw [Nat.zero_add]; exact h2, rfl, rfl, rfl, ?_⟩
    cases forward <;> simp [joinContent]
  by_cases hm : m = 0
  · subst hm
    refine ⟨{ node := st₁.node, offset := st₁.offset, content := [], remainder := 0 }, st₁,
      by rw [hzero]; simp [seek], by rw [Nat.add_zero]; exact h1, rfl, rfl, hrem, ?_⟩
    cases forward <;> simp [joinContent]
  have hn1 : 1 ≤ n := by omega
  have hm1 : 1 ≤ m := by omega
  have hruby' : _getRubyElement d st₁.node = none := by
    rcases hruby with h | h
    · exact absurd h hn
    · exact h
  obtain ⟨hs1, hf1, hz1⟩ := seekStart_seekLength forward p o n hn1
  obtain ⟨hs3, hf3, hz3⟩ := seekStart_seekLength forward p o (n + m) (by omega)
  obtain ⟨t, ht, hseg, hseek1⟩ := seek_eq_visits d p o (seekLength forward n) hv hz1
  obtain ⟨t', ht', _, hseek3⟩ := seek_eq_visits d p o (seekLength forward (n + m)) hv hz3
  rw [ht] at ht'
  cases ht'
  rw [hf1] at hseg
  rw [hf1, hs1] at hseek1
  rw [hf3, hs3] at hseek3
  rw [h1, Option.some.injEq] at hseek1
  have hsplit := visitNodes_split d forward
    (walkOrder d forward ((_getRubyElement d p).getD p) t ++
      walkAfter d forward ((_getRubyElement d p).getD p))
    { node := p, offset := o, content := [], remainder := 0 } (_getRubyElement d p).isSome
    (n : Int) (m : Int) (by omega) (by omega)
  have hremainder := visitNodes_remainder d forward
    (walkOrder d forward ((_getRubyElement d p).getD p) t ++
      walkAfter d forward ((_getRubyElement d p).getD p))
    { node := p, offset := o, content := [], remainder := (n : Int) }
    (_getRubyElement d p).isSome (by simp only; omega)
  have hbreak : (visitNodes d forward
      (walkOrder d forward ((_getRubyElement d p).getD p) t ++
        walkAfter d forward ((_getRubyElement d p).getD p))
      { node := p, offset := o, content := [], remainder := (n : Int) }
      (_getRubyElement d p).isSome).2.2 = true := by
    by_contra hb
    have := hremainder.2 (by simpa using hb)
    rw [← hseek1, hrem] at this
    omega
  obtain ⟨l₁, l₂, hl, hrun⟩ := hsplit.2 hbreak
  obtain ⟨v, hv₁⟩ := visitNodes_break d forward _ _ _ hbreak
  rw [← hseek1] at hl hrun hv₁
  have hvalid₁ : (d.get? st₁.node).isSome := by simp [textAt_eq_some.mp hv₁]
  obtain ⟨hs2, hf2, hz2⟩ := seekStart_seekLength forward st₁.node st₁.offset m hm1
  obtain ⟨t₂, ht₂, hseg₂, hseek2⟩ :=
    seek_eq_visits d st₁.node st₁.offset (seekLength forward m) hvalid₁ hz2
  rw [hf2, hruby'] at hseg₂
  rw [hf2, hs2, hruby'] at hseek2
  simp only [Option.getD_none, Option.isSome_none] at hseek2 hseg₂
  have hlist := segment_unique _ _ _ hseg₂ (segment_suffix hseg l₁ st₁.node l₂ hl)
  rw [hlist] at hseek2
  have hcontent := visitNodes_content d forward st₁.content (st₁.node :: l₂)
    { node := st₁.node, offset := st₁.offset, content := [], remainder := (m : Int) } false
  have hjoin : joinContent forward st₁.content [] = st₁.content := by
    cases forward <;> simp [joinContent]
  simp only [hjoin] at hcontent
  have hcast : ((n + m : Nat) : Int) = (n : Int) + (m : Int) := by push_cast; rfl
  rw [hcast] at hseek3
  refine ⟨_, _, hseek2, hseek3, ?_, ?_, ?_, ?_⟩ <;>
    · have e := hrun
      simp only at e
      rw [e, hcontent]

end Compose

/-! ## A backward seek from the end of a forward seek -/

section Inverse
open TextSourceRange

/-- The scan back over a piece of text that has exactly `n` characters other than U+200C
collects what the piece has of them. -/
theorem visible_scan_back (G : JSString) (a n : Nat) (ha : a ≤ G.length)
    (hn : (visible ((G.drop a).take (takeVis (G.drop a) n))).length = n) :
    visible ((G.take (a + takeVis (G.drop a) n)).drop
      (a + takeVis (G.drop a) n -
        takeVis (G.take (a + takeVis (G.drop a) n)).reverse n)) =
      visible ((G.drop a).take (takeVis (G.drop a) n)) ∧
    takeVis (G.take (a + takeVis (G.drop a) n)).reverse n =
      takeVis ((G.drop a).take (takeVis (G.drop a) n)).reverse n ∧
    takeVis ((G.drop a).take (takeVis (G.drop a) n)).reverse n ≤ takeVis (G.drop a) n := by
  have hle := takeVis_le (G.drop a) n
  generalize hS : (G.drop a).take (takeVis (G.drop a) n) = S at hn ⊢
  have hSlen : S.length = takeVis (G.drop a) n := by
    rw [← hS, List.length_take]; omega
  have htake : G.take (a + takeVis (G.drop a) n) = G.take a ++ S := by
    rw [List.take_add, hS]
  have hrev : (visible S.reverse).length = n := by
    rw [visible_reverse, List.length_reverse, hn]
  have ht' : takeVis (S.reverse ++ (G.take a).reverse) n = takeVis S.reverse n :=
    takeVis_append_of_le _ _ _ (by omega)
  have hle' : takeVis S.reverse n ≤ S.length := by
    have := takeVis_le S.reverse n
    simpa using this
  have halen : (G.take a).length = a := by rw [List.length_take]; omega
  rw [htake, List.reverse_append, ht']
  refine ⟨?_, rfl, by omega⟩
  have hdrop : (G.take a ++ S).drop (a + takeVis (G.drop a) n - takeVis S.reverse n) =
      S.drop (S.length - takeVis S.reverse n) := by
    have e : a + takeVis (G.drop a) n - takeVis S.reverse n =
        (G.take a).length + (S.length - takeVis S.reverse n) := by omega
    rw [e, List.drop_append]
  rw [hdrop]
  have h2 : S.drop (S.length - takeVis S.reverse n) =
      (S.reverse.take (takeVis S.reverse n)).reverse := by
    rw [List.take_reverse, List.reverse_reverse]
  rw [h2, visible_reverse, visible_take_takeVis, List.take_of_length_le (by omega),
    visible_reverse, List.reverse_reverse]

/-- A scan for the `n` characters of a text that ends in one of them passes all of it. -/
theorem takeVis_full (R : JSString) (c : CodeUnit) (n : Nat) (hc : c ≠ ZWNJ)
    (hn : (visible (R ++ [c])).length = n) : takeVis (R ++ [c]) n = (R ++ [c]).length := by
  have hv : (visible (R ++ [c])).length = (visible R).length + 1 := by
    simp [visible_append, visible_cons, hc, visible]
  rw [takeVis_append_of_gt _ _ _ (by omega)]
  have e : n - (visible R).length = 1 := by omega
  rw [e]
  simp [takeVis, hc]

theorem subOrder_children (d : Document) (forward : Bool) :
    ∀ (n : Nat) (c : NodeRef) (t : Node), t.count ≤ n → d.get? c = some t →
      ∀ y ∈ subOrder d forward c, visitChildren d y = true → ∀ c' ∈ d.childRefs y,
        c' ∈ subOrder d forward c := by
  intro n
  induction n with
  | zero => intro c t h; have := Node.count_pos t; omega
  | succ n ih =>
    intro c t hn hg y hy hvy c' hc'
    have hkid : ∀ k ∈ kids d forward c, ∃ tk, d.get? k = some tk ∧ tk.count ≤ n := by
      intro k hk
      obtain ⟨i, t', rfl, hg', hi, _⟩ := mem_childRefs (mem_kids.mp hk)
      rw [hg] at hg'
      cases hg'
      have hlt := count_child_lt (List.getElem_mem hi)
      exact ⟨_, by rw [get?_child hg, List.getElem?_eq_getElem hi], by omega⟩
    rw [subOrder_eq hg] at hy ⊢
    refine List.mem_cons_of_mem _ ?_
    rcases List.mem_cons.mp hy with rfl | hy
    · rw [if_pos hvy]
      obtain ⟨tk, hgk, _⟩ := hkid c' (mem_kids.mpr hc')
      exact mem_subsOrder.mpr ⟨c', mem_kids.mpr hc', by rw [subOrder_eq hgk]; simp⟩
    · by_cases hv : visitChildren d c = true
      · rw [if_pos hv] at hy ⊢
        obtain ⟨k, hk, hyk⟩ := mem_subsOrder.mp hy
        obtain ⟨tk, hgk, hkc⟩ := hkid k hk
        exact mem_subsOrder.mpr ⟨k, hk, ih k tk hkc hgk y hyk hvy c' hc'⟩
      · simp [hv] at hy

/-- The walk from the root visits every node it reaches. -/
theorem mem_subOrder_of_reachable (d : Document) :
    ∀ (q : NodeRef), (d.get? q).isSome → d.reachable q = true → q ∈ subOrder d true [] := by
  intro q
  induction q with
  | nil =>
    intro _ _
    rw [subOrder_eq (show d.get? [] = some d.root from rfl)]
    simp
  | cons i q ih =>
    intro hv hr
    simp only [Document.reachable, Bool.and_eq_true, decide_eq_true_eq] at hr
    obtain ⟨⟨hd, hvq⟩, hrq⟩ := hr
    obtain ⟨cx, hcx⟩ := Option.isSome_iff_exists.mp hv
    obtain ⟨t, hg, hci⟩ := get?_parent hcx
    have hi : i < t.childNodes.length := (List.getElem?_eq_some_iff.mp hci).1
    exact subOrder_children d true _ [] d.root (le_refl _) rfl q (ih (by simp [hg]) hrq) hvq _
      (mem_childRefs_of hg hi hd)

/-- Two characters of reachable text nodes at the same place of the visible text are the
same character of the same node. -/
theorem linear_unique (d : Document) (x y : NodeRef) (vx vy : JSString) (j o : Nat)
    (hx : d.textAt x = some vx) (hy : d.textAt y = some vy) (hrx : d.reachable x = true)
    (hry : d.reachable y = true) (hj : j < vx.length) (ho : o < vy.length)
    (h : d.linear (x, j) = d.linear (y, o)) : x = y ∧ j = o := by
  have hmx := mem_subOrder_of_reachable d x (by simp [textAt_eq_some.mp hx]) hrx
  have hmy := mem_subOrder_of_reachable d y (by simp [textAt_eq_some.mp hy]) hry
  have hbefore := textBefore_of_subOrder d _ [] d.root (le_refl _) rfl
  have hw : d.textOf (walkBefore d []) = [] := by simp [walkBefore, textOf_nil]
  simp only [Document.linear] at h
  by_cases hxy : x = y
  · subst hxy
    exact ⟨rfl, by omega⟩
  · exfalso
    obtain ⟨l₁, l₂, hl⟩ := List.append_of_mem hmx
    have hbx := hbefore l₁ x l₂ vx hl hx
    rw [hl] at hmy
    rcases List.mem_append.mp hmy with hm | hm
    · obtain ⟨m₁, m₂, hm'⟩ := List.append_of_mem hm
      have hby := hbefore m₁ y (m₂ ++ x :: l₂) vy (by rw [hl, hm']; simp) hy
      rw [hm', textOf_append, textOf_cons, hy] at hbx
      rw [hbx, hby, hw] at h
      simp only [List.nil_append, Option.getD_some, List.length_append] at h
      omega
    · rcases List.mem_cons.mp hm with hm | hm
      · exact hxy hm.symm
      · obtain ⟨m₁, m₂, hm'⟩ := List.append_of_mem hm
        have hby := hbefore (l₁ ++ x :: m₁) y m₂ vy (by rw [hl, hm']; simp) hy
        rw [textOf_append, textOf_cons, hx] at hby
        rw [hbx, hby, hw] at h
        simp only [List.nil_append, Option.getD_some, List.length_append] at h
        omega

theorem backward_loop_break (v : JSString) :
    ∀ (o : Nat) (c : JSString) (r : Int),
      (_seekBackwardTextNode.loop v o c r).2.2.2 = true →
        (_seekBackwardTextNode.loop v o c r).1 < o := by
  intro o
  induction o with
  | zero => intro c r h; simp [_seekBackwardTextNode.loop] at h
  | succ o ih =>
    intro c r h
    rw [_seekBackwardTextNode.loop] at h ⊢
    by_cases ht : IGNORE_TEXT_PATTERN_test (indexToString v[o]?) = true
    · simp only [ht, Bool.not_true, Bool.false_eq_true, if_false] at h ⊢
      have := ih _ _ h
      omega
    · simp only [ht, Bool.not_false, if_true] at h ⊢
      by_cases h0 : r - 1 ≤ 0
      · simp [h0]
      · simp only [h0, if_false] at h ⊢
        have := ih _ _ h
        omega

theorem visitNode_backward_break {d : Document} {p : NodeRef} {v : JSString}
    (hp : d.textAt p = some v) (st : SeekState) (reset : Bool)
    (h : (visitNode d false p st reset).2.2 = true) :
    (visitNode d false p st reset).1.offset < (if reset then v.length else st.offset) := by
  unfold visitNode at h ⊢
  rw [textAt_eq_some.mp hp] at h ⊢
  simp only [Bool.false_eq_true, if_false, _seekBackwardTextNode] at h ⊢
  exact backward_loop_break v _ _ _ h

/-- A backward walk over texts entered at their end that breaks has read the character
before which it stands. -/
theorem visitNodes_backward_break (d : Document) :
    ∀ (l : List NodeRef) (st : SeekState),
      (visitNodes d false l st true).2.2 = true →
        ∃ v, d.textAt (visitNodes d false l st true).1.node = some v ∧
          (visitNodes d false l st true).1.offset < v.length := by
  intro l
  induction l with
  | nil => intro st h; simp [visitNodes] at h
  | cons p l ih =>
    intro st h
    rw [visitNodes] at h ⊢
    by_cases hb : (visitNode d false p st true).2.2 = true
    · rw [if_pos hb]
      obtain ⟨h1, v, hv⟩ := visitNode_break d false p st true hb
      have := visitNode_backward_break hv st true hb
      rw [h1]
      exact ⟨v, hv, by simpa using this⟩
    · rw [if_neg hb] at h ⊢
      cases hq : d.textAt p with
      | none =>
        rw [visitNode_of_not_text hq] at h ⊢
        exact ih _ h
      | some v =>
        have hreset : (visitNode d false p st true).2.1 = true := by
          unfold visitNode
          rw [textAt_eq_some.mp hq]
        rw [hreset] at h ⊢
        exact ih _ h

end Inverse

section InverseSeek
open TextSourceRange

/-- A backward seek with remainder zero from a valid place of a text node without
redirection ends before a character it has read. -/
theorem seek_backward_strict (d : Document) (p : NodeRef) (v : JSString) (o k : Nat)
    (st : SeekState) (hp : d.textAt p = some v) (hruby : _getRubyElement d p = none)
    (ho : o ≤ v.length) (hseek : seek d p o (-((k : Int) + 1)) = some st)
    (hrem : st.remainder = 0) :
    ∃ v', d.textAt st.node = some v' ∧ st.offset < v'.length := by
  rw [seek_backward_unfold d p v o k hp hruby, Option.some.injEq] at hseek
  have hremainder := visitNodes_remainder d false (p :: walkAfter d false p)
    { node := p, offset := o, content := [], remainder := (k : Int) + 1 } false
    (by simp only; omega)
  have hbreak : (visitNodes d false (p :: walkAfter d false p)
      { node := p, offset := o, content := [], remainder := (k : Int) + 1 } false).2.2 =
      true := by
    by_contra hb
    have := hremainder.2 (by simpa using hb)
    rw [hseek, hrem] at this
    omega
  rw [visitNodes] at hseek hbreak
  by_cases hb : (visitNode d false p
      { node := p, offset := o, content := [], remainder := (k : Int) + 1 } false).2.2 = true
  · rw [if_pos hb] at hseek
    have h1 := (visitNode_break d false p _ false hb).1
    have h2 := visitNode_backward_break hp _ false hb
    simp only [Bool.false_eq_true, if_false] at h2
    rw [hseek] at h1 h2
    exact ⟨v, by rw [h1]; exact hp, by omega⟩
  · rw [if_neg hb] at hseek hbreak
    have hreset : (visitNode d false p
        { node := p, offset := o, content := [], remainder := (k : Int) + 1 } false).2.1 =
        true := by
      unfold visitNode
      rw [textAt_eq_some.mp hp]
    rw [hreset] at hseek hbreak
    have := visitNodes_backward_break d _ _ hbreak
    rw [hseek] at this
    exact this

/-- The backward seek from where a forward seek with remainder zero has ended. -/
theorem seek_inverse (d : Document) (p : NodeRef) (v : JSString) (o k : Nat)
    (st₁ : SeekState) (hp : d.textAt p = some v) (hr : d.reachable p = true)
    (ho : o ≤ v.length) (h1 : seek d p o ((k : Int) + 1) = some st₁)
    (hrem : st₁.remainder = 0) :
    ∃ st₂, seek d st₁.node st₁.offset (-((k : Int) + 1)) = some st₂ ∧ st₂.remainder = 0 ∧
      st₂.content = st₁.content ∧
      ∀ c, v[o]? = some c → c ≠ ZWNJ → st₂.node = p ∧ st₂.offset = o := by
  have hruby := getRubyElement_none_of_reachable d p v hp hr
  obtain ⟨st, v', hseek, hv', ho', hr', hlin, hcont, _, _⟩ :=
    seek_forward_linear d p v o k hp hr ho
  rw [h1, Option.some.injEq] at hseek
  subst hseek
  obtain ⟨st', hseek', _, hrem', _⟩ := seek_forward_of_text d p v o k hp hruby ho
  rw [h1, Option.some.injEq] at hseek'
  subst hseek'
  obtain ⟨hdrop, _, ha⟩ := visibleText_at d p v o hp hr ho
  have hn : (visible ((d.visibleText.drop (d.linear (p, o))).take
      (takeVis (d.visibleText.drop (d.linear (p, o))) (k + 1)))).length = k + 1 := by
    rw [← hcont]
    omega
  obtain ⟨hscan, ht', hle'⟩ := visible_scan_back d.visibleText (d.linear (p, o)) (k + 1) ha hn
  have hruby' := getRubyElement_none_of_reachable d st₁.node v' hv' hr'
  obtain ⟨st₂, v'', hseek₂, hv'', ho'', hr'', hlin₂, hcont₂, _, _⟩ :=
    seek_backward_linear d st₁.node v' st₁.offset k hv' hr' ho'
  obtain ⟨st₂', hseek₂', _, hrem₂, _⟩ :=
    seek_backward_of_text d st₁.node v' st₁.offset k hv' hruby' ho'
  rw [hseek₂, Option.some.injEq] at hseek₂'
  subst hseek₂'
  rw [hlin] at hcont₂ hlin₂
  have hcontent : st₂.content = st₁.content := by rw [hcont₂, hscan, hcont]
  have hrem0 : st₂.remainder = 0 := by
    rw [hrem₂, hcontent]
    omega
  refine ⟨st₂, hseek₂, hrem0, hcontent, ?_⟩
  intro c hc hcz
  obtain ⟨hlt, hcv⟩ := List.getElem?_eq_some_iff.mp hc
  have hdrop' : d.visibleText.drop (d.linear (p, o)) =
      c :: (v.drop (o + 1) ++ d.textOf (walkAfter d true p)) := by
    rw [hdrop, List.drop_eq_getElem_cons hlt, hcv]
    rfl
  have hfull : takeVis ((d.visibleText.drop (d.linear (p, o))).take
      (takeVis (d.visibleText.drop (d.linear (p, o))) (k + 1))).reverse (k + 1) =
      takeVis (d.visibleText.drop (d.linear (p, o))) (k + 1) := by
    have hlen : ((d.visibleText.drop (d.linear (p, o))).take
        (takeVis (d.visibleText.drop (d.linear (p, o))) (k + 1))).length =
        takeVis (d.visibleText.drop (d.linear (p, o))) (k + 1) := by
      rw [List.length_take]
      have := takeVis_le (d.visibleText.drop (d.linear (p, o))) (k + 1)
      omega
    have hshape : ∃ S', (d.visibleText.drop (d.linear (p, o))).take
        (takeVis (d.visibleText.drop (d.linear (p, o))) (k + 1)) = c :: S' := by
      rw [hdrop']
      simp only [takeVis, hcz, if_false]
      rw [Nat.add_comm 1, List.take_succ_cons]
      exact ⟨_, rfl⟩
    obtain ⟨S', hS'⟩ := hshape
    rw [hS'] at hn hlen ⊢
    rw [List.reverse_cons]
    have hn' : (visible (S'.reverse ++ [c])).length = k + 1 := by
      rw [← List.reverse_cons, visible_reverse, List.length_reverse]
      exact hn
    rw [takeVis_full S'.reverse c (k + 1) hcz hn', ← hlen]
    simp
  rw [ht', hfull] at hlin₂
  have hlinear : d.linear (st₂.node, st₂.offset) = d.linear (p, o) := by omega
  obtain ⟨w, hw, hwlt⟩ :=
    seek_backward_strict d st₁.node v' st₁.offset k st₂ hv' hruby' ho' hseek₂ hrem0
  exact linear_unique d st₂.node p w v st₂.offset o hw hp hr'' hr hwlt hlt hlinear

end InverseSeek

/-! ## The order of the sorted modifiers -/

section Modifiers

open JSNumber Difference

theorem halvings_small (fuel n : Nat) (h : n < 2 ^ 53) : halvings fuel n = 0 := by
  cases fuel with
  | zero => rfl
  | succ f => show (if n < 2 ^ 53 then 0 else _) = 0; rw [if_pos h]

theorem toNumber_exact (n : Nat) (h : n < 2 ^ 53) : toNumber n = finite n := by
  simp [toNumber, halvings_small n n h, Nat.mod_one]

theorem exec_eq_some (value digits : JSString) :
    _mouseInputNamePattern.exec value = some digits ↔
      value = js "mouse" ++ digits ∧ digits ≠ [] ∧ ∀ c ∈ digits, 0x30 ≤ c ∧ c ≤ 0x39 := by
  unfold _mouseInputNamePattern.exec
  constructor
  · intro h
    split at h
    · rename_i hc
      obtain ⟨h1, h2, h3⟩ := hc
      have hd : value.drop 5 = digits := by simpa using h
      subst hd
      refine ⟨?_, h2, ?_⟩
      · rw [← h1]; exact (List.take_append_drop 5 value).symm
      · intro c hcm
        have := List.all_eq_true.mp h3 c hcm
        simpa [isDigit] using this
    · exact absurd h (by simp)
  · rintro ⟨h1, h2, h3⟩
    subst h1
    have hl : (js "mouse").length = 5 := by decide
    have ht : (js "mouse" ++ digits).take 5 = js "mouse" := by
      rw [← hl]; exact List.take_left _ _
    have hd : (js "mouse" ++ digits).drop 5 = digits := by
      rw [← hl]; exact List.drop_left _ _
    rw [ht, hd]
    have h4 : digits.all isDigit = true := by
      rw [List.all_eq_true]
      intro c hcm
      have := h3 c hcm
      simp [isDigit, this.1, this.2]
    simp [h2, h4]

theorem info_value (i : Nat) (v : JSString) : (sortModifiers.info i v).value = v := by
  unfold sortModifiers.info; split <;> rfl

theorem info_index (i : Nat) (v : JSString) : (sortModifiers.info i v).index = i := by
  unfold sortModifiers.info; split <;> rfl

theorem info_isMouse (i j : Nat) (v : JSString) :
    (sortModifiers.info i v).isMouse = (sortModifiers.info j v).isMouse := by
  unfold sortModifiers.info; split <;> rfl

theorem info_number (i j : Nat) (v : JSString) :
    (sortModifiers.info i v).number = (sortModifiers.info j v).number := by
  unfold sortModifiers.info; split <;> rfl

theorem info_eq (i : Nat) (v : JSString) :
    sortModifiers.info i v =
      ⟨v, (sortModifiers.info 0 v).isMouse, (sortModifiers.info 0 v).number, i⟩ := by
  unfold sortModifiers.info; split <;> rfl

/-- The comparison function in terms of the three keys. -/
theorem sortOrder_compare_iff (a b : ModifierInfo) :
    sortOrder sortModifiers.compare a b ↔
      a.isMouse < b.isMouse ∨ (a.isMouse = b.isMouse ∧
        (¬ b.number.le a.number ∨
          (a.number = b.number ∧ (a.number = infinity ∨ a.index ≤ b.index)))) := by
  obtain ⟨va, fa, na, ia⟩ := a
  obtain ⟨vb, fb, nb, ib⟩ := b
  cases na <;> cases nb <;>
    simp only [sortOrder, sortModifiers.compare, JSNumber.sub, JSNumber.le] <;>
    split_ifs <;> simp_all <;> omega

theorem le_antisymm_number (a b : JSNumber) (h1 : a.le b) (h2 : b.le a) : a = b := by
  cases a <;> cases b <;> simp_all [JSNumber.le]
  omega

theorem le_total_number (a b : JSNumber) : a.le b ∨ b.le a := by
  cases a <;> cases b <;> simp [JSNumber.le]
  omega

theorem le_trans_number (a b c : JSNumber) (h1 : a.le b) (h2 : b.le c) : a.le c := by
  cases a <;> cases b <;> cases c <;> simp_all [JSNumber.le]
  omega

theorem le_refl_number (a : JSNumber) : a.le a := by
  cases a <;> simp [JSNumber.le]

theorem sortOrder_total (a b : ModifierInfo) :
    sortOrder sortModifiers.compare a b ∨ sortOrder sortModifiers.compare b a := by
  rw [sortOrder_compare_iff, sortOrder_compare_iff]
  rcases Nat.lt_trichotomy a.isMouse b.isMouse with h | h | h
  · exact Or.inl (Or.inl h)
  · by_cases h1 : b.number.le a.number
    · by_cases h2 : a.number.le b.number
      · have he := le_antisymm_number _ _ h2 h1
        by_cases hi : a.number = infinity
        · exact Or.inl (Or.inr ⟨h, Or.inr ⟨he, Or.inl hi⟩⟩)
        · rcases Nat.le_total a.index b.index with h3 | h3
          · exact Or.inl (Or.inr ⟨h, Or.inr ⟨he, Or.inr h3⟩⟩)
          · exact Or.inr (Or.inr ⟨h.symm, Or.inr ⟨he.symm, Or.inr h3⟩⟩)
      · exact Or.inr (Or.inr ⟨h.symm, Or.inl h2⟩)
    · exact Or.inl (Or.inr ⟨h, Or.inl h1⟩)
  · exact Or.inr (Or.inl h)

theorem sortOrder_trans (a b c : ModifierInfo) (h1 : sortOrder sortModifiers.compare a b)
    (h2 : sortOrder sortModifiers.compare b c) : sortOrder sortModifiers.compare a c := by
  rw [sortOrder_compare_iff] at h1 h2 ⊢
  rcases h1 with h1 | ⟨e1, h1⟩
  · rcases h2 with h2 | ⟨e2, _⟩
    · exact Or.inl (by omega)
    · exact Or.inl (by omega)
  · rcases h2 with h2 | ⟨e2, h2⟩
    · exact Or.inl (by omega)
    · refine Or.inr ⟨by omega, ?_⟩
      rcases h1 with h1 | ⟨n1, h1⟩
      · left
        intro hca
        apply h1
        rcases h2 with h2 | ⟨n2, _⟩
        · exact absurd (le_trans_number _ _ _ hca
            ((le_total_number _ _).resolve_right h1)) h2
        · rw [n2]; exact hca
      · rcases h2 with h2 | ⟨n2, h2⟩
        · left; rw [n1]; exact h2
        · right
          refine ⟨n1.trans n2, ?_⟩
          rcases h1 with h1 | h1
          · exact Or.inl h1
          · rcases h2 with h2 | h2
            · exact Or.inl (n1.trans h2)
            · exact Or.inr (by omega)

instance sortOrder_isTotal : IsTotal ModifierInfo (sortOrder sortModifiers.compare) :=
  ⟨sortOrder_total⟩

instance sortOrder_isTrans : IsTrans ModifierInfo (sortOrder sortModifiers.compare) :=
  ⟨sortOrder_trans⟩

theorem mem_infos (l : List JSString) (n : Nat) (e : ModifierInfo)
    (h : e ∈ (l.enumFrom n).map (fun e => sortModifiers.info e.1 e.2)) :
    ∃ j w, w ∈ l ∧ n ≤ j ∧ j < n + l.length ∧ l[j - n]? = some w ∧
      e = sortModifiers.info j w := by
  rw [List.mem_map] at h
  obtain ⟨⟨j, w⟩, hm, rfl⟩ := h
  have h1 := List.le_fst_of_mem_enumFrom hm
  have h2 := List.fst_lt_add_of_mem_enumFrom hm
  have h3 := List.snd_mem_of_mem_enumFrom hm
  have h4 := (List.mk_mem_enumFrom_iff_le_and_getElem?_sub.mp hm).2
  exact ⟨j, w, h3, h1, h2, h4, rfl⟩

theorem infos_map_value (l : List JSString) (n : Nat) :
    ((l.enumFrom n).map (fun e => sortModifiers.info e.1 e.2)).map (fun e => e.value) = l := by
  rw [List.map_map]
  have : ((fun e : ModifierInfo => e.value) ∘ fun e : Nat × JSString =>
      sortModifiers.info e.1 e.2) = Prod.snd := by
    funext e; simp [info_value]
  rw [this, List.enumFrom_map_snd]

theorem infos_pair_sublist (l : List JSString) (n : Nat) (a b : ModifierInfo)
    (ha : a ∈ (l.enumFrom n).map (fun e => sortModifiers.info e.1 e.2))
    (hb : b ∈ (l.enumFrom n).map (fun e => sortModifiers.info e.1 e.2))
    (hlt : a.index < b.index) :
    List.Sublist [a, b] ((l.enumFrom n).map (fun e => sortModifiers.info e.1 e.2)) := by
  induction l generalizing n with
  | nil => simp at ha
  | cons v l ih =>
    simp only [List.enumFrom_cons, List.map_cons, List.mem_cons] at ha hb ⊢
    rcases ha with ha | ha
    · rcases hb with hb | hb
      · rw [ha, hb] at hlt; exact absurd hlt (Nat.lt_irrefl _)
      · rw [ha]
        exact List.Sublist.cons₂ _ (List.singleton_sublist.mpr hb)
    · rcases hb with hb | hb
      · obtain ⟨j, w, _, hj, _, _, rfl⟩ := mem_infos l (n + 1) a ha
        rw [hb, info_index, info_index] at hlt
        omega
      · exact List.Sublist.cons _ (ih (n + 1) ha hb)

theorem infos_index_lt (l : List JSString) (n : Nat) :
    ((l.enumFrom n).map (fun e => sortModifiers.info e.1 e.2)).Pairwise
      (fun a b => a.index < b.index) := by
  induction l generalizing n with
  | nil => simp
  | cons v l ih =>
    simp only [List.enumFrom_cons, List.map_cons, List.pairwise_cons]
    refine ⟨?_, ih (n + 1)⟩
    intro b hb
    obtain ⟨j, w, _, hj, _, _, rfl⟩ := mem_infos l (n + 1) b hb
    rw [info_index, info_index]
    omega

theorem infos_nodup (l : List JSString) (n : Nat) :
    ((l.enumFrom n).map (fun e => sortModifiers.info e.1 e.2)).Nodup :=
  (infos_index_lt l n).imp (fun h he => by rw [he] at h; exact Nat.lt_irrefl _ h)

theorem nodup_not_both {α : Type} (l : List α) (a b : α) (hn : l.Nodup)
    (h1 : List.Sublist [a, b] l) (h2 : List.Sublist [b, a] l) : False := by
  induction l with
  | nil => cases h1
  | cons x l ih =>
    obtain ⟨hx, hl⟩ := List.nodup_cons.mp hn
    cases h1 with
    | cons _ h1 =>
      cases h2 with
      | cons _ h2 => exact ih hl h1 h2
      | cons₂ _ h2 => exact hx (h1.subset (by simp))
    | cons₂ _ h1 =>
      cases h2 with
      | cons _ h2 => exact hx (h2.subset (by simp))
      | cons₂ _ h2 => exact hx (h2.subset (by simp))

/-- The sorted array of a list of modifiers: the relation between any two of its entries. -/
theorem sorted_infos (l : List JSString) :
    (Array.sort sortModifiers.compare (sortModifiers.modifierInfo l)).Pairwise
      (fun a b => sortOrder sortModifiers.compare a b ∧
        (sortOrder sortModifiers.compare b a → a.index < b.index)) := by
  have hs : (Array.sort sortModifiers.compare (sortModifiers.modifierInfo l)).Pairwise
      (sortOrder sortModifiers.compare) :=
    List.sorted_insertionSort (sortOrder sortModifiers.compare) _
  have hp : (Array.sort sortModifiers.compare (sortModifiers.modifierInfo l)).Perm
      (sortModifiers.modifierInfo l) := List.perm_insertionSort _ _
  have hn : (Array.sort sortModifiers.compare (sortModifiers.modifierInfo l)).Nodup :=
    hp.nodup_iff.mpr (infos_nodup l 0)
  rw [List.pairwise_iff_forall_sublist]
  intro a b hab
  refine ⟨List.pairwise_iff_forall_sublist.mp hs hab, fun hba => ?_⟩
  have ha : a ∈ sortModifiers.modifierInfo l := hp.subset (hab.subset (by simp))
  have hb : b ∈ sortModifiers.modifierInfo l := hp.subset (hab.subset (by simp))
  have hne : a ≠ b := by
    have := hab.nodup hn
    simpa using this
  rcases Nat.lt_trichotomy a.index b.index with h | h | h
  · exact h
  · exfalso
    obtain ⟨j, w, _, _, _, hw, rfl⟩ := mem_infos l 0 a ha
    obtain ⟨j2, w2, _, _, _, hw2, rfl⟩ := mem_infos l 0 b hb
    rw [info_index, info_index] at h
    subst h
    rw [hw] at hw2
    exact hne (by rw [Option.some.inj hw2])
  · exfalso
    have h1 : List.Sublist [b, a] (sortModifiers.modifierInfo l) :=
      infos_pair_sublist l 0 b a hb ha h
    have h2 : List.Sublist [b, a]
        (Array.sort sortModifiers.compare (sortModifiers.modifierInfo l)) :=
      List.pair_sublist_insertionSort hba h1
    exact nodup_not_both _ a b hn hab h2

theorem sortOrder_keys (a b : ModifierInfo) (h : sortOrder sortModifiers.compare a b) :
    a.isMouse ≤ b.isMouse ∧ (a.isMouse = b.isMouse → a.number.le b.number) := by
  rw [sortOrder_compare_iff] at h
  rcases h with h | ⟨h, h2⟩
  · exact ⟨by omega, fun he => by omega⟩
  · refine ⟨by omega, fun _ => ?_⟩
    rcases h2 with h2 | ⟨h2, _⟩
    · exact (le_total_number _ _).resolve_right h2
    · rw [h2]; exact le_refl_number _

/-- The array made for a list of modifiers that are in the order of the first two keys is
in the order of the comparison function. -/
theorem infos_sorted (l : List JSString) (n : Nat)
    (h : l.Pairwise (fun v w =>
      (sortModifiers.info 0 v).isMouse ≤ (sortModifiers.info 0 w).isMouse ∧
      ((sortModifiers.info 0 v).isMouse = (sortModifiers.info 0 w).isMouse →
        (sortModifiers.info 0 v).number.le (sortModifiers.info 0 w).number))) :
    ((l.enumFrom n).map (fun e => sortModifiers.info e.1 e.2)).Pairwise
      (sortOrder sortModifiers.compare) := by
  induction l generalizing n with
  | nil => simp
  | cons v l ih =>
    obtain ⟨h1, h2⟩ := List.pairwise_cons.mp h
    simp only [List.enumFrom_cons, List.map_cons, List.pairwise_cons]
    refine ⟨?_, ih (n + 1) h2⟩
    intro b hb
    obtain ⟨j, w, hw, hj, _, _, rfl⟩ := mem_infos l (n + 1) b hb
    obtain ⟨hf, hnum⟩ := h1 w hw
    rw [sortOrder_compare_iff, info_index, info_index, info_isMouse n 0 v, info_isMouse j 0 w,
      info_number n 0 v, info_number j 0 w]
    rcases Nat.lt_or_eq_of_le hf with hlt | heq
    · exact Or.inl hlt
    · refine Or.inr ⟨heq, ?_⟩
      by_cases hle : (sortModifiers.info 0 w).number.le (sortModifiers.info 0 v).number
      · exact Or.inr ⟨le_antisymm_number _ _ (hnum heq) hle, Or.inr (by omega)⟩
      · exact Or.inl hle

theorem sortModifiers_of_sorted (l : List JSString)
    (h : l.Pairwise (fun v w =>
      (sortModifiers.info 0 v).isMouse ≤ (sortModifiers.info 0 w).isMouse ∧
      ((sortModifiers.info 0 v).isMouse = (sortModifiers.info 0 w).isMouse →
        (sortModifiers.info 0 v).number.le (sortModifiers.info 0 w).number))) :
    sortModifiers l = l := by
  unfold sortModifiers Array.sort sortModifiers.modifierInfo List.enum
  rw [List.Sorted.insertionSort_eq (infos_sorted l 0 h)]
  exact infos_map_value l 0

theorem sortModifiers_keys (l : List JSString) :
    (sortModifiers l).Pairwise (fun v w =>
      (sortModifiers.info 0 v).isMouse ≤ (sortModifiers.info 0 w).isMouse ∧
      ((sortModifiers.info 0 v).isMouse = (sortModifiers.info 0 w).isMouse →
        (sortModifiers.info 0 v).number.le (sortModifiers.info 0 w).number)) := by
  have hp : (Array.sort sortModifiers.compare (sortModifiers.modifierInfo l)).Perm
      (sortModifiers.modifierInfo l) := List.perm_insertionSort _ _
  unfold sortModifiers
  rw [List.pairwise_map]
  refine (sorted_infos l).imp_of_mem ?_
  intro a b ha hb hab
  obtain ⟨j, w, _, _, _, _, rfl⟩ := mem_infos l 0 a (hp.subset ha)
  obtain ⟨j2, w2, _, _, _, _, rfl⟩ := mem_infos l 0 b (hp.subset hb)
  have := sortOrder_keys _ _ hab.1
  rw [info_isMouse j 0 w, info_isMouse j2 0 w2, info_number j 0 w, info_number j2 0 w2] at this
  simpa only [info_value] using this

end Modifiers

/-! ## Growing the end inside one text node -/

section Claims
open TextSourceRange

/-- C1: for a range source whose range starts at offset `o` of a text node whose text has no
U+200C and which is not subject to ruby redirection, `setEndOffset(n)` with
`o + n ≤ text length` returns `n`, makes `text()` the `n` characters `text[o .. o+n)`, and
moves the range end to `(node, o + n)`, the start staying where it was. -/
theorem C1_setEndOffset_inside_text_node (w : World) (this : Nat) (self : TextSourceRange)
    (r : DomRange) (v : JSString) (n : Nat)
    (hself : w.rangeSources[this]? = some self) (hr : w.ranges[self.range]? = some r)
    (hnode : w.document.get? r.startContainer = some (Node.text v)) (hv : ZWNJ ∉ v)
    (hruby : _getRubyElement w.document r.startContainer = none)
    (hlen : r.startOffset + n ≤ v.length) :
    ∃ w', setEndOffset w this n = Except.ok (w', (n : Int)) ∧
      text w' this = Except.ok ((v.drop r.startOffset).take n) ∧
      w'.ranges[self.range]? =
        some { r with endContainer := r.startContainer, endOffset := r.startOffset + n } := by
  have hseek := seek_forward_plain w.document r.startContainer v r.startOffset n hnode hv
    hruby hlen
  have hset := setEnd_same_text w.document r v (r.startOffset + n) hnode (by omega) hlen
  have heq := setEndOffset_eq w this n self r _ _ hself hr hseek hset
  simp only [sub_zero] at heq
  refine ⟨_, heq, ?_, ?_⟩
  · exact text_setRangeSource _ this _ self (by simpa [World.setRange] using hself)
  · exact ranges_setRange w self.range _ r this _ hr

/-- C1 at the text `abcd`, start offset 1 and `n = 2`: the call returns 2, the text is `bc`
and the range ends at offset 3. -/
theorem C1_setEndOffset_inside_text_node_witness :
    ∃ w', setEndOffset plainWorld 0 (2 : Nat) = Except.ok (w', ((2 : Nat) : Int)) ∧
      text w' 0 = Except.ok ((List.drop 1 (js "abcd")).take 2) ∧
      w'.ranges[0]? = some { startContainer := [], startOffset := 1,
                             endContainer := [], endOffset := 1 + 2 } :=
  C1_setEndOffset_inside_text_node plainWorld 0
    { range := 0, rangeStartOffset := 1, content := [], imposterContainer := none,
      imposterSourceElement := none }
    { startContainer := [], startOffset := 1, endContainer := [], endOffset := 1 }
    (js "abcd") 2 rfl rfl rfl (by decide) (by decide) (by decide)

/-! ## Ignorable characters -/

/-- C2 (failing input): a backward seek of length 1 from the boundary point `(div, 3)` of
`<div>ab<br><br></div>` reaches the text `ab` with the offset 3 of the `div`, reads
`nodeValue[2]`, which is `undefined`, and returns the nine code units of the word
`undefined` as content with remainder 0, not one character. -/
theorem C2_backward_seek_from_element_offset :
    TextSourceRange.seek (Document.ofTree lineBreakTree) [] 3 (-1) =
        some { node := [0], offset := 2, content := js "undefined", remainder := 0 } ∧
      (js "undefined").length = 9 := by
  decide

/-- C8 (counterexample): the forward seek of length 3 from offset 0 of the text
`a`, U+200C, `b`, `c`, U+200C, `d` does not return the offset 5. -/
theorem C8_returned_offset_is_not_five :
    (TextSourceRange.seek (Document.ofTree (Node.text joinerText)) [] 0 3).map SeekState.offset
      ≠ some 5 := by
  decide

/-- C8 (amended): that seek returns content `abc`, remainder 0 and the offset 4, the position
right after the last consumed character `c`; the U+200C that follows is not passed. -/
theorem C8_forward_seek_over_joiners :
    TextSourceRange.seek (Document.ofTree (Node.text joinerText)) [] 0 3 =
      some { node := [], offset := 4, content := js "abc", remainder := 0 } := by
  decide

/-! ## What `setEndOffset` and `setStartOffset` do with the seek -/

/-- C4 (counterexample): on the text `abcd` with the range over `ab` and the content `ab`,
`setEndOffset(1)` leaves the text `a` and the range end at offset 1: the seek ran from the
range start, not from the range end (from where it yields `c` and offset 3), and its content
replaced the cached content instead of being appended to it. -/
theorem C4_setEndOffset_does_not_append :
    ∃ w', setEndOffset grownWorld 0 1 = Except.ok (w', 1) ∧
      text grownWorld 0 = Except.ok (js "ab") ∧
      seek grownWorld.document [] 2 1 =
        some { node := [], offset := 3, content := js "c", remainder := 0 } ∧
      text w' 0 = Except.ok (js "a") ∧
      js "a" ≠ js "ab" ++ js "c" ∧
      w'.ranges[0]? = some { startContainer := [], startOffset := 0,
                             endContainer := [], endOffset := 1 } :=
  ⟨_, rfl, rfl, rfl, rfl, by decide, rfl⟩

/-- C4 (amended): for every range source whose range starts at a node of the tree and every
`n`, `setEndOffset(n)` runs the seek from the START of the range; when `range.setEnd`
accepts the returned position it sets the range end to that `(node, offset)`, REPLACES the
cached content by the content of the seek, and returns `n - remainder`; when `range.setEnd`
throws, the call throws the same error. -/
theorem C4_setEndOffset_seeks_from_start (w : World) (this : Nat) (self : TextSourceRange)
    (r : DomRange) (n : Int)
    (hself : w.rangeSources[this]? = some self) (hr : w.ranges[self.range]? = some r)
    (hvalid : (w.document.get? r.startContainer).isSome) :
    ∃ state, seek w.document r.startContainer r.startOffset n = some state ∧
      (∀ r', DomRange.setEnd w.document r state.node state.offset = Except.ok r' →
        r'.endContainer = state.node ∧ r'.endOffset = state.offset ∧
        ∃ w', setEndOffset w this n = Except.ok (w', n - state.remainder) ∧
          text w' this = Except.ok state.content ∧
          w'.ranges[self.range]? = some r') ∧
      (∀ e, DomRange.setEnd w.document r state.node state.offset = Except.error e →
        setEndOffset w this n = Except.error e) := by
  obtain ⟨state, hseek⟩ := seek_total w.document r.startContainer r.startOffset n hvalid
  refine ⟨state, hseek, ?_, ?_⟩
  · intro r' hset
    obtain ⟨h1, h2⟩ := setEnd_end _ _ _ _ _ hset
    refine ⟨h1, h2, _, setEndOffset_eq w this n self r r' state hself hr hseek hset, ?_, ?_⟩
    · exact text_setRangeSource _ this _ self (by simpa [World.setRange] using hself)
    · exact ranges_setRange w self.range _ r this _ hr
  · intro e hset
    exact setEndOffset_error w this n self r state e hself hr hseek hset

/-- C5 (counterexample): in `<ruby>漢<rt>かん</rt>字<rt>じ</rt></ruby>` with the range over
the text of the first `rt`, `setStartOffset(1)` is redirected to the `ruby`, finds `字`,
which lies after the range, and `range.setStart` moves the range end to the new start as
well: the range end changes from offset 2 of the first `rt` text to offset 0 of `字`. -/
theorem C5_setStartOffset_moves_range_end :
    ∃ w', setStartOffset doubleRubyWorld 0 1 = Except.ok (w', 1) ∧
      doubleRubyWorld.ranges[0]? = some { startContainer := [0, 1], startOffset := 0,
                                          endContainer := [0, 1], endOffset := 2 } ∧
      w'.ranges[0]? = some { startContainer := [2], startOffset := 0,
                             endContainer := [2], endOffset := 0 } ∧
      text w' 0 = Except.ok [0x5B57] :=
  ⟨_, rfl, rfl, rfl, rfl⟩

/-- C5 (amended): for every range source whose range starts at a node of the tree and every
`n`, `setStartOffset(n)` seeks backward from the range start; when `range.setStart` accepts
the returned position it sets the range start to that `(node, offset)`, sets
`rangeStartOffset` to the new start offset, makes `text()` the content of the seek followed
by the previous text, and returns `n - remainder`; the range end is unchanged provided the
new start is in the tree of the range and does not lie after the range end (otherwise the
end moves to the new start); when `range.setStart` throws, the call throws the same error. -/
theorem C5_setStartOffset_seeks_backward_from_start (w : World) (this : Nat)
    (self : TextSourceRange) (r : DomRange) (n : Int)
    (hself : w.rangeSources[this]? = some self) (hr : w.ranges[self.range]? = some r)
    (hvalid : (w.document.get? r.startContainer).isSome) :
    ∃ state, seek w.document r.startContainer r.startOffset (-n) = some state ∧
      (∀ r', DomRange.setStart w.document r state.node state.offset = Except.ok r' →
        r'.startContainer = state.node ∧ r'.startOffset = state.offset ∧
        (w.document.rootOf r.startContainer = w.document.rootOf state.node →
          w.document.comparePoints (state.node, state.offset) (r.endContainer, r.endOffset)
            ≠ Ordering.gt →
          r'.endContainer = r.endContainer ∧ r'.endOffset = r.endOffset) ∧
        ∃ w', setStartOffset w this n = Except.ok (w', n - state.remainder) ∧
          text w' this = Except.ok (state.content ++ self.content) ∧
          w'.ranges[self.range]? = some r' ∧
          w'.rangeSources[this]? = some { self with rangeStartOffset := state.offset,
                                                    content := state.content ++ self.content }) ∧
      (∀ e, DomRange.setStart w.document r state.node state.offset = Except.error e →
        setStartOffset w this n = Except.error e) := by
  obtain ⟨state, hseek⟩ := seek_total w.document r.startContainer r.startOffset (-n) hvalid
  refine ⟨state, hseek, ?_, ?_⟩
  · intro r' hset
    obtain ⟨h1, h2⟩ := setStart_start _ _ _ _ _ hset
    refine ⟨h1, h2, fun hroot hcmp => setStart_end _ _ _ _ _ hset hroot hcmp, _,
      setStartOffset_eq w this n self r r' state hself hr hseek hset, ?_, ?_, ?_⟩
    · exact text_setRangeSource _ this _ self (by simpa [World.setRange] using hself)
    · exact ranges_setRange w self.range _ r this _ hr
    · rw [h2]
      exact rangeSources_setRangeSource _ this _ self (by simpa [World.setRange] using hself)
  · intro e hset
    exact setStartOffset_error w this n self r state e hself hr hseek hset

/-! ## The cached content and the text of the range -/

/-- C6 (counterexample): in `<div>語<rt>ご</rt>だ</div>`, from a range collapsed at the
start of `語` with empty content, `setEndOffset(2)` moves the range end to offset 1 of `だ`
and caches the content `語だ`, while the text delimited by the range boundaries, U+200C
removed, is `語ごだ`: the text of the `rt` lies inside the range and is not in the content. -/
theorem C6_content_leaves_out_text_inside_the_range :
    ∃ w' r, setEndOffset annotatedWorld 0 2 = Except.ok (w', 2) ∧
      text w' 0 = Except.ok [0x8A9E, 0x3060] ∧
      w'.ranges[0]? = some r ∧
      r = { startContainer := [0], startOffset := 0, endContainer := [2], endOffset := 1 } ∧
      visible (r.toString w'.document) = [0x8A9E, 0x3054, 0x3060] ∧
      ([0x8A9E, 0x3060] : JSString) ≠ [0x8A9E, 0x3054, 0x3060] :=
  ⟨_, _, rfl, rfl, rfl, rfl, by decide, by decide⟩

/-- C6 (amended): for a range source whose range starts at an offset of a text node that the
walk from the root of the document reaches, whose range end is not before its start, and
whose cached content is the visible text between the range boundaries (the text of the text
nodes the walk enters, U+200C removed), after every sequence of `setEndOffset` and
`setStartOffset` calls with non-negative lengths `text()` is again the visible text between
the current range boundaries. -/
theorem C6_content_is_visible_range_text (w : World) (this : Nat) (self : TextSourceRange)
    (r : DomRange) (v : JSString) (calls : List SpanCall)
    (hself : w.rangeSources[this]? = some self) (hr : w.ranges[self.range]? = some r)
    (hstart : w.document.textAt r.startContainer = some v) (ho : r.startOffset ≤ v.length)
    (hreach : w.document.reachable r.startContainer = true)
    (hlin : w.document.linear (r.startContainer, r.startOffset) ≤
      w.document.linear (r.endContainer, r.endOffset))
    (hcmp : w.document.comparePoints (r.startContainer, r.startOffset)
      (r.endContainer, r.endOffset) ≠ Ordering.gt)
    (hcontent : self.content = visibleRangeText w.document r)
    (hcalls : ∀ c ∈ calls, 0 ≤ c.length) :
    ∃ self' r', (TextSourceRange.run w this calls).rangeSources[this]? = some self' ∧
      (TextSourceRange.run w this calls).ranges[self'.range]? = some r' ∧
      text (TextSourceRange.run w this calls) this = Except.ok self'.content ∧
      self'.content = visibleRangeText (TextSourceRange.run w this calls).document r' := by
  obtain ⟨self', r', _, h1, h2, _, _, _, _, _, h3⟩ := invariant_run this calls w hcalls
    ⟨self, r, v, hself, hr, hstart, ho, hreach, hlin, hcmp, hcontent⟩
  refine ⟨self', r', h1, h2, ?_, h3⟩
  simp [text, World.getRangeSource, h1, bind, Except.bind, pure, Except.pure]

/-- C6 at `<div>語<rt>ご</rt>だ</div>`: after `setEndOffset(2)` and `setStartOffset(1)` on
the fresh range source the content is the visible text between the range boundaries. -/
theorem C6_content_is_visible_range_text_witness :
    ∃ self' r',
      (TextSourceRange.run annotatedWorld 0
        [SpanCall.setEndOffset 2, SpanCall.setStartOffset 1]).rangeSources[0]? = some self' ∧
      (TextSourceRange.run annotatedWorld 0
        [SpanCall.setEndOffset 2, SpanCall.setStartOffset 1]).ranges[self'.range]? =
          some r' ∧
      text (TextSourceRange.run annotatedWorld 0
        [SpanCall.setEndOffset 2, SpanCall.setStartOffset 1]) 0 = Except.ok self'.content ∧
      self'.content = visibleRangeText (TextSourceRange.run annotatedWorld 0
        [SpanCall.setEndOffset 2, SpanCall.setStartOffset 1]).document r' :=
  C6_content_is_visible_range_text annotatedWorld 0
    { range := 0, rangeStartOffset := 0, content := [], imposterContainer := none,
      imposterSourceElement := none }
    { startContainer := [0], startOffset := 0, endContainer := [0], endOffset := 0 }
    [0x8A9E] [SpanCall.setEndOffset 2, SpanCall.setStartOffset 1]
    rfl rfl rfl (by decide) (by decide) (by decide) (by decide) (by decide) (by decide)

/-! ## Ruby redirection -/

/-- C7: when the nearest element at or above the start node is an `RT` whose parent is a
`RUBY`, a seek of non-zero length walks from that `RUBY` element with `resetOffset` set: it
performs the visits of the subtree of the `RUBY` and of the nodes after it, so its content
and remainder are the same for every caller-supplied offset; with `resetOffset` set a text
node is consumed from offset 0 (forward) or from its end (backward). In
`<ruby>語<rt>ご</rt></ruby>` the backward seek of length 1 from the end of the `rt` text
returns the content `語` with remainder 0, without the character `ご`. -/
theorem C7_seek_redirects_to_ruby :
    (∀ (d : Document) (node rt ruby : NodeRef) (offset : Nat) (length : Int),
      d.nearestElement node = some rt → toUpperCase (d.nodeName rt) = js "RT" →
      d.parentNode rt = some ruby → toUpperCase (d.nodeName ruby) = js "RUBY" →
      length ≠ 0 →
      (∃ t, d.get? ruby = some t ∧
        seek d node offset length =
          some (visitNodes d (decide (length ≥ 0))
            (walkOrder d (decide (length ≥ 0)) ruby t ++
              walkAfter d (decide (length ≥ 0)) ruby)
            { node := node, offset := offset, content := [],
              remainder := if length ≥ 0 then length else -length } true).1) ∧
      ∀ offset',
        (seek d node offset' length).map (fun s => (s.content, s.remainder)) =
          (seek d node offset length).map (fun s => (s.content, s.remainder))) ∧
    (∀ (v : JSString) (st : SeekState),
      _seekForwardTextNode v st true = _seekForwardTextNode v { st with offset := 0 } false ∧
      _seekBackwardTextNode v st true =
        _seekBackwardTextNode v { st with offset := v.length } false) ∧
    seek (Document.ofTree rubyTree) [0, 1] 1 (-1) =
      some { node := [0], offset := 0, content := [0x8A9E], remainder := 0 } ∧
    (0x3054 : CodeUnit) ∉ ([0x8A9E] : JSString) := by
  refine ⟨?_, ?_, by decide, by decide⟩
  · intro d node rt ruby offset length h1 h2 h3 h4 hlen
    have hruby := getRubyElement_of_nearest d node rt ruby h1 h2 h3 h4
    obtain ⟨t, ht⟩ := Option.isSome_iff_exists.mp (getRubyElement_valid hruby)
    have hseek : ∀ o, seek d node o length =
        some (visitNodes d (decide (length ≥ 0))
          (walkOrder d (decide (length ≥ 0)) ruby t ++ walkAfter d (decide (length ≥ 0)) ruby)
          { node := node, offset := o, content := [],
            remainder := if length ≥ 0 then length else -length } true).1 := by
      intro o
      simp only [seek, hlen, if_false, hruby, decide_eq_true_eq]
      exact seek_loop_total d _ ruby t ht _ _
    refine ⟨⟨t, ht, hseek offset⟩, fun offset' => ?_⟩
    obtain ⟨k, hk⟩ : ∃ k : Nat, (if length ≥ 0 then length else -length) = (k : Int) + 1 := by
      by_cases hge : length ≥ 0
      · exact ⟨(length - 1).toNat, by simp only [hge, if_true]; omega⟩
      · exact ⟨(-length - 1).toNat, by simp only [hge, if_false]; omega⟩
    have := visitNodes_reset_offset d (decide (length ≥ 0))
      (walkOrder d (decide (length ≥ 0)) ruby t ++ walkAfter d (decide (length ≥ 0)) ruby)
      { node := node, offset := offset, content := [],
        remainder := if length ≥ 0 then length else -length } k hk offset'
    rw [hseek offset', hseek offset]
    simp only [Option.map_some', Option.some.injEq, Prod.mk.injEq]
    exact this
  · intro v st
    exact ⟨rfl, rfl⟩

/-! ## Clones -/

/-- C9: after `c = s.clone()`, no sequence of `setEndOffset` / `setStartOffset` calls on `c`
changes the fields of `s` (among them `content` and `rangeStartOffset`), the boundary points
of the range of `s`, or `s.text()`, and no such sequence on `s` changes those of `c`; this
holds for range sources and for element sources. -/
theorem C9_clone_is_independent :
    (∀ (w w₁ : World) (s c : Nat) (self : TextSourceRange) (calls : List SpanCall),
      w.rangeSources[s]? = some self →
      TextSourceRange.clone w s = Except.ok (w₁, c) →
      ((TextSourceRange.run w₁ c calls).rangeSources[s]? = some self ∧
        (TextSourceRange.run w₁ c calls).ranges[self.range]? = w.ranges[self.range]? ∧
        TextSourceRange.text (TextSourceRange.run w₁ c calls) s = TextSourceRange.text w s) ∧
      ∃ cself, w₁.rangeSources[c]? = some cself ∧ cself.range ≠ self.range ∧
        (TextSourceRange.run w₁ s calls).rangeSources[c]? = some cself ∧
        (TextSourceRange.run w₁ s calls).ranges[cself.range]? = w₁.ranges[cself.range]? ∧
        TextSourceRange.text (TextSourceRange.run w₁ s calls) c =
          TextSourceRange.text w₁ c) ∧
    (∀ (w w₁ : World) (s c : Nat) (self : TextSourceElement) (calls : List SpanCall),
      w.elementSources[s]? = some self →
      TextSourceElement.clone w s = Except.ok (w₁, c) →
      ((TextSourceElement.run w₁ c calls).elementSources[s]? = some self ∧
        TextSourceElement.text (TextSourceElement.run w₁ c calls) s =
          TextSourceElement.text w s) ∧
      ∃ cself, w₁.elementSources[c]? = some cself ∧
        (TextSourceElement.run w₁ s calls).elementSources[c]? = some cself ∧
        TextSourceElement.text (TextSourceElement.run w₁ s calls) c =
          TextSourceElement.text w₁ c) := by
  constructor
  · intro w w₁ s c self calls hself hclone
    obtain ⟨self', r, hself', hr, hc, hw₁⟩ := clone_eq w w₁ s c hclone
    rw [hself] at hself'
    cases hself'
    have hs_lt : s < w.rangeSources.length := (List.getElem?_eq_some_iff.mp hself).1
    have hr_lt : self.range < w.ranges.length := (List.getElem?_eq_some_iff.mp hr).1
    have hs₁ : w₁.rangeSources[s]? = some self := by
      rw [hw₁]; simp only; rw [List.getElem?_append_left hs_lt, hself]
    have hr₁ : w₁.ranges[self.range]? = w.ranges[self.range]? := by
      rw [hw₁]; simp only; rw [List.getElem?_append_left hr_lt]
    have hc₁ : w₁.rangeSources[c]? = some
        { range := w.ranges.length, rangeStartOffset := r.startOffset,
          content := self.content, imposterContainer := self.imposterContainer,
          imposterSourceElement := self.imposterSourceElement } := by
      rw [hw₁, hc]; simp only; rw [List.getElem?_concat_length]
    have hne : s ≠ c := by omega
    refine ⟨?_, _, hc₁, by simp only; omega, ?_⟩
    · obtain ⟨_, f2, f3, _, _⟩ := run_frame c calls w₁ _ hc₁
      have h1 : (TextSourceRange.run w₁ c calls).rangeSources[s]? = some self := by
        rw [f2 s hne, hs₁]
      refine ⟨h1, ?_, ?_⟩
      · rw [f3 self.range (by simp only; omega), hr₁]
      · exact text_congr _ _ _ (h1.trans hself.symm)
    · obtain ⟨_, f2, f3, _, _⟩ := run_frame s calls w₁ _ hs₁
      have h1 := f2 c (Ne.symm hne)
      refine ⟨by rw [h1, hc₁], ?_, ?_⟩
      · exact f3 _ (by simp only; omega)
      · exact text_congr _ _ _ h1
  · intro w w₁ s c self calls hself hclone
    have hs_lt : s < w.elementSources.length := (List.getElem?_eq_some_iff.mp hself).1
    simp only [TextSourceElement.clone, World.getElementSource, hself, bind, Except.bind, pure,
      Except.pure, TextSourceElement.create, Except.ok.injEq, Prod.mk.injEq] at hclone
    obtain ⟨hw₁, hc⟩ := hclone
    have hs₁ : w₁.elementSources[s]? = some self := by
      rw [← hw₁]; simp only; rw [List.getElem?_append_left hs_lt, hself]
    have hc₁ : w₁.elementSources[c]? =
        some { element := self.element, content := self.content } := by
      rw [← hw₁, ← hc]; simp only; rw [List.getElem?_concat_length]
    have hne : s ≠ c := by omega
    refine ⟨?_, _, hc₁, ?_⟩
    · obtain ⟨f1, _, _, _⟩ := element_run_frame c calls w₁
      have h1 : (TextSourceElement.run w₁ c calls).elementSources[s]? = some self := by
        rw [f1 s hne, hs₁]
      exact ⟨h1, element_text_congr _ _ _ (h1.trans hself.symm)⟩
    · obtain ⟨f1, _, _, _⟩ := element_run_frame s calls w₁
      have h1 := f1 c (Ne.symm hne)
      exact ⟨by rw [h1, hc₁], element_text_congr _ _ _ h1⟩

/-- C10 (counterexample): a range source `s` owns the attached imposter container `div`;
after `c = s.clone()`, `c.cleanup()` removes that container from the tree, so the imposter
container of `s`, whose fields are unchanged, is no longer attached. -/
theorem C10_cleanup_of_clone_detaches_original :
    ∃ w₁ w₂, TextSourceRange.clone imposterWorld 0 = Except.ok (w₁, 1) ∧
      TextSourceRange.cleanup w₁ 1 = Except.ok w₂ ∧
      imposterWorld.rangeSources[0]? =
        some { range := 0, rangeStartOffset := 0, content := [],
               imposterContainer := some [0], imposterSourceElement := some [1] } ∧
      imposterWorld.document.parentNode [0] = some [] ∧
      w₂.rangeSources[0]? =
        some { range := 0, rangeStartOffset := 0, content := [],
               imposterContainer := some [0], imposterSourceElement := some [1] } ∧
      w₂.document.parentNode [0] = none :=
  ⟨_, _, rfl, rfl, rfl, rfl, rfl, rfl⟩

/-- C10 (amended): a clone of a range source has a `Range` object of its own but refers to
the same imposter container and imposter source element as the original; when that container
is attached, `cleanup()` on the clone removes it from the tree, so that it is detached for
the original as well, and `cleanup()` on the original detaches it for the clone; the fields
of the other source are not changed. -/
theorem C10_clone_shares_imposter (w w₁ : World) (s c : Nat) (self : TextSourceRange)
    (ic parent : NodeRef)
    (hself : w.rangeSources[s]? = some self) (hic : self.imposterContainer = some ic)
    (hparent : w.document.parentNode ic = some parent)
    (hclone : TextSourceRange.clone w s = Except.ok (w₁, c)) :
    ∃ cself, w₁.rangeSources[c]? = some cself ∧ cself.range ≠ self.range ∧
      cself.imposterContainer = some ic ∧
      cself.imposterSourceElement = self.imposterSourceElement ∧
      (∃ w₂, TextSourceRange.cleanup w₁ c = Except.ok w₂ ∧
        w₂.document.parentNode ic = none ∧ w₂.rangeSources[s]? = some self) ∧
      (∃ w₂, TextSourceRange.cleanup w₁ s = Except.ok w₂ ∧
        w₂.document.parentNode ic = none ∧ w₂.rangeSources[c]? = some cself) := by
  obtain ⟨self', r, hself', hr, hc, hw₁⟩ := clone_eq w w₁ s c hclone
  rw [hself] at hself'
  cases hself'
  have hs_lt : s < w.rangeSources.length := (List.getElem?_eq_some_iff.mp hself).1
  have hr_lt : self.range < w.ranges.length := (List.getElem?_eq_some_iff.mp hr).1
  have hs₁ : w₁.rangeSources[s]? = some self := by
    rw [hw₁]; simp only; rw [List.getElem?_append_left hs_lt, hself]
  have hc₁ : w₁.rangeSources[c]? = some
      { range := w.ranges.length, rangeStartOffset := r.startOffset,
        content := self.content, imposterContainer := self.imposterContainer,
        imposterSourceElement := self.imposterSourceElement } := by
    rw [hw₁, hc]; simp only; rw [List.getElem?_concat_length]
  have hd₁ : w₁.document = w.document := by rw [hw₁]
  have hdet : ∀ w' : World, (w'.removeChild parent ic).document.parentNode ic = none := by
    intro w'
    simp [World.removeChild, Document.removeChild, Document.parentNode]
  refine ⟨_, hc₁, by simp only; omega, hic, rfl, ?_, ?_⟩
  · refine ⟨w₁.removeChild parent ic, ?_, hdet w₁, ?_⟩
    · simp [TextSourceRange.cleanup, World.getRangeSource, hc₁, bind, Except.bind, hic, hd₁,
        hparent, pure, Except.pure]
    · simpa [World.removeChild] using hs₁
  · refine ⟨w₁.removeChild parent ic, ?_, hdet w₁, ?_⟩
    · simp [TextSourceRange.cleanup, World.getRangeSource, hs₁, bind, Except.bind, hic, hd₁,
        hparent, pure, Except.pure]
    · simpa [World.removeChild] using hc₁

/-! ## Seeking beyond the available text -/

/-- C3 (counterexample): in `<ruby>語<rt>ご</rt></ruby>` the forward seek of length 5 from
offset 0 of the text of the `rt` is redirected to the `ruby`: it returns the content `語`,
which lies before the start position, and not the one character `ご` that is available from
the start position to the end of the tree. -/
theorem C3_redirected_seek_returns_text_before_start :
    TextSourceRange.seek (Document.ofTree rubyTree) [0, 1] 0 5 =
        some { node := [0], offset := 1, content := [0x8A9E], remainder := 4 } ∧
      availableAfter (Document.ofTree rubyTree) [0, 1] 0 = [0x3054] ∧
      ¬ ∃ st, TextSourceRange.seek (Document.ofTree rubyTree) [0, 1] 0 5 = some st ∧
        st.content = availableAfter (Document.ofTree rubyTree) [0, 1] 0 := by
  decide

/-- C3 (amended): for a range source whose range starts at an offset of a text node that is
not subject to ruby redirection, a forward seek of `n` characters with `n` greater than the
number `A` of characters available after the start returns the remainder `n - A > 0` and all
`A` available characters as content, and `setEndOffset(n)` returns `A` without an exception;
likewise a backward seek with `n` greater than the number `B` of characters available before
the start returns the remainder `n - B > 0` and all `B` characters, and `setStartOffset(n)`
returns `B` without an exception. -/
theorem C3_seek_beyond_available_text (w : World) (this : Nat) (self : TextSourceRange)
    (r : DomRange) (v : JSString) (n : Nat)
    (hself : w.rangeSources[this]? = some self) (hr : w.ranges[self.range]? = some r)
    (hnode : w.document.textAt r.startContainer = some v)
    (hruby : _getRubyElement w.document r.startContainer = none)
    (ho : r.startOffset ≤ v.length) :
    ((availableAfter w.document r.startContainer r.startOffset).length < n →
      (∃ st, seek w.document r.startContainer r.startOffset n = some st ∧
        st.remainder =
          (n : Int) - (availableAfter w.document r.startContainer r.startOffset).length ∧
        0 < st.remainder ∧
        st.content = availableAfter w.document r.startContainer r.startOffset) ∧
      ∃ w', setEndOffset w this n = Except.ok
        (w', ((availableAfter w.document r.startContainer r.startOffset).length : Int))) ∧
    ((availableBefore w.document r.startContainer r.startOffset).length < n →
      (∃ st, seek w.document r.startContainer r.startOffset (-(n : Int)) = some st ∧
        st.remainder =
          (n : Int) - (availableBefore w.document r.startContainer r.startOffset).length ∧
        0 < st.remainder ∧
        st.content = availableBefore w.document r.startContainer r.startOffset) ∧
      ∃ w', setStartOffset w this n = Except.ok
        (w', ((availableBefore w.document r.startContainer r.startOffset).length : Int))) := by
  constructor
  · intro hn
    obtain ⟨k, rfl⟩ : ∃ k, n = k + 1 := ⟨n - 1, by omega⟩
    obtain ⟨st, hseek, hc, hrem, v', hv', ho'⟩ :=
      seek_forward_of_text w.document r.startContainer v r.startOffset k hnode hruby ho
    have hc' : st.content = availableAfter w.document r.startContainer r.startOffset := by
      rw [hc]; exact List.take_of_length_le (by omega)
    have hseek' : seek w.document r.startContainer r.startOffset ((k + 1 : Nat) : Int) =
        some st := by simpa using hseek
    obtain ⟨r', hset, _, _⟩ := setEnd_ok_of_text w.document r st.node st.offset v' hv' ho'
    refine ⟨⟨st, hseek', ?_, ?_, hc'⟩, ?_⟩
    · rw [hrem, hc']; push_cast; ring
    · rw [hrem, hc']; omega
    · have heq := setEndOffset_eq w this _ self r r' st hself hr hseek' hset
      rw [hrem, hc'] at heq
      exact ⟨_, by simpa using heq⟩
  · intro hn
    obtain ⟨k, rfl⟩ : ∃ k, n = k + 1 := ⟨n - 1, by omega⟩
    obtain ⟨st, hseek, hc, hrem, v', hv', ho'⟩ :=
      seek_backward_of_text w.document r.startContainer v r.startOffset k hnode hruby ho
    have hc' : st.content = availableBefore w.document r.startContainer r.startOffset := by
      rw [hc]
      have : (availableBefore w.document r.startContainer r.startOffset).length - (k + 1) = 0 := by
        omega
      rw [this, List.drop_zero]
    have hseek' : seek w.document r.startContainer r.startOffset (-((k + 1 : Nat) : Int)) =
        some st := by simpa using hseek
    obtain ⟨r', hset, _, _⟩ := setStart_ok_of_text w.document r st.node st.offset v' hv' ho'
    refine ⟨⟨st, hseek', ?_, ?_, hc'⟩, ?_⟩
    · rw [hrem, hc']; push_cast; ring
    · rw [hrem, hc']; omega
    · have heq := setStartOffset_eq w this _ self r r' st hself hr hseek' hset
      rw [hrem, hc'] at heq
      exact ⟨_, by simpa using heq⟩

/-! ## The theorems at concrete inputs -/

/-- C3 at the text `abcd`, start offset 1 and `n = 5`: forward the three characters `bcd`
are available and the remainder is 2, backward the one character `a` and the remainder 4. -/
theorem C3_seek_beyond_available_text_witness :
    ((availableAfter plainWorld.document [] 1).length < 5 ∧
      (∃ st, seek plainWorld.document [] 1 (5 : Nat) = some st ∧
        st.remainder = ((5 : Nat) : Int) - (availableAfter plainWorld.document [] 1).length ∧
        0 < st.remainder ∧ st.content = availableAfter plainWorld.document [] 1) ∧
      ∃ w', setEndOffset plainWorld 0 (5 : Nat) = Except.ok
        (w', ((availableAfter plainWorld.document [] 1).length : Int))) ∧
    ((availableBefore plainWorld.document [] 1).length < 5 ∧
      (∃ st, seek plainWorld.document [] 1 (-((5 : Nat) : Int)) = some st ∧
        st.remainder = ((5 : Nat) : Int) - (availableBefore plainWorld.document [] 1).length ∧
        0 < st.remainder ∧ st.content = availableBefore plainWorld.document [] 1) ∧
      ∃ w', setStartOffset plainWorld 0 (5 : Nat) = Except.ok
        (w', ((availableBefore plainWorld.document [] 1).length : Int))) :=
  have h := C3_seek_beyond_available_text plainWorld 0
    { range := 0, rangeStartOffset := 1, content := [], imposterContainer := none,
      imposterSourceElement := none }
    { startContainer := [], startOffset := 1, endContainer := [], endOffset := 1 }
    (js "abcd") 5 rfl rfl rfl (by decide) (by decide)
  ⟨⟨by decide, h.1 (by decide)⟩, ⟨by decide, h.2 (by decide)⟩⟩

/-- C4 at the world of the counterexample: the seek from the range start returns a state,
and the call installs its position and content. -/
theorem C4_setEndOffset_seeks_from_start_witness :
    ∃ state, seek grownWorld.document [] 0 1 = some state ∧
      (∀ r', DomRange.setEnd grownWorld.document
          { startContainer := [], startOffset := 0, endContainer := [], endOffset := 2 }
          state.node state.offset = Except.ok r' →
        r'.endContainer = state.node ∧ r'.endOffset = state.offset ∧
        ∃ w', setEndOffset grownWorld 0 1 = Except.ok (w', 1 - state.remainder) ∧
          text w' 0 = Except.ok state.content ∧
          w'.ranges[0]? = some r') ∧
      (∀ e, DomRange.setEnd grownWorld.document
          { startContainer := [], startOffset := 0, endContainer := [], endOffset := 2 }
          state.node state.offset = Except.error e →
        setEndOffset grownWorld 0 1 = Except.error e) :=
  C4_setEndOffset_seeks_from_start grownWorld 0
    { range := 0, rangeStartOffset := 0, content := js "ab", imposterContainer := none,
      imposterSourceElement := none }
    { startContainer := [], startOffset := 0, endContainer := [], endOffset := 2 }
    1 rfl rfl rfl

/-- C5 at the text `abcd` with the range collapsed at offset 1: the backward seek of one
character returns a state, and the call installs its position and prepends its content. -/
theorem C5_setStartOffset_seeks_backward_from_start_witness :
    ∃ state, seek plainWorld.document [] 1 (-1) = some state ∧
      (∀ r', DomRange.setStart plainWorld.document
          { startContainer := [], startOffset := 1, endContainer := [], endOffset := 1 }
          state.node state.offset = Except.ok r' →
        r'.startContainer = state.node ∧ r'.startOffset = state.offset ∧
        (plainWorld.document.rootOf [] = plainWorld.document.rootOf state.node →
          plainWorld.document.comparePoints (state.node, state.offset) ([], 1)
            ≠ Ordering.gt →
          r'.endContainer = [] ∧ r'.endOffset = 1) ∧
        ∃ w', setStartOffset plainWorld 0 1 = Except.ok (w', 1 - state.remainder) ∧
          text w' 0 = Except.ok (state.content ++ []) ∧
          w'.ranges[0]? = some r' ∧
          w'.rangeSources[0]? =
            some { range := 0, rangeStartOffset := state.offset,
                   content := state.content ++ [], imposterContainer := none,
                   imposterSourceElement := none }) ∧
      (∀ e, DomRange.setStart plainWorld.document
          { startContainer := [], startOffset := 1, endContainer := [], endOffset := 1 }
          state.node state.offset = Except.error e →
        setStartOffset plainWorld 0 1 = Except.error e) :=
  C5_setStartOffset_seeks_backward_from_start plainWorld 0
    { range := 0, rangeStartOffset := 1, content := [], imposterContainer := none,
      imposterSourceElement := none }
    { startContainer := [], startOffset := 1, endContainer := [], endOffset := 1 }
    1 rfl rfl rfl

/-- C7 at `<ruby>語<rt>ご</rt></ruby>`, the backward seek of length 1 from offset 1 of the
`rt` text: the nearest element is the `rt`, its parent the `ruby`. -/
theorem C7_seek_redirects_to_ruby_witness :
    (Document.ofTree rubyTree).nearestElement [0, 1] = some [1] ∧
    (∃ t, (Document.ofTree rubyTree).get? [] = some t ∧
      seek (Document.ofTree rubyTree) [0, 1] 1 (-1) =
        some (visitNodes (Document.ofTree rubyTree) (decide ((-1 : Int) ≥ 0))
          (walkOrder (Document.ofTree rubyTree) (decide ((-1 : Int) ≥ 0)) [] t ++
            walkAfter (Document.ofTree rubyTree) (decide ((-1 : Int) ≥ 0)) [])
          { node := [0, 1], offset := 1, content := [],
            remainder := if (-1 : Int) ≥ 0 then -1 else -(-1) } true).1) ∧
    ∀ offset',
      (seek (Document.ofTree rubyTree) [0, 1] offset' (-1)).map
          (fun s => (s.content, s.remainder)) =
        (seek (Document.ofTree rubyTree) [0, 1] 1 (-1)).map
          (fun s => (s.content, s.remainder)) :=
  ⟨by decide,
    C7_seek_redirects_to_ruby.1 (Document.ofTree rubyTree) [0, 1] [1] [] 1 (-1)
      (by decide) (by decide) (by decide) (by decide) (by decide)⟩

/-- C9 at the text `abcd`: the clone of the range source can be grown at both ends without
a change to the original, and the original without a change to the clone. -/
theorem C9_clone_is_independent_witness :
    ∃ w₁, TextSourceRange.clone plainWorld 0 = Except.ok (w₁, 1) ∧
      ((TextSourceRange.run w₁ 1
            [SpanCall.setEndOffset 2, SpanCall.setStartOffset 1]).rangeSources[0]? =
          some { range := 0, rangeStartOffset := 1, content := [],
                 imposterContainer := none, imposterSourceElement := none } ∧
        (TextSourceRange.run w₁ 1
            [SpanCall.setEndOffset 2, SpanCall.setStartOffset 1]).ranges[0]? =
          plainWorld.ranges[0]? ∧
        TextSourceRange.text (TextSourceRange.run w₁ 1
            [SpanCall.setEndOffset 2, SpanCall.setStartOffset 1]) 0 =
          TextSourceRange.text plainWorld 0) ∧
      ∃ cself, w₁.rangeSources[1]? = some cself ∧ cself.range ≠ 0 ∧
        (TextSourceRange.run w₁ 0
            [SpanCall.setEndOffset 2, SpanCall.setStartOffset 1]).rangeSources[1]? =
          some cself ∧
        (TextSourceRange.run w₁ 0
            [SpanCall.setEndOffset 2, SpanCall.setStartOffset 1]).ranges[cself.range]? =
          w₁.ranges[cself.range]? ∧
        TextSourceRange.text (TextSourceRange.run w₁ 0
            [SpanCall.setEndOffset 2, SpanCall.setStartOffset 1]) 1 =
          TextSourceRange.text w₁ 1 :=
  ⟨_, rfl, C9_clone_is_independent.1 plainWorld _ 0 1
    { range := 0, rangeStartOffset := 1, content := [], imposterContainer := none,
      imposterSourceElement := none }
    [SpanCall.setEndOffset 2, SpanCall.setStartOffset 1] rfl rfl⟩

/-- C10 at the world of the counterexample. -/
theorem C10_clone_shares_imposter_witness :
    ∃ w₁, TextSourceRange.clone imposterWorld 0 = Except.ok (w₁, 1) ∧
      ∃ cself, w₁.rangeSources[1]? = some cself ∧ cself.range ≠ 0 ∧
        cself.imposterContainer = some [0] ∧
        cself.imposterSourceElement = some [1] ∧
        (∃ w₂, TextSourceRange.cleanup w₁ 1 = Except.ok w₂ ∧
          w₂.document.parentNode [0] = none ∧
          w₂.rangeSources[0]? =
            some { range := 0, rangeStartOffset := 0, content := [],
                   imposterContainer := some [0], imposterSourceElement := some [1] }) ∧
        (∃ w₂, TextSourceRange.cleanup w₁ 0 = Except.ok w₂ ∧
          w₂.document.parentNode [0] = none ∧ w₂.rangeSources[1]? = some cself) :=
  ⟨_, rfl, C10_clone_shares_imposter imposterWorld _ 0 1
    { range := 0, rangeStartOffset := 0, content := [], imposterContainer := some [0],
      imposterSourceElement := some [1] }
    [0] [] rfl rfl rfl rfl⟩

end Claims

/-! ## Equality of text sources -/

section EqualityClaims

/-- C11: for a range source `a` with an imposter source element, `a.equals(b)` is true
exactly when `b` has the same imposter source element and the same `rangeStartOffset`,
whatever the ranges and the contents of the two are; so it is false whenever the source
elements differ. -/
theorem C11_equals_with_imposter (w : World) (a b : Nat) (sa sb : TextSourceRange)
    (e : NodeRef) (ha : w.rangeSources[a]? = some sa) (hb : w.rangeSources[b]? = some sb)
    (he : sa.imposterSourceElement = some e) :
    TextSourceRange.equals w a (JSValue.textSourceRange b) =
        Except.ok (decide (sb.imposterSourceElement = some e ∧
          sb.rangeStartOffset = sa.rangeStartOffset)) ∧
      (sb.imposterSourceElement ≠ some e →
        TextSourceRange.equals w a (JSValue.textSourceRange b) = Except.ok false) := by
  have h : TextSourceRange.equals w a (JSValue.textSourceRange b) =
      Except.ok (decide (sb.imposterSourceElement = some e ∧
        sb.rangeStartOffset = sa.rangeStartOffset)) := by
    simp only [TextSourceRange.equals, World.getRangeSource, ha, hb, he, bind, Except.bind,
      pure, Except.pure]
    simp [eq_comm]
  refine ⟨h, fun hne => ?_⟩
  rw [h]
  simp [hne]

/-- C11 at `imposterPairWorld`: the first two sources stand for the same element at the same
offset, over different ranges and with different contents; the third stands for another
element. -/
theorem C11_equals_with_imposter_witness :
    TextSourceRange.equals imposterPairWorld 0 (JSValue.textSourceRange 1) = Except.ok true ∧
      TextSourceRange.equals imposterPairWorld 0 (JSValue.textSourceRange 2) =
        Except.ok false := by
  have h1 := (C11_equals_with_imposter imposterPairWorld 0 1 _ _ [1] rfl rfl rfl).1
  have h2 := (C11_equals_with_imposter imposterPairWorld 0 2 _ _ [1] rfl rfl rfl).2 (by decide)
  exact ⟨by simpa using h1, h2⟩

/-- C15: `equals` of either class returns `false`, without an error, for a value that is
not an instance of the class: `undefined`, `null`, a primitive, a plain object or an instance
of the other class. -/
theorem C15_equals_rejects_other_values (w : World) (this : Nat) (v : JSValue) :
    (v.isTextSourceRange = false → TextSourceRange.equals w this v = Except.ok false) ∧
      (v.isTextSourceElement = false → TextSourceElement.equals w this v = Except.ok false) := by
  constructor
  · intro h
    cases v <;> first | rfl | simp [JSValue.isTextSourceRange] at h
  · intro h
    cases v <;> first | rfl | simp [JSValue.isTextSourceElement] at h

/-- C15 at `null`, at a plain object and at instances of the other class. -/
theorem C15_equals_rejects_other_values_witness :
    TextSourceRange.equals imposterPairWorld 0 JSValue.null = Except.ok false ∧
      TextSourceRange.equals imposterPairWorld 0 (JSValue.textSourceElement 0) =
        Except.ok false ∧
      TextSourceElement.equals imposterPairWorld 0 JSValue.object = Except.ok false ∧
      TextSourceElement.equals imposterPairWorld 0 (JSValue.textSourceRange 0) =
        Except.ok false :=
  ⟨(C15_equals_rejects_other_values imposterPairWorld 0 JSValue.null).1 rfl,
    (C15_equals_rejects_other_values imposterPairWorld 0 (JSValue.textSourceElement 0)).1 rfl,
    (C15_equals_rejects_other_values imposterPairWorld 0 JSValue.object).2 rfl,
    (C15_equals_rejects_other_values imposterPairWorld 0 (JSValue.textSourceRange 0)).2 rfl⟩

end EqualityClaims

/-! ## Cleanup -/

section CleanupClaims
open TextSourceRange

/-- C12, the claim as stated fails: the range of `imposterWorld` lies in the text of the
imposter container; `cleanup()` removes the container from the `body`, and with it the
boundary points of the range move to the place in the `body` where the container was. -/
theorem C12_cleanup_moves_range_inside_container :
    imposterWorld.ranges[0]? =
        some { startContainer := [0, 0], startOffset := 0,
               endContainer := [0, 0], endOffset := 0 } ∧
      ∃ w₁, TextSourceRange.cleanup imposterWorld 0 = Except.ok w₁ ∧
        w₁.ranges[0]? =
          some { startContainer := [], startOffset := 0, endContainer := [], endOffset := 0 } :=
  ⟨rfl, _, rfl, by decide⟩

/-- C12 as amended: `cleanup()` never fails and a second call changes nothing. With an
imposter container that has a parent, the first call takes the container out of its parent,
which makes the DOM adjust the `Range` objects as for any removal; the tree is otherwise the
same and the fields of all text sources are unchanged. With no imposter container, or one
that has no parent, and for a `TextSourceElement`, the call changes nothing at all. -/
theorem C12_cleanup_is_idempotent (w : World) (this : Nat) (self : TextSourceRange)
    (hself : w.rangeSources[this]? = some self) :
    ∃ w₁, TextSourceRange.cleanup w this = Except.ok w₁ ∧
      TextSourceRange.cleanup w₁ this = Except.ok w₁ ∧
      w₁.rangeSources = w.rangeSources ∧ w₁.elementSources = w.elementSources ∧
      w₁.document.root = w.document.root ∧
      (∀ c p, self.imposterContainer = some c → w.document.parentNode c = some p →
        w₁.document.detached = c :: w.document.detached ∧ w₁.document.parentNode c = none ∧
        w₁.ranges = w.ranges.map (DomRange.adjust w.document p c (w.document.index c))) ∧
      ((self.imposterContainer = none ∨
          ∃ c, self.imposterContainer = some c ∧ w.document.parentNode c = none) → w₁ = w) ∧
      ∀ (v : World) (s : Nat), TextSourceElement.cleanup v s = Except.ok v := by
  cases hc : self.imposterContainer with
  | none =>
    have h : TextSourceRange.cleanup w this = Except.ok w := by
      simp [TextSourceRange.cleanup, World.getRangeSource, hself, hc, bind, Except.bind, pure,
        Except.pure]
    exact ⟨w, h, h, rfl, rfl, rfl, fun c p h1 => (by cases h1), fun _ => rfl, fun _ _ => rfl⟩
  | some c =>
    cases hp : w.document.parentNode c with
    | none =>
      have h : TextSourceRange.cleanup w this = Except.ok w := by
        simp [TextSourceRange.cleanup, World.getRangeSource, hself, hc, hp, bind, Except.bind,
          pure, Except.pure]
      refine ⟨w, h, h, rfl, rfl, rfl, fun c' p h1 h2 => ?_, fun _ => rfl, fun _ _ => rfl⟩
      cases h1
      rw [hp] at h2
      cases h2
    | some p =>
      have h : TextSourceRange.cleanup w this = Except.ok (w.removeChild p c) := by
        simp [TextSourceRange.cleanup, World.getRangeSource, hself, hc, hp, bind, Except.bind,
          pure, Except.pure]
      have hp' : (w.removeChild p c).document.parentNode c = none := by
        simp [World.removeChild, Document.removeChild, Document.parentNode]
      have h' : TextSourceRange.cleanup (w.removeChild p c) this =
          Except.ok (w.removeChild p c) := by
        have hs : (w.removeChild p c).rangeSources[this]? = some self := hself
        simp [TextSourceRange.cleanup, World.getRangeSource, hs, hc, hp', bind, Except.bind,
          pure, Except.pure]
      refine ⟨_, h, h', rfl, rfl, rfl, fun c' p' h1 h2 => ?_, fun hor => ?_, fun _ _ => rfl⟩
      · cases h1
        rw [hp] at h2
        cases h2
        exact ⟨rfl, hp', rfl⟩
      · rcases hor with h1 | ⟨c', h1, h2⟩
        · cases h1
        · cases h1
          rw [hp] at h2
          cases h2

/-- C12 as amended at `imposterWorld`: the first `cleanup()` detaches the imposter container,
the second one changes nothing. -/
theorem C12_cleanup_is_idempotent_witness :
    ∃ w₁, TextSourceRange.cleanup imposterWorld 0 = Except.ok w₁ ∧
      TextSourceRange.cleanup w₁ 0 = Except.ok w₁ ∧
      w₁.document.parentNode [0] = none ∧ w₁.rangeSources = imposterWorld.rangeSources := by
  obtain ⟨w₁, h1, h2, h3, _, _, h4, _⟩ := C12_cleanup_is_idempotent imposterWorld 0 _ rfl
  exact ⟨w₁, h1, h2, (h4 [0] [] rfl rfl).2.1, h3⟩

end CleanupClaims

/-! ## The element source -/

section ElementClaims
open TextSourceElement

/-- C13, the claim as stated fails for an element whose property `value` is a Number other
than zero: over `<li value="3">` the `switch` puts the Number 3 into `this.content`, the
`for ... of` over it throws a `TypeError`, and the content is left the Number 3, which is not
made of characters of a source text. -/
theorem C13_number_value_throws :
    sourceValue listItemWorld.document [] = ElementValue.number 3 ∧
      TextSourceElement.setEndOffset listItemWorld 0 2 = Except.error JSError.typeError ∧
      TextSourceElement.text (TextSourceElement.setEndOffset.thrown listItemWorld 0) 0 =
        Except.ok (ElementValue.number 3) :=
  ⟨rfl, rfl, rfl⟩

/-- C13 as amended: for a `TextSourceElement` whose source value is not a Number other than
zero, after `setEndOffset(n)` the cached content is made of the first `n` characters other
than U+200C of the source text of the element, in their order; without a source text (the
source value is `null`, `undefined` or the Number zero) the content is empty. The source
value is `textContent` for a tag name whose upper case is `BUTTON`, the attribute `alt` for
one whose upper case is `IMG`, and the property `value` otherwise; the source text is the
source value when that is a string. -/
theorem C13_element_content (w : World) (this : Nat) (self : TextSourceElement) (n : Int)
    (name : JSString) (style : ComputedStyle) (alt : Option JSString) (value : ElementValue)
    (cs : List Node)
    (hself : w.elementSources[this]? = some self)
    (hg : w.document.get? self.element = some (Node.element name style alt value cs))
    (hnum : ∀ q, sourceValue w.document self.element = ElementValue.number q → q = 0) :
    (∃ w' k, TextSourceElement.setEndOffset w this n = Except.ok (w', k) ∧
      TextSourceElement.text w' this = Except.ok (ElementValue.string
        (firstCharacters n.toNat ((sourceText w.document self.element).getD []))) ∧
      (sourceText w.document self.element = none →
        TextSourceElement.text w' this = Except.ok (ElementValue.string []))) ∧
    (toUpperCase name = js "BUTTON" →
      sourceValue w.document self.element =
        ElementValue.string (w.document.textContent self.element)) ∧
    (toUpperCase name = js "IMG" → sourceText w.document self.element = alt) ∧
    (toUpperCase name ≠ js "BUTTON" → toUpperCase name ≠ js "IMG" →
      sourceValue w.document self.element = value) ∧
    (∀ s, sourceValue w.document self.element = ElementValue.string s ↔
      sourceText w.document self.element = some s) := by
  have hname : w.document.nodeName self.element = name := by
    simp [Document.nodeName, hg, Node.nodeName]
  refine ⟨⟨_, _, element_setEndOffset_eq w this self n hself hnum, ?_, ?_⟩, ?_, ?_, ?_, ?_⟩
  · exact element_text_setElementSource w this _ self hself
  · intro hnone
    rw [element_text_setElementSource w this _ self hself, hnone]
    simp [firstCharacters, codePoints]
  · intro hb
    simp [sourceValue, hname, hb]
  · intro hi
    have hb : ¬ (js "IMG" = js "BUTTON") := by decide
    cases alt <;> simp [sourceText, sourceValue, hname, hb, hi, hg]
  · intro hb hi
    simp [sourceValue, hname, hb, hi, hg]
  · intro s
    unfold sourceText
    cases sourceValue w.document self.element <;> simp

/-- C13 as amended at the image of `imageWorld`: the tag name is in lower case, the source
text is the `alt` attribute, and two characters are asked for. -/
theorem C13_element_content_witness :
    ∃ w' k, TextSourceElement.setEndOffset imageWorld 0 2 = Except.ok (w', k) ∧
      TextSourceElement.text w' 0 = Except.ok (ElementValue.string (js "ab")) := by
  have hv : sourceValue imageWorld.document [] = ElementValue.string [97, 0x200C, 98, 99] :=
    rfl
  obtain ⟨⟨w', k, h1, h2, _⟩, _, h3, _⟩ :=
    C13_element_content imageWorld 0 _ 2 _ _ _ _ _ rfl rfl
      (fun q h => by
        have h2 : sourceValue imageWorld.document [] = ElementValue.number q := h
        rw [hv] at h2; cases h2)
  refine ⟨w', k, h1, ?_⟩
  rw [h2, h3 (by decide)]
  exact congrArg Except.ok (congrArg ElementValue.string (by decide))

/-- C14, the claim as stated fails: on the value `𠮷野`, whose first character takes two code
units, `setEndOffset(1)` copies one character and returns 2, the length of the content. -/
theorem C14_returned_length_counts_code_units :
    ∃ w', TextSourceElement.setEndOffset surrogateWorld 0 1 = Except.ok (w', 2) ∧
      TextSourceElement.text w' 0 = Except.ok (ElementValue.string [0xD842, 0xDFB7]) ∧
      ((codePoints [0xD842, 0xDFB7, 0x91CE]).filter (fun c => decide (c ≠ [ZWNJ]))).length = 2 ∧
      ¬ ((2 : Int) = min 1 2) ∧ ¬ (([0xD842, 0xDFB7] : JSString).length ≤ 1) :=
  ⟨_, rfl, rfl, by decide, by decide, by decide⟩

/-- C14 as amended: for a source string (a source value that is not a Number other than
zero), `setEndOffset(n)` with `n ≥ 0` copies the first `min(n, count)` characters other than
U+200C of the source text, a surrogate pair being one character, and returns the length of
the copied content in code units: at least the number of characters copied and at most `2 n`;
on a source text without surrogate pairs it is the number of characters copied, and the
content is not longer than `n`. -/
theorem C14_element_returned_length (w : World) (this : Nat) (self : TextSourceElement)
    (n : Nat) (hself : w.elementSources[this]? = some self)
    (hnum : ∀ q, sourceValue w.document self.element = ElementValue.number q → q = 0) :
    ∃ w' L, TextSourceElement.setEndOffset w this n = Except.ok (w', (L.flatten.length : Int)) ∧
      TextSourceElement.text w' this = Except.ok (ElementValue.string L.flatten) ∧
      L = ((codePoints ((sourceText w.document self.element).getD [])).filter
        (fun c => decide (c ≠ [ZWNJ]))).take n ∧
      L.length = min n ((codePoints ((sourceText w.document self.element).getD [])).filter
        (fun c => decide (c ≠ [ZWNJ]))).length ∧
      L.length ≤ L.flatten.length ∧ L.flatten.length ≤ 2 * n ∧
      ((∀ c ∈ codePoints ((sourceText w.document self.element).getD []), c.length = 1) →
        L.flatten.length = L.length ∧ L.flatten.length ≤ n) := by
  have heq := element_setEndOffset_eq w this self n hself hnum
  simp only [Int.toNat_ofNat, firstCharacters] at heq
  have hmem : ∀ c ∈ ((codePoints ((sourceText w.document self.element).getD [])).filter
      (fun c => decide (c ≠ [ZWNJ]))).take n,
      c ∈ codePoints ((sourceText w.document self.element).getD []) :=
    fun c hc => (List.mem_filter.mp (List.mem_of_mem_take hc)).1
  have hlen := length_flatten_le _ (fun c hc => (codePoints_test _ c (hmem c hc)).2)
  refine ⟨_, _, heq, ?_, rfl, by simp [List.length_take], hlen.1, ?_, ?_⟩
  · rw [element_text_setElementSource w this _ self hself]
  · have := hlen.2
    simp only [List.length_take] at this ⊢
    omega
  · intro h1
    have := length_flatten_eq _ (fun c hc => h1 c (hmem c hc))
    refine ⟨this, ?_⟩
    rw [this, List.length_take]
    omega

/-- C14 as amended at the value `𠮷野` and `n = 1`. -/
theorem C14_element_returned_length_witness :
    ∃ w', TextSourceElement.setEndOffset surrogateWorld 0 1 = Except.ok (w', 2) ∧
      TextSourceElement.text w' 0 = Except.ok (ElementValue.string [0xD842, 0xDFB7]) := by
  have hv : sourceValue surrogateWorld.document [] =
      ElementValue.string [0xD842, 0xDFB7, 0x91CE] := rfl
  obtain ⟨w', L, h1, h2, h3, _⟩ := C14_element_returned_length surrogateWorld 0 _ 1 rfl
    (fun q h => by
      have h2 : sourceValue surrogateWorld.document [] = ElementValue.number q := h
      rw [hv] at h2; cases h2)
  have hL : L = [[0xD842, 0xDFB7]] := by rw [h3]; decide
  subst hL
  exact ⟨w', h1, h2⟩

end ElementClaims

/-! ## Writing modes -/

section WritingModeClaims
open TextSourceRange

/-- C16: `_normalizeWritingMode` maps `lr`, `lr-tb` and `rl` to `horizontal-tb`, `tb` to
`vertical-lr` and `tb-rl` to `vertical-rl`, and returns any other string as it is; and
`getWritingMode()` of a range source returns this mapping applied to the computed writing
mode of the nearest element among the start container of its range and the ancestors of
it. -/
theorem C16_writing_mode (w : World) (this : Nat) (self : TextSourceRange) (r : DomRange)
    (e : NodeRef) (name : JSString) (style : ComputedStyle) (alt : Option JSString) (value : ElementValue)
    (cs : List Node) (writingMode : JSString)
    (hself : w.rangeSources[this]? = some self) (hr : w.ranges[self.range]? = some r)
    (he : w.document.nearestElement r.startContainer = some e)
    (hg : w.document.get? e = some (Node.element name style alt value cs))
    (hw : style.writingMode = some writingMode) :
    _normalizeWritingMode (js "lr") = js "horizontal-tb" ∧
      _normalizeWritingMode (js "lr-tb") = js "horizontal-tb" ∧
      _normalizeWritingMode (js "rl") = js "horizontal-tb" ∧
      _normalizeWritingMode (js "tb") = js "vertical-lr" ∧
      _normalizeWritingMode (js "tb-rl") = js "vertical-rl" ∧
      (∀ s : JSString, s ∉ [js "lr", js "lr-tb", js "rl", js "tb", js "tb-rl"] →
        _normalizeWritingMode s = s) ∧
      getWritingMode w this = Except.ok (_normalizeWritingMode writingMode) := by
  refine ⟨by decide, by decide, by decide, by decide, by decide, ?_, ?_⟩
  · intro s hs
    simp only [List.mem_cons, List.mem_singleton, not_or, List.not_mem_nil, or_false] at hs
    obtain ⟨h1, h2, h3, h4, h5⟩ := hs
    simp [_normalizeWritingMode, h1, h2, h3, h4, h5]
  · simp [getWritingMode, World.getRangeSource, World.getRange, hself, hr, bind, Except.bind,
      getParentElement_eq, he, _getElementWritingMode, hg, hw]

/-- C16 at a text in a `div` whose computed writing mode is `tb-rl`. -/
theorem C16_writing_mode_witness :
    getWritingMode verticalWorld 0 = Except.ok (js "vertical-rl") :=
  (C16_writing_mode verticalWorld 0 _ _ [] _ _ none ElementValue.undefined _ (js "tb-rl") rfl rfl
    (by decide) rfl rfl).2.2.2.2.2.2

/-- C17, the claim as stated fails: for an element whose computed writing mode is
`sideways-rl`, none of the keywords the code knows, the result is `sideways-rl` and not
`horizontal-tb`. -/
theorem C17_unsupported_keyword_is_kept :
    _getElementWritingMode (Document.ofTree sidewaysTree) (some []) =
        Except.ok (js "sideways-rl") ∧
      js "sideways-rl" ≠ js "horizontal-tb" := by
  exact ⟨rfl, by decide⟩

/-- C17 as amended: `_getElementWritingMode` yields `horizontal-tb` when there is no element,
when the computed style has no string for the writing mode, and when the string is
`horizontal-tb`, `lr`, `lr-tb` or `rl`; a string that is none of `lr`, `lr-tb`, `rl`, `tb`
and `tb-rl` is returned as it is. -/
theorem C17_writing_mode_defaults (d : Document) (e : NodeRef) (name : JSString)
    (style : ComputedStyle) (alt : Option JSString) (value : ElementValue) (cs : List Node)
    (hg : d.get? e = some (Node.element name style alt value cs)) :
    _getElementWritingMode d none = Except.ok (js "horizontal-tb") ∧
      (style.writingMode = none →
        _getElementWritingMode d (some e) = Except.ok (js "horizontal-tb")) ∧
      (∀ s, style.writingMode = some s →
        s ∈ [js "horizontal-tb", js "lr", js "lr-tb", js "rl"] →
        _getElementWritingMode d (some e) = Except.ok (js "horizontal-tb")) ∧
      (∀ s, style.writingMode = some s →
        s ∉ [js "lr", js "lr-tb", js "rl", js "tb", js "tb-rl"] →
        _getElementWritingMode d (some e) = Except.ok s) := by
  refine ⟨rfl, ?_, ?_, ?_⟩
  · intro h
    simp [_getElementWritingMode, hg, h]
  · intro s h hs
    simp only [List.mem_cons, List.mem_singleton, List.not_mem_nil, or_false] at hs
    simp only [_getElementWritingMode, hg, h]
    rcases hs with rfl | rfl | rfl | rfl <;> rfl
  · intro s h hs
    simp only [List.mem_cons, List.mem_singleton, not_or, List.not_mem_nil, or_false] at hs
    obtain ⟨h1, h2, h3, h4, h5⟩ := hs
    simp [_getElementWritingMode, hg, h, _normalizeWritingMode, h1, h2, h3, h4, h5]

/-- C17 as amended at the `div` with the writing mode `sideways-rl`. -/
theorem C17_writing_mode_defaults_witness :
    _getElementWritingMode (Document.ofTree sidewaysTree) none = Except.ok (js "horizontal-tb") ∧
      _getElementWritingMode (Document.ofTree sidewaysTree) (some []) =
        Except.ok (js "sideways-rl") := by
  have h := C17_writing_mode_defaults (Document.ofTree sidewaysTree) [] _ _ none
    ElementValue.undefined [] rfl
  exact ⟨h.1, h.2.2.2 (js "sideways-rl") rfl (by decide)⟩

end WritingModeClaims

/-! ## Termination and skipped elements -/

section WalkClaims
open TextSourceRange

/-- C18: `seek` terminates. The climbing loops of `_getNextNode` and `_getPreviousNode` end
within as many iterations as the node has ancestors, plus one; from a node of the tree the
main loop ends within its bound, so that `seek` returns a state. For the length zero that is
the start state, with remainder zero. For any other length the walk starts at the start node,
or at the `ruby` element the seek is redirected to (then with the offset to be reset), and
there is exactly one list of nodes that leads from there, step by step, to the end of the
tree, where the next node is `null`; the returned state is the one that the visits of these
nodes give, and either a visit has stopped the loop, and then the remainder is zero, or all
the nodes of the list have been visited, the walk has run off the end of the tree, and the
remainder is at least one. -/
theorem C18_seek_terminates (d : Document) (node : NodeRef) (offset : Nat) (length : Int)
    (hv : (d.get? node).isSome) :
    (∀ p, _getNextNode.loopWithin d (p.length + 1) p =
      some (_getNextNode.loop d (p.length + 1) p)) ∧
    (∀ p, _getPreviousNode.loopWithin d (p.length + 1) p =
      some (_getPreviousNode.loop d (p.length + 1) p)) ∧
    ∃ st, seek d node offset length = some st ∧
      (length = 0 → st = seekStart node offset length ∧ st.remainder = 0) ∧
      (length ≠ 0 →
        ∃ l, Segment d (decide (length ≥ 0)) (some ((_getRubyElement d node).getD node)) l
            none ∧
          (∀ l', Segment d (decide (length ≥ 0)) (some ((_getRubyElement d node).getD node)) l'
            none → l' = l) ∧
          (visitNodes d (decide (length ≥ 0)) l (seekStart node offset length)
            (_getRubyElement d node).isSome).1 = st ∧
          (st.remainder = 0 ∨
            (visitNodes d (decide (length ≥ 0)) l (seekStart node offset length)
              (_getRubyElement d node).isSome).2.2 = false) ∧
          ((visitNodes d (decide (length ≥ 0)) l (seekStart node offset length)
              (_getRubyElement d node).isSome).2.2 = true → st.remainder = 0) ∧
          ((visitNodes d (decide (length ≥ 0)) l (seekStart node offset length)
              (_getRubyElement d node).isSome).2.2 = false → 1 ≤ st.remainder)) := by
  refine ⟨fun p => getNextNode_loopWithin d p _ (le_refl _),
    fun p => getPreviousNode_loopWithin d p _ (le_refl _), ?_⟩
  by_cases h0 : length = 0
  · subst h0
    exact ⟨seekStart node offset 0, by simp [seek, seekStart],
      fun _ => ⟨rfl, by simp [seekStart]⟩, fun h => absurd rfl h⟩
  · obtain ⟨t, _, hseg, hseek⟩ := seek_eq_visits d node offset length hv h0
    refine ⟨_, hseek, fun h => absurd h h0, fun _ => ⟨_, hseg, ?_, rfl, ?_, ?_, ?_⟩⟩
    · intro l' hl'
      exact segment_unique l' _ _ hl' hseg
    · have hrem := visitNodes_remainder d (decide (length ≥ 0))
        (walkOrder d (decide (length ≥ 0)) ((_getRubyElement d node).getD node) t ++
          walkAfter d (decide (length ≥ 0)) ((_getRubyElement d node).getD node))
        (seekStart node offset length) (_getRubyElement d node).isSome
        (seekStart_remainder node offset length h0)
      cases hb : (visitNodes d (decide (length ≥ 0))
        (walkOrder d (decide (length ≥ 0)) ((_getRubyElement d node).getD node) t ++
          walkAfter d (decide (length ≥ 0)) ((_getRubyElement d node).getD node))
        (seekStart node offset length) (_getRubyElement d node).isSome).2.2 with
      | true => exact Or.inl (hrem.1 hb)
      | false => exact Or.inr rfl
    · exact (visitNodes_remainder d (decide (length ≥ 0)) _ (seekStart node offset length)
        (_getRubyElement d node).isSome (seekStart_remainder node offset length h0)).1
    · exact (visitNodes_remainder d (decide (length ≥ 0)) _ (seekStart node offset length)
        (_getRubyElement d node).isSome (seekStart_remainder node offset length h0)).2

/-- C18 at the tree `<div>ab<br><br></div>` and a forward seek of 5 characters from the start
of its text: the seek returns with the two characters there are and the remainder 3, after
the walk through the text and the two `br` elements to the end of the tree. -/
theorem C18_seek_terminates_witness :
    seek (Document.ofTree lineBreakTree) [0] 0 5 = some ⟨[0], 2, js "ab", 3⟩ ∧
      Segment (Document.ofTree lineBreakTree) true (some [0]) [[0], [1], [2]] none ∧
      ∃ l, Segment (Document.ofTree lineBreakTree) true (some [0]) l none ∧
        (visitNodes (Document.ofTree lineBreakTree) true l (seekStart [0] 0 5) false).1 =
          ⟨[0], 2, js "ab", 3⟩ ∧
        (visitNodes (Document.ofTree lineBreakTree) true l (seekStart [0] 0 5) false).2.2 =
          false := by
  obtain ⟨_, _, st, hseek, _, h⟩ :=
    C18_seek_terminates (Document.ofTree lineBreakTree) [0] 0 5 (by decide)
  obtain ⟨l, hseg, _, hst, hor, _, _⟩ := h (by decide)
  have hs : seek (Document.ofTree lineBreakTree) [0] 0 5 = some ⟨[0], 2, js "ab", 3⟩ := by
    decide
  rw [hs] at hseek
  cases hseek
  have hseg' : Segment (Document.ofTree lineBreakTree) true (some [0]) l none := hseg
  have hst' : (visitNodes (Document.ofTree lineBreakTree) true l (seekStart [0] 0 5) false).1 =
      ⟨[0], 2, js "ab", 3⟩ := hst
  refine ⟨hs, ?_, l, hseg', hst', ?_⟩
  · exact Segment.visit _ _ _ (Segment.visit _ _ _ (Segment.visit _ _ _ (Segment.done _)))
  · rcases hor with h0 | h1
    · exact absurd h0 (by decide)
    · exact h1

/-- C19: `_shouldEnter` rejects an element exactly when the upper case of its tag name, as
`toUpperCase` gives it, is `RT`, `SCRIPT` or `STYLE`, or its computed style has the
visibility `hidden`, the display `none` or a font size of zero; and a seek that starts at a node outside every rejected element
walks, from the start node or the `ruby` element it is redirected to, through nodes none of
which lies inside a rejected element, and returns the state that the visits of these nodes
give: the text inside such an element is neither copied nor counted. -/
theorem C19_skipped_elements (d : Document) (node : NodeRef) (offset : Nat) (length : Int)
    (hv : (d.get? node).isSome) (hout : d.insideSkipped node = false) :
    (∀ (name : JSString) (style : ComputedStyle), _shouldEnter name style = false ↔
      (toUpperCase name = js "RT" ∨ toUpperCase name = js "SCRIPT" ∨
        toUpperCase name = js "STYLE" ∨ style.visibility = js "hidden" ∨
        style.display = js "none" ∨ style.fontSize = some 0)) ∧
    ∃ start l reset, (start = node ∨ _getRubyElement d node = some start) ∧
      Segment d (decide (length ≥ 0)) (some start) l none ∧
      (∀ q ∈ l, d.insideSkipped q = false) ∧
      seek d node offset length =
        some (if length = 0 then seekStart node offset length
          else (visitNodes d (decide (length ≥ 0)) l (seekStart node offset length) reset).1) := by
  refine ⟨fun name style => ?_, seek_not_skipped d node offset length hv hout⟩
  unfold _shouldEnter
  by_cases h : toUpperCase name = js "RT" ∨ toUpperCase name = js "SCRIPT" ∨
      toUpperCase name = js "STYLE"
  · simp only [h, if_true, true_iff]
    tauto
  · simp only [h, if_false]
    simp only [not_or] at h
    simp only [h.1, h.2.1, h.2.2, false_or, Bool.not_eq_false', Bool.or_eq_true,
      decide_eq_true_eq, or_assoc]

/-- C19 at the tree `<div>a<span style="display: none">bc</span>d</div>`: a forward seek of 2
characters from the start of `a` returns `ad`, and its walk has no node inside the `span`.
A visible element with the tag name `ſtyle`, whose upper case is `STYLE`, is rejected as
well, and the same seek in `<div>a<ſtyle>bc</ſtyle>d</div>` returns `ad`. -/
theorem C19_skipped_elements_witness :
    seek (Document.ofTree hiddenTree) [0] 0 2 = some ⟨[2], 1, js "ad", 0⟩ ∧
      (∃ start l, Segment (Document.ofTree hiddenTree) (decide ((2 : Int) ≥ 0)) (some start) l
          none ∧
        ∀ q ∈ l, (Document.ofTree hiddenTree).insideSkipped q = false) ∧
      _shouldEnter [0x17F, 0x74, 0x79, 0x6C, 0x65]
        { visibility := js "visible", display := js "block", fontSize := some 16,
          writingMode := some (js "horizontal-tb") } = false ∧
      seek (Document.ofTree longSTree) [0] 0 2 = some ⟨[2], 1, js "ad", 0⟩ := by
  obtain ⟨hrule, start, l, _, _, h2, h3, _⟩ :=
    C19_skipped_elements (Document.ofTree hiddenTree) [0] 0 2 (by decide) (by decide)
  exact ⟨by decide, ⟨start, l, h2, h3⟩,
    (hrule _ _).mpr (Or.inr (Or.inr (Or.inl (by decide)))), by decide⟩

end WalkClaims

/-! ## The forward traversal -/

section TraversalClaims
open TextSourceRange

/-- C20: `_getNextNode(node, visitChildren)` returns the first child of the node when
`visitChildren` is set and there is one; otherwise the next sibling, failing that the next
sibling of the nearest ancestor that has one, failing that `null`. Iterated from the root
with `visitChildren` set it yields a list of nodes and then `null`; the list has exactly the
nodes of the tree and is in document order, so it has each node once. The nodes of the
subtree of a node `p` stand together in it, and `_getNextNode(p, false)` is the first node
after them (`null` when there is none). -/
theorem C20_getNextNode_is_preorder (d : Document) (p : NodeRef) (t : Node)
    (hg : d.get? p = some t) (hroot : d.rootOf p = []) :
    (∀ c, d.firstChild p = some c → _getNextNode d p true = some c) ∧
    (d.firstChild p = none → _getNextNode d p true = d.following p) ∧
    _getNextNode d p false = d.following p ∧
    ∃ L, Chain (fun q => _getNextNode d q true) (some []) L none ∧
      (∀ q, q ∈ L ↔ ((d.get? q).isSome ∧ d.rootOf q = [])) ∧
      L.Pairwise d.precedes ∧
      ∃ A S B, L = A ++ S ++ B ∧
        (∀ q, q ∈ S ↔ (q ∈ L ∧ d.isInclusiveAncestor p q = true)) ∧
        _getNextNode d p false = B.head? := by
  refine ⟨fun c hc => by simp [_getNextNode, hc], fun hc => ?_, getNextNode_false d p, ?_⟩
  · rw [← getNextNode_false]
    simp [_getNextNode, hc]
  · have hchain : Chain (fun q => _getNextNode d q true) (some [])
        (treeOrder d true d.root.count []) none := by
      have h := chain_subtree d true d.root.count [] d.root (le_refl _) rfl
      rw [getNode_root] at h
      exact h
    have hmem : ∀ q, q ∈ treeOrder d true d.root.count [] ↔
        ((d.get? q).isSome ∧ d.rootOf q = []) := by
      intro q
      constructor
      · intro hq
        obtain ⟨_, _, h2, h3⟩ := mem_treeOrder_below d true _ [] q hq
        exact ⟨h3 rfl, by rw [h2]; rfl⟩
      · rintro ⟨h1, h2⟩
        exact treeOrder_complete d true q h1 h2
    obtain ⟨A, B, hL, hB, hA1, hB1⟩ := treeOrder_split d true p t hg hroot
    refine ⟨_, hchain, hmem, treeOrder_sorted d _ [], A, treeOrder d true t.count p, B, hL,
      fun q => ?_, chain_head hB⟩
    constructor
    · intro hq
      have hqL : q ∈ treeOrder d true d.root.count [] := by rw [hL]; simp [hq]
      obtain ⟨hs, _⟩ := mem_treeOrder_below d true _ p q hq
      refine ⟨hqL, (isInclusiveAncestor_iff d p q ((hmem q).mp hqL).2).mpr ?_⟩
      obtain ⟨s, rfl⟩ := hs
      exact List.suffix_append s p
    · rintro ⟨hqL, hanc⟩
      have hsuf := (isInclusiveAncestor_iff d p q ((hmem q).mp hqL).2).mp hanc
      rw [hL] at hqL
      rcases List.mem_append.mp hqL with hq | hq
      · rcases List.mem_append.mp hq with hq | hq
        · exact absurd hsuf (hA1 q hq)
        · exact hq
      · exact absurd hsuf (hB1 q hq)

/-- C20 at the tree `<div>ab<br><br></div>` and its text node: without a visit of the
children, the next node is the first `br`. -/
theorem C20_getNextNode_is_preorder_witness :
    _getNextNode (Document.ofTree lineBreakTree) [0] false = some [1] ∧
      ∃ L, Chain (fun q => _getNextNode (Document.ofTree lineBreakTree) q true) (some []) L
          none ∧
        (∀ q, q ∈ L ↔ (((Document.ofTree lineBreakTree).get? q).isSome ∧
          (Document.ofTree lineBreakTree).rootOf q = [])) := by
  obtain ⟨_, _, h3, L, h4, h5, _⟩ :=
    C20_getNextNode_is_preorder (Document.ofTree lineBreakTree) [0] _ rfl rfl
  exact ⟨by rw [h3]; decide, L, h4, h5⟩

end TraversalClaims

/-! ## The backward traversal, and seeks from an element -/

section BackwardClaims
open TextSourceRange

/-- C24, at the failing input: a forward seek of one character from the boundary point
`(div, 3)` of `<div>ab<br><br></div>` enters the text `ab` with the offset 3 of the `div`,
finds nothing to read and returns the text node with offset 3, beyond its two characters;
`setEndOffset(1)` passes this on to `range.setEnd`, which throws an `IndexSizeError`. -/
theorem C24_seek_from_element_returns_invalid_offset :
    seek (Document.ofTree lineBreakTree) [] 3 1 = some ⟨[0], 3, [], 1⟩ ∧
      (Document.ofTree lineBreakTree).textAt [0] = some (js "ab") ∧
      TextSourceRange.setEndOffset elementStartWorld 0 1 =
        Except.error JSError.indexSizeError :=
  ⟨by decide, by decide, rfl⟩

/-- C21, the claim as stated fails: from the `div` of `<div>ab<br><br></div>` the backward
traversal goes to its last child, the second `br`, which does not precede the `div` in
document order but follows it. -/
theorem C21_last_child_follows_its_parent :
    _getPreviousNode (Document.ofTree lineBreakTree) [] true = some [2] ∧
      ¬ (Document.ofTree lineBreakTree).precedes [2] [] ∧
      (Document.ofTree lineBreakTree).precedes [] [2] := by
  refine ⟨by decide, ?_, ?_⟩ <;> unfold Document.precedes <;> decide

/-- C21 as amended: iterating `_getPreviousNode` with a visit of the children from the root
yields a list of nodes and then `null`; the list has exactly the nodes of the tree; a node
that has a last child is followed by that child; and of two nodes of the list, the later
one precedes the earlier one in document order unless the earlier one is an ancestor of
it: a node comes before the nodes below it, everything else is against document order. The
iteration from any node of the tree yields the rest of the list from that node on. -/
theorem C21_backward_traversal_order (d : Document) :
    (∀ p c, d.lastChild p = some c → _getPreviousNode d p true = some c) ∧
    ∃ L, Chain (fun q => _getPreviousNode d q true) (some []) L none ∧
      (∀ q, q ∈ L ↔ ((d.get? q).isSome ∧ d.rootOf q = [])) ∧
      L.Pairwise (fun x y =>
        (d.isInclusiveAncestor x y = true ∧ x ≠ y) ∨ d.precedes y x) ∧
      ∀ p, (d.get? p).isSome → d.rootOf p = [] →
        ∃ A S, L = A ++ S ∧ Chain (fun q => _getPreviousNode d q true) (some p) S none := by
  refine ⟨fun p c hc => by simp [_getPreviousNode, hc], ?_⟩
  have hchain : Chain (fun q => _getPreviousNode d q true) (some [])
      (treeOrder d false d.root.count []) none := by
    have h := chain_subtree d false d.root.count [] d.root (le_refl _) rfl
    rw [getNode_root] at h
    exact h
  have hmem : ∀ q, q ∈ treeOrder d false d.root.count [] ↔
      ((d.get? q).isSome ∧ d.rootOf q = []) := by
    intro q
    constructor
    · intro hq
      obtain ⟨_, _, h2, h3⟩ := mem_treeOrder_below d false _ [] q hq
      exact ⟨h3 rfl, by rw [h2]; rfl⟩
    · rintro ⟨h1, h2⟩
      exact treeOrder_complete d false q h1 h2
  refine ⟨_, hchain, hmem, ?_, ?_⟩
  · refine (treeOrder_sorted_backward d _ []).imp_of_mem ?_
    intro x y _ hy hxy
    rcases hxy with ⟨s, hs, rfl⟩ | h
    · left
      refine ⟨(isInclusiveAncestor_iff d x _ ((hmem _).mp hy).2).mpr
        (List.suffix_append s x), ?_⟩
      intro heq
      have := congrArg List.length heq
      cases s with
      | nil => exact hs rfl
      | cons a s =>
        simp only [List.cons_append, List.length_cons, List.length_append] at this
        omega
    · exact Or.inr h
  · intro p hp hroot
    obtain ⟨t, ht⟩ := Option.isSome_iff_exists.mp hp
    obtain ⟨A, B, hL, hB, _, _⟩ := treeOrder_split d false p t ht hroot
    have hsub := chain_subtree d false t.count p t (le_refl _) ht
    exact ⟨A, treeOrder d false t.count p ++ B, by rw [hL, List.append_assoc],
      chain_append hsub hB⟩

/-- C21 as amended at the tree `<div>ab<br><br></div>` and its first `br`: the iteration
from there yields the rest of the list of the whole tree. -/
theorem C21_backward_traversal_order_witness :
    ∃ L A S, Chain (fun q => _getPreviousNode (Document.ofTree lineBreakTree) q true)
        (some []) L none ∧ L = A ++ S ∧
      Chain (fun q => _getPreviousNode (Document.ofTree lineBreakTree) q true) (some [1]) S
        none := by
  obtain ⟨_, L, h1, _, _, h4⟩ := C21_backward_traversal_order (Document.ofTree lineBreakTree)
  obtain ⟨A, S, h5, h6⟩ := h4 [1] (by decide) (by decide)
  exact ⟨L, A, S, h1, h5, h6⟩

end BackwardClaims

/-! ## Seeks in two parts, and back -/

section SeekClaims
open TextSourceRange

/-- C22, as stated, fails when the second seek starts inside an `rt` of a `ruby`: in
`<ruby>語<rt><b>ab</b>cd</rt></ruby>` the forward seek of 3 from the start of `ab` ends with
remainder 0 after the `c` of `cd` with content `abc`, and the forward seek of 4 from the
start of `ab` ends after the `d` with content `abcd`; but the forward seek of 1 from after
the `c` is restarted at the `ruby` element and ends after `語` with content `語`. -/
theorem C22_redirected_seek_does_not_compose :
    seek (Document.ofTree nestedRubyTree) [0, 0, 1] 0 3 =
        some ⟨[1, 1], 1, js "abc", 0⟩ ∧
      seek (Document.ofTree nestedRubyTree) [0, 0, 1] 0 (3 + 1) =
        some ⟨[1, 1], 2, js "abcd", 0⟩ ∧
      seek (Document.ofTree nestedRubyTree) [1, 1] 1 1 = some ⟨[0], 1, [0x8A9E], 0⟩ := by
  decide

/-- C22, amended: seeks compose when the second seek is not restarted at a `ruby` element.
For every tree, every node `p` of it, every offset and all `n`, `m`: if the seek of `n` from
`p` (forward, or backward) returns remainder 0 at `(node, offset)` with content `c1`, and
`n = 0` or `node` is not inside the `rt` of a `ruby`, then the seek of `m` from
`(node, offset)` and the seek of `n + m` from `p` in the same direction both return, with the
same node, offset and remainder, and the content of the latter is `c1` followed by the content
of the former for forward seeks, and preceded by it for backward seeks. -/
theorem C22_seeks_compose (d : Document) (forward : Bool) (p : NodeRef) (o n m : Nat)
    (st₁ : SeekState) (hv : (d.get? p).isSome)
    (h1 : seek d p o (seekLength forward n) = some st₁) (hrem : st₁.remainder = 0)
    (hruby : n = 0 ∨ _getRubyElement d st₁.node = none) :
    ∃ st₂ st₃, seek d st₁.node st₁.offset (seekLength forward m) = some st₂ ∧
      seek d p o (seekLength forward (n + m)) = some st₃ ∧
      st₃.node = st₂.node ∧ st₃.offset = st₂.offset ∧ st₃.remainder = st₂.remainder ∧
      st₃.content = joinContent forward st₁.content st₂.content :=
  seek_compose d forward p o n m st₁ hv h1 hrem hruby

/-- C22 at `<ruby>語<rt><b>ab</b>cd</rt></ruby>`: the forward seek of 1 from the start of `ab`
ends after the `a`, inside the `b` element, where a seek is not restarted; the forward seek of
3 from there and the forward seek of 4 from the start of `ab` end at the same place. -/
theorem C22_seeks_compose_witness :
    seek (Document.ofTree nestedRubyTree) [0, 0, 1] 0 (seekLength true 1) =
        some ⟨[0, 0, 1], 1, js "a", 0⟩ ∧
      _getRubyElement (Document.ofTree nestedRubyTree) [0, 0, 1] = none ∧
      ∃ st₂ st₃, seek (Document.ofTree nestedRubyTree) [0, 0, 1] 1 (seekLength true 3) =
          some st₂ ∧
        seek (Document.ofTree nestedRubyTree) [0, 0, 1] 0 (seekLength true (1 + 3)) =
          some st₃ ∧
        st₃.node = st₂.node ∧ st₃.offset = st₂.offset ∧ st₃.remainder = st₂.remainder ∧
        st₃.content = joinContent true (js "a") st₂.content :=
  ⟨by decide, by decide,
    C22_seeks_compose (Document.ofTree nestedRubyTree) true [0, 0, 1] 0 1 3
      ⟨[0, 0, 1], 1, js "a", 0⟩ (by decide) (by decide) rfl (Or.inr (by decide))⟩

/-- C23: forward and backward seeks are inverse. For every tree and every text node `p` of
it with text `v` that a forward walk from the root reaches (so `p` is not inside an element
rejected by `_shouldEnter`), and every offset `o ≤ |v|`: if the forward seek of `k + 1` from
`(p, o)` returns remainder 0 at `(node, offset)` with content `c`, then the backward seek of
`k + 1` from `(node, offset)` returns, with remainder 0 and the same content `c`; and when
the character `v[o]` exists and is not U+200C, it ends exactly at `(p, o)`. -/
theorem C23_forward_backward_inverse (d : Document) (p : NodeRef) (v : JSString) (o k : Nat)
    (st₁ : SeekState) (hp : d.textAt p = some v) (hr : d.reachable p = true)
    (ho : o ≤ v.length) (h1 : seek d p o ((k : Int) + 1) = some st₁)
    (hrem : st₁.remainder = 0) :
    ∃ st₂, seek d st₁.node st₁.offset (-((k : Int) + 1)) = some st₂ ∧ st₂.remainder = 0 ∧
      st₂.content = st₁.content ∧
      ∀ c, v[o]? = some c → c ≠ ZWNJ → st₂.node = p ∧ st₂.offset = o :=
  seek_inverse d p v o k st₁ hp hr ho h1 hrem

/-- C23 at `<div>a<span style="display: none">bc</span>d</div>`: the forward seek of 2 from
the start of `a` ends after `d` with content `ad`, and the backward seek of 2 from there ends
at the start of `a` with the same content. -/
theorem C23_forward_backward_inverse_witness :
    seek (Document.ofTree hiddenTree) [0] 0 ((1 : Nat) + 1 : Int) = some ⟨[2], 1, js "ad", 0⟩ ∧
      ∃ st₂, seek (Document.ofTree hiddenTree) [2] 1 (-(((1 : Nat) : Int) + 1)) = some st₂ ∧
        st₂.remainder = 0 ∧ st₂.content = js "ad" ∧ st₂.node = [0] ∧ st₂.offset = 0 := by
  obtain ⟨st₂, h1, h2, h3, h4⟩ :=
    C23_forward_backward_inverse (Document.ofTree hiddenTree) [0] (js "a") 0 1
      ⟨[2], 1, js "ad", 0⟩ (by decide) (by decide) (by decide) (by decide) rfl
  exact ⟨by decide, st₂, h1, h2, h3, h4 97 (by decide) (by decide)⟩

end SeekClaims

/-! ## Symmetry of `equals`, and clones -/

section EqualityClaims2
open TextSourceRange

/-- C25, the claim as stated fails: in `mixedWorld` the two range sources have ranges that
start at the same place, the first has an imposter source element and the second has none;
the first says that it is not equal to the second, the second says that it is equal to the
first. -/
theorem C25_equals_is_not_symmetric :
    TextSourceRange.equals mixedWorld 0 (JSValue.textSourceRange 1) = Except.ok false ∧
      TextSourceRange.equals mixedWorld 1 (JSValue.textSourceRange 0) = Except.ok true :=
  ⟨rfl, rfl⟩

/-- C25 as amended: `a.equals(b)` and `b.equals(a)` give the same result when both range
sources have an imposter source element or neither has; and when `a` has one and `b` has
none, `a.equals(b)` is false. -/
theorem C25_equals_symmetric (w : World) (a b : Nat) (sa sb : TextSourceRange)
    (ha : w.rangeSources[a]? = some sa) (hb : w.rangeSources[b]? = some sb) :
    ((sa.imposterSourceElement = none ↔ sb.imposterSourceElement = none) →
      TextSourceRange.equals w a (JSValue.textSourceRange b) =
        TextSourceRange.equals w b (JSValue.textSourceRange a)) ∧
    (sa.imposterSourceElement ≠ none → sb.imposterSourceElement = none →
      TextSourceRange.equals w a (JSValue.textSourceRange b) = Except.ok false) := by
  constructor
  · intro hiff
    cases hea : sa.imposterSourceElement with
    | none =>
      have heb : sb.imposterSourceElement = none := hiff.mp hea
      simp only [TextSourceRange.equals, World.getRangeSource, ha, hb, hea, heb, bind,
        Except.bind, ne_eq, not_true_eq_false, if_false, World.getRange]
      cases hra : w.ranges[sa.range]? with
      | none => cases hrb : w.ranges[sb.range]? <;> rfl
      | some ra =>
        cases hrb : w.ranges[sb.range]? with
        | none => rfl
        | some rb =>
          have h := compareStart_symm w.document ra rb
          simp only
          cases h1 : ra.compareBoundaryPoints w.document CompareHow.START_TO_START rb <;>
            cases h2 : rb.compareBoundaryPoints w.document CompareHow.START_TO_START ra <;>
            simp_all [Except.map, pure, Except.pure]
    | some ea =>
      cases heb : sb.imposterSourceElement with
      | none =>
        have := hiff.mpr heb
        rw [hea] at this
        cases this
      | some eb =>
        simp only [TextSourceRange.equals, World.getRangeSource, ha, hb, hea, heb, bind,
          Except.bind, pure, Except.pure, ne_eq, not_false_eq_true, if_true, reduceCtorEq]
        congr 1
        by_cases h1 : ea = eb <;> by_cases h2 : sa.rangeStartOffset = sb.rangeStartOffset <;>
          simp [h1, h2, eq_comm]
  · intro hne heb
    cases hea : sa.imposterSourceElement with
    | none => exact absurd hea hne
    | some ea =>
      simp [TextSourceRange.equals, World.getRangeSource, ha, hb, hea, heb, bind, Except.bind,
        pure, Except.pure]

/-- C25 as amended at `imposterPairWorld`, whose first two range sources both have an
imposter source element. -/
theorem C25_equals_symmetric_witness :
    TextSourceRange.equals imposterPairWorld 0 (JSValue.textSourceRange 1) =
      TextSourceRange.equals imposterPairWorld 1 (JSValue.textSourceRange 0) :=
  (C25_equals_symmetric imposterPairWorld 0 1 _ _ rfl rfl).1 (by decide)

end EqualityClaims2

section CloneClaims
open TextSourceRange

/-- C26, the claim as stated fails: the range source of `rubyImposterWorld` stands for an
element and starts at offset 2 of the text of an `rt`; `setEndOffset(1)` seeks from the
`ruby` and puts the end before the start, so that the range collapses to offset 1 of the first
text while `rangeStartOffset` stays 2; the clone made then takes 1 for its
`rangeStartOffset`, and the two are not equal. -/
theorem C26_clone_differs_after_collapse :
    ∃ w₁ w₂ k c, TextSourceRange.setEndOffset rubyImposterWorld 0 1 = Except.ok (w₁, k) ∧
      TextSourceRange.clone w₁ 0 = Except.ok (w₂, c) ∧
      TextSourceRange.equals w₂ c (JSValue.textSourceRange 0) = Except.ok false ∧
      TextSourceRange.equals w₂ 0 (JSValue.textSourceRange c) = Except.ok false :=
  ⟨_, _, _, _, rfl, rfl, rfl, rfl⟩

/-- C26 as amended: a clone has the text of its original, and the two are equal, each asked
about the other, when the original has no imposter source element, or has one and its
`rangeStartOffset` is the start offset of its range (as it is at construction and after
`setStartOffset`); a clone of a `TextSourceElement` is always equal to its original and has
its text. -/
theorem C26_clone_equals_original (w : World) (s : Nat) (self : TextSourceRange)
    (r : DomRange) (hself : w.rangeSources[s]? = some self)
    (hr : w.ranges[self.range]? = some r) :
    (∃ w₁ c, TextSourceRange.clone w s = Except.ok (w₁, c) ∧
      TextSourceRange.text w₁ c = TextSourceRange.text w₁ s ∧
      ((self.imposterSourceElement = none ∨ self.rangeStartOffset = r.startOffset) →
        TextSourceRange.equals w₁ c (JSValue.textSourceRange s) = Except.ok true ∧
        TextSourceRange.equals w₁ s (JSValue.textSourceRange c) = Except.ok true)) ∧
    ∀ (e : Nat) (selfE : TextSourceElement), w.elementSources[e]? = some selfE →
      ∃ w₂ c₂, TextSourceElement.clone w e = Except.ok (w₂, c₂) ∧
        TextSourceElement.text w₂ c₂ = TextSourceElement.text w₂ e ∧
        TextSourceElement.equals w₂ c₂ (JSValue.textSourceElement e) = Except.ok true ∧
        TextSourceElement.equals w₂ e (JSValue.textSourceElement c₂) = Except.ok true := by
  constructor
  · refine ⟨_, _, clone_ok w s self r hself hr, ?_, ?_⟩
    · have hlt : s < w.rangeSources.length := (List.getElem?_eq_some_iff.mp hself).1
      simp [TextSourceRange.text, World.getRangeSource, List.getElem?_append_left hlt, hself,
        bind, Except.bind, pure, Except.pure]
    · intro hcond
      have hlt : s < w.rangeSources.length := (List.getElem?_eq_some_iff.mp hself).1
      have hrlt : self.range < w.ranges.length := (List.getElem?_eq_some_iff.mp hr).1
      cases he : self.imposterSourceElement with
      | none =>
        have hc := compareStart_self w.document r r rfl rfl
        simp [TextSourceRange.equals, World.getRangeSource, World.getRange,
          List.getElem?_append_left hlt, List.getElem?_append_left hrlt, hself, hr, he, hc,
          bind, Except.bind, pure, Except.pure]
      | some el =>
        have hso : self.rangeStartOffset = r.startOffset := by
          rcases hcond with h | h
          · rw [he] at h; cases h
          · exact h
        simp [TextSourceRange.equals, World.getRangeSource, List.getElem?_append_left hlt,
          hself, he, hso, bind, Except.bind, pure, Except.pure]
  · intro e selfE he
    have hlt : e < w.elementSources.length := (List.getElem?_eq_some_iff.mp he).1
    refine ⟨(TextSourceElement.create w selfE.element selfE.content).1,
      (TextSourceElement.create w selfE.element selfE.content).2,
      by simp [TextSourceElement.clone, World.getElementSource, he, bind, Except.bind, pure,
        Except.pure], ?_, ?_, ?_⟩
    · simp [TextSourceElement.text, TextSourceElement.create, World.getElementSource,
        List.getElem?_append_left hlt, he, bind, Except.bind, pure, Except.pure]
    · simp [TextSourceElement.equals, TextSourceElement.create, World.getElementSource,
        List.getElem?_append_left hlt, he, bind, Except.bind, pure, Except.pure]
    · simp [TextSourceElement.equals, TextSourceElement.create, World.getElementSource,
        List.getElem?_append_left hlt, he, bind, Except.bind, pure, Except.pure]

/-- C26 as amended at `imposterWorld`, whose range source has an imposter source element and
a `rangeStartOffset` that is the start offset of its range. -/
theorem C26_clone_equals_original_witness :
    ∃ w₁ c, TextSourceRange.clone imposterWorld 0 = Except.ok (w₁, c) ∧
      TextSourceRange.equals w₁ c (JSValue.textSourceRange 0) = Except.ok true ∧
      TextSourceRange.equals w₁ 0 (JSValue.textSourceRange c) = Except.ok true := by
  obtain ⟨⟨w₁, c, h1, _, h3⟩, _⟩ := C26_clone_equals_original imposterWorld 0 _ _ rfl rfl
  exact ⟨w₁, c, h1, h3 (Or.inr rfl)⟩

end CloneClaims

/-! ## Setting the end of an element source -/

section SetClaims
open TextSourceElement

/-- C27: `setEndOffset(n)` of a `TextSourceElement` sets the content from the source value of
the element and `n` alone. In two worlds with the same document, two element sources over the
same element get the same content and the same returned value, whatever their contents were
before, so that a second call with the same `n` repeats the first; and for `0 ≤ m ≤ n` the
content after `setEndOffset(m)` is an initial part of the content after `setEndOffset(n)`.
This is so whenever the call returns, that is, unless the source value is a Number other than
zero; then every call throws the same `TypeError` and leaves that Number in the content,
again whatever the content was before. -/
theorem C27_setEndOffset_sets (w w' : World) (this this' : Nat) (self self' : TextSourceElement)
    (n : Int) (hself : w.elementSources[this]? = some self)
    (hself' : w'.elementSources[this']? = some self') (hdoc : w'.document = w.document)
    (helem : self'.element = self.element) :
    ((∀ q, sourceValue w.document self.element = ElementValue.number q → q = 0) →
      ∃ w₁ w₁' k content, TextSourceElement.setEndOffset w this n = Except.ok (w₁, k) ∧
        TextSourceElement.setEndOffset w' this' n = Except.ok (w₁', k) ∧
        TextSourceElement.text w₁ this = Except.ok (ElementValue.string content) ∧
        TextSourceElement.text w₁' this' = Except.ok (ElementValue.string content) ∧
        TextSourceElement.setEndOffset w₁ this n = Except.ok (w₁, k) ∧
        ∀ m : Int, 0 ≤ m → m ≤ n →
          ∃ w₂ j content₂, TextSourceElement.setEndOffset w this m = Except.ok (w₂, j) ∧
            TextSourceElement.text w₂ this = Except.ok (ElementValue.string content₂) ∧
            content₂ <+: content) ∧
    (∀ q, sourceValue w.document self.element = ElementValue.number q → q ≠ 0 →
      TextSourceElement.setEndOffset w this n = Except.error JSError.typeError ∧
      TextSourceElement.setEndOffset w' this' n = Except.error JSError.typeError ∧
      TextSourceElement.text (TextSourceElement.setEndOffset.thrown w this) this =
        Except.ok (ElementValue.number q) ∧
      TextSourceElement.text (TextSourceElement.setEndOffset.thrown w' this') this' =
        Except.ok (ElementValue.number q) ∧
      TextSourceElement.setEndOffset (TextSourceElement.setEndOffset.thrown w this) this n =
        Except.error JSError.typeError) := by
  constructor
  · intro hnum
    have hnum' : ∀ q, sourceValue w'.document self'.element = ElementValue.number q → q = 0 := by
      rw [hdoc, helem]; exact hnum
    have h1 := element_setEndOffset_eq w this self n hself hnum
    have h2 := element_setEndOffset_eq w' this' self' n hself' hnum'
    rw [hdoc, helem] at h2
    have h3 := element_setEndOffset_eq (w.setElementSource this
        ⟨self.element, ElementValue.string
          (firstCharacters n.toNat ((sourceText w.document self.element).getD []))⟩) this
      ⟨self.element, ElementValue.string
        (firstCharacters n.toNat ((sourceText w.document self.element).getD []))⟩ n
      (elementSources_setElementSource w this _ self hself) hnum
    refine ⟨_, _, _, _, h1, h2, element_text_setElementSource w this _ self hself,
      element_text_setElementSource w' this' _ self' hself', ?_, ?_⟩
    · rw [h3]
      simp [World.setElementSource]
    · intro m hm hmn
      refine ⟨_, _, _, element_setEndOffset_eq w this self m hself hnum,
        element_text_setElementSource w this _ self hself, ?_⟩
      simp only [firstCharacters]
      have hle : m.toNat ≤ n.toNat := Int.toNat_le_toNat hmn
      obtain ⟨j, hj⟩ : ∃ j, n.toNat = m.toNat + j := ⟨n.toNat - m.toNat, by omega⟩
      rw [hj, List.take_add, List.flatten_append]
      exact List.prefix_append _ _
  · intro q hv hq
    have hv' : sourceValue w'.document self'.element = ElementValue.number q := by
      rw [hdoc, helem]; exact hv
    obtain ⟨a1, a2⟩ := element_setEndOffset_throws w this self n q hself hv hq
    obtain ⟨b1, b2⟩ := element_setEndOffset_throws w' this' self' n q hself' hv' hq
    refine ⟨a1, b1, a2, b2, ?_⟩
    have hthrown : TextSourceElement.setEndOffset.thrown w this =
        w.setElementSource this ⟨self.element, sourceValue w.document self.element⟩ := by
      simp [TextSourceElement.setEndOffset.thrown, hself]
    rw [hthrown]
    exact (element_setEndOffset_throws (w.setElementSource this
        ⟨self.element, sourceValue w.document self.element⟩) this
      ⟨self.element, sourceValue w.document self.element⟩ n q
      (elementSources_setElementSource w this _ self hself) hv hq).1

/-- C27 at the image of `imageWorld`, whose element source has the content `zz` before the
call, against the same image with an empty content before the call. -/
theorem C27_setEndOffset_sets_witness :
    ∃ w₁ k, TextSourceElement.setEndOffset imageWorld 0 2 = Except.ok (w₁, k) ∧
      TextSourceElement.setEndOffset w₁ 0 2 = Except.ok (w₁, k) ∧
      TextSourceElement.text w₁ 0 = Except.ok (ElementValue.string (js "ab")) := by
  have hv : sourceValue imageWorld.document [] = ElementValue.string [97, 0x200C, 98, 99] :=
    rfl
  obtain ⟨w₁, _, k, content, h1, _, h3, _, h5, _⟩ :=
    (C27_setEndOffset_sets imageWorld imageWorld 0 0 _ _ 2 rfl rfl rfl rfl).1
      (fun q h => by
        have h2 : sourceValue imageWorld.document [] = ElementValue.number q := h
        rw [hv] at h2; cases h2)
  have hw : TextSourceElement.setEndOffset imageWorld 0 2 =
      Except.ok ({ imageWorld with
        elementSources := [{ element := [], content := ElementValue.string (js "ab") }] },
        2) := rfl
  rw [hw] at h1
  cases h1
  exact ⟨_, _, hw, h5, rfl⟩

end SetClaims

/-! ## Sorted modifiers -/

section ModifierClaims

open JSNumber

/-- C28, as stated, fails for numbers from `2 ^ 53` on, which `Number.parseInt` rounds: the
list `mouse9007199254740993`, `mouse9007199254740992` is returned as it is, although the
second decimal number is the smaller one, because both are parsed to the Number
`9007199254740992`. -/
theorem C28_large_numbers_are_not_ordered :
    sortModifiers [js "mouse9007199254740993", js "mouse9007199254740992"] =
        [js "mouse9007199254740993", js "mouse9007199254740992"] ∧
      _mouseInputNamePattern.exec (js "mouse9007199254740993") =
        some (js "9007199254740993") ∧
      _mouseInputNamePattern.exec (js "mouse9007199254740992") =
        some (js "9007199254740992") ∧
      decimalValue (js "9007199254740992") < decimalValue (js "9007199254740993") ∧
      Number.parseInt (js "9007199254740993") = finite 9007199254740992 ∧
      Number.parseInt (js "9007199254740992") = finite 9007199254740992 := by
  decide

/-- C28, amended: the mouse modifiers are in ascending order of the Number that
`Number.parseInt` gives for their digits, which is their decimal number when that is below
`2 ^ 53`. In full: `sortModifiers` returns a permutation of its input list. The result is
the list of the values of a permutation of the array `modifierInfo`, in which for any entry
`a` that stands before an entry `b`: `a` is not a mouse modifier when `b` is not; when both
are or both are not, the Number of `a` is at most that of `b`, and when the Numbers are equal
`a` comes before `b` in the input list. The entry made for the modifier at index `i` has that
index and that value; it is a mouse entry with the parsed Number exactly when the value is
`mouse` followed by one or more decimal digits, and otherwise it has the Number 0. A list
that is already in the order of these two keys is returned unchanged, and so is the result
of `sortModifiers`. -/
theorem C28_sortModifiers_order (modifiers : List JSString) :
    (sortModifiers modifiers).Perm modifiers ∧
    (∃ sorted : List ModifierInfo,
      sorted.Perm (sortModifiers.modifierInfo modifiers) ∧
      sortModifiers modifiers = sorted.map (fun e => e.value) ∧
      sorted.Pairwise (fun a b => a.isMouse ≤ b.isMouse ∧
        (a.isMouse = b.isMouse → a.number.le b.number ∧
          (a.number = b.number → a.index < b.index)))) ∧
    (∀ e ∈ sortModifiers.modifierInfo modifiers,
      modifiers[e.index]? = some e.value ∧
      ((_mouseInputNamePattern.exec e.value = none ∧ e.isMouse = 0 ∧ e.number = finite 0) ∨
        ∃ digits, e.value = js "mouse" ++ digits ∧ digits ≠ [] ∧
          (∀ c ∈ digits, 0x30 ≤ c ∧ c ≤ 0x39) ∧ e.isMouse = 1 ∧
          e.number = Number.parseInt digits ∧
          (decimalValue digits < 2 ^ 53 → e.number = finite (decimalValue digits)))) ∧
    (∀ value, _mouseInputNamePattern.exec value = none ↔
      ¬ ∃ digits, value = js "mouse" ++ digits ∧ digits ≠ [] ∧
        ∀ c ∈ digits, 0x30 ≤ c ∧ c ≤ 0x39) ∧
    (modifiers.Pairwise (fun v w =>
        (sortModifiers.info 0 v).isMouse ≤ (sortModifiers.info 0 w).isMouse ∧
        ((sortModifiers.info 0 v).isMouse = (sortModifiers.info 0 w).isMouse →
          (sortModifiers.info 0 v).number.le (sortModifiers.info 0 w).number)) →
      sortModifiers modifiers = modifiers) ∧
    sortModifiers (sortModifiers modifiers) = sortModifiers modifiers := by
  have hp : (Array.sort sortModifiers.compare (sortModifiers.modifierInfo modifiers)).Perm
      (sortModifiers.modifierInfo modifiers) := List.perm_insertionSort _ _
  refine ⟨?_, ⟨_, hp, rfl, ?_⟩, ?_, ?_, sortModifiers_of_sorted modifiers,
    sortModifiers_of_sorted _ (sortModifiers_keys modifiers)⟩
  · have h := hp.map (fun e : ModifierInfo => e.value)
    have hv : (sortModifiers.modifierInfo modifiers).map (fun e => e.value) = modifiers :=
      infos_map_value modifiers 0
    rw [hv] at h
    exact h
  · refine (sorted_infos modifiers).imp ?_
    intro a b hab
    have hk := sortOrder_keys a b hab.1
    refine ⟨hk.1, fun heq => ⟨hk.2 heq, fun hnum => ?_⟩⟩
    by_contra hlt
    apply hlt
    apply hab.2
    rw [sortOrder_compare_iff]
    exact Or.inr ⟨heq.symm, Or.inr ⟨hnum.symm, Or.inr (by omega)⟩⟩
  · intro e he
    obtain ⟨j, w, _, _, _, hw, rfl⟩ := mem_infos modifiers 0 e he
    rw [info_index, info_value]
    refine ⟨by simpa using hw, ?_⟩
    cases hx : _mouseInputNamePattern.exec w with
    | none =>
      left
      simp [sortModifiers.info, hx]
    | some digits =>
      right
      obtain ⟨h1, h2, h3⟩ := (exec_eq_some w digits).mp hx
      refine ⟨digits, h1, h2, h3, ?_, ?_, ?_⟩
      · simp [sortModifiers.info, hx]
      · simp [sortModifiers.info, hx]
      · intro hd
        simp [sortModifiers.info, hx, Number.parseInt, toNumber_exact _ hd]
  · intro value
    constructor
    · rintro h ⟨digits, hd⟩
      rw [(exec_eq_some value digits).mpr hd] at h
      exact absurd h (by simp)
    · intro h
      cases hx : _mouseInputNamePattern.exec value with
      | none => rfl
      | some digits => exact absurd ⟨digits, (exec_eq_some value digits).mp hx⟩ h

/-- C28 at the list `mouse10`, `shift`, `mouse2`, `ctrl`, `mouse02`: the result is `shift`,
`ctrl`, `mouse2`, `mouse02`, `mouse10`, a permutation of the list, and sorting it again
gives the same. -/
theorem C28_sortModifiers_order_witness :
    sortModifiers mixedModifiers =
        [js "shift", js "ctrl", js "mouse2", js "mouse02", js "mouse10"] ∧
      (sortModifiers mixedModifiers).Perm mixedModifiers ∧
      sortModifiers (sortModifiers mixedModifiers) = sortModifiers mixedModifiers :=
  ⟨by decide, (C28_sortModifiers_order mixedModifiers).1,
    (C28_sortModifiers_order mixedModifiers).2.2.2.2.2⟩

end ModifierClaims

end Yomichan
